import Mathlib

/-!
# Arclight Engine — pixel core

A shallow embedding of `src/image/pixel.h` (packed pixel layouts, channel
accessors, saturating arithmetic) and of `src/image/image.h` (images, pixel
access, conversion, `resize`) together with the assertion helper of
`src/util/assert.h`, and the properties the specification states about them.

Conventions of the embedding:

* machine integers are natural numbers (or integers where the source uses a
  signed type); every implicit conversion to a fixed-width type is written
  explicitly (`toColorT`, `toPackedT`, `toSColor`, `colorOfInt`);
* a function parameter of a fixed-width type converts its argument on entry,
  exactly as the call does in the source;
* the byte array `u8 p[Size]` is a list of `Size` bytes;
* the build macros `NDEBUG` and `ARC_PIXEL_EXACT` are Boolean parameters;
* a failed assertion aborts the program: it is the error result of `Except`;
* a `double` is represented by its class and exact value; for the assertions
  of `multiply` and `divide` the arithmetic on doubles is a parameter
  (`DoubleOps`), for the channel values of `multiply` it is carried out in
  `FP` (`multiplyFP`);
* the `float` and `double` arithmetic of `resize` is IEEE 754 binary32 and
  binary64 arithmetic with rounding to nearest, ties to even (`FP`); a
  conversion to `u32` that is undefined in C++ is an error result.
-/

namespace Arclight

/-! ## Layout descriptors -/

/-- Byte width of `UnsignedType<N>::Type`: `u8`, `u16`, `u32` or `u64`. -/
def UnsignedType (N : Nat) : Nat :=
  if N > 1 then (if N > 2 then (if N > 4 then 8 else 4) else 2) else 1

/-- The enumeration `Pixel` of the supported layouts. -/
inductive Pixel where
  | BGR5
  | RGB5
  | BGR8
  | RGB8
  | RGBA8
  | ABGR8
  | BGRA8
  | ARGB8
  deriving DecidableEq, Repr

/-- The static members of a `PixelFormat<P>` specialisation. -/
structure PixelFormat where
  BytesPerPixel : Nat
  Channels : Nat
  RedMask : Nat
  GreenMask : Nat
  BlueMask : Nat
  AlphaMask : Nat
  RedShift : Nat
  GreenShift : Nat
  BlueShift : Nat
  AlphaShift : Nat
  deriving DecidableEq, Repr

/-- The eight specialisations `PixelFormat<Pixel::...>`, constants as in the source. -/
def PixelFormat.of : Pixel → PixelFormat
  | .RGBA8 =>
    { BytesPerPixel := 4, Channels := 4,
      RedMask := 0x000000FF, GreenMask := 0x0000FF00, BlueMask := 0x00FF0000, AlphaMask := 0xFF000000,
      RedShift := 0, GreenShift := 8, BlueShift := 16, AlphaShift := 24 }
  | .ABGR8 =>
    { BytesPerPixel := 4, Channels := 4,
      RedMask := 0xFF000000, GreenMask := 0x00FF0000, BlueMask := 0x0000FF00, AlphaMask := 0x000000FF,
      RedShift := 24, GreenShift := 16, BlueShift := 8, AlphaShift := 0 }
  | .BGRA8 =>
    { BytesPerPixel := 4, Channels := 4,
      RedMask := 0x00FF0000, GreenMask := 0x0000FF00, BlueMask := 0x000000FF, AlphaMask := 0xFF000000,
      RedShift := 16, GreenShift := 8, BlueShift := 0, AlphaShift := 24 }
  | .ARGB8 =>
    { BytesPerPixel := 4, Channels := 4,
      RedMask := 0x0000FF00, GreenMask := 0x00FF0000, BlueMask := 0xFF000000, AlphaMask := 0x000000FF,
      RedShift := 8, GreenShift := 16, BlueShift := 24, AlphaShift := 0 }
  | .RGB8 =>
    { BytesPerPixel := 3, Channels := 3,
      RedMask := 0x000000FF, GreenMask := 0x0000FF00, BlueMask := 0x00FF0000, AlphaMask := 0x00000000,
      RedShift := 0, GreenShift := 8, BlueShift := 16, AlphaShift := 0 }
  | .BGR8 =>
    { BytesPerPixel := 3, Channels := 3,
      RedMask := 0x00FF0000, GreenMask := 0x0000FF00, BlueMask := 0x000000FF, AlphaMask := 0x00000000,
      RedShift := 16, GreenShift := 8, BlueShift := 0, AlphaShift := 0 }
  | .RGB5 =>
    { BytesPerPixel := 2, Channels := 3,
      RedMask := 0x0000001F, GreenMask := 0x000003E0, BlueMask := 0x00007C00, AlphaMask := 0x00000000,
      RedShift := 0, GreenShift := 5, BlueShift := 10, AlphaShift := 0 }
  | .BGR5 =>
    { BytesPerPixel := 2, Channels := 3,
      RedMask := 0x00007C00, GreenMask := 0x000003E0, BlueMask := 0x0000001F, AlphaMask := 0x00000000,
      RedShift := 10, GreenShift := 5, BlueShift := 0, AlphaShift := 0 }

/-- The member `Size = Format::BytesPerPixel` of `PixelStorage<P, ColorT>`. -/
def Size (P : Pixel) : Nat := (PixelFormat.of P).BytesPerPixel

/-- Bit width of `PackedT = UnsignedType<Size>::Type`. -/
def packedBits (P : Pixel) : Nat := 8 * UnsignedType (Size P)

/-- Conversion of an integer value to `PackedT` (`u16` or `u32`). -/
def toPackedT (P : Pixel) (x : Nat) : Nat := x % 2 ^ packedBits P

/-- Conversion of an integer value to `ColorT`, which is `u8` in all eight pixel structs. -/
def toColorT (x : Nat) : Nat := x % 256

/-- The operator `~` on a `u32` operand such as `Format::RedMask`. -/
def not32 (m : Nat) : Nat := 0xFFFFFFFF - m % 2 ^ 32

/-! ## Pixel storage -/

/-- The loop body of `unpack`, run `n` times: `p[i] = t & 0xFF; t >>= 8`. -/
def unpackBytes : Nat → Nat → List Nat
  | 0, _ => []
  | n + 1, t => (t &&& 0xFF) :: unpackBytes n (t >>> 8)

theorem unpackBytes_length (n t : Nat) : (unpackBytes n t).length = n := by
  induction n generalizing t with
  | zero => rfl
  | succ n ih => simp [unpackBytes, ih]

theorem unpackBytes_lt (n t : Nat) : ∀ b ∈ unpackBytes n t, b < 256 := by
  induction n generalizing t with
  | zero => intro b hb; simp [unpackBytes] at hb
  | succ n ih =>
    intro b hb
    simp only [unpackBytes, List.mem_cons] at hb
    rcases hb with rfl | hb
    · have h := Nat.and_pow_two_sub_one_eq_mod t 8
      norm_num at h
      omega
    · exact ih _ b hb

/-- A `PixelStorage<P, u8>` value: the member `u8 p[Size]`. -/
structure PixelStorage (P : Pixel) where
  p : List Nat
  size_eq : p.length = Size P
  byte_lt : ∀ b ∈ p, b < 256
  deriving DecidableEq

/-- The member `unpack(PackedT t)`: byte `i` receives bits `8i .. 8i+7` of `t`. -/
def unpack (P : Pixel) (t : Nat) : PixelStorage P :=
  { p := unpackBytes (Size P) (toPackedT P t)
    size_eq := unpackBytes_length _ _
    byte_lt := unpackBytes_lt _ _ }

/-- The member `pack()`: `t = 0; for i < Size: t |= p[i] << (i * 8)`. -/
def pack {P : Pixel} (px : PixelStorage P) : Nat :=
  (List.range (Size P)).foldl (fun t i => toPackedT P (t ||| (px.p.getD i 0 <<< (i * 8)))) 0

/-- The constructor `PixelStorage()`: `std::fill(p, p + Size, 0)`. -/
def PixelStorage.zero (P : Pixel) : PixelStorage P :=
  { p := List.replicate (Size P) 0
    size_eq := List.length_replicate _ _
    byte_lt := fun b hb => by rw [List.eq_of_mem_replicate hb]; decide }

/-- The member `getRed()`: `(pack() & Format::RedMask) >> Format::RedShift`, returned as `ColorT`. -/
def getRed {P : Pixel} (px : PixelStorage P) : Nat :=
  toColorT ((pack px &&& (PixelFormat.of P).RedMask) >>> (PixelFormat.of P).RedShift)

/-- The member `getGreen()`. -/
def getGreen {P : Pixel} (px : PixelStorage P) : Nat :=
  toColorT ((pack px &&& (PixelFormat.of P).GreenMask) >>> (PixelFormat.of P).GreenShift)

/-- The member `getBlue()`. -/
def getBlue {P : Pixel} (px : PixelStorage P) : Nat :=
  toColorT ((pack px &&& (PixelFormat.of P).BlueMask) >>> (PixelFormat.of P).BlueShift)

/-- The member `getAlpha()`. -/
def getAlpha {P : Pixel} (px : PixelStorage P) : Nat :=
  toColorT ((pack px &&& (PixelFormat.of P).AlphaMask) >>> (PixelFormat.of P).AlphaShift)

/-- The static member `getMaxRed()`: `Format::RedMask >> Format::RedShift`, returned as `ColorT`. -/
def getMaxRed (P : Pixel) : Nat :=
  toColorT ((PixelFormat.of P).RedMask >>> (PixelFormat.of P).RedShift)

/-- The static member `getMaxGreen()`. -/
def getMaxGreen (P : Pixel) : Nat :=
  toColorT ((PixelFormat.of P).GreenMask >>> (PixelFormat.of P).GreenShift)

/-- The static member `getMaxBlue()`. -/
def getMaxBlue (P : Pixel) : Nat :=
  toColorT ((PixelFormat.of P).BlueMask >>> (PixelFormat.of P).BlueShift)

/-- The static member `getMaxAlpha()`. -/
def getMaxAlpha (P : Pixel) : Nat :=
  toColorT ((PixelFormat.of P).AlphaMask >>> (PixelFormat.of P).AlphaShift)

/-- The member `setRGBA(r, g, b, a)`:
`unpack(r << RedShift | g << GreenShift | b << BlueShift | a << AlphaShift)`.
The operands are `u8` values promoted to 32-bit `int`; no shifted operand exceeds 32 bits. -/
def setRGBA {P : Pixel} (_px : PixelStorage P) (r g b a : Nat) : PixelStorage P :=
  unpack P (toColorT r <<< (PixelFormat.of P).RedShift
    ||| toColorT g <<< (PixelFormat.of P).GreenShift
    ||| toColorT b <<< (PixelFormat.of P).BlueShift
    ||| toColorT a <<< (PixelFormat.of P).AlphaShift)

/-- The member `setRGB(r, g, b)`: `setRGBA(r, g, b, getAlpha())`. -/
def setRGB {P : Pixel} (px : PixelStorage P) (r g b : Nat) : PixelStorage P :=
  setRGBA px r g b (getAlpha px)

/-- The member `setMonochrome(v)`: `setRGB(v, v, v)`. -/
def setMonochrome {P : Pixel} (px : PixelStorage P) (v : Nat) : PixelStorage P :=
  setRGB px v v v

/-- The member `setRed(r)`: `t = pack(); t &= ~RedMask; t |= r << RedShift; unpack(t)`. -/
def setRed {P : Pixel} (px : PixelStorage P) (r : Nat) : PixelStorage P :=
  let t := pack px
  let t := toPackedT P (t &&& not32 (PixelFormat.of P).RedMask)
  let t := toPackedT P (t ||| toColorT r <<< (PixelFormat.of P).RedShift)
  unpack P t

/-- The member `setGreen(g)`. -/
def setGreen {P : Pixel} (px : PixelStorage P) (g : Nat) : PixelStorage P :=
  let t := pack px
  let t := toPackedT P (t &&& not32 (PixelFormat.of P).GreenMask)
  let t := toPackedT P (t ||| toColorT g <<< (PixelFormat.of P).GreenShift)
  unpack P t

/-- The member `setBlue(b)`. -/
def setBlue {P : Pixel} (px : PixelStorage P) (b : Nat) : PixelStorage P :=
  let t := pack px
  let t := toPackedT P (t &&& not32 (PixelFormat.of P).BlueMask)
  let t := toPackedT P (t ||| toColorT b <<< (PixelFormat.of P).BlueShift)
  unpack P t

/-- The member `setAlpha(a)`. -/
def setAlpha {P : Pixel} (px : PixelStorage P) (a : Nat) : PixelStorage P :=
  let t := pack px
  let t := toPackedT P (t &&& not32 (PixelFormat.of P).AlphaMask)
  let t := toPackedT P (t ||| toColorT a <<< (PixelFormat.of P).AlphaShift)
  unpack P t

/-- Modelled from the spec: `Math::min` of `math/math.h`, which is not among the sources;
the specification describes the clamp of `add` as `min(a.channel + b.channel, maxChannel)`. -/
def Math.min {α : Type} [LinearOrder α] (a b : α) : α := Min.min a b

/-- Modelled from the spec: `Math::max` of `math/math.h`, which is not among the sources;
the specification describes the clamp of `subtract` as `max(..., 0)`. -/
def Math.max {α : Type} [LinearOrder α] (a b : α) : α := Max.max a b

/-- The member `add(t)`: the channel sums are computed in `int`, clamped with `Math::min`
against the channel maxima, and written back with `setRGB`. -/
def add {P : Pixel} (px t : PixelStorage P) : PixelStorage P :=
  let r := getRed px + getRed t
  let g := getGreen px + getGreen t
  let b := getBlue px + getBlue t
  let r := Math.min r (getMaxRed P)
  let g := Math.min g (getMaxGreen P)
  let b := Math.min b (getMaxBlue P)
  setRGB px r g b

/-- Conversion of an integer to `SColor = std::make_signed_t<u8>`, a signed 8-bit integer
(two's complement wrap-around). -/
def toSColor (x : Int) : Int := (x + 128) % 256 - 128

/-- Conversion of a signed integer to `ColorT` (`u8`) at a call such as `setRGB(r, g, b)`. -/
def colorOfInt (x : Int) : Nat := (x % 256).toNat

/-- The member `subtract(t)`: the channel differences are stored in `SColor` variables,
clamped with `Math::max(·, 0)`, and written back with `setRGB`. -/
def subtract {P : Pixel} (px t : PixelStorage P) : PixelStorage P :=
  let r : Int := toSColor ((getRed px : Int) - (getRed t : Int))
  let g : Int := toSColor ((getGreen px : Int) - (getGreen t : Int))
  let b : Int := toSColor ((getBlue px : Int) - (getBlue t : Int))
  let r := toSColor (Math.max r 0)
  let g := toSColor (Math.max g 0)
  let b := toSColor (Math.max b 0)
  setRGB px (colorOfInt r) (colorOfInt g) (colorOfInt b)

/-- The member `operator==`: `pack() == t.pack()`. -/
def operatorEq {P : Pixel} (px t : PixelStorage P) : Bool :=
  pack px == pack t

/-- The constructor `PixelRGB8(r, g, b)`: the zero-filled storage, then `setRGB(r, g, b)`. -/
def PixelRGB8 (r g b : Nat) : PixelStorage Pixel.RGB8 :=
  setRGB (PixelStorage.zero Pixel.RGB8) r g b

/-! ## Assertions (`util/assert.h`) -/

/-- The function `__arc_assert(condition, file, line, message)`: when the condition is false
the failure is logged and the program is aborted; the abort is the error result. -/
def __arc_assert (condition : Bool) (message : String) : Except String Unit :=
  if !condition then Except.error message else Except.ok ()

/-- The macro `arc_assert(cond, msg)`: it expands to a call of `__arc_assert` unless `NDEBUG`
is defined, in which case it expands to nothing. -/
def arc_assert (ndebug : Bool) (cond : Bool) (msg : String) : Except String Unit :=
  if ndebug then Except.ok () else __arc_assert cond msg

/-! ## Scalar multiplication and division -/

/-- The values of a C++ `double`: not-a-number, the two infinities, and the finite values,
the latter given by their exact rational value (the two zeros are both `finite 0`). -/
inductive Double where
  | nan
  | negInf
  | posInf
  | finite (q : ℚ)
  deriving DecidableEq

/-- The comparison `a < b` on doubles: false whenever an operand is not-a-number. -/
def Double.lt : Double → Double → Bool
  | .nan, _ => false
  | _, .nan => false
  | _, .negInf => false
  | .negInf, _ => true
  | .posInf, _ => false
  | .finite _, .posInf => true
  | .finite a, .finite b => decide (a < b)

/-- The comparison `a <= b` on doubles: false whenever an operand is not-a-number. -/
def Double.le : Double → Double → Bool
  | .nan, _ => false
  | _, .nan => false
  | .negInf, _ => true
  | _, .posInf => true
  | _, .negInf => false
  | .posInf, _ => false
  | .finite a, .finite b => decide (a ≤ b)

/-- The double-precision operations that `multiply` and `divide` apply to their scalar.
Their results depend on IEEE-754 rounding and on `math/math.h`, which is not among the
sources, so they are parameters of the embedding. -/
structure DoubleOps where
  /-- The product `f * c` of a double and a channel value. -/
  mul : Double → Nat → Double
  /-- The call `Math::min(x, m)` of a double and a channel maximum. -/
  min : Double → Nat → Double
  /-- The call `Math::round(x)`. -/
  round : Double → Double
  /-- The conversion `static_cast<u32>(x)`. -/
  toU32 : Double → Nat
  /-- The quotient `a / b` of two doubles. -/
  div : Double → Double → Double

/-- The member `multiply(f)`. `ndebug` tells whether `NDEBUG` is defined and `exact`
whether `ARC_PIXEL_EXACT` is. -/
def multiply {P : Pixel} (fp : DoubleOps) (ndebug exact : Bool) (px : PixelStorage P)
    (f : Double) : Except String (PixelStorage P) := do
  arc_assert ndebug (Double.lt (Double.finite 0) f)
    "Cannot multiply pixel with a factor less than 0"
  let r := fp.mul f (getRed px)
  let g := fp.mul f (getGreen px)
  let b := fp.mul f (getBlue px)
  let r := fp.min r (getMaxRed P)
  let g := fp.min g (getMaxGreen P)
  let b := fp.min b (getMaxBlue P)
  if exact then
    pure (setRGB px (fp.toU32 (fp.round r)) (fp.toU32 (fp.round g)) (fp.toU32 (fp.round b)))
  else
    pure (setRGB px (fp.toU32 r) (fp.toU32 g) (fp.toU32 b))

/-- The member `divide(f)`. Its assertion is `arc_assert(!Math::isZero, ...)`: the operand
of `!` is the function `Math::isZero` itself, not a call of it; `isZeroDesignator` is the
truth value that designator converts to. -/
def divide {P : Pixel} (fp : DoubleOps) (ndebug exact : Bool) (isZeroDesignator : Bool)
    (px : PixelStorage P) (f : Double) : Except String (PixelStorage P) := do
  arc_assert ndebug (!isZeroDesignator) "Cannot multiply pixel with a factor less than 0"
  multiply fp ndebug exact px (fp.div (Double.finite 1) f)

/-! ## Channels, for stating properties of all four accessors at once -/

/-- The four channels of a pixel. -/
inductive Channel where
  | red
  | green
  | blue
  | alpha
  deriving DecidableEq, Repr

/-- The getter of a channel: `getRed`, `getGreen`, `getBlue` or `getAlpha`. -/
def getChannel {P : Pixel} (c : Channel) (px : PixelStorage P) : Nat :=
  match c with
  | .red => getRed px
  | .green => getGreen px
  | .blue => getBlue px
  | .alpha => getAlpha px

/-- The setter of a channel: `setRed`, `setGreen`, `setBlue` or `setAlpha`. -/
def setChannel {P : Pixel} (c : Channel) (px : PixelStorage P) (v : Nat) : PixelStorage P :=
  match c with
  | .red => setRed px v
  | .green => setGreen px v
  | .blue => setBlue px v
  | .alpha => setAlpha px v

/-- The maximum of a channel: `getMaxRed`, `getMaxGreen`, `getMaxBlue` or `getMaxAlpha`. -/
def getMaxChannel (P : Pixel) (c : Channel) : Nat :=
  match c with
  | .red => getMaxRed P
  | .green => getMaxGreen P
  | .blue => getMaxBlue P
  | .alpha => getMaxAlpha P

/-- The mask of a channel in a layout. -/
def maskOf (P : Pixel) (c : Channel) : Nat :=
  match c with
  | .red => (PixelFormat.of P).RedMask
  | .green => (PixelFormat.of P).GreenMask
  | .blue => (PixelFormat.of P).BlueMask
  | .alpha => (PixelFormat.of P).AlphaMask

/-- The shift of a channel in a layout. -/
def shiftOf (P : Pixel) (c : Channel) : Nat :=
  match c with
  | .red => (PixelFormat.of P).RedShift
  | .green => (PixelFormat.of P).GreenShift
  | .blue => (PixelFormat.of P).BlueShift
  | .alpha => (PixelFormat.of P).AlphaShift

/-- The union of the four channel masks of a layout. -/
def channelMask (P : Pixel) : Nat :=
  (PixelFormat.of P).RedMask ||| (PixelFormat.of P).GreenMask |||
    (PixelFormat.of P).BlueMask ||| (PixelFormat.of P).AlphaMask

/-! ## Single-precision arithmetic of the exact conversion mode -/

/-- The values of a C++ `float` that arithmetic on unsigned integers can produce: the
non-negative finite values `m * 2 ^ e`, positive infinity and not-a-number. -/
inductive F32 where
  | finite (m : Nat) (e : Int)
  | posInf
  | nan
  deriving DecidableEq, Repr

/-- The number of binary digits of `n`, less one, computed in at most `fuel` halvings. -/
def log2Aux : Nat → Nat → Nat
  | 0, _ => 0
  | fuel + 1, n => if n ≥ 2 then log2Aux fuel (n / 2) + 1 else 0

/-- The position of the highest set bit of `n` (0 for `n = 0`). -/
def log2Floor (n : Nat) : Nat := log2Aux n n

/-- Rounding of the non-negative rational `(a / b) * 2 ^ s` (with `b > 0`) to the nearest
`float`, ties to even: 24 significant bits, least exponent `-149`, overflow to infinity. -/
def F32.round (a b : Nat) (s : Int) : F32 :=
  if a = 0 then F32.finite 0 0 else
  let e0 : Int := (log2Floor a : Int) - (log2Floor b : Int) + s
  let E : Int := if a * 2 ^ (s - e0).toNat ≥ b * 2 ^ (e0 - s).toNat then e0 else e0 - 1
  let E : Int := if E < -126 then -126 else E
  let t : Int := s - E + 23
  let N : Nat := a * 2 ^ t.toNat
  let D : Nat := b * 2 ^ (-t).toNat
  let q := N / D
  let r := N % D
  let m := if 2 * r > D then q + 1 else if 2 * r = D then q + q % 2 else q
  if E > 127 ∨ (E = 127 ∧ m ≥ 2 ^ 24) then F32.posInf else F32.finite m (E - 23)

/-- The conversion `static_cast<float>(n)` of an unsigned integer. -/
def F32.ofNat (n : Nat) : F32 := F32.round n 1 0

/-- The quotient `x / y` of two floats. -/
def F32.div : F32 → F32 → F32
  | .nan, _ => .nan
  | _, .nan => .nan
  | .posInf, .posInf => .nan
  | .posInf, .finite _ _ => .posInf
  | .finite _ _, .posInf => .finite 0 0
  | .finite m1 e1, .finite m2 e2 =>
    if m2 = 0 then (if m1 = 0 then .nan else .posInf) else F32.round m1 m2 (e1 - e2)

/-- Modelled from the spec: `Math::round` of `math/math.h`, which is not among the sources;
the specification describes it as rounding to the nearest integer. A value exactly half way
between two integers goes to the larger one, as `std::round` does for non-negative values. -/
def Math.round : F32 → F32
  | .finite m e => if e ≥ 0 then .finite m e else .finite ((2 * m + 2 ^ (-e).toNat) / (2 * 2 ^ (-e).toNat)) 0
  | x => x

/-- The conversion `static_cast<T>(x)` of a float to an unsigned type of `bits` bits: the
fraction is discarded. The conversion of infinity or not-a-number is undefined in C++;
it is 0 here and is never reached on the eight layouts. -/
def F32.toUnsigned (bits : Nat) : F32 → Nat
  | .finite m e => (if e ≥ 0 then m * 2 ^ e.toNat else m / 2 ^ (-e).toNat) % 2 ^ bits
  | _ => 0

/-! ## Pixel conversion (`PixelConverter`) -/

/-- Modelled from the spec: `Bits::popcount` of `util/bits.h`, which is not among the
sources; the specification calls it the population count of a channel mask. -/
def Bits.popcount (x : Nat) : Nat :=
  (List.range 64).foldl (fun n i => n + (x >>> i) % 2) 0

/-- The default constructors of the eight pixel structs: `PixelStorage(0)` for the layouts
without alpha, `PixelStorage(0xFF000000)` for RGBA8 and BGRA8, `PixelStorage(0xFF)` for
ABGR8 and ARGB8. -/
def PixelType.default : (P : Pixel) → PixelStorage P
  | .RGB5 => unpack Pixel.RGB5 0
  | .BGR5 => unpack Pixel.BGR5 0
  | .RGB8 => unpack Pixel.RGB8 0
  | .BGR8 => unpack Pixel.BGR8 0
  | .RGBA8 => unpack Pixel.RGBA8 0xFF000000
  | .ABGR8 => unpack Pixel.ABGR8 0xFF
  | .BGRA8 => unpack Pixel.BGRA8 0xFF000000
  | .ARGB8 => unpack Pixel.ARGB8 0xFF

/-- Byte width of `ConvType`: the wider of the two unsigned types of `srcBytes` and
`destBytes` bytes. -/
def convTypeBytes (srcBytes destBytes : Nat) : Nat :=
  if srcBytes > destBytes then srcBytes else destBytes

/-- The function `convertChannel<T, InBits, OutBits>(value)`, with `T` of `tBytes` bytes.
Arithmetic on a `T` narrower than `int` is done in 32 bits. -/
def PixelConverter.convertChannel (exact : Bool) (tBytes InBits OutBits : Nat) (value : Nat) :
    Nat :=
  let value := value % 2 ^ (8 * tBytes)
  if exact then
    if InBits = 0 then 0
    else
      F32.toUnsigned (8 * tBytes)
        (Math.round (F32.div
          (F32.ofNat ((value * ((1 <<< OutBits) - 1)) % 2 ^ (8 * Nat.max tBytes 4)))
          (F32.ofNat ((1 <<< InBits) - 1))))
  else if InBits > OutBits then value >>> (InBits - OutBits)
  else (value <<< (OutBits - InBits)) % 2 ^ (8 * tBytes)

/-- The function `convertChannel<T>(value, inBits, outBits)` with run-time bit depths. -/
def PixelConverter.convertChannelRT (exact : Bool) (tBytes : Nat) (value inBits outBits : Nat) :
    Nat :=
  let value := value % 2 ^ (8 * tBytes)
  if exact then
    if inBits ≠ 0 then
      F32.toUnsigned (8 * tBytes)
        (Math.round (F32.div
          (F32.ofNat ((value * ((1 <<< outBits) - 1)) % 2 ^ (8 * Nat.max tBytes 4)))
          (F32.ofNat ((1 <<< inBits) - 1))))
    else 0
  else
    ((((value <<< outBits) % 2 ^ (8 * Nat.max tBytes 4)) % 2 ^ (8 * UnsignedType (tBytes + 1)))
      >>> inBits) % 2 ^ (8 * tBytes)

/-- The function `PixelConverter::convert<DestPixel>(pixel)` for a pixel of layout `S`. -/
def PixelConverter.convert (exact : Bool) {S : Pixel} (D : Pixel) (pixel : PixelStorage S) :
    PixelStorage D :=
  let SrcFormat := PixelFormat.of S
  let DestFormat := PixelFormat.of D
  let conv := convTypeBytes (UnsignedType (Size S)) (UnsignedType (Size D))
  let t := pack pixel
  let RBitsIn := Bits.popcount SrcFormat.RedMask
  let GBitsIn := Bits.popcount SrcFormat.GreenMask
  let BBitsIn := Bits.popcount SrcFormat.BlueMask
  let ABitsIn := Bits.popcount SrcFormat.AlphaMask
  let RBitsOut := Bits.popcount DestFormat.RedMask
  let GBitsOut := Bits.popcount DestFormat.GreenMask
  let BBitsOut := Bits.popcount DestFormat.BlueMask
  let ABitsOut := Bits.popcount DestFormat.AlphaMask
  let RValueIn := toPackedT S ((t &&& SrcFormat.RedMask) >>> SrcFormat.RedShift)
  let GValueIn := toPackedT S ((t &&& SrcFormat.GreenMask) >>> SrcFormat.GreenShift)
  let BValueIn := toPackedT S ((t &&& SrcFormat.BlueMask) >>> SrcFormat.BlueShift)
  let AValueIn := toPackedT S ((t &&& SrcFormat.AlphaMask) >>> SrcFormat.AlphaShift)
  let RValueOut := toPackedT D
    ((PixelConverter.convertChannel exact conv RBitsIn RBitsOut RValueIn
      <<< DestFormat.RedShift) % 2 ^ (8 * Nat.max conv 4))
  let GValueOut := toPackedT D
    ((PixelConverter.convertChannel exact conv GBitsIn GBitsOut GValueIn
      <<< DestFormat.GreenShift) % 2 ^ (8 * Nat.max conv 4))
  let BValueOut := toPackedT D
    ((PixelConverter.convertChannel exact conv BBitsIn BBitsOut BValueIn
      <<< DestFormat.BlueShift) % 2 ^ (8 * Nat.max conv 4))
  let AValueOut := toPackedT D
    ((PixelConverter.convertChannel exact conv ABitsIn ABitsOut AValueIn
      <<< DestFormat.AlphaShift) % 2 ^ (8 * Nat.max conv 4))
  let out := toPackedT D (RValueOut ||| GValueOut ||| BValueOut ||| AValueOut)
  unpack D out

/-- The function `PixelConverter::convert<DestPixel, T>(pixel, redMask, redShift, ...)` with
run-time masks and shifts, `T` of `tBytes` bytes. -/
def PixelConverter.convertRT (exact : Bool) (tBytes : Nat) (D : Pixel)
    (pixel redMask redShift greenMask greenShift blueMask blueShift alphaMask alphaShift : Nat) :
    PixelStorage D :=
  let toT := fun x : Nat => x % 2 ^ (8 * tBytes)
  let pixel := toT pixel
  let redMask := toT redMask
  let greenMask := toT greenMask
  let blueMask := toT blueMask
  let alphaMask := toT alphaMask
  let DestFormat := PixelFormat.of D
  let conv := convTypeBytes tBytes (UnsignedType (Size D))
  let RBitsIn := Bits.popcount redMask
  let GBitsIn := Bits.popcount greenMask
  let BBitsIn := Bits.popcount blueMask
  let ABitsIn := Bits.popcount alphaMask
  let RBitsOut := Bits.popcount DestFormat.RedMask
  let GBitsOut := Bits.popcount DestFormat.GreenMask
  let BBitsOut := Bits.popcount DestFormat.BlueMask
  let ABitsOut := Bits.popcount DestFormat.AlphaMask
  let RValueIn := toT ((pixel &&& redMask) >>> redShift)
  let GValueIn := toT ((pixel &&& greenMask) >>> greenShift)
  let BValueIn := toT ((pixel &&& blueMask) >>> blueShift)
  let AValueIn := toT ((pixel &&& alphaMask) >>> alphaShift)
  let RValueOut := toPackedT D
    ((PixelConverter.convertChannelRT exact conv RValueIn RBitsIn RBitsOut
      <<< DestFormat.RedShift) % 2 ^ (8 * Nat.max conv 4))
  let GValueOut := toPackedT D
    ((PixelConverter.convertChannelRT exact conv GValueIn GBitsIn GBitsOut
      <<< DestFormat.GreenShift) % 2 ^ (8 * Nat.max conv 4))
  let BValueOut := toPackedT D
    ((PixelConverter.convertChannelRT exact conv BValueIn BBitsIn BBitsOut
      <<< DestFormat.BlueShift) % 2 ^ (8 * Nat.max conv 4))
  let AValueOut := toPackedT D
    ((PixelConverter.convertChannelRT exact conv AValueIn ABitsIn ABitsOut
      <<< DestFormat.AlphaShift) % 2 ^ (8 * Nat.max conv 4))
  let out := toPackedT D (RValueOut ||| GValueOut ||| BValueOut ||| AValueOut)
  unpack D out

/-! ## Images (`image/image.h`) -/

/-- Conversion of an integer value to `u32`. -/
def toU32 (x : Nat) : Nat := x % 2 ^ 32

/-- Conversion of an integer value to `u64` (also `SizeT`). -/
def toU64 (x : Nat) : Nat := x % 2 ^ 64

/-- The copy assignment `operator=` of a pixel: `unpack(t.pack())`. -/
def operatorAssign {P : Pixel} (t : PixelStorage P) : PixelStorage P :=
  unpack P (pack t)

/-- Read access `data[i]` to a `std::vector`. Outside the vector the behaviour is undefined;
that is an error result of its own, distinct from a failed assertion. -/
def vectorAt {α : Type} (data : List α) (i : Nat) : Except String α :=
  match data.get? i with
  | some v => Except.ok v
  | none => Except.error "vector index out of range"

/-- Write access `data[i] = v` to a `std::vector` of pixels, with the same convention. -/
def vectorSet {P : Pixel} (data : List (PixelStorage P)) (i : Nat) (v : PixelStorage P) :
    Except String (List (PixelStorage P)) :=
  if i < data.length then Except.ok (data.set i (operatorAssign v))
  else Except.error "vector index out of range"

/-- A `for` loop `for (i = start; i < start + count; i++) body`, stopping at the first
failure. -/
def forLoop {σ : Type} (body : Nat → σ → Except String σ) : Nat → Nat → σ → Except String σ
  | 0, _, s => Except.ok s
  | count + 1, i, s =>
    match body i s with
    | Except.ok s' => forLoop body count (i + 1) s'
    | Except.error e => Except.error e

/-- An `Image<P>`: the members `width`, `height` and `data`. -/
structure Image (P : Pixel) where
  width : Nat
  height : Nat
  data : List (PixelStorage P)
  deriving DecidableEq

/-- The constructor `Image(width, height)`: `data.resize(width * height)`, the product being
computed in `u32`; the new elements are default-constructed pixels. -/
def Image.ofSize (P : Pixel) (width height : Nat) : Image P :=
  { width := toU32 width
    height := toU32 height
    data := List.replicate (toU32 (toU32 width * toU32 height)) (PixelType.default P) }

/-- The member `getPixel(x, y)`. -/
def Image.getPixel {P : Pixel} (ndebug : Bool) (img : Image P) (x y : Nat) :
    Except String (PixelStorage P) := do
  let x := toU32 x
  let y := toU32 y
  arc_assert ndebug (decide (x < img.width) && decide (y < img.height))
    "Pixel access out of bounds"
  vectorAt img.data (toU32 (y * img.width + x))

/-- The member `setPixel(x, y, pixel)`. -/
def Image.setPixel {P : Pixel} (ndebug : Bool) (img : Image P) (x y : Nat)
    (pixel : PixelStorage P) : Except String (Image P) := do
  let x := toU32 x
  let y := toU32 y
  arc_assert ndebug (decide (x < img.width) && decide (y < img.height))
    "Pixel access out of bounds"
  let data ← vectorSet img.data (toU32 (y * img.width + x)) pixel
  pure { img with data := data }

/-- Modelled from the spec: `Format::inflate`, which `PixelFormat` does not declare in the
sources. The specification says of `convertTo` that every pixel is passed through the
PixelConverter; `inflate` hands the source pixel on unchanged. -/
def PixelFormat.inflate {P : Pixel} (px : PixelStorage P) : PixelStorage P := px

/-- Modelled from the spec: `PixelFormat<Q>::deflate`, which `PixelFormat` does not declare
in the sources. The specification says of `convertTo` that every pixel is passed through the
PixelConverter; `deflate` is `PixelConverter::convert<Q>`. -/
def PixelFormat.deflate (exact : Bool) {P : Pixel} (Q : Pixel) (pixel : PixelStorage P) :
    PixelStorage Q :=
  PixelConverter.convert exact Q pixel

/-- The member `convertTo<Q>()`. -/
def Image.convertTo {P : Pixel} (exact : Bool) (img : Image P) (Q : Pixel) :
    Except String (Image Q) :=
  let image := Image.ofSize Q img.width img.height
  forLoop
    (fun i (image : Image Q) => do
      let pixel ← vectorAt img.data i
      let data ← vectorSet image.data i (PixelFormat.deflate exact Q (PixelFormat.inflate pixel))
      pure { image with data := data })
    (toU32 (img.width * img.height)) 0 image

/-- The member `setRawData(src, startPixel)`. The right-hand side of the assignment in its
loop, `Format::fromBytes(data.subspan(src * PixelBytes))`, uses members that the sources do
not declare; it is the parameter `fromBytes`, a function of the buffer and of `src`. -/
def Image.setRawData {P : Pixel} (ndebug : Bool)
    (fromBytes : List (PixelStorage P) → List Nat → PixelStorage P) (img : Image P)
    (src : List Nat) (startPixel : Nat) : Except String (Image P) := do
  let startPixel := toU64 startPixel
  let pixels := toU64 (img.data.length / (PixelFormat.of P).BytesPerPixel)
  arc_assert ndebug (decide (toU64 (startPixel + pixels) ≤ img.data.length))
    "Cannot copy pixel data to smaller image"
  forLoop
    (fun i (img : Image P) => do
      let data ← vectorSet img.data (toU64 (i + startPixel)) (fromBytes img.data src)
      pure { img with data := data })
    pixels 0 img

/-! ## Construction from bytes (`image/pixel.h`) -/

/-- The constructor `PixelStorage(const std::span<const u8>& data)`:
`std::copy(data.begin(), data.begin() + Size, p)`. The elements of the span are `u8` values.
Reading past the end of a span shorter than `Size` is undefined; that is the error result. -/
def PixelStorage.ofSpan (P : Pixel) (data : List Nat) : Except String (PixelStorage P) :=
  if h : Size P ≤ data.length then
    Except.ok
      { p := (data.take (Size P)).map toColorT
        size_eq := by simp [h]
        byte_lt := fun b hb => by
          obtain ⟨a, _, rfl⟩ := List.mem_map.mp hb
          exact Nat.mod_lt _ (by decide) }
  else Except.error "span shorter than the pixel"

/-! ## Floating-point arithmetic of `resize` -/

/-- A binary floating-point format: the number of significant bits and the least and the
greatest exponent of a normal value. -/
structure FloatFormat where
  prec : Nat
  emin : Int
  emax : Int
  deriving DecidableEq, Repr

/-- The format of `float`. -/
def binary32 : FloatFormat := { prec := 24, emin := -126, emax := 127 }

/-- The format of `double`. -/
def binary64 : FloatFormat := { prec := 53, emin := -1022, emax := 1023 }

/-- A floating-point value: a finite value `(-1)^neg * m * 2 ^ e`, an infinity or
not-a-number. -/
inductive FP where
  | finite (neg : Bool) (m : Nat) (e : Int)
  | inf (neg : Bool)
  | nan
  deriving DecidableEq, Repr

/-- Rounding of `(-1)^neg * (a / b) * 2 ^ s` (with `b > 0`) to the nearest value of the
format, ties to even, overflow to infinity. -/
def FP.round (fmt : FloatFormat) (neg : Bool) (a b : Nat) (s : Int) : FP :=
  if a = 0 then FP.finite neg 0 0 else
  let e0 : Int := (log2Floor a : Int) - (log2Floor b : Int) + s
  let E : Int := if a * 2 ^ (s - e0).toNat ≥ b * 2 ^ (e0 - s).toNat then e0 else e0 - 1
  let E : Int := if E < fmt.emin then fmt.emin else E
  let t : Int := s - E + ((fmt.prec : Int) - 1)
  let N : Nat := a * 2 ^ t.toNat
  let D : Nat := b * 2 ^ (-t).toNat
  let q := N / D
  let r := N % D
  let m := if 2 * r > D then q + 1 else if 2 * r = D then q + q % 2 else q
  if E > fmt.emax ∨ (E = fmt.emax ∧ m ≥ 2 ^ fmt.prec) then FP.inf neg
  else FP.finite neg m (E - ((fmt.prec : Int) - 1))

/-- The conversion of an unsigned integer to the format. -/
def FP.ofNat (fmt : FloatFormat) (n : Nat) : FP := FP.round fmt false n 1 0

/-- The literal `0.5` (`0.5f`). -/
def FP.half : FP := FP.finite false 1 (-1)

/-- The literal `1.0f`. -/
def FP.one : FP := FP.finite false 1 0

/-- The negation `-x`. -/
def FP.neg : FP → FP
  | .finite n m e => .finite (!n) m e
  | .inf n => .inf (!n)
  | .nan => .nan

/-- The sum `x + y`. -/
def FP.add (fmt : FloatFormat) : FP → FP → FP
  | .nan, _ => .nan
  | _, .nan => .nan
  | .inf n1, .inf n2 => if n1 = n2 then .inf n1 else .nan
  | .inf n1, .finite _ _ _ => .inf n1
  | .finite _ _ _, .inf n2 => .inf n2
  | .finite n1 m1 e1, .finite n2 m2 e2 =>
    let e := min e1 e2
    let M1 := m1 * 2 ^ (e1 - e).toNat
    let M2 := m2 * 2 ^ (e2 - e).toNat
    if n1 = n2 then FP.round fmt n1 (M1 + M2) 1 e
    else if M1 > M2 then FP.round fmt n1 (M1 - M2) 1 e
    else if M2 > M1 then FP.round fmt n2 (M2 - M1) 1 e
    else .finite false 0 0

/-- The difference `x - y`. -/
def FP.sub (fmt : FloatFormat) (x y : FP) : FP := FP.add fmt x (FP.neg y)

/-- The product `x * y`. -/
def FP.mul (fmt : FloatFormat) : FP → FP → FP
  | .nan, _ => .nan
  | _, .nan => .nan
  | .inf n1, .inf n2 => .inf (xor n1 n2)
  | .inf n1, .finite n2 m2 _ => if m2 = 0 then .nan else .inf (xor n1 n2)
  | .finite n1 m1 _, .inf n2 => if m1 = 0 then .nan else .inf (xor n1 n2)
  | .finite n1 m1 e1, .finite n2 m2 e2 => FP.round fmt (xor n1 n2) (m1 * m2) 1 (e1 + e2)

/-- The quotient `x / y`. -/
def FP.div (fmt : FloatFormat) : FP → FP → FP
  | .nan, _ => .nan
  | _, .nan => .nan
  | .inf _, .inf _ => .nan
  | .inf n1, .finite n2 _ _ => .inf (xor n1 n2)
  | .finite n1 _ _, .inf n2 => .finite (xor n1 n2) 0 0
  | .finite n1 m1 e1, .finite n2 m2 e2 =>
    if m2 = 0 then (if m1 = 0 then .nan else .inf (xor n1 n2))
    else FP.round fmt (xor n1 n2) m1 m2 (e1 - e2)

/-- The comparison `x >= y`: false whenever an operand is not-a-number. -/
def FP.ge : FP → FP → Bool
  | .nan, _ => false
  | _, .nan => false
  | _, .inf true => true
  | .inf false, _ => true
  | .inf true, _ => false
  | .finite _ _ _, .inf false => false
  | .finite n1 m1 e1, .finite n2 m2 e2 =>
    let e := min e1 e2
    let v1 : Int := if n1 then -((m1 * 2 ^ (e1 - e).toNat : Nat) : Int)
      else ((m1 * 2 ^ (e1 - e).toNat : Nat) : Int)
    let v2 : Int := if n2 then -((m2 * 2 ^ (e2 - e).toNat : Nat) : Int)
      else ((m2 * 2 ^ (e2 - e).toNat : Nat) : Int)
    decide (v1 ≥ v2)

/-- The conversion `static_cast<u32>(x)`: the fraction is discarded. The conversion is
undefined in C++ when the truncated value is not a `u32` value, and for infinities and
not-a-number; that is the error result. -/
def FP.toU32 : FP → Except String Nat
  | .finite n m e =>
    let t := if e ≥ 0 then m * 2 ^ e.toNat else m / 2 ^ (-e).toNat
    if t = 0 then Except.ok 0
    else if n then Except.error "float to integer conversion out of range"
    else if t < 2 ^ 32 then Except.ok t
    else Except.error "float to integer conversion out of range"
  | _ => Except.error "float to integer conversion out of range"

/-- Modelled from the spec: `Math::floor` of `math/math.h`, which is not among the sources;
the specification uses it as the floor function. -/
def Math.floor : FP → FP
  | .finite n m e =>
    if e ≥ 0 then .finite n m e
    else if n then .finite n ((m + 2 ^ (-e).toNat - 1) / 2 ^ (-e).toNat) 0
    else .finite n (m / 2 ^ (-e).toNat) 0
  | x => x

/-- Modelled from the spec: `Math::round` of `math/math.h` on the values of this section;
rounding to the nearest integer, a value exactly half way between two integers going away
from zero, as `std::round` does. -/
def Math.roundFP : FP → FP
  | .finite n m e =>
    if e ≥ 0 then .finite n m e
    else .finite n ((2 * m + 2 ^ (-e).toNat) / (2 * 2 ^ (-e).toNat)) 0
  | x => x

/-! ## `multiply` in the arithmetic of `double` -/

/-- The comparison `x > y`: false whenever an operand is not-a-number. -/
def FP.gt : FP → FP → Bool
  | .nan, _ => false
  | _, .nan => false
  | _, .inf false => false
  | .inf false, _ => true
  | .inf true, _ => false
  | .finite _ _ _, .inf true => true
  | .finite n1 m1 e1, .finite n2 m2 e2 =>
    let e := min e1 e2
    let v1 : Int := if n1 then -((m1 * 2 ^ (e1 - e).toNat : Nat) : Int)
      else ((m1 * 2 ^ (e1 - e).toNat : Nat) : Int)
    let v2 : Int := if n2 then -((m2 * 2 ^ (e2 - e).toNat : Nat) : Int)
      else ((m2 * 2 ^ (e2 - e).toNat : Nat) : Int)
    decide (v1 > v2)

/-- The literal `0.0`. -/
def FP.zero : FP := FP.finite false 0 0

/-- Modelled from the spec: `Math::min` of `math/math.h`, which is not among the sources, for
a `double` and a channel maximum, which is converted to `double`; the specification says that
the product is clamped to the maximum. Not-a-number is left as it is. -/
def Math.minFP (x : FP) (m : Nat) : FP :=
  if FP.ge x (FP.ofNat binary64 m) then FP.ofNat binary64 m else x

/-- The member `multiply(f)` with the arithmetic of `double` carried out in `FP binary64`
(`multiply` above leaves that arithmetic as a parameter):
`arc_assert(f > 0.0, ...); auto r = f * getRed(); ...; r = Math::min(r, getMaxRed()); ...`
and then `setRGB(static_cast<u32>(Math::round(r)), ...)` with `ARC_PIXEL_EXACT`,
`setRGB(static_cast<u32>(r), ...)` without. -/
def multiplyFP {P : Pixel} (ndebug exact : Bool) (px : PixelStorage P) (f : FP) :
    Except String (PixelStorage P) := do
  arc_assert ndebug (FP.gt f FP.zero) "Cannot multiply pixel with a factor less than 0"
  let r := FP.mul binary64 f (FP.ofNat binary64 (getRed px))
  let g := FP.mul binary64 f (FP.ofNat binary64 (getGreen px))
  let b := FP.mul binary64 f (FP.ofNat binary64 (getBlue px))
  let r := Math.minFP r (getMaxRed P)
  let g := Math.minFP g (getMaxGreen P)
  let b := Math.minFP b (getMaxBlue P)
  if exact then do
    let r ← FP.toU32 (Math.roundFP r)
    let g ← FP.toU32 (Math.roundFP g)
    let b ← FP.toU32 (Math.roundFP b)
    pure (setRGB px r g b)
  else do
    let r ← FP.toU32 r
    let g ← FP.toU32 g
    let b ← FP.toU32 b
    pure (setRGB px r g b)

/-! ## Resizing (`Image::resize`) -/

/-- The enumeration `ImageScaling`. -/
inductive ImageScaling where
  | Nearest
  | Bilinear
  deriving DecidableEq, Repr

/-- The height that `resize` takes for `h = 0`:
`aspect = static_cast<float>(width) / height; h = static_cast<u32>(Math::round(w / aspect))`. -/
def Image.resizeAspectHeight (width height w : Nat) : Except String Nat :=
  let aspect := FP.div binary32 (FP.ofNat binary32 width) (FP.ofNat binary32 height)
  FP.toU32 (Math.roundFP (FP.div binary32 (FP.ofNat binary32 w) aspect))

/-- The statement `u32 cy = static_cast<u32>(Math::floor((y + 0.5) * height / h))` of the
nearest-neighbour loop, evaluated in `double`; the statement for `cx` is the same with `x`,
`width` and `w`. -/
def Image.resizeNearestCoord (y height h : Nat) : Except String Nat :=
  FP.toU32 (Math.floor
    (FP.div binary64
      (FP.mul binary64 (FP.add binary64 (FP.ofNat binary64 y) FP.half) (FP.ofNat binary64 height))
      (FP.ofNat binary64 h)))

/-- The statements of the bilinear loop that compute `cy0`, `cy1` and `dy` for a row `y`,
evaluated in `float`; the statements for `cx0`, `cx1` and `dx` are the same with `x`, `width`
and `w`. -/
def Image.resizeBilinearAxis (y height h : Nat) : Except String (Nat × Nat × FP) := do
  let fy := FP.div binary32
    (FP.mul binary32 (FP.add binary32 (FP.ofNat binary32 y) FP.half) (FP.ofNat binary32 height))
    (FP.ofNat binary32 h)
  let t ← FP.toU32 fy
  let ty := FP.sub binary32 fy (FP.ofNat binary32 t)
  if FP.ge ty FP.half then do
    let cy0 ← FP.toU32 fy
    let cy1 := Math.min (toU32 (cy0 + 1)) (toU32 (height + (2 ^ 32 - 1)))
    let dy := FP.sub binary32 ty FP.half
    pure (cy0, cy1, dy)
  else do
    let cy1 ← FP.toU32 fy
    let cy0 := if cy1 ≠ 0 then toU32 (cy1 + (2 ^ 32 - 1)) else 0
    let ty := FP.add binary32 ty (FP.ofNat binary32 1)
    let dy := FP.sub binary32 ty FP.half
    pure (cy0, cy1, dy)

/-- Modelled from the spec: one component of the `Vec4f` arithmetic
`a0 = (1.0f - dx) * v00 + dx * v10; a1 = (1.0f - dx) * v01 + dx * v11;
a = (1.0f - dy) * a0 + dy * a1`. `math/vector.h` is not among the sources; the specification
says the four channels are interpolated as floating-point vectors, so the operators act on
each `float` component. -/
def Image.resizeBlend (dx dy v00 v01 v10 v11 : FP) : FP :=
  let a0 := FP.add binary32 (FP.mul binary32 (FP.sub binary32 FP.one dx) v00)
    (FP.mul binary32 dx v10)
  let a1 := FP.add binary32 (FP.mul binary32 (FP.sub binary32 FP.one dx) v01)
    (FP.mul binary32 dx v11)
  FP.add binary32 (FP.mul binary32 (FP.sub binary32 FP.one dy) a0) (FP.mul binary32 dy a1)

/-- The argument of `setRGBA` computed from one component of `a`:
`static_cast<u32>(Math::round(a.x))` with `ARC_PIXEL_EXACT`, `static_cast<u32>(a.x)`
without. -/
def Image.resizeComponent (exact : Bool) (a : FP) : Except String Nat :=
  if exact then FP.toU32 (Math.roundFP a) else FP.toU32 a

/-- The pixel that the bilinear loop writes for the weights `dx`, `dy` and the four sampled
pixels. -/
def Image.resizeBilinearPixel {P : Pixel} (exact : Bool) (dx dy : FP)
    (p00 p01 p10 p11 : PixelStorage P) : Except String (PixelStorage P) := do
  let chan := fun (get : PixelStorage P → Nat) =>
    Image.resizeComponent exact
      (Image.resizeBlend dx dy (FP.ofNat binary32 (get p00)) (FP.ofNat binary32 (get p01))
        (FP.ofNat binary32 (get p10)) (FP.ofNat binary32 (get p11)))
  let r ← chan getRed
  let g ← chan getGreen
  let b ← chan getBlue
  let a ← chan getAlpha
  pure (setRGBA (PixelType.default P) r g b a)

/-- The member `resize(scaling, w, h)`. `Log::error` only writes to the log. The `default`
branch of the `switch` is taken by neither enumerator. -/
def Image.resize {P : Pixel} (ndebug exact : Bool) (img : Image P) (scaling : ImageScaling)
    (w h : Nat) : Except String (Image P) := do
  let w := toU32 w
  let h := toU32 h
  if w = 0 then
    pure img
  else do
    let h ← if h = 0 then Image.resizeAspectHeight img.width img.height w else pure h
    if w = img.width ∧ h = img.height then
      pure img
    else do
      let resizedData := List.replicate (toU32 (w * h)) (PixelType.default P)
      let resizedData ←
        match scaling with
        | ImageScaling.Nearest =>
          forLoop
            (fun y resizedData => do
              let cy ← Image.resizeNearestCoord y img.height h
              forLoop
                (fun x resizedData => do
                  let cx ← Image.resizeNearestCoord x img.width w
                  let p ← Image.getPixel ndebug img cx cy
                  vectorSet resizedData (toU32 (y * w + x)) p)
                w 0 resizedData)
            h 0 resizedData
        | ImageScaling.Bilinear =>
          forLoop
            (fun y resizedData => do
              let (cy0, cy1, dy) ← Image.resizeBilinearAxis y img.height h
              forLoop
                (fun x resizedData => do
                  let (cx0, cx1, dx) ← Image.resizeBilinearAxis x img.width w
                  let p00 ← Image.getPixel ndebug img cx0 cy0
                  let p01 ← Image.getPixel ndebug img cx0 cy1
                  let p10 ← Image.getPixel ndebug img cx1 cy0
                  let p11 ← Image.getPixel ndebug img cx1 cy1
                  let p ← Image.resizeBilinearPixel exact dx dy p00 p01 p10 p11
                  vectorSet resizedData (toU32 (y * w + x)) p)
                w 0 resizedData)
            h 0 resizedData
      pure { width := w, height := h, data := resizedData }

/-! ## Closed forms used to state the conversion properties -/

/-- The closed form of a channel conversion from `i` bits to `o` bits. -/
def channelScale (exact : Bool) (i o v : Nat) : Nat :=
  if exact then
    if i = 0 then 0 else (2 * (v * (2 ^ o - 1)) + (2 ^ i - 1)) / (2 * (2 ^ i - 1))
  else if i > o then v >>> (i - o) else v <<< (o - i)

/-- The bit depth of a channel: the population count of its mask. -/
def bitsOf (P : Pixel) (c : Channel) : Nat := Bits.popcount (maskOf P c)

/-- The packed value `convert` builds from four converted channel values, the shifted
operands being computed in `w` bits. -/
def assembleValue (D : Pixel) (w r g b a : Nat) : Nat :=
  toPackedT D
    (toPackedT D ((r <<< (PixelFormat.of D).RedShift) % 2 ^ w) |||
      toPackedT D ((g <<< (PixelFormat.of D).GreenShift) % 2 ^ w) |||
      toPackedT D ((b <<< (PixelFormat.of D).BlueShift) % 2 ^ w) |||
      toPackedT D ((a <<< (PixelFormat.of D).AlphaShift) % 2 ^ w))

/-- The number of bits covered by the channel masks of a layout. -/
def maskBits (P : Pixel) : Nat := Bits.popcount (channelMask P)

/-- Little-endian value of a byte list: byte 0 is the least significant. -/
def leValue : List Nat → Nat
  | [] => 0
  | b :: bs => b + 256 * leValue bs

/-- The contiguous mask of `k` bits starting at bit `s`. -/
def fieldMask (k s : Nat) : Nat := (2 ^ k - 1) <<< s

/-- The value of the `k`-bit field at bit `s` of `t`, read as the getters do. -/
def getField (k s t : Nat) : Nat := (t &&& fieldMask k s) >>> s

/-! ## Closed forms used to state the floating-point properties -/

/-- The value of a floating-point datum as a rational number (0 for infinities and
not-a-number). -/
def FP.toRat : FP → ℚ
  | .finite n m e => (if n then -1 else 1) * (m : ℚ) * (2 : ℚ) ^ e
  | _ => 0

/-- Rounding of a rational number to the nearest integer, ties to even. -/
def rne (x : ℚ) : ℤ :=
  if 2 * Int.fract x < 1 then ⌊x⌋
  else if 1 < 2 * Int.fract x then ⌊x⌋ + 1
  else ⌊x⌋ + ⌊x⌋ % 2

/-- The exponent of the last place of the values of the format around `q`. -/
def ulpExp (fmt : FloatFormat) (q : ℚ) : ℤ :=
  max fmt.emin (Int.log 2 q) - ((fmt.prec : ℤ) - 1)

/-- Rounding of a non-negative rational number to the nearest value of the format, ties to
even, without regard to overflow. -/
def roundQ (fmt : FloatFormat) (q : ℚ) : ℚ :=
  (rne (q / (2 : ℚ) ^ ulpExp fmt q) : ℚ) * (2 : ℚ) ^ ulpExp fmt q

/-- The datum `x` is finite and not negative, and its value is `v`. -/
def FP.IsVal (x : FP) (v : ℚ) : Prop :=
  ∃ (m : ℕ) (e : ℤ), x = FP.finite false m e ∧ (m : ℚ) * (2 : ℚ) ^ e = v

/-- The value `(x + 0.5) * W / w` as the two loops of `resize` compute it, with the conversion
of `W`, the product and the quotient rounded to the format. -/
def scaledCoord (fmt : FloatFormat) (x W w : ℕ) : ℚ :=
  roundQ fmt (roundQ fmt (((x : ℚ) + 1 / 2) * roundQ fmt W) / w)

/-- The value of `(1.0f - d) * u + d * v` with every operation rounded to `float`. -/
def lerpQ (d u v : ℚ) : ℚ :=
  roundQ binary32 (roundQ binary32 (roundQ binary32 (1 - d) * u) + roundQ binary32 (d * v))

/-- The value of one component of the bilinear blend for the weights `dx`, `dy` and the four
sampled channel values. -/
def blendQ (dx dy v00 v01 v10 v11 : ℚ) : ℚ :=
  lerpQ dy (lerpQ dx v00 v10) (lerpQ dx v01 v11)

/-- The channel value that the bilinear loop passes to `setRGBA` for a blended value `a`:
rounded to the nearest integer in the exact build, truncated otherwise. -/
def componentQ (exact : Bool) (a : ℚ) : ℕ :=
  if exact then ⌊a + 1 / 2⌋₊ else ⌊a⌋₊

/-- The channel value that `multiply` writes for a finite scalar of value `v`, a channel value
`c` and the channel maximum `M`: the product rounded to `double`, clamped to `M`, then rounded
to the nearest integer in the exact build and truncated otherwise. -/
def multiplyQ (exact : Bool) (v : ℚ) (c M : ℕ) : ℕ :=
  componentQ exact (min (roundQ binary64 (v * c)) M)

/-- The ratio `w / (W / H)` with the three conversions and the two divisions rounded to
`float`, as the aspect branch of `resize` evaluates it. -/
def aspectHeightQ (W H w : ℕ) : ℚ :=
  roundQ binary32 (roundQ binary32 w / roundQ binary32 (roundQ binary32 W / roundQ binary32 H))

/-- The pixel that the nearest-neighbour loop of `resize` stores at the destination `(x, y)`
for a target of width `w` and height `h`: the statements of the loop body, without the store. -/
def Image.resizeNearestAt {P : Pixel} (ndebug : Bool) (img : Image P) (w h x y : Nat) :
    Except String (PixelStorage P) := do
  let cy ← Image.resizeNearestCoord y img.height h
  let cx ← Image.resizeNearestCoord x img.width w
  Image.getPixel ndebug img cx cy

/-- The pixel that the bilinear loop of `resize` stores at the destination `(x, y)` for a
target of width `w` and height `h`: the statements of the loop body, without the store. -/
def Image.resizeBilinearAt {P : Pixel} (ndebug exact : Bool) (img : Image P) (w h x y : Nat) :
    Except String (PixelStorage P) := do
  let (cy0, cy1, dy) ← Image.resizeBilinearAxis y img.height h
  let (cx0, cx1, dx) ← Image.resizeBilinearAxis x img.width w
  let p00 ← Image.getPixel ndebug img cx0 cy0
  let p01 ← Image.getPixel ndebug img cx0 cy1
  let p10 ← Image.getPixel ndebug img cx1 cy0
  let p11 ← Image.getPixel ndebug img cx1 cy1
  Image.resizeBilinearPixel exact dx dy p00 p01 p10 p11

/-- The pixel that `resize` stores at the destination `(x, y)`, for either algorithm. -/
def Image.resizeAt {P : Pixel} (ndebug exact : Bool) (img : Image P) (scaling : ImageScaling)
    (w h x y : Nat) : Except String (PixelStorage P) :=
  match scaling with
  | ImageScaling.Nearest => Image.resizeNearestAt ndebug img w h x y
  | ImageScaling.Bilinear => Image.resizeBilinearAt ndebug exact img w h x y

/-! ## Bit-field arithmetic -/

theorem or_eq_add_of_and_eq_zero (x y : Nat) (h : x &&& y = 0) : x ||| y = x + y := by
  induction x using Nat.strong_induction_on generalizing y with
  | _ x ih =>
    by_cases hx : x = 0
    · simp [hx]
    · have hd : x / 2 &&& y / 2 = 0 := by rw [← Nat.and_div_two, h]
      have h1 := ih (x / 2) (by omega) (y / 2) hd
      have h2 := @Nat.or_div_two x y
      have h3 := @Nat.or_mod_two_eq_one x y
      have h4 := @Nat.and_mod_two_eq_one x y
      rw [h] at h4
      simp at h4
      omega

/-- Writing a value into an empty bit field is an addition. -/
theorem or_shiftLeft_field (u v : Nat) (k : Nat) {s : Nat} (hv : v < 2 ^ k)
    (hu : u / 2 ^ s % 2 ^ k = 0) : u ||| v <<< s = u + v <<< s := by
  apply or_eq_add_of_and_eq_zero
  apply Nat.eq_of_testBit_eq
  intro i
  simp only [Nat.testBit_and, Nat.testBit_shiftLeft, Nat.zero_testBit]
  by_cases h : s ≤ i
  · by_cases hk : i - s < k
    · have h0 : (u / 2 ^ s % 2 ^ k).testBit (i - s) = false := by rw [hu]; simp
      rw [Nat.testBit_mod_two_pow, ← Nat.shiftRight_eq_div_pow, Nat.testBit_shiftRight] at h0
      simp only [hk, decide_True, Bool.true_and, Nat.add_sub_cancel' h] at h0
      simp [h0]
    · have : v.testBit (i - s) = false := by
        apply Nat.testBit_lt_two_pow
        exact lt_of_lt_of_le hv (Nat.pow_le_pow_right (by norm_num) (by omega))
      simp [this]
  · simp [h]

theorem testBit_fieldMask (k s i : Nat) :
    (fieldMask k s).testBit i = (decide (s ≤ i) && decide (i - s < k)) := by
  simp [fieldMask, Nat.testBit_shiftLeft]

theorem fieldMask_lt (k s : Nat) (h : s + k ≤ 32) : fieldMask k s < 2 ^ 32 := by
  apply Nat.lt_pow_two_of_testBit
  intro i hi
  rw [testBit_fieldMask]
  by_cases h1 : s ≤ i
  · have : ¬ (i - s < k) := by omega
    simp [this]
  · simp [h1]

theorem testBit_not32 (m i : Nat) (hm : m < 2 ^ 32) :
    (not32 m).testBit i = (decide (i < 32) && !m.testBit i) := by
  have e : not32 m = 2 ^ 32 - (m + 1) := by
    simp only [not32, Nat.mod_eq_of_lt hm]; omega
  rw [e, Nat.testBit_two_pow_sub_succ hm]

theorem testBit_getField (k s t j : Nat) :
    (getField k s t).testBit j = (decide (j < k) && t.testBit (s + j)) := by
  simp [getField, testBit_fieldMask, Bool.and_comm]

theorem testBit_of_lt_two_pow {v k j : Nat} (hv : v < 2 ^ k) (hj : k ≤ j) : v.testBit j = false :=
  Nat.testBit_lt_two_pow (lt_of_lt_of_le hv (Nat.pow_le_pow_right (by norm_num) hj))

theorem getField_lt (k s t : Nat) : getField k s t < 2 ^ k := by
  apply Nat.lt_pow_two_of_testBit
  intro i hi
  rw [testBit_getField]
  have : ¬ (i < k) := by omega
  simp [this]

theorem getField_eq_div_mod (k s t : Nat) : getField k s t = t / 2 ^ s % 2 ^ k := by
  apply Nat.eq_of_testBit_eq
  intro i
  rw [testBit_getField, ← Nat.shiftRight_eq_div_pow, Nat.testBit_mod_two_pow,
    Nat.testBit_shiftRight]

theorem getField_zero_width (s t : Nat) : getField 0 s t = 0 := by
  have := getField_lt 0 s t
  omega

theorem getField_or (k s x y : Nat) :
    getField k s (x ||| y) = getField k s x ||| getField k s y := by
  apply Nat.eq_of_testBit_eq
  intro j
  simp only [testBit_getField, Nat.testBit_or, Bool.and_or_distrib_left]

theorem getField_mod (k s x w : Nat) (h : s + k ≤ w) :
    getField k s (x % 2 ^ w) = getField k s x := by
  apply Nat.eq_of_testBit_eq
  intro j
  simp only [testBit_getField, Nat.testBit_mod_two_pow]
  by_cases hj : j < k
  · have : s + j < w := by omega
    simp [hj, this]
  · simp [hj]

theorem getField_shiftLeft_same (k s v : Nat) (hv : v < 2 ^ k) :
    getField k s (v <<< s) = v := by
  apply Nat.eq_of_testBit_eq
  intro j
  simp only [testBit_getField, Nat.testBit_shiftLeft]
  by_cases hj : j < k
  · simp [hj]
  · simp [hj, testBit_of_lt_two_pow hv (by omega : k ≤ j)]

theorem getField_shiftLeft_other (k' : Nat) (k s s' v : Nat) (hv : v < 2 ^ k')
    (hdis : s + k ≤ s' ∨ s' + k' ≤ s) : getField k s (v <<< s') = 0 := by
  apply Nat.eq_of_testBit_eq
  intro j
  simp only [testBit_getField, Nat.testBit_shiftLeft, Nat.zero_testBit]
  by_cases hj : j < k
  · by_cases h1 : s' ≤ s + j
    · have : v.testBit (s + j - s') = false := testBit_of_lt_two_pow hv (by omega)
      simp [this]
    · simp [h1]
  · simp [hj]

theorem getField_clear_same (k s t : Nat) (h : s + k ≤ 32) :
    getField k s (t &&& not32 (fieldMask k s)) = 0 := by
  apply Nat.eq_of_testBit_eq
  intro j
  simp only [testBit_getField, Nat.testBit_and, testBit_not32 _ _ (fieldMask_lt k s h),
    testBit_fieldMask, Nat.zero_testBit]
  by_cases hj : j < k
  · have h1 : s ≤ s + j := by omega
    have h2 : s + j - s < k := by omega
    simp [h1, h2, hj]
  · simp [hj]

theorem getField_clear_other (k s k' s' t : Nat) (h : s' + k' ≤ 32) (h32 : s + k ≤ 32)
    (hdis : s + k ≤ s' ∨ s' + k' ≤ s) :
    getField k s (t &&& not32 (fieldMask k' s')) = getField k s t := by
  apply Nat.eq_of_testBit_eq
  intro j
  simp only [testBit_getField, Nat.testBit_and, testBit_not32 _ _ (fieldMask_lt k' s' h),
    testBit_fieldMask]
  by_cases hj : j < k
  · have h1 : s + j < 32 := by omega
    have h2 : ¬ (s' ≤ s + j ∧ s + j - s' < k') := by omega
    by_cases h3 : s' ≤ s + j
    · have h4 : ¬ (s + j - s' < k') := fun h => h2 ⟨h3, h⟩
      simp [h1, h3, h4]
    · simp [h1, h3]
  · simp [hj]

/-! ## Pack and unpack -/

theorem PixelStorage.ext_p {P : Pixel} {a b : PixelStorage P} (h : a.p = b.p) : a = b := by
  cases a; cases b; cases h; rfl

theorem pack_eq_leValue {P : Pixel} (px : PixelStorage P) : pack px = leValue px.p := by
  obtain ⟨p, hs, hb⟩ := px
  cases P <;> simp only [Size, PixelFormat.of] at hs <;>
    rcases p with _ | ⟨b0, _ | ⟨b1, _ | ⟨b2, _ | ⟨b3, _ | ⟨b4, r⟩⟩⟩⟩⟩ <;>
    simp at hs <;>
    simp only [List.mem_cons, List.mem_singleton, forall_eq_or_imp, forall_eq] at hb <;>
    simp only [pack, Size, PixelFormat.of, toPackedT, packedBits, UnsignedType, List.range_succ,
      List.range_zero, List.nil_append, List.cons_append, List.foldl_cons, List.foldl_nil,
      List.getD_cons_zero, List.getD_cons_succ, leValue, Nat.reduceMul, Nat.zero_or,
      gt_iff_lt, Nat.reduceLT, reduceIte, Nat.reducePow] <;>
    simp (disch := omega) only [or_shiftLeft_field _ _ 8] <;>
    omega

theorem and_255 (t : Nat) : t &&& 0xFF = t % 256 := by
  have h := Nat.and_pow_two_sub_one_eq_mod t 8
  norm_num at h
  exact h

theorem leValue_lt (p : List Nat) (hb : ∀ b ∈ p, b < 256) : leValue p < 256 ^ p.length := by
  induction p with
  | nil => simp [leValue]
  | cons b bs ih =>
    have h1 := hb b (List.mem_cons_self _ _)
    have h2 := ih (fun c hc => hb c (List.mem_cons_of_mem _ hc))
    simp only [leValue, List.length_cons, pow_succ]
    omega

theorem pack_lt {P : Pixel} (px : PixelStorage P) : pack px < 256 ^ Size P := by
  rw [pack_eq_leValue, ← px.size_eq]
  exact leValue_lt _ px.byte_lt

theorem unpack_pack {P : Pixel} (px : PixelStorage P) : unpack P (pack px) = px := by
  apply PixelStorage.ext_p
  rw [pack_eq_leValue]
  obtain ⟨p, hs, hb⟩ := px
  cases P <;> simp only [Size, PixelFormat.of] at hs <;>
    rcases p with _ | ⟨b0, _ | ⟨b1, _ | ⟨b2, _ | ⟨b3, _ | ⟨b4, r⟩⟩⟩⟩⟩ <;>
    simp at hs <;>
    simp only [List.mem_cons, List.mem_singleton, forall_eq_or_imp, forall_eq] at hb <;>
    simp only [unpack, unpackBytes, Size, PixelFormat.of, toPackedT, packedBits, UnsignedType,
      leValue, and_255, gt_iff_lt, Nat.reduceLT, reduceIte, Nat.reducePow, Nat.reduceMul,
      List.cons.injEq, and_true] <;>
    omega

theorem pack_unpack (P : Pixel) (t : Nat) : pack (unpack P t) = t % 256 ^ Size P := by
  rw [pack_eq_leValue]
  cases P <;>
    simp only [unpack, unpackBytes, Size, PixelFormat.of, toPackedT, packedBits, UnsignedType,
      leValue, and_255, gt_iff_lt, Nat.reduceLT, reduceIte, Nat.reducePow, Nat.reduceMul] <;>
    omega

theorem pack_injective {P : Pixel} (a b : PixelStorage P) (h : pack a = pack b) : a = b := by
  rw [← unpack_pack a, ← unpack_pack b, h]


theorem pack_unpack_pow (P : Pixel) (t : Nat) : pack (unpack P t) = t % 2 ^ (8 * Size P) := by
  rw [pack_unpack, Nat.pow_mul]

/-! ## The channel masks of the eight layouts are contiguous bit fields -/

theorem shiftRight_and_FF (t : Nat) : (t &&& 0xFF) >>> 0 = getField 8 0 t := by
  rw [getField, show fieldMask 8 0 = 0xFF by decide]

theorem not32_FF : not32 0xFF = not32 (fieldMask 8 0) := by
  rw [show fieldMask 8 0 = 0xFF by decide]

theorem shiftRight_and_FF00 (t : Nat) : (t &&& 0xFF00) >>> 8 = getField 8 8 t := by
  rw [getField, show fieldMask 8 8 = 0xFF00 by decide]

theorem not32_FF00 : not32 0xFF00 = not32 (fieldMask 8 8) := by
  rw [show fieldMask 8 8 = 0xFF00 by decide]

theorem shiftRight_and_FF0000 (t : Nat) : (t &&& 0xFF0000) >>> 16 = getField 8 16 t := by
  rw [getField, show fieldMask 8 16 = 0xFF0000 by decide]

theorem not32_FF0000 : not32 0xFF0000 = not32 (fieldMask 8 16) := by
  rw [show fieldMask 8 16 = 0xFF0000 by decide]

theorem shiftRight_and_FF000000 (t : Nat) : (t &&& 0xFF000000) >>> 24 = getField 8 24 t := by
  rw [getField, show fieldMask 8 24 = 0xFF000000 by decide]

theorem not32_FF000000 : not32 0xFF000000 = not32 (fieldMask 8 24) := by
  rw [show fieldMask 8 24 = 0xFF000000 by decide]

theorem shiftRight_and_1F (t : Nat) : (t &&& 0x1F) >>> 0 = getField 5 0 t := by
  rw [getField, show fieldMask 5 0 = 0x1F by decide]

theorem not32_1F : not32 0x1F = not32 (fieldMask 5 0) := by
  rw [show fieldMask 5 0 = 0x1F by decide]

theorem shiftRight_and_3E0 (t : Nat) : (t &&& 0x3E0) >>> 5 = getField 5 5 t := by
  rw [getField, show fieldMask 5 5 = 0x3E0 by decide]

theorem not32_3E0 : not32 0x3E0 = not32 (fieldMask 5 5) := by
  rw [show fieldMask 5 5 = 0x3E0 by decide]

theorem shiftRight_and_7C00 (t : Nat) : (t &&& 0x7C00) >>> 10 = getField 5 10 t := by
  rw [getField, show fieldMask 5 10 = 0x7C00 by decide]

theorem not32_7C00 : not32 0x7C00 = not32 (fieldMask 5 10) := by
  rw [show fieldMask 5 10 = 0x7C00 by decide]

theorem shiftRight_and_0 (t : Nat) : (t &&& 0) >>> 0 = getField 0 0 t := by
  rw [getField, show fieldMask 0 0 = 0 by decide]

theorem not32_0 : not32 0 = not32 (fieldMask 0 0) := by
  rw [show fieldMask 0 0 = 0 by decide]


/-! ## Accessors -/

theorem get_setRed {P : Pixel} (px : PixelStorage P) (v : Nat) (hv : v ≤ getMaxRed P) :
    getRed (setRed px v) = v ∧ getGreen (setRed px v) = getGreen px ∧
    getBlue (setRed px v) = getBlue px ∧ getAlpha (setRed px v) = getAlpha px := by
  cases P <;>
    simp only [getMaxRed, getMaxGreen, getMaxBlue, getMaxAlpha, PixelFormat.of, toColorT,
      Nat.reduceShiftRight, Nat.reduceMod, Nat.shiftRight_zero] at hv <;>
    simp only [getRed, getGreen, getBlue, getAlpha, setRed, pack_unpack_pow, PixelFormat.of,
      toColorT, toPackedT, packedBits, UnsignedType, Size, gt_iff_lt, Nat.reduceLT, reduceIte,
      Nat.reduceMul, shiftRight_and_FF, shiftRight_and_FF00, shiftRight_and_FF0000,
      shiftRight_and_FF000000, shiftRight_and_1F, shiftRight_and_3E0, shiftRight_and_7C00,
      shiftRight_and_0, not32_FF, not32_FF00, not32_FF0000, not32_FF000000, not32_1F,
      not32_3E0, not32_7C00, not32_0] <;>
    simp (disch := omega) only [getField_mod, getField_or, getField_shiftLeft_same,
      getField_shiftLeft_other 8, getField_shiftLeft_other 5, getField_shiftLeft_other 0,
      getField_clear_same, getField_clear_other, getField_zero_width, Nat.zero_or, Nat.or_zero,
      Nat.zero_mod, Nat.zero_shiftLeft] <;>
    refine ⟨?_, ?_, ?_, ?_⟩ <;>
    first | trivial | omega

theorem get_setGreen {P : Pixel} (px : PixelStorage P) (v : Nat) (hv : v ≤ getMaxGreen P) :
    getRed (setGreen px v) = getRed px ∧ getGreen (setGreen px v) = v ∧
    getBlue (setGreen px v) = getBlue px ∧ getAlpha (setGreen px v) = getAlpha px := by
  cases P <;>
    simp only [getMaxRed, getMaxGreen, getMaxBlue, getMaxAlpha, PixelFormat.of, toColorT,
      Nat.reduceShiftRight, Nat.reduceMod, Nat.shiftRight_zero] at hv <;>
    simp only [getRed, getGreen, getBlue, getAlpha, setGreen, pack_unpack_pow, PixelFormat.of,
      toColorT, toPackedT, packedBits, UnsignedType, Size, gt_iff_lt, Nat.reduceLT, reduceIte,
      Nat.reduceMul, shiftRight_and_FF, shiftRight_and_FF00, shiftRight_and_FF0000,
      shiftRight_and_FF000000, shiftRight_and_1F, shiftRight_and_3E0, shiftRight_and_7C00,
      shiftRight_and_0, not32_FF, not32_FF00, not32_FF0000, not32_FF000000, not32_1F,
      not32_3E0, not32_7C00, not32_0] <;>
    simp (disch := omega) only [getField_mod, getField_or, getField_shiftLeft_same,
      getField_shiftLeft_other 8, getField_shiftLeft_other 5, getField_shiftLeft_other 0,
      getField_clear_same, getField_clear_other, getField_zero_width, Nat.zero_or, Nat.or_zero,
      Nat.zero_mod, Nat.zero_shiftLeft] <;>
    refine ⟨?_, ?_, ?_, ?_⟩ <;>
    first | trivial | omega

theorem get_setBlue {P : Pixel} (px : PixelStorage P) (v : Nat) (hv : v ≤ getMaxBlue P) :
    getRed (setBlue px v) = getRed px ∧ getGreen (setBlue px v) = getGreen px ∧
    getBlue (setBlue px v) = v ∧ getAlpha (setBlue px v) = getAlpha px := by
  cases P <;>
    simp only [getMaxRed, getMaxGreen, getMaxBlue, getMaxAlpha, PixelFormat.of, toColorT,
      Nat.reduceShiftRight, Nat.reduceMod, Nat.shiftRight_zero] at hv <;>
    simp only [getRed, getGreen, getBlue, getAlpha, setBlue, pack_unpack_pow, PixelFormat.of,
      toColorT, toPackedT, packedBits, UnsignedType, Size, gt_iff_lt, Nat.reduceLT, reduceIte,
      Nat.reduceMul, shiftRight_and_FF, shiftRight_and_FF00, shiftRight_and_FF0000,
      shiftRight_and_FF000000, shiftRight_and_1F, shiftRight_and_3E0, shiftRight_and_7C00,
      shiftRight_and_0, not32_FF, not32_FF00, not32_FF0000, not32_FF000000, not32_1F,
      not32_3E0, not32_7C00, not32_0] <;>
    simp (disch := omega) only [getField_mod, getField_or, getField_shiftLeft_same,
      getField_shiftLeft_other 8, getField_shiftLeft_other 5, getField_shiftLeft_other 0,
      getField_clear_same, getField_clear_other, getField_zero_width, Nat.zero_or, Nat.or_zero,
      Nat.zero_mod, Nat.zero_shiftLeft] <;>
    refine ⟨?_, ?_, ?_, ?_⟩ <;>
    first | trivial | omega

theorem get_setAlpha {P : Pixel} (px : PixelStorage P) (v : Nat) (hv : v ≤ getMaxAlpha P) :
    getRed (setAlpha px v) = getRed px ∧ getGreen (setAlpha px v) = getGreen px ∧
    getBlue (setAlpha px v) = getBlue px ∧ getAlpha (setAlpha px v) = v := by
  cases P <;>
    simp only [getMaxRed, getMaxGreen, getMaxBlue, getMaxAlpha, PixelFormat.of, toColorT,
      Nat.reduceShiftRight, Nat.reduceMod, Nat.shiftRight_zero] at hv <;>
    (try (rw [Nat.le_zero] at hv; subst hv)) <;>
    simp only [getRed, getGreen, getBlue, getAlpha, setAlpha, pack_unpack_pow, PixelFormat.of,
      toColorT, toPackedT, packedBits, UnsignedType, Size, gt_iff_lt, Nat.reduceLT, reduceIte,
      Nat.reduceMul, shiftRight_and_FF, shiftRight_and_FF00, shiftRight_and_FF0000,
      shiftRight_and_FF000000, shiftRight_and_1F, shiftRight_and_3E0, shiftRight_and_7C00,
      shiftRight_and_0, not32_FF, not32_FF00, not32_FF0000, not32_FF000000, not32_1F,
      not32_3E0, not32_7C00, not32_0] <;>
    simp (disch := omega) only [getField_mod, getField_or, getField_shiftLeft_same,
      getField_shiftLeft_other 8, getField_shiftLeft_other 5, getField_shiftLeft_other 0,
      getField_clear_same, getField_clear_other, getField_zero_width, Nat.zero_or, Nat.or_zero,
      Nat.zero_mod, Nat.zero_shiftLeft] <;>
    refine ⟨?_, ?_, ?_, ?_⟩ <;>
    first | trivial | omega

theorem get_setRGBA {P : Pixel} (px : PixelStorage P) (r g b a : Nat)
    (hr : r ≤ getMaxRed P) (hg : g ≤ getMaxGreen P) (hb : b ≤ getMaxBlue P)
    (ha : a ≤ getMaxAlpha P) :
    getRed (setRGBA px r g b a) = r ∧ getGreen (setRGBA px r g b a) = g ∧
    getBlue (setRGBA px r g b a) = b ∧ getAlpha (setRGBA px r g b a) = a := by
  cases P <;>
    simp only [getMaxRed, getMaxGreen, getMaxBlue, getMaxAlpha, PixelFormat.of, toColorT,
      Nat.reduceShiftRight, Nat.reduceMod, Nat.shiftRight_zero] at hr hg hb ha <;>
    (try (rw [Nat.le_zero] at ha; subst ha)) <;>
    simp only [getRed, getGreen, getBlue, getAlpha, setRGBA, pack_unpack_pow, PixelFormat.of,
      toColorT, Size, Nat.reduceMul, shiftRight_and_FF, shiftRight_and_FF00, shiftRight_and_FF0000,
      shiftRight_and_FF000000, shiftRight_and_1F, shiftRight_and_3E0, shiftRight_and_7C00,
      shiftRight_and_0, not32_FF, not32_FF00, not32_FF0000, not32_FF000000, not32_1F,
      not32_3E0, not32_7C00, not32_0] <;>
    simp (disch := omega) only [getField_mod, getField_or, getField_shiftLeft_same,
      getField_shiftLeft_other 8, getField_shiftLeft_other 5, getField_shiftLeft_other 0,
      getField_clear_same, getField_clear_other, getField_zero_width, Nat.zero_or, Nat.or_zero,
      Nat.zero_mod, Nat.zero_shiftLeft] <;>
    refine ⟨?_, ?_, ?_, ?_⟩ <;>
    first | trivial | omega

theorem getAlpha_setRGB {P : Pixel} (px : PixelStorage P) (r g b : Nat) :
    getAlpha (setRGB px r g b) = getAlpha px := by
  cases P <;>
    simp only [getAlpha, setRGB, setRGBA, pack_unpack_pow, PixelFormat.of,
      toColorT, Size, Nat.reduceMul, shiftRight_and_FF, shiftRight_and_FF00, shiftRight_and_FF0000,
      shiftRight_and_FF000000, shiftRight_and_1F, shiftRight_and_3E0, shiftRight_and_7C00,
      shiftRight_and_0, not32_FF, not32_FF00, not32_FF0000, not32_FF000000, not32_1F,
      not32_3E0, not32_7C00, not32_0] <;>
    simp (disch := omega) only [getField_mod, getField_or, getField_shiftLeft_same,
      getField_shiftLeft_other 8, getField_shiftLeft_other 5, getField_shiftLeft_other 0,
      getField_clear_same, getField_clear_other, getField_zero_width, Nat.zero_or, Nat.or_zero,
      Nat.zero_mod, Nat.zero_shiftLeft] <;>
    first | trivial | omega

theorem getField_mod_256 {k : Nat} (s t : Nat) (hk : k ≤ 8) :
    getField k s t % 256 = getField k s t := by
  have h1 := getField_lt k s t
  have h2 : 2 ^ k ≤ 2 ^ 8 := Nat.pow_le_pow_right (by norm_num) hk
  have h3 : (2 : Nat) ^ 8 = 256 := by norm_num
  omega

theorem getters_exact {P : Pixel} (px : PixelStorage P) :
    (getRed px = (pack px &&& (PixelFormat.of P).RedMask) >>> (PixelFormat.of P).RedShift ∧
      getRed px ≤ getMaxRed P) ∧
    (getGreen px = (pack px &&& (PixelFormat.of P).GreenMask) >>> (PixelFormat.of P).GreenShift ∧
      getGreen px ≤ getMaxGreen P) ∧
    (getBlue px = (pack px &&& (PixelFormat.of P).BlueMask) >>> (PixelFormat.of P).BlueShift ∧
      getBlue px ≤ getMaxBlue P) ∧
    (getAlpha px = (pack px &&& (PixelFormat.of P).AlphaMask) >>> (PixelFormat.of P).AlphaShift ∧
      getAlpha px ≤ getMaxAlpha P) := by
  have h8 := fun s => getField_lt 8 s (pack px)
  have h5 := fun s => getField_lt 5 s (pack px)
  have h0 := fun s => getField_lt 0 s (pack px)
  cases P <;>
    simp only [getRed, getGreen, getBlue, getAlpha, PixelFormat.of, toColorT, shiftRight_and_FF, shiftRight_and_FF00, shiftRight_and_FF0000,
      shiftRight_and_FF000000, shiftRight_and_1F, shiftRight_and_3E0, shiftRight_and_7C00,
      shiftRight_and_0, not32_FF, not32_FF00, not32_FF0000, not32_FF000000, not32_1F,
      not32_3E0, not32_7C00, not32_0] <;>
    simp only [getMaxRed, getMaxGreen, getMaxBlue, getMaxAlpha, PixelFormat.of, toColorT,
      Nat.reduceShiftRight, Nat.reduceMod, Nat.shiftRight_zero] <;>
    refine ⟨⟨?_, ?_⟩, ⟨?_, ?_⟩, ⟨?_, ?_⟩, ⟨?_, ?_⟩⟩ <;>
    first
    | (have a0 := h8 0; have a8 := h8 8; have a16 := h8 16; have a24 := h8 24
       have b0 := h5 0; have b5 := h5 5; have b10 := h5 10; have c0 := h0 0
       norm_num at a0 a8 a16 a24 b0 b5 b10 c0; omega)

/-! ## Pack round-trip and equality -/

/-- C1: for every layout and every pixel `x`, whatever its storage bytes, `unpack(pack(x))`
is `x` again: the storage bytes after the round trip are the bytes before. -/
theorem unpack_pack_round_trip {P : Pixel} (x : PixelStorage P) :
    unpack P (pack x) = x ∧ (unpack P (pack x)).p = x.p :=
  ⟨unpack_pack x, congrArg PixelStorage.p (unpack_pack x)⟩

/-- C7: `a == b` holds exactly when the packed values are equal, which holds exactly when
the storage bytes of `a` and `b` are equal. -/
theorem operatorEq_iff_pack_iff_bytes {P : Pixel} (a b : PixelStorage P) :
    (operatorEq a b = true ↔ pack a = pack b) ∧ (pack a = pack b ↔ a.p = b.p) := by
  refine ⟨by simp [operatorEq], ?_, ?_⟩
  · intro h
    rw [pack_injective a b h]
  · intro h
    rw [PixelStorage.ext_p h]

/-! ## Saturating addition and subtraction -/

/-- C2: after `a.add(b)` each of red, green and blue is
`min(a.channel + b.channel, maxChannel)` of the values before the call, hence at most the
channel maximum. -/
theorem add_saturates {P : Pixel} (a b : PixelStorage P) :
    (getRed (add a b) = min (getRed a + getRed b) (getMaxRed P) ∧
      getRed (add a b) ≤ getMaxRed P) ∧
    (getGreen (add a b) = min (getGreen a + getGreen b) (getMaxGreen P) ∧
      getGreen (add a b) ≤ getMaxGreen P) ∧
    (getBlue (add a b) = min (getBlue a + getBlue b) (getMaxBlue P) ∧
      getBlue (add a b) ≤ getMaxBlue P) := by
  have h := get_setRGBA a (min (getRed a + getRed b) (getMaxRed P))
    (min (getGreen a + getGreen b) (getMaxGreen P))
    (min (getBlue a + getBlue b) (getMaxBlue P)) (getAlpha a)
    (min_le_right _ _) (min_le_right _ _) (min_le_right _ _) (getters_exact a).2.2.2.2
  simp only [add, setRGB, Math.min]
  obtain ⟨h1, h2, h3, _⟩ := h
  rw [h1, h2, h3]
  exact ⟨⟨rfl, min_le_right _ _⟩, ⟨rfl, min_le_right _ _⟩, ⟨rfl, min_le_right _ _⟩⟩

/-- C3: on the 8-bit layouts `subtract` stores the channel difference in a signed 8-bit
variable before clamping: red 200 minus red 0 gives 0 (not 200), and red 0 minus red 255
gives 1 (not 0). -/
theorem subtract_wraps_in_signed_byte :
    getRed (PixelRGB8 200 0 0) = 200 ∧ getRed (PixelRGB8 0 0 0) = 0 ∧
    getRed (PixelRGB8 255 0 0) = 255 ∧
    getRed (subtract (PixelRGB8 200 0 0) (PixelRGB8 0 0 0)) = 0 ∧
    getRed (subtract (PixelRGB8 0 0 0) (PixelRGB8 255 0 0)) = 1 := by
  decide

/-- C4: the alpha channel of `a` is unchanged by `a.add(b)`, by `a.subtract(b)` and by
`a.setRGB(r, g, b)`; this holds for every layout and for all arguments. -/
theorem alpha_unchanged {P : Pixel} (a b : PixelStorage P) (r g b' : Nat) :
    getAlpha (add a b) = getAlpha a ∧ getAlpha (subtract a b) = getAlpha a ∧
    getAlpha (setRGB a r g b') = getAlpha a :=
  ⟨getAlpha_setRGB a _ _ _, getAlpha_setRGB a _ _ _, getAlpha_setRGB a _ _ _⟩

/-! ## Channel accessors -/

/-- C5: after `p.set<c>(v)` with `v` at most the maximum of channel `c`, the getter of `c`
returns `v` and the getters of the other channels return what they returned before. -/
theorem getChannel_setChannel {P : Pixel} (c d : Channel) (p : PixelStorage P) (v : Nat)
    (hv : v ≤ getMaxChannel P c) :
    getChannel d (setChannel c p v) = if d = c then v else getChannel d p := by
  cases c
  · obtain ⟨h1, h2, h3, h4⟩ := get_setRed p v hv
    cases d <;> simp [getChannel, setChannel, h1, h2, h3, h4]
  · obtain ⟨h1, h2, h3, h4⟩ := get_setGreen p v hv
    cases d <;> simp [getChannel, setChannel, h1, h2, h3, h4]
  · obtain ⟨h1, h2, h3, h4⟩ := get_setBlue p v hv
    cases d <;> simp [getChannel, setChannel, h1, h2, h3, h4]
  · obtain ⟨h1, h2, h3, h4⟩ := get_setAlpha p v hv
    cases d <;> simp [getChannel, setChannel, h1, h2, h3, h4]

/-- Witness for C5: green set to 17 on the RGB5 pixel packed as `0x7FFF`. -/
theorem getChannel_setChannel_witness :
    17 ≤ getMaxChannel Pixel.RGB5 Channel.green ∧
    ∀ d : Channel, getChannel d (setChannel Channel.green (unpack Pixel.RGB5 0x7FFF) 17) =
      if d = Channel.green then 17 else getChannel d (unpack Pixel.RGB5 0x7FFF) :=
  ⟨by decide, fun d =>
    getChannel_setChannel Channel.green d (unpack Pixel.RGB5 0x7FFF) 17 (by decide)⟩

/-- C6: every getter returns `(pack() & mask) >> shift` without loss, which is at most the
channel maximum, and on the four layouts without alpha `getAlpha()` returns 0. -/
theorem getters_masked {P : Pixel} (px : PixelStorage P) :
    ((getRed px = (pack px &&& (PixelFormat.of P).RedMask) >>> (PixelFormat.of P).RedShift ∧
        getRed px ≤ getMaxRed P) ∧
      (getGreen px =
          (pack px &&& (PixelFormat.of P).GreenMask) >>> (PixelFormat.of P).GreenShift ∧
        getGreen px ≤ getMaxGreen P) ∧
      (getBlue px = (pack px &&& (PixelFormat.of P).BlueMask) >>> (PixelFormat.of P).BlueShift ∧
        getBlue px ≤ getMaxBlue P) ∧
      (getAlpha px =
          (pack px &&& (PixelFormat.of P).AlphaMask) >>> (PixelFormat.of P).AlphaShift ∧
        getAlpha px ≤ getMaxAlpha P)) ∧
    (∀ q : PixelStorage Pixel.RGB8, getAlpha q = 0) ∧
    (∀ q : PixelStorage Pixel.BGR8, getAlpha q = 0) ∧
    (∀ q : PixelStorage Pixel.RGB5, getAlpha q = 0) ∧
    (∀ q : PixelStorage Pixel.BGR5, getAlpha q = 0) := by
  refine ⟨getters_exact px, ?_, ?_, ?_, ?_⟩ <;>
    intro q <;>
    have h := (getters_exact q).2.2.2.2 <;>
    simp only [getMaxAlpha, PixelFormat.of, toColorT, Nat.shiftRight_zero, Nat.zero_mod] at h <;>
    omega

/-! ## The assertions of `multiply` and `divide` -/

/-- C9, counterexample: with assertions enabled, `multiply(NaN)` fails its assertion
although `NaN <= 0` is false. -/
theorem multiply_nan_counterexample :
    (∀ (fp : DoubleOps) (exact : Bool),
      multiply fp false exact (PixelStorage.zero Pixel.RGB8) Double.nan =
        Except.error "Cannot multiply pixel with a factor less than 0") ∧
    Double.le Double.nan (Double.finite 0) = false := by
  refine ⟨fun fp exact => rfl, rfl⟩

/-- C9, amended: with assertions enabled (`NDEBUG` undefined), `multiply(f)` fails its
assertion, before anything is written to the pixel, exactly when `f > 0` is false, that is
when `f <= 0` or `f` is not a number; and it returns a pixel exactly when `f > 0`. -/
theorem multiply_assert_iff {P : Pixel} (fp : DoubleOps) (exact : Bool) (px : PixelStorage P)
    (f : Double) :
    (multiply fp false exact px f =
        Except.error "Cannot multiply pixel with a factor less than 0" ↔
      (Double.le f (Double.finite 0) = true ∨ f = Double.nan)) ∧
    ((∃ q, multiply fp false exact px f = Except.ok q) ↔
      Double.lt (Double.finite 0) f = true) := by
  cases f with
  | nan => simp [multiply, arc_assert, __arc_assert, Double.lt, Double.le, bind, Except.bind]
  | negInf => simp [multiply, arc_assert, __arc_assert, Double.lt, Double.le, bind, Except.bind]
  | posInf =>
    cases exact <;>
      simp [multiply, arc_assert, __arc_assert, Double.lt, Double.le, bind, Except.bind, pure,
        Except.pure]
  | finite q =>
    by_cases hq : 0 < q
    · have hq2 : ¬ q ≤ 0 := not_le.mpr hq
      cases exact <;>
        simp [multiply, arc_assert, __arc_assert, Double.lt, Double.le, bind, Except.bind, pure,
          Except.pure, hq, hq2]
    · have hq2 : q ≤ 0 := not_lt.mp hq
      simp [multiply, arc_assert, __arc_assert, Double.lt, Double.le, bind, Except.bind, hq, hq2]

/-- C10: the assertion of `divide` does not look at the scalar. With assertions enabled,
whether `divide(f)` fails its own assertion is decided by the constant `!Math::isZero`
alone, for every `f`; as a function designator converts to true, `divide(2.0)` fails its
own assertion although 2.0 is not zero. -/
theorem divide_assertion_ignores_scalar :
    (∀ (fp : DoubleOps) (exact : Bool),
      divide fp false exact true (PixelStorage.zero Pixel.RGB8) (Double.finite 2) =
        Except.error "Cannot multiply pixel with a factor less than 0") ∧
    (∀ (fp : DoubleOps) (exact isZeroDesignator : Bool) (P : Pixel) (px : PixelStorage P)
        (f : Double),
      divide fp false exact isZeroDesignator px f =
        if isZeroDesignator = true then
          Except.error "Cannot multiply pixel with a factor less than 0"
        else multiply fp false exact px (fp.div (Double.finite 1) f)) := by
  refine ⟨fun fp exact => rfl, fun fp exact b P px f => ?_⟩
  cases b <;> rfl

/-! ## Pixel conversion: channel by channel -/

set_option maxRecDepth 100000 in
theorem convertChannel_exact_table :
    ∀ tb ∈ [2, 4], ∀ io ∈ [(5, 0), (5, 5), (5, 8), (8, 0), (8, 5), (8, 8)], ∀ v < 2 ^ io.1,
      PixelConverter.convertChannel true tb io.1 io.2 v = channelScale true io.1 io.2 v ∧
        channelScale true io.1 io.2 v < 2 ^ io.2 := by
  decide!

theorem convertChannel_eq (exact : Bool) (tb i o v : Nat) (htb : tb = 2 ∨ tb = 4)
    (hi : i = 0 ∨ i = 5 ∨ i = 8) (ho : o = 0 ∨ o = 5 ∨ o = 8) (hv : v < 2 ^ i) :
    PixelConverter.convertChannel exact tb i o v = channelScale exact i o v ∧
      channelScale exact i o v < 2 ^ o := by
  cases exact
  · rcases htb with rfl | rfl <;> rcases hi with rfl | rfl | rfl <;>
      rcases ho with rfl | rfl | rfl <;>
      simp only [PixelConverter.convertChannel, channelScale, Bool.false_eq_true, reduceIte,
        Nat.reduceMul, Nat.reducePow, Nat.reduceSub, gt_iff_lt, Nat.lt_irrefl, Nat.reduceLT,
        Nat.not_lt_zero, Nat.shiftLeft_zero, Nat.shiftRight_zero] at hv ⊢ <;>
      omega
  · rcases hi with rfl | hi
    · simp [PixelConverter.convertChannel, channelScale]
    · have hio : (i, o) ∈ [(5, 0), (5, 5), (5, 8), (8, 0), (8, 5), (8, 8)] := by
        rcases hi with rfl | rfl <;> rcases ho with rfl | rfl | rfl <;> simp
      have htb' : tb ∈ [2, 4] := by rcases htb with rfl | rfl <;> simp
      exact convertChannel_exact_table tb htb' (i, o) hio v hv

theorem bitsOf_cases (P : Pixel) (c : Channel) :
    bitsOf P c = 0 ∨ bitsOf P c = 5 ∨ bitsOf P c = 8 := by
  cases P <;> cases c <;> decide

theorem getMaxChannel_eq (P : Pixel) (c : Channel) : getMaxChannel P c = 2 ^ bitsOf P c - 1 := by
  cases P <;> cases c <;> decide

theorem maskOf_eq_fieldMask (P : Pixel) (c : Channel) :
    maskOf P c = fieldMask (bitsOf P c) (shiftOf P c) := by
  cases P <;> cases c <;> decide

theorem getChannel_eq_getField {P : Pixel} (c : Channel) (px : PixelStorage P) :
    getChannel c px = getField (bitsOf P c) (shiftOf P c) (pack px) := by
  have h : getChannel c px = toColorT ((pack px &&& maskOf P c) >>> shiftOf P c) := by
    cases c <;> rfl
  rw [h, maskOf_eq_fieldMask, ← getField, toColorT]
  apply getField_mod_256
  rcases bitsOf_cases P c with h | h | h <;> omega

theorem getChannel_lt {P : Pixel} (c : Channel) (px : PixelStorage P) :
    getChannel c px < 2 ^ bitsOf P c := by
  rw [getChannel_eq_getField]
  exact getField_lt _ _ _

theorem convTypeBytes_cases (S D : Pixel) :
    convTypeBytes (UnsignedType (Size S)) (UnsignedType (Size D)) = 2 ∨
      convTypeBytes (UnsignedType (Size S)) (UnsignedType (Size D)) = 4 := by
  cases S <;> cases D <;> decide

theorem field_fits (D : Pixel) (c : Channel) :
    shiftOf D c + bitsOf D c ≤ 8 * Size D ∧ shiftOf D c + bitsOf D c ≤ packedBits D ∧
      shiftOf D c + bitsOf D c ≤ 32 := by
  cases D <;> cases c <;> decide

theorem fields_disjoint (D : Pixel) (c d : Channel) (h : c ≠ d) :
    shiftOf D c + bitsOf D c ≤ shiftOf D d ∨ shiftOf D d + bitsOf D d ≤ shiftOf D c := by
  cases D <;> cases c <;> cases d <;> first | exact absurd rfl h | decide

theorem getField_shifted (D : Pixel) (c d : Channel) (w v : Nat) (hw : 32 ≤ w)
    (hv : v < 2 ^ bitsOf D d) :
    getField (bitsOf D c) (shiftOf D c) (toPackedT D ((v <<< shiftOf D d) % 2 ^ w)) =
      if c = d then v else 0 := by
  obtain ⟨_, h2, h3⟩ := field_fits D c
  rw [toPackedT, getField_mod _ _ _ _ h2, getField_mod _ _ _ _ (le_trans h3 hw)]
  by_cases h : c = d
  · subst h
    rw [if_pos rfl, getField_shiftLeft_same _ _ _ hv]
  · rw [if_neg h, getField_shiftLeft_other (bitsOf D d) _ _ _ _ hv (fields_disjoint D c d h)]

theorem getChannel_unpack_assembleValue (D : Pixel) (c : Channel) (w r g b a : Nat)
    (hw : 32 ≤ w) (hr : r < 2 ^ bitsOf D Channel.red) (hg : g < 2 ^ bitsOf D Channel.green)
    (hb : b < 2 ^ bitsOf D Channel.blue) (ha : a < 2 ^ bitsOf D Channel.alpha) :
    getChannel c (unpack D (assembleValue D w r g b a)) =
      match c with
      | .red => r
      | .green => g
      | .blue => b
      | .alpha => a := by
  obtain ⟨h1, h2, _⟩ := field_fits D c
  have e1 : getField (bitsOf D c) (shiftOf D c)
      (toPackedT D ((r <<< (PixelFormat.of D).RedShift) % 2 ^ w)) =
        if c = Channel.red then r else 0 := getField_shifted D c Channel.red w r hw hr
  have e2 : getField (bitsOf D c) (shiftOf D c)
      (toPackedT D ((g <<< (PixelFormat.of D).GreenShift) % 2 ^ w)) =
        if c = Channel.green then g else 0 := getField_shifted D c Channel.green w g hw hg
  have e3 : getField (bitsOf D c) (shiftOf D c)
      (toPackedT D ((b <<< (PixelFormat.of D).BlueShift) % 2 ^ w)) =
        if c = Channel.blue then b else 0 := getField_shifted D c Channel.blue w b hw hb
  have e4 : getField (bitsOf D c) (shiftOf D c)
      (toPackedT D ((a <<< (PixelFormat.of D).AlphaShift) % 2 ^ w)) =
        if c = Channel.alpha then a else 0 := getField_shifted D c Channel.alpha w a hw ha
  rw [getChannel_eq_getField, pack_unpack_pow, getField_mod _ _ _ _ h1, assembleValue, toPackedT,
    getField_mod _ _ _ _ h2, getField_or, getField_or, getField_or]
  rw [e1, e2, e3, e4]
  cases c <;> simp

theorem convert_eq_unpack_assembleValue (exact : Bool) {S : Pixel} (D : Pixel)
    (px : PixelStorage S) :
    PixelConverter.convert exact D px =
      unpack D (assembleValue D
        (8 * Nat.max (convTypeBytes (UnsignedType (Size S)) (UnsignedType (Size D))) 4)
        (PixelConverter.convertChannel exact
          (convTypeBytes (UnsignedType (Size S)) (UnsignedType (Size D)))
          (bitsOf S Channel.red) (bitsOf D Channel.red)
          (toPackedT S ((pack px &&& maskOf S Channel.red) >>> shiftOf S Channel.red)))
        (PixelConverter.convertChannel exact
          (convTypeBytes (UnsignedType (Size S)) (UnsignedType (Size D)))
          (bitsOf S Channel.green) (bitsOf D Channel.green)
          (toPackedT S ((pack px &&& maskOf S Channel.green) >>> shiftOf S Channel.green)))
        (PixelConverter.convertChannel exact
          (convTypeBytes (UnsignedType (Size S)) (UnsignedType (Size D)))
          (bitsOf S Channel.blue) (bitsOf D Channel.blue)
          (toPackedT S ((pack px &&& maskOf S Channel.blue) >>> shiftOf S Channel.blue)))
        (PixelConverter.convertChannel exact
          (convTypeBytes (UnsignedType (Size S)) (UnsignedType (Size D)))
          (bitsOf S Channel.alpha) (bitsOf D Channel.alpha)
          (toPackedT S ((pack px &&& maskOf S Channel.alpha) >>> shiftOf S Channel.alpha)))) :=
  rfl

theorem valueIn_eq_getChannel {S : Pixel} (c : Channel) (px : PixelStorage S) :
    toPackedT S ((pack px &&& maskOf S c) >>> shiftOf S c) = getChannel c px := by
  rw [getChannel_eq_getField, maskOf_eq_fieldMask, ← getField, toPackedT]
  apply Nat.mod_eq_of_lt
  have h1 := getField_lt (bitsOf S c) (shiftOf S c) (pack px)
  have h2 : bitsOf S c ≤ packedBits S := by
    have := (field_fits S c).2.1
    omega
  exact lt_of_lt_of_le h1 (Nat.pow_le_pow_right (by norm_num) h2)

/-- Every channel of a converted pixel is the channel conversion of the source channel. -/
theorem getChannel_convert (exact : Bool) {S : Pixel} (D : Pixel) (px : PixelStorage S)
    (c : Channel) :
    getChannel c (PixelConverter.convert exact D px) =
      channelScale exact (bitsOf S c) (bitsOf D c) (getChannel c px) := by
  have hconv := convTypeBytes_cases S D
  have hw : 32 ≤ 8 * Nat.max (convTypeBytes (UnsignedType (Size S)) (UnsignedType (Size D))) 4 := by
    have : 4 ≤ Nat.max (convTypeBytes (UnsignedType (Size S)) (UnsignedType (Size D))) 4 :=
      Nat.le_max_right _ _
    omega
  have hc := fun d : Channel =>
    convertChannel_eq exact _ (bitsOf S d) (bitsOf D d) (getChannel d px) hconv
      (bitsOf_cases S d) (bitsOf_cases D d) (getChannel_lt d px)
  rw [convert_eq_unpack_assembleValue]
  simp only [valueIn_eq_getChannel]
  rw [getChannel_unpack_assembleValue D c _ _ _ _ _ hw
    (by rw [(hc _).1]; exact (hc _).2) (by rw [(hc _).1]; exact (hc _).2)
    (by rw [(hc _).1]; exact (hc _).2) (by rw [(hc _).1]; exact (hc _).2)]
  cases c <;> exact (hc _).1

theorem channelMask_eq (P : Pixel) : channelMask P = 2 ^ maskBits P - 1 := by
  cases P <;> decide

theorem maskBits_le (P : Pixel) : maskBits P ≤ 8 * Size P := by
  cases P <;> decide

theorem field_in_mask (P : Pixel) (c : Channel) : shiftOf P c + bitsOf P c ≤ maskBits P := by
  cases P <;> cases c <;> decide

theorem mask_covered (P : Pixel) :
    ∀ i < maskBits P,
      (shiftOf P Channel.red ≤ i ∧ i - shiftOf P Channel.red < bitsOf P Channel.red) ∨
      (shiftOf P Channel.green ≤ i ∧ i - shiftOf P Channel.green < bitsOf P Channel.green) ∨
      (shiftOf P Channel.blue ≤ i ∧ i - shiftOf P Channel.blue < bitsOf P Channel.blue) ∨
      (shiftOf P Channel.alpha ≤ i ∧ i - shiftOf P Channel.alpha < bitsOf P Channel.alpha) := by
  cases P <;> decide

theorem only_mask_bits_iff {P : Pixel} (px : PixelStorage P) :
    pack px &&& channelMask P = pack px ↔ pack px < 2 ^ maskBits P := by
  rw [channelMask_eq, Nat.and_pow_two_sub_one_eq_mod]
  constructor
  · intro h
    rw [← h]
    exact Nat.mod_lt _ (Nat.two_pow_pos _)
  · exact Nat.mod_eq_of_lt

/-- Two pixels whose packed values lie inside the channel masks and whose four channels
agree are equal. -/
theorem eq_of_getChannel_eq {P : Pixel} (p q : PixelStorage P) (hp : pack p < 2 ^ maskBits P)
    (hq : pack q < 2 ^ maskBits P) (h : ∀ c, getChannel c p = getChannel c q) : p = q := by
  apply pack_injective
  apply Nat.eq_of_testBit_eq
  intro i
  by_cases hi : i < maskBits P
  · have key : ∀ c : Channel, shiftOf P c ≤ i → i - shiftOf P c < bitsOf P c →
        (pack p).testBit i = (pack q).testBit i := by
      intro c h1 h2
      have e := congrArg (fun t => Nat.testBit t (i - shiftOf P c)) (h c)
      simp only [getChannel_eq_getField, testBit_getField, h2, decide_True, Bool.true_and,
        Nat.add_sub_cancel' h1] at e
      exact e
    rcases mask_covered P i hi with ⟨h1, h2⟩ | ⟨h1, h2⟩ | ⟨h1, h2⟩ | ⟨h1, h2⟩
    · exact key _ h1 h2
    · exact key _ h1 h2
    · exact key _ h1 h2
    · exact key _ h1 h2
  · rw [testBit_of_lt_two_pow hp (not_lt.mp hi), testBit_of_lt_two_pow hq (not_lt.mp hi)]

theorem testBit_toPackedT (D : Pixel) (x i : Nat) :
    (toPackedT D x).testBit i = (decide (i < packedBits D) && x.testBit i) := by
  simp [toPackedT]

theorem testBit_shifted_high (D : Pixel) (d : Channel) (w v i : Nat)
    (hv : v < 2 ^ bitsOf D d) (hi : maskBits D ≤ i) :
    (toPackedT D ((v <<< shiftOf D d) % 2 ^ w)).testBit i = false := by
  have h := field_in_mask D d
  simp only [toPackedT, Nat.testBit_mod_two_pow, Nat.testBit_shiftLeft]
  have : v.testBit (i - shiftOf D d) = false := testBit_of_lt_two_pow hv (by omega)
  simp [this]

theorem unpack_assembleValue_lt (D : Pixel) (w r g b a : Nat)
    (hr : r < 2 ^ bitsOf D Channel.red) (hg : g < 2 ^ bitsOf D Channel.green)
    (hb : b < 2 ^ bitsOf D Channel.blue) (ha : a < 2 ^ bitsOf D Channel.alpha) :
    pack (unpack D (assembleValue D w r g b a)) < 2 ^ maskBits D := by
  apply Nat.lt_pow_two_of_testBit
  intro i hi
  have e1 : (toPackedT D ((r <<< (PixelFormat.of D).RedShift) % 2 ^ w)).testBit i = false :=
    testBit_shifted_high D Channel.red w r i hr hi
  have e2 : (toPackedT D ((g <<< (PixelFormat.of D).GreenShift) % 2 ^ w)).testBit i = false :=
    testBit_shifted_high D Channel.green w g i hg hi
  have e3 : (toPackedT D ((b <<< (PixelFormat.of D).BlueShift) % 2 ^ w)).testBit i = false :=
    testBit_shifted_high D Channel.blue w b i hb hi
  have e4 : (toPackedT D ((a <<< (PixelFormat.of D).AlphaShift) % 2 ^ w)).testBit i = false :=
    testBit_shifted_high D Channel.alpha w a i ha hi
  rw [pack_unpack_pow, Nat.testBit_mod_two_pow, assembleValue]
  rw [testBit_toPackedT, Nat.testBit_or, Nat.testBit_or, Nat.testBit_or, e1, e2, e3, e4]
  simp

theorem pack_convert_lt (exact : Bool) {S : Pixel} (D : Pixel) (px : PixelStorage S) :
    pack (PixelConverter.convert exact D px) < 2 ^ maskBits D := by
  have hconv := convTypeBytes_cases S D
  have hc := fun d : Channel =>
    convertChannel_eq exact _ (bitsOf S d) (bitsOf D d) (getChannel d px) hconv
      (bitsOf_cases S d) (bitsOf_cases D d) (getChannel_lt d px)
  rw [convert_eq_unpack_assembleValue]
  simp only [valueIn_eq_getChannel]
  exact unpack_assembleValue_lt D _ _ _ _ _
    (by rw [(hc _).1]; exact (hc _).2) (by rw [(hc _).1]; exact (hc _).2)
    (by rw [(hc _).1]; exact (hc _).2) (by rw [(hc _).1]; exact (hc _).2)

theorem channelScale_same (exact : Bool) (i v : Nat) (hi : i = 0 ∨ i = 5 ∨ i = 8)
    (hv : v < 2 ^ i) : channelScale exact i i v = v := by
  cases exact <;> rcases hi with rfl | rfl | rfl <;>
    simp only [channelScale, Bool.false_eq_true, reduceIte, gt_iff_lt, Nat.lt_irrefl,
      Nat.sub_self, Nat.shiftLeft_zero, Nat.reducePow, Nat.reduceSub, Nat.reduceMul,
      Nat.reduceEqDiff] at hv ⊢ <;>
    omega

/-! ## Pixel conversion: the specified properties -/

/-- C11: for every layout `X` and every pixel `p` of `X` whose packed value has only bits
inside the channel masks of `X`, `PixelConverter::convert<X>(p)` is `p` again, with the
same packed value, in the fast and in the exact build. -/
theorem convert_same_layout (exact : Bool) {X : Pixel} (p : PixelStorage X)
    (h : pack p &&& channelMask X = pack p) :
    PixelConverter.convert exact X p = p ∧ pack (PixelConverter.convert exact X p) = pack p := by
  have e : PixelConverter.convert exact X p = p := by
    apply eq_of_getChannel_eq _ _ (pack_convert_lt exact X p) ((only_mask_bits_iff p).mp h)
    intro c
    rw [getChannel_convert, channelScale_same exact _ _ (bitsOf_cases X c) (getChannel_lt c p)]
  exact ⟨e, by rw [e]⟩

/-- Witness for C11: the RGB5 pixel packed as `0x7FFF`, in the exact build. -/
theorem convert_same_layout_witness :
    pack (unpack Pixel.RGB5 0x7FFF) &&& channelMask Pixel.RGB5 = pack (unpack Pixel.RGB5 0x7FFF) ∧
    PixelConverter.convert true Pixel.RGB5 (unpack Pixel.RGB5 0x7FFF) = unpack Pixel.RGB5 0x7FFF ∧
    pack (PixelConverter.convert true Pixel.RGB5 (unpack Pixel.RGB5 0x7FFF)) =
      pack (unpack Pixel.RGB5 0x7FFF) :=
  ⟨by decide, convert_same_layout true (unpack Pixel.RGB5 0x7FFF) (by decide)⟩

theorem getChannel_alpha_of_no_alpha {P : Pixel} (px : PixelStorage P)
    (h : (PixelFormat.of P).AlphaMask = 0) : getChannel Channel.alpha px = 0 := by
  have hb : bitsOf P Channel.alpha = 0 := by
    rw [bitsOf, show maskOf P Channel.alpha = (PixelFormat.of P).AlphaMask from rfl, h]
    decide
  have hv := getChannel_lt Channel.alpha px
  rw [hb] at hv
  omega

theorem getAlpha_convert_of_no_alpha (exact : Bool) {S : Pixel} (D : Pixel) (px : PixelStorage S)
    (hS : (PixelFormat.of S).AlphaMask = 0) : getAlpha (PixelConverter.convert exact D px) = 0 := by
  have h := getChannel_convert exact D px Channel.alpha
  have hb : bitsOf S Channel.alpha = 0 := by
    rw [bitsOf, show maskOf S Channel.alpha = (PixelFormat.of S).AlphaMask from rfl, hS]
    decide
  have hv := getChannel_lt Channel.alpha px
  rw [hb] at hv h
  have hv0 : getChannel Channel.alpha px = 0 := by omega
  rw [hv0] at h
  rw [show getAlpha (PixelConverter.convert exact D px) =
    getChannel Channel.alpha (PixelConverter.convert exact D px) from rfl, h]
  cases exact <;> simp [channelScale]

/-- C12: converting an RGB8 pixel to RGBA8 gives alpha 0, not 255; more generally, for a
source layout without alpha and a destination layout with alpha the converted pixel has
alpha 0, for every input pixel, in the fast and in the exact build. -/
theorem convert_absent_alpha_is_zero (exact : Bool) :
    (∀ px : PixelStorage Pixel.RGB8,
      getAlpha (PixelConverter.convert exact Pixel.RGBA8 px) = 0 ∧
        getMaxAlpha Pixel.RGBA8 = 255) ∧
    (∀ (S D : Pixel) (px : PixelStorage S), (PixelFormat.of S).AlphaMask = 0 →
      (PixelFormat.of D).AlphaMask ≠ 0 → getAlpha (PixelConverter.convert exact D px) = 0) :=
  ⟨fun px => ⟨getAlpha_convert_of_no_alpha exact _ px rfl, by decide⟩,
    fun _ D px hS _ => getAlpha_convert_of_no_alpha exact D px hS⟩

/-- Witness for C12: the BGR5 pixel packed as `0x7FFF` converted to ARGB8. -/
theorem convert_absent_alpha_is_zero_witness :
    (PixelFormat.of Pixel.BGR5).AlphaMask = 0 ∧ (PixelFormat.of Pixel.ARGB8).AlphaMask ≠ 0 ∧
    getAlpha (PixelConverter.convert true Pixel.ARGB8 (unpack Pixel.BGR5 0x7FFF)) = 0 :=
  ⟨by decide, by decide,
    (convert_absent_alpha_is_zero true).2 Pixel.BGR5 Pixel.ARGB8 (unpack Pixel.BGR5 0x7FFF)
      (by decide) (by decide)⟩

theorem getChannel_convert_of_bits_eq (exact : Bool) {S : Pixel} (D : Pixel) (px : PixelStorage S)
    (c : Channel) (h : bitsOf S c = bitsOf D c) :
    getChannel c (PixelConverter.convert exact D px) = getChannel c px := by
  rw [getChannel_convert, ← h,
    channelScale_same exact _ _ (bitsOf_cases S c) (getChannel_lt c px)]

theorem getters_of_bytes_RGB8 (px : PixelStorage Pixel.RGB8) (r g b : Nat)
    (h : px.p = [r, g, b]) : getRed px = r ∧ getGreen px = g ∧ getBlue px = b := by
  have hb := px.byte_lt
  rw [h] at hb
  simp only [List.mem_cons, List.mem_singleton, forall_eq_or_imp, forall_eq] at hb
  simp only [getRed, getGreen, getBlue, PixelFormat.of, toColorT, shiftRight_and_FF,
    shiftRight_and_FF00, shiftRight_and_FF0000, getField_eq_div_mod, pack_eq_leValue, h, leValue]
  omega

theorem getters_of_bytes_BGR8 (px : PixelStorage Pixel.BGR8) (r g b : Nat)
    (h : px.p = [b, g, r]) : getRed px = r ∧ getGreen px = g ∧ getBlue px = b := by
  have hb := px.byte_lt
  rw [h] at hb
  simp only [List.mem_cons, List.mem_singleton, forall_eq_or_imp, forall_eq] at hb
  simp only [getRed, getGreen, getBlue, PixelFormat.of, toColorT, shiftRight_and_FF,
    shiftRight_and_FF00, shiftRight_and_FF0000, getField_eq_div_mod, pack_eq_leValue, h, leValue]
  omega

theorem pack_lt_maskBits_of_full {P : Pixel} (px : PixelStorage P) (h : maskBits P = 8 * Size P) :
    pack px < 2 ^ maskBits P := by
  rw [h, Nat.pow_mul]
  exact pack_lt px

/-- C13: conversion between layouts of equal channel depth permutes the channels. An RGB8
pixel with storage bytes `[r, g, b]` converts to the BGR8 pixel with storage bytes
`[b, g, r]`, whose red, green and blue are `r`, `g` and `b`; and between any two 8-bit
layouts red, green and blue are kept, and alpha too when both layouts have alpha. -/
theorem convert_equal_depth_permutes (exact : Bool) :
    (∀ (px : PixelStorage Pixel.RGB8) (r g b : Nat), px.p = [r, g, b] →
      (PixelConverter.convert exact Pixel.BGR8 px).p = [b, g, r] ∧
      getRed (PixelConverter.convert exact Pixel.BGR8 px) = r ∧
      getGreen (PixelConverter.convert exact Pixel.BGR8 px) = g ∧
      getBlue (PixelConverter.convert exact Pixel.BGR8 px) = b) ∧
    (∀ (S D : Pixel) (px : PixelStorage S),
      S ∈ [Pixel.RGB8, Pixel.BGR8, Pixel.RGBA8, Pixel.ABGR8, Pixel.BGRA8, Pixel.ARGB8] →
      D ∈ [Pixel.RGB8, Pixel.BGR8, Pixel.RGBA8, Pixel.ABGR8, Pixel.BGRA8, Pixel.ARGB8] →
      getRed (PixelConverter.convert exact D px) = getRed px ∧
      getGreen (PixelConverter.convert exact D px) = getGreen px ∧
      getBlue (PixelConverter.convert exact D px) = getBlue px ∧
      ((PixelFormat.of S).AlphaMask ≠ 0 → (PixelFormat.of D).AlphaMask ≠ 0 →
        getAlpha (PixelConverter.convert exact D px) = getAlpha px)) := by
  constructor
  · intro px r g b h
    obtain ⟨h1, h2, h3⟩ := getters_of_bytes_RGB8 px r g b h
    have c1 := getChannel_convert_of_bits_eq exact Pixel.BGR8 px Channel.red (by decide)
    have c2 := getChannel_convert_of_bits_eq exact Pixel.BGR8 px Channel.green (by decide)
    have c3 := getChannel_convert_of_bits_eq exact Pixel.BGR8 px Channel.blue (by decide)
    have c4 := getChannel_convert_of_bits_eq exact Pixel.BGR8 px Channel.alpha (by decide)
    simp only [getChannel] at c1 c2 c3 c4
    refine ⟨?_, by rw [c1, h1], by rw [c2, h2], by rw [c3, h3]⟩
    have hb := px.byte_lt
    rw [h] at hb
    simp only [List.mem_cons, List.mem_singleton, forall_eq_or_imp, forall_eq] at hb
    have hbytes : ∀ x ∈ [b, g, r], x < 256 := by
      simp only [List.mem_cons, List.mem_singleton, forall_eq_or_imp, forall_eq]
      exact ⟨hb.2.2.1, hb.2.1, hb.1, hb.2.2.2⟩
    let q : PixelStorage Pixel.BGR8 := ⟨[b, g, r], rfl, hbytes⟩
    obtain ⟨q1, q2, q3⟩ := getters_of_bytes_BGR8 q r g b rfl
    have hq : PixelConverter.convert exact Pixel.BGR8 px = q := by
      apply eq_of_getChannel_eq _ _ (pack_convert_lt exact _ px)
        (pack_lt_maskBits_of_full q (by decide))
      intro c
      cases c
      · simp only [getChannel]; rw [c1, h1, q1]
      · simp only [getChannel]; rw [c2, h2, q2]
      · simp only [getChannel]; rw [c3, h3, q3]
      · simp only [getChannel]; rw [c4]
        have a1 := getChannel_alpha_of_no_alpha px rfl
        have a2 := getChannel_alpha_of_no_alpha q rfl
        simp only [getChannel] at a1 a2
        rw [a1, a2]
    rw [hq]
  · intro S D px hS hD
    have hbits : ∀ c : Channel, c ≠ Channel.alpha → bitsOf S c = bitsOf D c := by
      intro c hc
      simp only [List.mem_cons, List.mem_singleton, List.not_mem_nil, or_false] at hS hD
      rcases hS with rfl | rfl | rfl | rfl | rfl | rfl <;>
        rcases hD with rfl | rfl | rfl | rfl | rfl | rfl <;>
        cases c <;> first | exact absurd rfl hc | decide
    refine ⟨getChannel_convert_of_bits_eq exact D px Channel.red (hbits _ (by decide)),
      getChannel_convert_of_bits_eq exact D px Channel.green (hbits _ (by decide)),
      getChannel_convert_of_bits_eq exact D px Channel.blue (hbits _ (by decide)), ?_⟩
    intro hSa hDa
    apply getChannel_convert_of_bits_eq exact D px Channel.alpha
    simp only [List.mem_cons, List.mem_singleton, List.not_mem_nil, or_false] at hS hD
    rcases hS with rfl | rfl | rfl | rfl | rfl | rfl <;>
      rcases hD with rfl | rfl | rfl | rfl | rfl | rfl <;>
      first | exact absurd rfl hSa | exact absurd rfl hDa | decide

/-- Witness for C13: the red RGB8 pixel becomes the BGR8 pixel with bytes `[0, 0, 255]`, and
the RGBA8 pixel packed as `0x04030201` keeps its four channels in ARGB8. -/
theorem convert_equal_depth_permutes_witness :
    ((PixelRGB8 255 0 0).p = [255, 0, 0] ∧
      (PixelConverter.convert false Pixel.BGR8 (PixelRGB8 255 0 0)).p = [0, 0, 255] ∧
      getRed (PixelConverter.convert false Pixel.BGR8 (PixelRGB8 255 0 0)) = 255 ∧
      getGreen (PixelConverter.convert false Pixel.BGR8 (PixelRGB8 255 0 0)) = 0 ∧
      getBlue (PixelConverter.convert false Pixel.BGR8 (PixelRGB8 255 0 0)) = 0) ∧
    (Pixel.RGBA8 ∈ [Pixel.RGB8, Pixel.BGR8, Pixel.RGBA8, Pixel.ABGR8, Pixel.BGRA8, Pixel.ARGB8] ∧
      Pixel.ARGB8 ∈ [Pixel.RGB8, Pixel.BGR8, Pixel.RGBA8, Pixel.ABGR8, Pixel.BGRA8, Pixel.ARGB8] ∧
      (PixelFormat.of Pixel.RGBA8).AlphaMask ≠ 0 ∧ (PixelFormat.of Pixel.ARGB8).AlphaMask ≠ 0 ∧
      getAlpha (PixelConverter.convert true Pixel.ARGB8 (unpack Pixel.RGBA8 0x04030201)) =
        getAlpha (unpack Pixel.RGBA8 0x04030201)) :=
  ⟨⟨by decide,
      (convert_equal_depth_permutes false).1 (PixelRGB8 255 0 0) 255 0 0 (by decide)⟩,
    by decide, by decide, by decide, by decide,
    ((convert_equal_depth_permutes true).2 Pixel.RGBA8 Pixel.ARGB8 (unpack Pixel.RGBA8 0x04030201)
      (by decide) (by decide)).2.2.2 (by decide) (by decide)⟩

/-- C14: in the fast build every converted channel is the source channel shifted right by
`inBits - outBits` when `inBits > outBits` and shifted left by `outBits - inBits` otherwise,
the bit depths being the population counts of the masks. RGB8 to RGB5 maps a channel `c` to
`c >> 3`, RGB5 to RGB8 maps `c` to `c << 3`, so 31 becomes 248. -/
theorem convert_fast_shifts :
    (∀ (S D : Pixel) (px : PixelStorage S) (c : Channel),
      getChannel c (PixelConverter.convert false D px) =
        if Bits.popcount (maskOf S c) > Bits.popcount (maskOf D c) then
          getChannel c px >>> (Bits.popcount (maskOf S c) - Bits.popcount (maskOf D c))
        else getChannel c px <<< (Bits.popcount (maskOf D c) - Bits.popcount (maskOf S c))) ∧
    (∀ px : PixelStorage Pixel.RGB8,
      getRed (PixelConverter.convert false Pixel.RGB5 px) = getRed px >>> 3 ∧
      getGreen (PixelConverter.convert false Pixel.RGB5 px) = getGreen px >>> 3 ∧
      getBlue (PixelConverter.convert false Pixel.RGB5 px) = getBlue px >>> 3) ∧
    (∀ px : PixelStorage Pixel.RGB5,
      getRed (PixelConverter.convert false Pixel.RGB8 px) = getRed px <<< 3 ∧
      getGreen (PixelConverter.convert false Pixel.RGB8 px) = getGreen px <<< 3 ∧
      getBlue (PixelConverter.convert false Pixel.RGB8 px) = getBlue px <<< 3) ∧
    (getRed (unpack Pixel.RGB5 0x7FFF) = 31 ∧
      getRed (PixelConverter.convert false Pixel.RGB8 (unpack Pixel.RGB5 0x7FFF)) = 248) := by
  have main : ∀ (S D : Pixel) (px : PixelStorage S) (c : Channel),
      getChannel c (PixelConverter.convert false D px) =
        if bitsOf S c > bitsOf D c then getChannel c px >>> (bitsOf S c - bitsOf D c)
        else getChannel c px <<< (bitsOf D c - bitsOf S c) := by
    intro S D px c
    rw [getChannel_convert]
    simp [channelScale]
  refine ⟨main, fun px => ⟨?_, ?_, ?_⟩, fun px => ⟨?_, ?_, ?_⟩, by decide, by decide⟩
  · exact main Pixel.RGB8 Pixel.RGB5 px Channel.red
  · exact main Pixel.RGB8 Pixel.RGB5 px Channel.green
  · exact main Pixel.RGB8 Pixel.RGB5 px Channel.blue
  · exact main Pixel.RGB5 Pixel.RGB8 px Channel.red
  · exact main Pixel.RGB5 Pixel.RGB8 px Channel.green
  · exact main Pixel.RGB5 Pixel.RGB8 px Channel.blue

theorem round_natCast_div (a b : Nat) (hb : 0 < b) :
    round ((a : ℚ) / (b : ℚ)) = (((2 * a + b) / (2 * b) : Nat) : Int) := by
  have hb' : (b : ℚ) ≠ 0 := by exact_mod_cast hb.ne'
  have e : (a : ℚ) / (b : ℚ) + 1 / 2 = ((2 * a + b : Nat) : ℚ) / ((2 * b : Nat) : ℚ) := by
    push_cast
    field_simp
    ring
  rw [round_eq, e, Rat.floor_natCast_div_natCast]
  norm_cast

/-- C15: in the exact build every converted channel is
`round(v * (2^outBits - 1) / (2^inBits - 1))` when `inBits > 0` and 0 when `inBits = 0`;
it never exceeds the maximum of the destination channel, 0 maps to 0 and the source
maximum maps to the destination maximum. -/
theorem convert_exact_rounds {S : Pixel} (D : Pixel) (px : PixelStorage S) (c : Channel) :
    ((getChannel c (PixelConverter.convert true D px) : Int) =
      if Bits.popcount (maskOf S c) = 0 then 0
      else round (((getChannel c px * (2 ^ Bits.popcount (maskOf D c) - 1) : Nat) : ℚ) /
        ((2 ^ Bits.popcount (maskOf S c) - 1 : Nat) : ℚ))) ∧
    getChannel c (PixelConverter.convert true D px) ≤ getMaxChannel D c ∧
    (getChannel c px = 0 → getChannel c (PixelConverter.convert true D px) = 0) ∧
    (Bits.popcount (maskOf S c) ≠ 0 → getChannel c px = getMaxChannel S c →
      getChannel c (PixelConverter.convert true D px) = getMaxChannel D c) := by
  have hi := bitsOf_cases S c
  have ho := bitsOf_cases D c
  have hv := getChannel_lt c px
  have hc := convertChannel_eq true 4 (bitsOf S c) (bitsOf D c) (getChannel c px) (Or.inr rfl)
    hi ho hv
  rw [getChannel_convert, getMaxChannel_eq, getMaxChannel_eq]
  change (_ = if bitsOf S c = 0 then _ else
      round (((getChannel c px * (2 ^ bitsOf D c - 1) : Nat) : ℚ) /
        ((2 ^ bitsOf S c - 1 : Nat) : ℚ))) ∧ _ ∧ _ ∧ (bitsOf S c ≠ 0 → _)
  refine ⟨?_, by omega, ?_, ?_⟩
  · by_cases h0 : bitsOf S c = 0
    · simp [channelScale, h0]
    · have hpos : 0 < 2 ^ bitsOf S c - 1 := by
        rcases hi with h | h | h
        · exact absurd h h0
        · rw [h]; decide
        · rw [h]; decide
      rw [if_neg h0, round_natCast_div _ _ hpos]
      simp [channelScale, h0]
  · intro hz
    rw [hz]
    rcases hi with h | h | h <;> rcases ho with h' | h' | h' <;> rw [h, h'] <;> decide
  · intro h0 hmax
    rw [hmax]
    rcases hi with h | h | h <;> rcases ho with h' | h' | h' <;>
      first | exact absurd h h0 | (rw [h, h']; decide)

/-- Witness for C15: the RGB5 pixel packed as `0x001F` (red 31, green 0) converted to RGB8
has red 255 and green 0. -/
theorem convert_exact_rounds_witness :
    (Bits.popcount (maskOf Pixel.RGB5 Channel.red) ≠ 0 ∧
      getChannel Channel.red (unpack Pixel.RGB5 0x001F) = getMaxChannel Pixel.RGB5 Channel.red ∧
      getChannel Channel.red (PixelConverter.convert true Pixel.RGB8 (unpack Pixel.RGB5 0x001F)) =
        getMaxChannel Pixel.RGB8 Channel.red) ∧
    (getChannel Channel.green (unpack Pixel.RGB5 0x001F) = 0 ∧
      getChannel Channel.green
        (PixelConverter.convert true Pixel.RGB8 (unpack Pixel.RGB5 0x001F)) = 0) :=
  ⟨⟨by decide, by decide,
      (convert_exact_rounds Pixel.RGB8 (unpack Pixel.RGB5 0x001F) Channel.red).2.2.2
        (by decide) (by decide)⟩,
    by decide,
    (convert_exact_rounds Pixel.RGB8 (unpack Pixel.RGB5 0x001F) Channel.green).2.2.1
      (by decide)⟩

/-! ## The run-time entry point of the converter -/

theorem convertChannelRT_eq (exact : Bool) (tb v i o : Nat) (htb : tb = 2 ∨ tb = 4)
    (hi : i = 0 ∨ i = 5 ∨ i = 8) (ho : o = 0 ∨ o = 5 ∨ o = 8) (hv : v < 2 ^ i) :
    PixelConverter.convertChannelRT exact tb v i o = channelScale exact i o v := by
  cases exact
  · rcases htb with rfl | rfl <;> rcases hi with rfl | rfl | rfl <;>
      rcases ho with rfl | rfl | rfl <;>
      simp only [PixelConverter.convertChannelRT, channelScale, UnsignedType, Bool.false_eq_true,
        reduceIte, Nat.reduceMul, Nat.reducePow, Nat.reduceSub, Nat.reduceAdd, gt_iff_lt,
        Nat.lt_irrefl, Nat.reduceLT, Nat.not_lt_zero, Nat.shiftLeft_zero, Nat.shiftRight_zero,
        Nat.max_def, Nat.reduceLeDiff] at hv ⊢ <;>
      omega
  · rw [← (convertChannel_eq true tb i o v htb hi ho hv).1]
    by_cases h : i = 0 <;> simp [PixelConverter.convertChannelRT, PixelConverter.convertChannel, h]

theorem convertRT_eq_unpack_assembleValue (exact : Bool) (tb : Nat) (D : Pixel)
    (pixel rm rs gm gs bm bs am as : Nat) :
    PixelConverter.convertRT exact tb D pixel rm rs gm gs bm bs am as =
      unpack D (assembleValue D (8 * Nat.max (convTypeBytes tb (UnsignedType (Size D))) 4)
        (PixelConverter.convertChannelRT exact (convTypeBytes tb (UnsignedType (Size D)))
          ((pixel % 2 ^ (8 * tb) &&& rm % 2 ^ (8 * tb)) >>> rs % 2 ^ (8 * tb))
          (Bits.popcount (rm % 2 ^ (8 * tb))) (bitsOf D Channel.red))
        (PixelConverter.convertChannelRT exact (convTypeBytes tb (UnsignedType (Size D)))
          ((pixel % 2 ^ (8 * tb) &&& gm % 2 ^ (8 * tb)) >>> gs % 2 ^ (8 * tb))
          (Bits.popcount (gm % 2 ^ (8 * tb))) (bitsOf D Channel.green))
        (PixelConverter.convertChannelRT exact (convTypeBytes tb (UnsignedType (Size D)))
          ((pixel % 2 ^ (8 * tb) &&& bm % 2 ^ (8 * tb)) >>> bs % 2 ^ (8 * tb))
          (Bits.popcount (bm % 2 ^ (8 * tb))) (bitsOf D Channel.blue))
        (PixelConverter.convertChannelRT exact (convTypeBytes tb (UnsignedType (Size D)))
          ((pixel % 2 ^ (8 * tb) &&& am % 2 ^ (8 * tb)) >>> as % 2 ^ (8 * tb))
          (Bits.popcount (am % 2 ^ (8 * tb))) (bitsOf D Channel.alpha))) :=
  rfl

theorem maskOf_lt (S : Pixel) (c : Channel) : maskOf S c < 2 ^ (8 * UnsignedType (Size S)) := by
  cases S <;> cases c <;> decide

theorem size_le_unsignedType (S : Pixel) : Size S ≤ UnsignedType (Size S) ∧
    UnsignedType (Size S) ≤ 4 := by
  cases S <;> decide

theorem valueInRT_eq_getChannel {S : Pixel} (tb : Nat) (c : Channel) (px : PixelStorage S)
    (htb : UnsignedType (Size S) ≤ tb) :
    (pack px % 2 ^ (8 * tb) &&& maskOf S c % 2 ^ (8 * tb)) >>> shiftOf S c % 2 ^ (8 * tb) =
      getChannel c px ∧ Bits.popcount (maskOf S c % 2 ^ (8 * tb)) = bitsOf S c := by
  have hs := size_le_unsignedType S
  have hpow : 2 ^ (8 * UnsignedType (Size S)) ≤ 2 ^ (8 * tb) :=
    Nat.pow_le_pow_right (by norm_num) (by omega)
  have h1 : pack px % 2 ^ (8 * tb) = pack px := by
    apply Nat.mod_eq_of_lt
    have : pack px < 2 ^ (8 * Size S) := by
      rw [Nat.pow_mul]
      exact pack_lt px
    exact lt_of_lt_of_le this (Nat.pow_le_pow_right (by norm_num) (by omega))
  have h2 : maskOf S c % 2 ^ (8 * tb) = maskOf S c :=
    Nat.mod_eq_of_lt (lt_of_lt_of_le (maskOf_lt S c) hpow)
  rw [h1, h2, getChannel_eq_getField, maskOf_eq_fieldMask, ← getField]
  refine ⟨Nat.mod_eq_of_lt ?_, ?_⟩
  · have h3 := getField_lt (bitsOf S c) (shiftOf S c) (pack px)
    have h4 : bitsOf S c ≤ 8 * tb := by
      have := (field_fits S c).2.1
      have : packedBits S = 8 * UnsignedType (Size S) := rfl
      omega
    exact lt_of_lt_of_le h3 (Nat.pow_le_pow_right (by norm_num) h4)
  · rw [← maskOf_eq_fieldMask, bitsOf]

theorem convert_eq_scaled (exact : Bool) {S : Pixel} (D : Pixel) (px : PixelStorage S) :
    PixelConverter.convert exact D px =
      unpack D (assembleValue D 32
        (channelScale exact (bitsOf S Channel.red) (bitsOf D Channel.red)
          (getChannel Channel.red px))
        (channelScale exact (bitsOf S Channel.green) (bitsOf D Channel.green)
          (getChannel Channel.green px))
        (channelScale exact (bitsOf S Channel.blue) (bitsOf D Channel.blue)
          (getChannel Channel.blue px))
        (channelScale exact (bitsOf S Channel.alpha) (bitsOf D Channel.alpha)
          (getChannel Channel.alpha px))) := by
  have hconv := convTypeBytes_cases S D
  have hc := fun d : Channel =>
    (convertChannel_eq exact _ (bitsOf S d) (bitsOf D d) (getChannel d px) hconv
      (bitsOf_cases S d) (bitsOf_cases D d) (getChannel_lt d px)).1
  have hw : 8 * Nat.max (convTypeBytes (UnsignedType (Size S)) (UnsignedType (Size D))) 4 = 32 := by
    rcases hconv with h | h <;> rw [h] <;> decide
  rw [convert_eq_unpack_assembleValue]
  simp only [valueIn_eq_getChannel, hc, hw]

theorem convertRT_eq_scaled (exact : Bool) {S : Pixel} (D : Pixel) (px : PixelStorage S)
    (tb : Nat) (htb : tb = 4 ∨ tb = UnsignedType (Size S)) :
    PixelConverter.convertRT exact tb D (pack px)
        (PixelFormat.of S).RedMask (PixelFormat.of S).RedShift
        (PixelFormat.of S).GreenMask (PixelFormat.of S).GreenShift
        (PixelFormat.of S).BlueMask (PixelFormat.of S).BlueShift
        (PixelFormat.of S).AlphaMask (PixelFormat.of S).AlphaShift =
      unpack D (assembleValue D 32
        (channelScale exact (bitsOf S Channel.red) (bitsOf D Channel.red)
          (getChannel Channel.red px))
        (channelScale exact (bitsOf S Channel.green) (bitsOf D Channel.green)
          (getChannel Channel.green px))
        (channelScale exact (bitsOf S Channel.blue) (bitsOf D Channel.blue)
          (getChannel Channel.blue px))
        (channelScale exact (bitsOf S Channel.alpha) (bitsOf D Channel.alpha)
          (getChannel Channel.alpha px))) := by
  have hs := size_le_unsignedType S
  have hle : UnsignedType (Size S) ≤ tb := by rcases htb with h | h <;> omega
  have hconv : convTypeBytes tb (UnsignedType (Size D)) = 2 ∨
      convTypeBytes tb (UnsignedType (Size D)) = 4 := by
    rcases htb with h | h
    · rw [h]; cases D <;> decide
    · rw [h]; exact convTypeBytes_cases S D
  have hin := fun d : Channel => valueInRT_eq_getChannel tb d px hle
  have hc := fun d : Channel =>
    convertChannelRT_eq exact _ (getChannel d px) (bitsOf S d) (bitsOf D d) hconv
      (bitsOf_cases S d) (bitsOf_cases D d) (getChannel_lt d px)
  have hw : 8 * Nat.max (convTypeBytes tb (UnsignedType (Size D))) 4 = 32 := by
    rcases hconv with h | h <;> rw [h] <;> decide
  have r1 := hin Channel.red
  have r2 := hin Channel.green
  have r3 := hin Channel.blue
  have r4 := hin Channel.alpha
  simp only [maskOf, shiftOf] at r1 r2 r3 r4
  rw [convertRT_eq_unpack_assembleValue, hw, r1.1, r1.2, r2.1, r2.2, r3.1, r3.2, r4.1, r4.2,
    hc, hc, hc, hc]

/-- C16: the entry point with run-time masks agrees with the compile-time one. For every
source layout `S`, destination layout `D` and pixel of `S` with packed value `t`,
`convert<D>(t, S masks and shifts)` is the same pixel as `convert<D>(pixel)`, in the fast
and in the exact build, with `T` the 32-bit type of the masks or the packed type of `S`. -/
theorem convertRT_agrees (exact : Bool) {S : Pixel} (D : Pixel) (px : PixelStorage S) :
    PixelConverter.convertRT exact 4 D (pack px)
        (PixelFormat.of S).RedMask (PixelFormat.of S).RedShift
        (PixelFormat.of S).GreenMask (PixelFormat.of S).GreenShift
        (PixelFormat.of S).BlueMask (PixelFormat.of S).BlueShift
        (PixelFormat.of S).AlphaMask (PixelFormat.of S).AlphaShift =
      PixelConverter.convert exact D px ∧
    PixelConverter.convertRT exact (UnsignedType (Size S)) D (pack px)
        (PixelFormat.of S).RedMask (PixelFormat.of S).RedShift
        (PixelFormat.of S).GreenMask (PixelFormat.of S).GreenShift
        (PixelFormat.of S).BlueMask (PixelFormat.of S).BlueShift
        (PixelFormat.of S).AlphaMask (PixelFormat.of S).AlphaShift =
      PixelConverter.convert exact D px := by
  rw [convert_eq_scaled, convertRT_eq_scaled exact D px 4 (Or.inl rfl),
    convertRT_eq_scaled exact D px _ (Or.inr rfl)]
  exact ⟨rfl, rfl⟩

/-! ## Images: conversion -/

theorem operatorAssign_eq {P : Pixel} (t : PixelStorage P) : operatorAssign t = t :=
  unpack_pack t

theorem toU32_of_lt {x : Nat} (h : x < 2 ^ 32) : toU32 x = x := Nat.mod_eq_of_lt h

theorem vectorAt_of_lt {α : Type} (data : List α) (i : Nat) (h : i < data.length) :
    vectorAt data i = Except.ok (data.get ⟨i, h⟩) := by
  simp [vectorAt, List.getElem?_eq_getElem h]

theorem vectorSet_of_lt {P : Pixel} (data : List (PixelStorage P)) (i : Nat)
    (v : PixelStorage P) (h : i < data.length) :
    vectorSet data i v = Except.ok (data.set i v) := by
  simp [vectorSet, h, operatorAssign_eq]

theorem take_succ_set {α : Type} (acc : List α) (i : Nat) (v : α) (h : i < acc.length) :
    (acc.set i v).take (i + 1) = acc.take i ++ [v] := by
  induction acc generalizing i with
  | nil => simp at h
  | cons a t ih =>
    cases i with
    | zero => simp
    | succ j =>
      have hj : j < t.length := by simpa using h
      simp only [List.set_cons_succ, List.take_succ_cons, List.cons_append, ih j hj]

theorem convertTo_loop {P : Pixel} (exact : Bool) (Q : Pixel) (src : List (PixelStorage P))
    (w h : Nat) :
    ∀ (k i : Nat) (acc : List (PixelStorage Q)), acc.length = src.length →
      i + k = src.length →
      forLoop
          (fun i (image : Image Q) => do
            let pixel ← vectorAt src i
            let data ← vectorSet image.data i
              (PixelFormat.deflate exact Q (PixelFormat.inflate pixel))
            pure { image with data := data })
          k i { width := w, height := h, data := acc } =
        Except.ok { width := w, height := h,
                    data := acc.take i ++ (src.drop i).map (PixelConverter.convert exact Q) } := by
  intro k
  induction k with
  | zero =>
    intro i acc hacc hi
    have e1 : acc.take i = acc := List.take_of_length_le (by omega)
    have e2 : src.drop i = [] := List.drop_of_length_le (by omega)
    simp [forLoop, e1, e2]
  | succ k ih =>
    intro i acc hacc hi
    have hlt : i < src.length := by omega
    have hlt2 : i < acc.length := by omega
    have hstep : (do
        let pixel ← vectorAt src i
        let data ← vectorSet acc i (PixelFormat.deflate exact Q (PixelFormat.inflate pixel))
        pure ({ width := w, height := h, data := data } : Image Q)) =
        Except.ok { width := w, height := h,
                    data := acc.set i (PixelConverter.convert exact Q (src.get ⟨i, hlt⟩)) } := by
      rw [vectorAt_of_lt src i hlt]
      show (do
        let data ← vectorSet acc i (PixelFormat.deflate exact Q
          (PixelFormat.inflate (src.get ⟨i, hlt⟩)))
        pure ({ width := w, height := h, data := data } : Image Q)) = _
      rw [vectorSet_of_lt _ _ _ hlt2]
      rfl
    rw [forLoop]
    simp only [hstep]
    have e : (src.drop i).map (PixelConverter.convert exact Q) =
        PixelConverter.convert exact Q (src.get ⟨i, hlt⟩) ::
          (src.drop (i + 1)).map (PixelConverter.convert exact Q) := by
      rw [List.drop_eq_getElem_cons hlt]
      rfl
    rw [ih (i + 1) _ (by simp [hacc]) (by omega), take_succ_set _ _ _ hlt2, e,
      List.append_assoc]
    rfl

/-- C17: for every image `img` of layout `P` (its members being `u32` values and its buffer
holding `u32(width * height)` pixels, as every constructor leaves it) and every layout `Q`,
in both conversion modes, `img.convertTo<Q>()` returns an image with the width and height of
`img` whose buffer is the buffer of `img` with `PixelConverter::convert<Q>` applied to the
pixel at every index. The member is `const`: `img` is only read, which the embedding shows by
`img` being an argument that no result replaces. -/
theorem convertTo_converts_every_pixel {P : Pixel} (exact : Bool) (img : Image P) (Q : Pixel)
    (hw : img.width < 2 ^ 32) (hh : img.height < 2 ^ 32)
    (hdata : img.data.length = toU32 (img.width * img.height)) :
    Image.convertTo exact img Q =
      Except.ok { width := img.width, height := img.height,
                  data := img.data.map (PixelConverter.convert exact Q) } ∧
    ∀ (i : Nat) (hi : i < img.data.length),
      (img.data.map (PixelConverter.convert exact Q)).get? i =
        some (PixelConverter.convert exact Q (img.data.get ⟨i, hi⟩)) := by
  refine ⟨?_, ?_⟩
  · simp only [Image.convertTo, Image.ofSize, toU32_of_lt hw, toU32_of_lt hh]
    rw [convertTo_loop exact Q img.data img.width img.height _ 0 _ (by simp [hdata])
      (by simp [hdata])]
    simp
  · intro i hi
    simp [List.getElem?_eq_getElem hi]

/-- Witness for C17: the 2 x 1 RGB8 image with pixels (255, 128, 7) and (1, 2, 3), converted
to RGB5 in the exact mode. -/
theorem convertTo_converts_every_pixel_witness :
    (2 : Nat) < 2 ^ 32 ∧ (1 : Nat) < 2 ^ 32 ∧
    ([PixelRGB8 255 128 7, PixelRGB8 1 2 3] : List (PixelStorage Pixel.RGB8)).length =
      toU32 (2 * 1) ∧
    Image.convertTo true
        ({ width := 2, height := 1, data := [PixelRGB8 255 128 7, PixelRGB8 1 2 3] } :
          Image Pixel.RGB8) Pixel.RGB5 =
      Except.ok { width := 2, height := 1,
                  data := [PixelRGB8 255 128 7, PixelRGB8 1 2 3].map
                    (PixelConverter.convert true Pixel.RGB5) } ∧
    ∀ (i : Nat) (hi : i < [PixelRGB8 255 128 7, PixelRGB8 1 2 3].length),
      ([PixelRGB8 255 128 7, PixelRGB8 1 2 3].map
          (PixelConverter.convert true Pixel.RGB5)).get? i =
        some (PixelConverter.convert true Pixel.RGB5
          ([PixelRGB8 255 128 7, PixelRGB8 1 2 3].get ⟨i, hi⟩)) :=
  ⟨by decide, by decide, by decide,
    convertTo_converts_every_pixel true
      ({ width := 2, height := 1, data := [PixelRGB8 255 128 7, PixelRGB8 1 2 3] } :
        Image Pixel.RGB8) Pixel.RGB5 (by decide) (by decide) (by decide)⟩


/-! ## Images: raw data -/

/-- C18: `setRawData` takes the number of pixels to copy from the image's own buffer,
`data.size() / PixelBytes`, and its assertion compares that number with `data.size()`; the
length of the byte source is never read. On the 2 x 1 RGB8 image (two pixels, three bytes
each) the number is `2 / 3 = 0`: whatever `fromBytes` is, the call with the six bytes
`1, 2, 3, 4, 5, 6` and start 0 succeeds and leaves both pixels as they were, and the call
with no bytes at all succeeds as well. On the 3 x 2 image the call with no bytes does not fail
either. -/
theorem setRawData_ignores_source
    (fromBytes : List (PixelStorage Pixel.RGB8) → List Nat → PixelStorage Pixel.RGB8) :
    Image.setRawData false fromBytes (Image.ofSize Pixel.RGB8 2 1) [1, 2, 3, 4, 5, 6] 0 =
      Except.ok (Image.ofSize Pixel.RGB8 2 1) ∧
    Image.setRawData false fromBytes (Image.ofSize Pixel.RGB8 2 1) [] 0 =
      Except.ok (Image.ofSize Pixel.RGB8 2 1) ∧
    (Image.ofSize Pixel.RGB8 2 1).data = [PixelRGB8 0 0 0, PixelRGB8 0 0 0] ∧
    ∃ img', Image.setRawData false fromBytes (Image.ofSize Pixel.RGB8 3 2) [] 0 =
      Except.ok img' :=
  ⟨rfl, rfl, by decide, _, rfl⟩

/-! ## Images: pixel access -/

theorem index_lt {w h x y : Nat} (hx : x < w) (hy : y < h) : y * w + x < w * h := by
  have h1 : (y + 1) * w ≤ h * w := Nat.mul_le_mul_right w hy
  have h2 : (y + 1) * w = y * w + w := by ring
  have h3 : h * w = w * h := Nat.mul_comm _ _
  omega

theorem index_injective {w x y x' y' : Nat} (hx : x < w) (hx' : x' < w)
    (h : y' * w + x' = y * w + x) : x' = x ∧ y' = y := by
  have e1 : (y' * w + x') % w = x' := by
    rw [Nat.add_comm, Nat.add_mul_mod_self_right, Nat.mod_eq_of_lt hx']
  have e2 : (y * w + x) % w = x := by
    rw [Nat.add_comm, Nat.add_mul_mod_self_right, Nat.mod_eq_of_lt hx]
  have hxx : x' = x := by rw [← e1, ← e2, h]
  subst hxx
  have hw : 0 < w := by omega
  have : y' * w = y * w := by omega
  exact ⟨rfl, Nat.eq_of_mul_eq_mul_right hw this⟩

theorem getPixel_of_lt {P : Pixel} (ndebug : Bool) (img : Image P) (x y : Nat)
    (hfit : img.width * img.height < 2 ^ 32) (hx : x < img.width) (hy : y < img.height) :
    Image.getPixel ndebug img x y = vectorAt img.data (y * img.width + x) := by
  have hi := index_lt hx hy
  have hw : img.width ≤ img.width * img.height := Nat.le_mul_of_pos_right _ (by omega)
  have hh : img.height ≤ img.width * img.height := Nat.le_mul_of_pos_left _ (by omega)
  have e1 : toU32 x = x := toU32_of_lt (by omega)
  have e2 : toU32 y = y := toU32_of_lt (by omega)
  have e3 : toU32 (y * img.width + x) = y * img.width + x := toU32_of_lt (by omega)
  simp only [Image.getPixel, e1, e2, e3, hx, hy, arc_assert, __arc_assert, decide_True,
    Bool.and_self, Bool.not_true]
  cases ndebug <;> rfl

theorem setPixel_of_lt {P : Pixel} (ndebug : Bool) (img : Image P) (x y : Nat)
    (v : PixelStorage P) (hdata : img.data.length = img.width * img.height)
    (hfit : img.width * img.height < 2 ^ 32) (hx : x < img.width) (hy : y < img.height) :
    Image.setPixel ndebug img x y v =
      Except.ok { img with data := img.data.set (y * img.width + x) v } := by
  have hi := index_lt hx hy
  have hw : img.width ≤ img.width * img.height := Nat.le_mul_of_pos_right _ (by omega)
  have hh : img.height ≤ img.width * img.height := Nat.le_mul_of_pos_left _ (by omega)
  have e1 : toU32 x = x := toU32_of_lt (by omega)
  have e2 : toU32 y = y := toU32_of_lt (by omega)
  have e3 : toU32 (y * img.width + x) = y * img.width + x := toU32_of_lt (by omega)
  have hlt : y * img.width + x < img.data.length := by omega
  simp only [Image.setPixel, e1, e2, e3, hx, hy, arc_assert, __arc_assert, decide_True,
    Bool.and_self, Bool.not_true, vectorSet, hlt, operatorAssign_eq]
  cases ndebug <;> rfl

/-- C19, counterexample: the image built by `Image(4294967295, 4294967295)` holds one pixel,
because `width * height` is computed in 32 bits; `setPixel(1, 1, v)` passes the bounds
assertion and writes that pixel, so `getPixel(0, 0)` no longer reads as before. -/
theorem setPixel_overflow_counterexample :
    (Image.ofSize Pixel.RGB8 4294967295 4294967295).data.length = 1 ∧
    Image.getPixel false (Image.ofSize Pixel.RGB8 4294967295 4294967295) 0 0 =
      Except.ok (PixelRGB8 0 0 0) ∧
    Image.setPixel false (Image.ofSize Pixel.RGB8 4294967295 4294967295) 1 1 (PixelRGB8 9 9 9) =
      Except.ok { width := 4294967295, height := 4294967295, data := [PixelRGB8 9 9 9] } ∧
    Image.getPixel false
        { width := 4294967295, height := 4294967295, data := [PixelRGB8 9 9 9] } 0 0 =
      Except.ok (PixelRGB8 9 9 9) ∧
    PixelRGB8 9 9 9 ≠ PixelRGB8 0 0 0 := by
  refine ⟨by decide, rfl, rfl, rfl, by decide⟩

/-- C19, amended: for every image whose buffer holds `width * height` pixels with
`width * height` below `2^32`, and all `x < width`, `y < height`: `setPixel(x, y, v)`
succeeds, afterwards `getPixel(x, y)` is `v`, the element at row-major index
`y * width + x` is `v`, every other in-range pixel reads as before, and width and height
are unchanged. -/
theorem setPixel_getPixel {P : Pixel} (ndebug : Bool) (img : Image P) (x y : Nat)
    (v : PixelStorage P) (hdata : img.data.length = img.width * img.height)
    (hfit : img.width * img.height < 2 ^ 32) (hx : x < img.width) (hy : y < img.height) :
    ∃ img' : Image P, Image.setPixel ndebug img x y v = Except.ok img' ∧
      Image.getPixel ndebug img' x y = Except.ok v ∧
      img'.data.get? (y * img.width + x) = some v ∧
      (∀ x' y' : Nat, x' < img.width → y' < img.height → (x', y') ≠ (x, y) →
        Image.getPixel ndebug img' x' y' = Image.getPixel ndebug img x' y') ∧
      img'.width = img.width ∧ img'.height = img.height := by
  have hi := index_lt hx hy
  have hlt : y * img.width + x < img.data.length := by omega
  refine ⟨{ img with data := img.data.set (y * img.width + x) v },
    setPixel_of_lt ndebug img x y v hdata hfit hx hy, ?_, ?_, ?_, rfl, rfl⟩
  · rw [getPixel_of_lt ndebug
      { img with data := img.data.set (y * img.width + x) v } x y hfit hx hy]
    simp [vectorAt, hlt]
  · simp [hlt]
  · intro x' y' hx' hy' hne
    rw [getPixel_of_lt ndebug
      { img with data := img.data.set (y * img.width + x) v } x' y' hfit hx' hy',
      getPixel_of_lt ndebug img x' y' hfit hx' hy']
    have hidx : y * img.width + x ≠ y' * img.width + x' := by
      intro h
      obtain ⟨h1, h2⟩ := index_injective hx hx' h.symm
      exact hne (by rw [h1, h2])
    simp [vectorAt, List.getElem?_set_ne hidx]

/-- Witness for C19: the 2 x 2 RGB8 image, pixel (1, 0). -/
theorem setPixel_getPixel_witness :
    (Image.ofSize Pixel.RGB8 2 2).data.length =
      (Image.ofSize Pixel.RGB8 2 2).width * (Image.ofSize Pixel.RGB8 2 2).height ∧
    (Image.ofSize Pixel.RGB8 2 2).width * (Image.ofSize Pixel.RGB8 2 2).height < 2 ^ 32 ∧
    1 < (Image.ofSize Pixel.RGB8 2 2).width ∧ 0 < (Image.ofSize Pixel.RGB8 2 2).height ∧
    ∃ img' : Image Pixel.RGB8,
      Image.setPixel false (Image.ofSize Pixel.RGB8 2 2) 1 0 (PixelRGB8 9 9 9) = Except.ok img' ∧
      Image.getPixel false img' 1 0 = Except.ok (PixelRGB8 9 9 9) ∧
      img'.data.get? (0 * (Image.ofSize Pixel.RGB8 2 2).width + 1) = some (PixelRGB8 9 9 9) ∧
      (∀ x' y' : Nat, x' < (Image.ofSize Pixel.RGB8 2 2).width →
        y' < (Image.ofSize Pixel.RGB8 2 2).height → (x', y') ≠ (1, 0) →
        Image.getPixel false img' x' y' =
          Image.getPixel false (Image.ofSize Pixel.RGB8 2 2) x' y') ∧
      img'.width = (Image.ofSize Pixel.RGB8 2 2).width ∧
      img'.height = (Image.ofSize Pixel.RGB8 2 2).height :=
  ⟨by decide, by decide, by decide, by decide,
    setPixel_getPixel false (Image.ofSize Pixel.RGB8 2 2) 1 0 (PixelRGB8 9 9 9)
      (by decide) (by decide) (by decide) (by decide)⟩

/-! ## Images: bounds checks -/

/-- C26: for each of the eight layout descriptors the four channel masks are pairwise
disjoint, their union fits in the low `8 * BytesPerPixel` bits, a channel whose mask is 0 has
shift 0, the mask of a channel is 0 exactly when the channel holds no bit and no value
(depth 0, maximum 0), and `Channels` is the number of non-zero masks. -/
theorem layout_descriptor_invariants (P : Pixel) :
    ((PixelFormat.of P).RedMask &&& (PixelFormat.of P).GreenMask = 0 ∧
      (PixelFormat.of P).RedMask &&& (PixelFormat.of P).BlueMask = 0 ∧
      (PixelFormat.of P).RedMask &&& (PixelFormat.of P).AlphaMask = 0 ∧
      (PixelFormat.of P).GreenMask &&& (PixelFormat.of P).BlueMask = 0 ∧
      (PixelFormat.of P).GreenMask &&& (PixelFormat.of P).AlphaMask = 0 ∧
      (PixelFormat.of P).BlueMask &&& (PixelFormat.of P).AlphaMask = 0) ∧
    ((PixelFormat.of P).RedMask ||| (PixelFormat.of P).GreenMask |||
      (PixelFormat.of P).BlueMask ||| (PixelFormat.of P).AlphaMask) <
        2 ^ (8 * (PixelFormat.of P).BytesPerPixel) ∧
    (∀ c : Channel, maskOf P c = 0 → shiftOf P c = 0) ∧
    (∀ c : Channel, (maskOf P c = 0 ↔ Bits.popcount (maskOf P c) = 0) ∧
      (maskOf P c = 0 ↔ getMaxChannel P c = 0)) ∧
    (PixelFormat.of P).Channels =
      ([(PixelFormat.of P).RedMask, (PixelFormat.of P).GreenMask, (PixelFormat.of P).BlueMask,
        (PixelFormat.of P).AlphaMask].filter (fun m => m ≠ 0)).length ∧
    ((PixelFormat.of P).BytesPerPixel ∈ [2, 3, 4] ∧ (PixelFormat.of P).Channels ∈ [3, 4]) := by
  refine ⟨?_, ?_, ?_, ?_, ?_, ?_⟩
  · cases P <;> decide
  · cases P <;> decide
  · intro c; cases P <;> cases c <;> decide
  · intro c; cases P <;> cases c <;> decide
  · cases P <;> decide
  · cases P <;> decide

/-- Witness for C26: the alpha channel of RGB8 has mask 0 and shift 0. -/
theorem layout_descriptor_invariants_witness :
    maskOf Pixel.RGB8 Channel.alpha = 0 ∧ shiftOf Pixel.RGB8 Channel.alpha = 0 :=
  ⟨by decide, (layout_descriptor_invariants Pixel.RGB8).2.2.1 Channel.alpha (by decide)⟩

/-- C27: for each of the four layouts with alpha the default-constructed pixel has alpha
`getMaxAlpha() = 255` and red, green and blue 0, whereas the default-constructed RGB8 pixel,
which is all zero, converted to that layout has alpha 0, in the fast and in the exact build;
so the two pixels differ. -/
theorem default_alpha_differs_from_converted (exact : Bool) (D : Pixel)
    (hD : D ∈ [Pixel.RGBA8, Pixel.ABGR8, Pixel.BGRA8, Pixel.ARGB8]) :
    getAlpha (PixelType.default D) = getMaxAlpha D ∧ getMaxAlpha D = 255 ∧
    getRed (PixelType.default D) = 0 ∧ getGreen (PixelType.default D) = 0 ∧
    getBlue (PixelType.default D) = 0 ∧
    pack (PixelType.default Pixel.RGB8) = 0 ∧
    getAlpha (PixelConverter.convert exact D (PixelType.default Pixel.RGB8)) = 0 ∧
    PixelConverter.convert exact D (PixelType.default Pixel.RGB8) ≠ PixelType.default D := by
  simp only [List.mem_cons, List.mem_singleton, List.not_mem_nil, or_false] at hD
  rcases hD with rfl | rfl | rfl | rfl <;> cases exact <;> decide

/-- Witness for C27: the layout ARGB8 in the exact build. -/
theorem default_alpha_differs_from_converted_witness :
    Pixel.ARGB8 ∈ [Pixel.RGBA8, Pixel.ABGR8, Pixel.BGRA8, Pixel.ARGB8] ∧
    getAlpha (PixelType.default Pixel.ARGB8) = getMaxAlpha Pixel.ARGB8 ∧
    getMaxAlpha Pixel.ARGB8 = 255 ∧
    getRed (PixelType.default Pixel.ARGB8) = 0 ∧ getGreen (PixelType.default Pixel.ARGB8) = 0 ∧
    getBlue (PixelType.default Pixel.ARGB8) = 0 ∧
    pack (PixelType.default Pixel.RGB8) = 0 ∧
    getAlpha (PixelConverter.convert true Pixel.ARGB8 (PixelType.default Pixel.RGB8)) = 0 ∧
    PixelConverter.convert true Pixel.ARGB8 (PixelType.default Pixel.RGB8) ≠
      PixelType.default Pixel.ARGB8 :=
  ⟨by decide, default_alpha_differs_from_converted true Pixel.ARGB8 (by decide)⟩

theorem leValue_eq_sum (p : List Nat) :
    leValue p = ∑ i in Finset.range p.length, p.getD i 0 * 256 ^ i := by
  induction p with
  | nil => simp [leValue]
  | cons b bs ih =>
    rw [leValue, ih, List.length_cons, Finset.sum_range_succ', Finset.mul_sum]
    simp only [List.getD_cons_succ, List.getD_cons_zero, pow_zero, mul_one, pow_succ]
    rw [Nat.add_comm]
    congr 1
    apply Finset.sum_congr rfl
    intro i _
    ring

/-- C28: storage is little-endian and byte-exact. For every layout, of byte width `B`, and
every sequence `d` of at least `B` bytes, the pixel constructed from `d` has storage byte `i`
equal to `d[i]` for every `i < B`, and its `pack()` is the sum over `i < B` of
`d[i] * 256^i`; byte 0 is the remainder of `pack()` modulo 256. -/
theorem ofSpan_little_endian (P : Pixel) (d : List Nat) (hlen : Size P ≤ d.length)
    (hbyte : ∀ b ∈ d, b < 256) :
    ∃ px : PixelStorage P, PixelStorage.ofSpan P d = Except.ok px ∧
      px.p = d.take (Size P) ∧
      (∀ i, i < Size P → px.p.get? i = d.get? i) ∧
      pack px = ∑ i in Finset.range (Size P), d.getD i 0 * 256 ^ i ∧
      pack px % 256 = d.getD 0 0 := by
  have hp : (d.take (Size P)).map toColorT = d.take (Size P) := by
    conv_rhs => rw [← List.map_id (d.take (Size P))]
    apply List.map_congr_left
    intro b hb
    exact Nat.mod_eq_of_lt (hbyte b (List.mem_of_mem_take hb))
  have hget : ∀ i, i < Size P → (d.take (Size P)).getD i 0 = d.getD i 0 := by
    intro i hi
    simp [List.getD_eq_getElem?_getD, List.getElem?_take, hi]
  have hsum : ∀ px : PixelStorage P, px.p = d.take (Size P) →
      pack px = ∑ i in Finset.range (Size P), d.getD i 0 * 256 ^ i := by
    intro px hpx
    rw [pack_eq_leValue, leValue_eq_sum, px.size_eq, hpx]
    apply Finset.sum_congr rfl
    intro i hi
    rw [hget i (Finset.mem_range.mp hi)]
  refine ⟨⟨d.take (Size P), by simp [hlen], fun b hb => hbyte b (List.mem_of_mem_take hb)⟩,
    ?_, rfl, ?_, hsum _ rfl, ?_⟩
  · simp only [PixelStorage.ofSpan, hlen, dite_true]
    congr 1
    exact PixelStorage.ext_p hp
  · intro i hi
    simp [List.getElem?_take, hi]
  · rw [pack_eq_leValue]
    have hpos : 0 < Size P := by cases P <;> decide
    cases d with
    | nil => simp at hlen; omega
    | cons b bs =>
      obtain ⟨n, hn⟩ : ∃ n, Size P = n + 1 := ⟨Size P - 1, by omega⟩
      have hb := hbyte b (List.mem_cons_self _ _)
      simp only [hn, List.take_succ_cons, leValue, List.getD_cons_zero]
      omega

/-- Witness for C28: the RGB5 pixel built from the bytes `0x34, 0x12, 0xFF`. -/
theorem ofSpan_little_endian_witness :
    Size Pixel.RGB5 ≤ [0x34, 0x12, 0xFF].length ∧ (∀ b ∈ [0x34, 0x12, 0xFF], b < 256) ∧
    ∃ px : PixelStorage Pixel.RGB5,
      PixelStorage.ofSpan Pixel.RGB5 [0x34, 0x12, 0xFF] = Except.ok px ∧
      px.p = [0x34, 0x12, 0xFF].take (Size Pixel.RGB5) ∧
      (∀ i, i < Size Pixel.RGB5 → px.p.get? i = [0x34, 0x12, 0xFF].get? i) ∧
      pack px = ∑ i in Finset.range (Size Pixel.RGB5), [0x34, 0x12, 0xFF].getD i 0 * 256 ^ i ∧
      pack px % 256 = [0x34, 0x12, 0xFF].getD 0 0 :=
  ⟨by decide, by decide,
    ofSpan_little_endian Pixel.RGB5 [0x34, 0x12, 0xFF] (by decide) (by decide)⟩

/-- C29: the channel setters do not mask an oversized value. On the all-zero RGB5 pixel
`setRed(32)` leaves `getRed()` at 0 and makes `getGreen()` 1, so a value above 31 changes the
adjacent channel (in BGR5, where red is the topmost field, `setRed(32)` sets the unused bit 15
and it is `setBlue(32)` that makes `getGreen()` 1); and for both 5-bit layouts, every pixel `p` and every `u8` value `v`, the
packed value after `setRed(v)` is `(pack(p) & ~RedMask) | (v << RedShift)` truncated to the
16 bits of the packed type. -/
theorem setRed_does_not_mask :
    (getRed (setRed (unpack Pixel.RGB5 0) 32) = 0 ∧
      getGreen (setRed (unpack Pixel.RGB5 0) 32) = 1 ∧
      getGreen (unpack Pixel.RGB5 0) = 0 ∧ 32 > getMaxRed Pixel.RGB5) ∧
    (pack (setRed (unpack Pixel.BGR5 0) 32) = 0x8000 ∧
      getGreen (setBlue (unpack Pixel.BGR5 0) 32) = 1 ∧
      getBlue (setBlue (unpack Pixel.BGR5 0) 32) = 0 ∧ 32 > getMaxBlue Pixel.BGR5) ∧
    (∀ (px : PixelStorage Pixel.RGB5) (v : Nat), v < 256 →
      pack (setRed px v) =
        ((pack px &&& not32 (PixelFormat.of Pixel.RGB5).RedMask) |||
          v <<< (PixelFormat.of Pixel.RGB5).RedShift) % 2 ^ 16) ∧
    (∀ (px : PixelStorage Pixel.BGR5) (v : Nat), v < 256 →
      pack (setRed px v) =
        ((pack px &&& not32 (PixelFormat.of Pixel.BGR5).RedMask) |||
          v <<< (PixelFormat.of Pixel.BGR5).RedShift) % 2 ^ 16) := by
  have key : ∀ a b : Nat, (a % 65536 ||| b) % 65536 = (a ||| b) % 65536 := by
    intro a b
    rw [show (65536 : Nat) = 2 ^ 16 from rfl]
    apply Nat.eq_of_testBit_eq
    intro i
    simp only [Nat.testBit_mod_two_pow, Nat.testBit_or]
    by_cases h : i < 16 <;> simp [h]
  refine ⟨by decide, by decide, ?_, ?_⟩
  · intro px v hv
    rw [setRed, pack_unpack_pow]
    simp only [toPackedT, packedBits, Size, PixelFormat.of, UnsignedType, toColorT,
      Nat.mod_eq_of_lt hv]
    norm_num
    exact key _ _
  · intro px v hv
    rw [setRed, pack_unpack_pow]
    simp only [toPackedT, packedBits, Size, PixelFormat.of, UnsignedType, toColorT,
      Nat.mod_eq_of_lt hv]
    norm_num
    exact key _ _

/-- Witness for C29: the RGB5 pixel packed as `0x7FFF` and the value 33. -/
theorem setRed_does_not_mask_witness :
    (33 : Nat) < 256 ∧
    pack (setRed (unpack Pixel.RGB5 0x7FFF) 33) =
      ((pack (unpack Pixel.RGB5 0x7FFF) &&& not32 (PixelFormat.of Pixel.RGB5).RedMask) |||
        33 <<< (PixelFormat.of Pixel.RGB5).RedShift) % 2 ^ 16 :=
  ⟨by decide, setRed_does_not_mask.2.2.1 (unpack Pixel.RGB5 0x7FFF) 33 (by decide)⟩

/-! ## Rounding to a floating-point format -/

theorem log2Aux_spec : ∀ (fuel n : Nat), n ≤ fuel → 0 < n →
    2 ^ log2Aux fuel n ≤ n ∧ n < 2 ^ (log2Aux fuel n + 1) := by
  intro fuel
  induction fuel with
  | zero => intro n h1 h2; omega
  | succ fuel ih =>
    intro n h1 h2
    rw [log2Aux]
    by_cases h : n ≥ 2
    · simp only [h, if_true]
      have := ih (n / 2) (by omega) (by omega)
      rw [pow_succ, pow_succ]
      omega
    · simp only [h, if_false]
      omega

theorem log2Floor_spec (n : Nat) (h : 0 < n) :
    2 ^ log2Floor n ≤ n ∧ n < 2 ^ (log2Floor n + 1) :=
  log2Aux_spec n n (Nat.le_refl n) h

theorem two_zpow_pos (e : ℤ) : (0 : ℚ) < 2 ^ e := zpow_pos (by norm_num) e

theorem zpow_toNat_sub (x y : ℤ) :
    (2 : ℚ) ^ ((x - y).toNat) / 2 ^ ((y - x).toNat) = 2 ^ (x - y) := by
  rcases le_total y x with h | h
  · have h1 : (y - x).toNat = 0 := Int.toNat_eq_zero.mpr (by omega)
    have h2 : ((x - y).toNat : ℤ) = x - y := Int.toNat_of_nonneg (by omega)
    rw [h1, pow_zero, div_one, ← zpow_natCast, h2]
  · have h1 : (x - y).toNat = 0 := Int.toNat_eq_zero.mpr (by omega)
    have h2 : ((y - x).toNat : ℤ) = y - x := Int.toNat_of_nonneg (by omega)
    rw [h1, pow_zero, ← zpow_natCast, h2, one_div, ← zpow_neg]
    congr 1
    omega

/-- The comparison of the scaled numerator and denominator that picks the exponent. -/
theorem scaled_ge_iff (a b : Nat) (hb : 0 < b) (s e0 : ℤ) :
    a * 2 ^ (s - e0).toNat ≥ b * 2 ^ (e0 - s).toNat ↔
      (2 : ℚ) ^ e0 ≤ (a : ℚ) / b * 2 ^ s := by
  have hb' : (0 : ℚ) < b := by exact_mod_cast hb
  have h1 : (0 : ℚ) < 2 ^ (e0 - s).toNat := pow_pos (by norm_num) _
  have h2 : (0 : ℚ) < 2 ^ (s - e0).toNat := pow_pos (by norm_num) _
  have key := zpow_toNat_sub s e0
  have e : (2 : ℚ) ^ s = 2 ^ (s - e0) * 2 ^ e0 := by
    rw [← zpow_add₀ (by norm_num : (2 : ℚ) ≠ 0)]
    congr 1
    omega
  rw [ge_iff_le, ← Nat.cast_le (α := ℚ)]
  push_cast
  rw [e, ← key]
  have h3 := two_zpow_pos e0
  generalize (2 : ℚ) ^ (s - e0).toNat = X at *
  generalize (2 : ℚ) ^ (e0 - s).toNat = Y at *
  generalize (2 : ℚ) ^ e0 = Z at *
  have hbY : (0 : ℚ) < b * Y := mul_pos hb' h1
  rw [show (a : ℚ) / b * (X / Y * Z) = (a * X) / (b * Y) * Z by field_simp; ring,
    le_mul_iff_one_le_left h3, one_le_div hbY]


theorem log_two_eq {q : ℚ} {E : ℤ} (h1 : (2 : ℚ) ^ E ≤ q) (h2 : q < 2 ^ (E + 1)) :
    Int.log 2 q = E := by
  have hq : 0 < q := lt_of_lt_of_le (two_zpow_pos E) h1
  have a1 : E ≤ Int.log 2 q := by
    rw [← Int.zpow_le_iff_le_log (by norm_num) hq]
    exact_mod_cast h1
  have a2 : Int.log 2 q < E + 1 := by
    rw [← Int.lt_zpow_iff_log_lt (by norm_num) hq]
    exact_mod_cast h2
  omega

theorem zpow_log_le {q : ℚ} (hq : 0 < q) : (2 : ℚ) ^ Int.log 2 q ≤ q := by
  have := Int.zpow_log_le_self (b := 2) (by norm_num) hq
  exact_mod_cast this

theorem lt_zpow_log_succ (q : ℚ) : q < (2 : ℚ) ^ (Int.log 2 q + 1) := by
  have := Int.lt_zpow_succ_log_self (b := 2) (by norm_num) q
  exact_mod_cast this

/-- The exponent that `FP.round` computes before clamping is the binary logarithm of the
value to be rounded. -/
theorem round_exponent (a b : Nat) (ha : 0 < a) (hb : 0 < b) (s : ℤ) :
    (if a * 2 ^ (s - ((log2Floor a : ℤ) - (log2Floor b : ℤ) + s)).toNat ≥
        b * 2 ^ (((log2Floor a : ℤ) - (log2Floor b : ℤ) + s) - s).toNat
      then (log2Floor a : ℤ) - (log2Floor b : ℤ) + s
      else (log2Floor a : ℤ) - (log2Floor b : ℤ) + s - 1) =
    Int.log 2 ((a : ℚ) / b * 2 ^ s) := by
  obtain ⟨la1, la2⟩ := log2Floor_spec a ha
  obtain ⟨lb1, lb2⟩ := log2Floor_spec b hb
  have ha' : (0 : ℚ) < a := by exact_mod_cast ha
  have hb' : (0 : ℚ) < b := by exact_mod_cast hb
  have qa1 : (2 : ℚ) ^ (log2Floor a : ℤ) ≤ a := by rw [zpow_natCast]; exact_mod_cast la1
  have qa2 : (a : ℚ) < 2 ^ ((log2Floor a : ℤ) + 1) := by
    rw [show ((log2Floor a : ℤ) + 1) = ((log2Floor a + 1 : ℕ) : ℤ) by push_cast; rfl, zpow_natCast]
    exact_mod_cast la2
  have qb1 : (2 : ℚ) ^ (log2Floor b : ℤ) ≤ b := by rw [zpow_natCast]; exact_mod_cast lb1
  have qb2 : (b : ℚ) < 2 ^ ((log2Floor b : ℤ) + 1) := by
    rw [show ((log2Floor b : ℤ) + 1) = ((log2Floor b + 1 : ℕ) : ℤ) by push_cast; rfl, zpow_natCast]
    exact_mod_cast lb2
  generalize (log2Floor a : ℤ) = la at *
  generalize (log2Floor b : ℤ) = lb at *
  have hs := two_zpow_pos s
  have two_ne : (2 : ℚ) ≠ 0 := by norm_num
  -- bounds on a / b
  have hab1 : (2 : ℚ) ^ (la - lb - 1) < (a : ℚ) / b := by
    rw [lt_div_iff₀ hb']
    have : (2 : ℚ) ^ (la - lb - 1) * 2 ^ (lb + 1) = 2 ^ la := by
      rw [← zpow_add₀ two_ne]; congr 1; omega
    have h3 := two_zpow_pos (la - lb - 1)
    nlinarith
  have hab2 : (a : ℚ) / b < 2 ^ (la - lb + 1) := by
    rw [div_lt_iff₀ hb']
    have : (2 : ℚ) ^ (la - lb + 1) * 2 ^ lb = 2 ^ (la + 1) := by
      rw [← zpow_add₀ two_ne]; congr 1; omega
    have h3 := two_zpow_pos (la - lb + 1)
    nlinarith
  have hq1 : (2 : ℚ) ^ (la - lb + s - 1) < (a : ℚ) / b * 2 ^ s := by
    have : (2 : ℚ) ^ (la - lb + s - 1) = 2 ^ (la - lb - 1) * 2 ^ s := by
      rw [← zpow_add₀ two_ne]; congr 1; omega
    rw [this]
    exact mul_lt_mul_of_pos_right hab1 hs
  have hq2 : (a : ℚ) / b * 2 ^ s < 2 ^ (la - lb + s + 1) := by
    have : (2 : ℚ) ^ (la - lb + s + 1) = 2 ^ (la - lb + 1) * 2 ^ s := by
      rw [← zpow_add₀ two_ne]; congr 1; omega
    rw [this]
    exact mul_lt_mul_of_pos_right hab2 hs
  by_cases hc : a * 2 ^ (s - (la - lb + s)).toNat ≥ b * 2 ^ ((la - lb + s) - s).toNat
  · rw [if_pos hc]
    exact (log_two_eq ((scaled_ge_iff a b hb s _).mp hc) hq2).symm
  · rw [if_neg hc]
    have h := (scaled_ge_iff a b hb s (la - lb + s)).not.mp hc
    push_neg at h
    refine (log_two_eq hq1.le ?_).symm
    rw [show la - lb + s - 1 + 1 = la - lb + s by omega]
    exact h

theorem rne_natCast_div (N D : Nat) (hD : 0 < D) :
    rne ((N : ℚ) / D) =
      ((if 2 * (N % D) > D then N / D + 1
        else if 2 * (N % D) = D then N / D + (N / D) % 2 else N / D : Nat) : ℤ) := by
  have hD' : (0 : ℚ) < D := by exact_mod_cast hD
  have hfloor : ⌊(N : ℚ) / D⌋ = ((N / D : Nat) : ℤ) := by
    rw [Rat.floor_natCast_div_natCast]
    norm_cast
  have hfract : Int.fract ((N : ℚ) / D) = ((N % D : Nat) : ℚ) / D := by
    rw [Int.fract, hfloor, Int.cast_natCast]
    have h := Nat.div_add_mod N D
    have h' : (N : ℚ) = D * (N / D : Nat) + (N % D : Nat) := by exact_mod_cast h.symm
    rw [eq_div_iff hD'.ne', sub_mul, div_mul_cancel₀ _ hD'.ne']
    linarith
  have c1 : 2 * Int.fract ((N : ℚ) / D) < 1 ↔ 2 * (N % D) < D := by
    rw [hfract, ← mul_div_assoc, div_lt_one hD']
    exact_mod_cast Iff.rfl
  have c2 : 1 < 2 * Int.fract ((N : ℚ) / D) ↔ D < 2 * (N % D) := by
    rw [hfract, ← mul_div_assoc, one_lt_div hD']
    exact_mod_cast Iff.rfl
  unfold rne
  rw [hfloor]
  by_cases h1 : 2 * (N % D) > D
  · rw [if_neg (by rw [c1]; omega), if_pos (by rw [c2]; omega), if_pos h1]
    push_cast
    rfl
  · by_cases h2 : 2 * (N % D) = D
    · rw [if_neg (by rw [c1]; omega), if_neg (by rw [c2]; omega), if_neg h1, if_pos h2]
      push_cast
      rfl
    · rw [if_pos (by rw [c1]; omega), if_neg h1, if_neg h2]

theorem zpow_toNat_neg (t : ℤ) :
    (2 : ℚ) ^ t.toNat / 2 ^ (-t).toNat = 2 ^ t := by
  have := zpow_toNat_sub t 0
  simpa using this

theorem FP.round_eq (fmt : FloatFormat) (neg : Bool) (a b : Nat) (ha : 0 < a) (hb : 0 < b)
    (s : ℤ) :
    FP.round fmt neg a b s =
      if max fmt.emin (Int.log 2 ((a : ℚ) / b * 2 ^ s)) > fmt.emax ∨
          (max fmt.emin (Int.log 2 ((a : ℚ) / b * 2 ^ s)) = fmt.emax ∧
            (rne ((a : ℚ) / b * 2 ^ s / 2 ^ ulpExp fmt ((a : ℚ) / b * 2 ^ s))).toNat ≥
              2 ^ fmt.prec)
      then FP.inf neg
      else FP.finite neg
        (rne ((a : ℚ) / b * 2 ^ s / 2 ^ ulpExp fmt ((a : ℚ) / b * 2 ^ s))).toNat
        (ulpExp fmt ((a : ℚ) / b * 2 ^ s)) := by
  have hE := round_exponent a b ha hb s
  simp only [FP.round, ha.ne', if_false, ulpExp]
  rw [hE]
  generalize hq : (a : ℚ) / b * 2 ^ s = q
  generalize Int.log 2 q = L
  have hmax : (if L < fmt.emin then fmt.emin else L) = max fmt.emin L := by
    by_cases h : L < fmt.emin
    · rw [if_pos h, max_eq_left h.le]
    · rw [if_neg h, max_eq_right (not_lt.mp h)]
  rw [hmax]
  generalize max fmt.emin L = E
  have hD : 0 < b * 2 ^ (-(s - E + ((fmt.prec : ℤ) - 1))).toNat :=
    Nat.mul_pos hb (Nat.two_pow_pos _)
  have hb' : (b : ℚ) ≠ 0 := by exact_mod_cast hb.ne'
  have hQ : q / 2 ^ (E - ((fmt.prec : ℤ) - 1)) =
      ((a * 2 ^ (s - E + ((fmt.prec : ℤ) - 1)).toNat : ℕ) : ℚ) /
        ((b * 2 ^ (-(s - E + ((fmt.prec : ℤ) - 1))).toNat : ℕ) : ℚ) := by
    have h1 := zpow_toNat_neg (s - E + ((fmt.prec : ℤ) - 1))
    have h2 : (2 : ℚ) ^ (s - E + ((fmt.prec : ℤ) - 1)) = 2 ^ s / 2 ^ (E - ((fmt.prec : ℤ) - 1)) := by
      rw [← zpow_sub₀ (by norm_num : (2 : ℚ) ≠ 0)]
      congr 1
      omega
    push_cast
    rw [← hq, mul_div_mul_comm, h1, h2]
    ring
  rw [hQ, rne_natCast_div _ _ hD, Int.toNat_natCast]


/-! ## Rounding to the nearest integer, ties to even -/

theorem rne_cases (x : ℚ) :
    (2 * Int.fract x < 1 ∧ rne x = ⌊x⌋) ∨
    (1 < 2 * Int.fract x ∧ rne x = ⌊x⌋ + 1) ∨
    (2 * Int.fract x = 1 ∧ rne x = ⌊x⌋ + ⌊x⌋ % 2) := by
  unfold rne
  by_cases h1 : 2 * Int.fract x < 1
  · left; exact ⟨h1, by rw [if_pos h1]⟩
  · by_cases h2 : 1 < 2 * Int.fract x
    · right; left; exact ⟨h2, by rw [if_neg h1, if_pos h2]⟩
    · right; right
      exact ⟨le_antisymm (not_lt.mp h2) (not_lt.mp h1), by rw [if_neg h1, if_neg h2]⟩

theorem floor_le_rne (x : ℚ) : ⌊x⌋ ≤ rne x := by
  have h2 := Int.emod_nonneg ⌊x⌋ (by norm_num : (2 : ℤ) ≠ 0)
  rcases rne_cases x with ⟨_, h⟩ | ⟨_, h⟩ | ⟨_, h⟩ <;> rw [h] <;> omega

theorem rne_le_floor_add_one (x : ℚ) : rne x ≤ ⌊x⌋ + 1 := by
  have h2 := Int.emod_lt_of_pos ⌊x⌋ (by norm_num : (0 : ℤ) < 2)
  rcases rne_cases x with ⟨_, h⟩ | ⟨_, h⟩ | ⟨_, h⟩ <;> rw [h] <;> omega

theorem rne_intCast (j : ℤ) : rne (j : ℚ) = j := by
  rcases rne_cases (j : ℚ) with ⟨_, h⟩ | ⟨h1, _⟩ | ⟨h1, _⟩
  · rw [h, Int.floor_intCast]
  · rw [Int.fract_intCast] at h1; norm_num at h1
  · rw [Int.fract_intCast] at h1; norm_num at h1

theorem rne_natCast (j : ℕ) : rne (j : ℚ) = j := by
  have := rne_intCast (j : ℤ)
  rwa [Int.cast_natCast] at this

theorem le_rne_of_int_le {x : ℚ} {j : ℤ} (h : (j : ℚ) ≤ x) : j ≤ rne x :=
  le_trans (Int.le_floor.mpr h) (floor_le_rne x)

theorem rne_le_of_le_int {x : ℚ} {j : ℤ} (h : x ≤ (j : ℚ)) : rne x ≤ j := by
  rcases eq_or_lt_of_le h with h | h
  · rw [h, rne_intCast]
  · have : ⌊x⌋ < j := Int.floor_lt.mpr h
    have := rne_le_floor_add_one x
    omega

theorem rne_mono {x y : ℚ} (h : x ≤ y) : rne x ≤ rne y := by
  have hf : ⌊x⌋ ≤ ⌊y⌋ := Int.floor_mono h
  rcases eq_or_lt_of_le hf with hf | hf
  · have hfr : Int.fract x ≤ Int.fract y := by
      have h1 := Int.floor_add_fract x
      have h2 := Int.floor_add_fract y
      have : ((⌊x⌋ : ℤ) : ℚ) = ((⌊y⌋ : ℤ) : ℚ) := by rw [hf]
      linarith
    have m1 := Int.emod_nonneg ⌊y⌋ (by norm_num : (2 : ℤ) ≠ 0)
    have m2 := Int.emod_lt_of_pos ⌊y⌋ (by norm_num : (0 : ℤ) < 2)
    rcases rne_cases x with ⟨c1, e1⟩ | ⟨c1, e1⟩ | ⟨c1, e1⟩ <;>
      rcases rne_cases y with ⟨c2, e2⟩ | ⟨c2, e2⟩ | ⟨c2, e2⟩ <;>
      rw [e1, e2, hf] <;> first | omega | (exfalso; linarith)
  · have := rne_le_floor_add_one x
    have := floor_le_rne y
    omega

theorem abs_rne_sub_le (x : ℚ) : |(rne x : ℚ) - x| ≤ 1 / 2 := by
  have h1 := Int.floor_add_fract x
  have h2 := Int.fract_nonneg x
  have h3 := Int.fract_lt_one x
  rw [abs_le]
  rcases rne_cases x with ⟨c, e⟩ | ⟨c, e⟩ | ⟨c, e⟩
  · rw [e]; constructor <;> linarith
  · rw [e]; push_cast; constructor <;> linarith
  · rw [e]
    have m1 := Int.emod_nonneg ⌊x⌋ (by norm_num : (2 : ℤ) ≠ 0)
    have m2 := Int.emod_lt_of_pos ⌊x⌋ (by norm_num : (0 : ℤ) < 2)
    have m1' : (0 : ℚ) ≤ ((⌊x⌋ % 2 : ℤ) : ℚ) := by exact_mod_cast m1
    have m2' : ((⌊x⌋ % 2 : ℤ) : ℚ) ≤ 1 := by exact_mod_cast (by omega : ⌊x⌋ % 2 ≤ 1)
    push_cast at m1' m2' ⊢
    constructor <;> linarith

theorem rne_nonneg {x : ℚ} (h : 0 ≤ x) : 0 ≤ rne x :=
  le_rne_of_int_le (by simpa using h)

/-! ## Rounding of rational numbers to a format -/

theorem two_ne_zero_q : (2 : ℚ) ≠ 0 := by norm_num

theorem zpow_two_le {x y : ℤ} (h : x ≤ y) : (2 : ℚ) ^ x ≤ 2 ^ y :=
  zpow_le_zpow_right₀ (by norm_num) h

theorem zpow_two_lt {x y : ℤ} (h : x < y) : (2 : ℚ) ^ x < 2 ^ y :=
  zpow_lt_zpow_right₀ (by norm_num) h

theorem roundQ_zero (fmt : FloatFormat) : roundQ fmt 0 = 0 := by
  simp [roundQ, rne]

theorem ulpExp_add (fmt : FloatFormat) (q : ℚ) :
    ulpExp fmt q + ((fmt.prec : ℤ) - 1) = max fmt.emin (Int.log 2 q) := by
  unfold ulpExp; omega

theorem lt_zpow_ulpExp (fmt : FloatFormat) (q : ℚ) :
    q < 2 ^ (ulpExp fmt q + (fmt.prec : ℤ)) := by
  have h1 := lt_zpow_log_succ q
  have h2 : Int.log 2 q + 1 ≤ ulpExp fmt q + (fmt.prec : ℤ) := by
    have := ulpExp_add fmt q
    have := le_max_right fmt.emin (Int.log 2 q)
    omega
  exact lt_of_lt_of_le h1 (zpow_two_le h2)

theorem zpow_ulpExp_le (fmt : FloatFormat) {q : ℚ} (hq : 0 < q)
    (h : fmt.emin - ((fmt.prec : ℤ) - 1) < ulpExp fmt q) :
    (2 : ℚ) ^ (ulpExp fmt q + ((fmt.prec : ℤ) - 1)) ≤ q := by
  have h1 := zpow_log_le hq
  have h2 := ulpExp_add fmt q
  have h3 : max fmt.emin (Int.log 2 q) = Int.log 2 q := by
    rcases max_cases fmt.emin (Int.log 2 q) with ⟨a, _⟩ | ⟨a, _⟩
    · omega
    · exact a
  rw [h2, h3]
  exact h1

theorem emin_le_ulpExp (fmt : FloatFormat) (q : ℚ) :
    fmt.emin - ((fmt.prec : ℤ) - 1) ≤ ulpExp fmt q := by
  have := ulpExp_add fmt q
  have := le_max_left fmt.emin (Int.log 2 q)
  omega

theorem ulpExp_mono (fmt : FloatFormat) {q1 q2 : ℚ} (h0 : 0 < q1) (h : q1 ≤ q2) :
    ulpExp fmt q1 ≤ ulpExp fmt q2 := by
  have := Int.log_mono_right (b := 2) h0 h
  have := max_le_max (le_refl fmt.emin) this
  unfold ulpExp
  omega

/-- The scaled value that is rounded to an integer is below `2 ^ prec`. -/
theorem scaled_lt (fmt : FloatFormat) (q : ℚ) :
    q / 2 ^ ulpExp fmt q < 2 ^ (fmt.prec : ℤ) := by
  rw [div_lt_iff₀ (two_zpow_pos _), ← zpow_add₀ two_ne_zero_q, add_comm]
  exact lt_zpow_ulpExp fmt q

theorem le_scaled (fmt : FloatFormat) {q : ℚ} (hq : 0 < q)
    (h : fmt.emin - ((fmt.prec : ℤ) - 1) < ulpExp fmt q) :
    (2 : ℚ) ^ ((fmt.prec : ℤ) - 1) ≤ q / 2 ^ ulpExp fmt q := by
  rw [le_div_iff₀ (two_zpow_pos _), ← zpow_add₀ two_ne_zero_q, add_comm]
  exact zpow_ulpExp_le fmt hq h

theorem roundQ_nonneg (fmt : FloatFormat) {q : ℚ} (hq : 0 ≤ q) : 0 ≤ roundQ fmt q := by
  unfold roundQ
  have h1 : 0 ≤ q / 2 ^ ulpExp fmt q := div_nonneg hq (two_zpow_pos _).le
  have h2 : (0 : ℚ) ≤ (rne (q / 2 ^ ulpExp fmt q) : ℚ) := by exact_mod_cast rne_nonneg h1
  exact mul_nonneg h2 (two_zpow_pos _).le

/-- A value `m * 2 ^ e` of the format, written as a multiple of a smaller power of two. -/
theorem rep_scaled (m : ℕ) {e e' : ℤ} (h : e ≤ e') :
    (m : ℚ) * 2 ^ e' / 2 ^ e = ((m * 2 ^ (e' - e).toNat : ℕ) : ℤ) := by
  have h2 : ((e' - e).toNat : ℤ) = e' - e := Int.toNat_of_nonneg (by omega)
  push_cast
  rw [mul_div_assoc, ← zpow_sub₀ two_ne_zero_q, ← zpow_natCast, h2]

theorem roundQ_le_of_le (fmt : FloatFormat) {q : ℚ} (hq : 0 ≤ q)
    (m : ℕ) (e : ℤ) (hm : m < 2 ^ fmt.prec) (he : fmt.emin - ((fmt.prec : ℤ) - 1) ≤ e)
    (h : q ≤ (m : ℚ) * 2 ^ e) : roundQ fmt q ≤ (m : ℚ) * 2 ^ e := by
  rcases eq_or_lt_of_le hq with hq0 | hq0
  · rw [← hq0, roundQ_zero]
    exact mul_nonneg (Nat.cast_nonneg m) (two_zpow_pos _).le
  have hu := two_zpow_pos (ulpExp fmt q)
  by_cases hc : ulpExp fmt q ≤ e
  · unfold roundQ
    have h1 : q / 2 ^ ulpExp fmt q ≤ (m : ℚ) * 2 ^ e / 2 ^ ulpExp fmt q :=
      div_le_div_of_nonneg_right h hu.le
    rw [rep_scaled m hc] at h1
    have h2 := rne_le_of_le_int h1
    have h3 : (rne (q / 2 ^ ulpExp fmt q) : ℚ) ≤ ((m * 2 ^ (e - ulpExp fmt q).toNat : ℕ) : ℤ) := by
      exact_mod_cast h2
    rw [← rep_scaled m hc] at h3
    rwa [le_div_iff₀ hu] at h3
  · exfalso
    push_neg at hc
    have h1 := zpow_ulpExp_le fmt hq0 (by omega)
    have h2 : (m : ℚ) * 2 ^ e < 2 ^ (ulpExp fmt q + ((fmt.prec : ℤ) - 1)) := by
      have hm' : (m : ℚ) < 2 ^ (fmt.prec : ℤ) := by
        rw [zpow_natCast]; exact_mod_cast hm
      have h3 : (2 : ℚ) ^ (fmt.prec : ℤ) * 2 ^ e ≤ 2 ^ (ulpExp fmt q + ((fmt.prec : ℤ) - 1)) := by
        rw [← zpow_add₀ two_ne_zero_q]
        exact zpow_two_le (by omega)
      have := mul_lt_mul_of_pos_right hm' (two_zpow_pos e)
      linarith
    linarith

theorem le_roundQ_of_le (fmt : FloatFormat) (hp : 0 < fmt.prec) {q : ℚ} (hq : 0 ≤ q)
    (m : ℕ) (e : ℤ) (hm : m < 2 ^ fmt.prec) (he : fmt.emin - ((fmt.prec : ℤ) - 1) ≤ e)
    (h : (m : ℚ) * 2 ^ e ≤ q) : (m : ℚ) * 2 ^ e ≤ roundQ fmt q := by
  rcases eq_or_lt_of_le hq with hq0 | hq0
  · rw [← hq0, roundQ_zero]; rw [← hq0] at h; exact h
  have hu := two_zpow_pos (ulpExp fmt q)
  by_cases hc : ulpExp fmt q ≤ e
  · unfold roundQ
    have h1 : (m : ℚ) * 2 ^ e / 2 ^ ulpExp fmt q ≤ q / 2 ^ ulpExp fmt q :=
      div_le_div_of_nonneg_right h hu.le
    rw [rep_scaled m hc] at h1
    have h2 := le_rne_of_int_le h1
    have h3 : (((m * 2 ^ (e - ulpExp fmt q).toNat : ℕ) : ℤ) : ℚ) ≤
        (rne (q / 2 ^ ulpExp fmt q) : ℚ) := by exact_mod_cast h2
    rw [← rep_scaled m hc] at h3
    rwa [div_le_iff₀ hu] at h3
  · push_neg at hc
    have h1 := le_scaled fmt hq0 (by omega)
    have h2 : (m : ℚ) * 2 ^ e < 2 ^ (ulpExp fmt q + ((fmt.prec : ℤ) - 1)) := by
      have hm' : (m : ℚ) < 2 ^ (fmt.prec : ℤ) := by
        rw [zpow_natCast]; exact_mod_cast hm
      have h3 : (2 : ℚ) ^ (fmt.prec : ℤ) * 2 ^ e ≤ 2 ^ (ulpExp fmt q + ((fmt.prec : ℤ) - 1)) := by
        rw [← zpow_add₀ two_ne_zero_q]
        exact zpow_two_le (by omega)
      have := mul_lt_mul_of_pos_right hm' (two_zpow_pos e)
      linarith
    have h4 : ((2 ^ (fmt.prec - 1) : ℕ) : ℤ) ≤ rne (q / 2 ^ ulpExp fmt q) := by
      apply le_rne_of_int_le
      have : (((2 ^ (fmt.prec - 1) : ℕ) : ℤ) : ℚ) = 2 ^ ((fmt.prec : ℤ) - 1) := by
        push_cast
        rw [← zpow_natCast]
        congr 1
        omega
      rw [this]
      exact h1
    have h5 : (2 : ℚ) ^ ((fmt.prec : ℤ) - 1) ≤ (rne (q / 2 ^ ulpExp fmt q) : ℚ) := by
      have : (((2 ^ (fmt.prec - 1) : ℕ) : ℤ) : ℚ) ≤ (rne (q / 2 ^ ulpExp fmt q) : ℚ) := by
        exact_mod_cast h4
      have e2 : (((2 ^ (fmt.prec - 1) : ℕ) : ℤ) : ℚ) = 2 ^ ((fmt.prec : ℤ) - 1) := by
        push_cast
        rw [← zpow_natCast]
        congr 1
        omega
      rwa [e2] at this
    unfold roundQ
    have h6 : (2 : ℚ) ^ (ulpExp fmt q + ((fmt.prec : ℤ) - 1)) ≤
        (rne (q / 2 ^ ulpExp fmt q) : ℚ) * 2 ^ ulpExp fmt q := by
      rw [add_comm, zpow_add₀ two_ne_zero_q]
      exact mul_le_mul_of_nonneg_right h5 hu.le
    linarith

theorem roundQ_exact (fmt : FloatFormat) (hp : 0 < fmt.prec) (m : ℕ) (e : ℤ)
    (hm : m < 2 ^ fmt.prec) (he : fmt.emin - ((fmt.prec : ℤ) - 1) ≤ e) :
    roundQ fmt ((m : ℚ) * 2 ^ e) = (m : ℚ) * 2 ^ e := by
  have h0 : (0 : ℚ) ≤ (m : ℚ) * 2 ^ e := mul_nonneg (Nat.cast_nonneg m) (two_zpow_pos _).le
  exact le_antisymm (roundQ_le_of_le fmt h0 m e hm he le_rfl)
    (le_roundQ_of_le fmt hp h0 m e hm he le_rfl)

theorem roundQ_le_zpow (fmt : FloatFormat) {q : ℚ} :
    roundQ fmt q ≤ 2 ^ (ulpExp fmt q + (fmt.prec : ℤ)) := by
  unfold roundQ
  have h1 := (scaled_lt fmt q).le
  have h2 : rne (q / 2 ^ ulpExp fmt q) ≤ ((2 ^ fmt.prec : ℕ) : ℤ) := by
    apply rne_le_of_le_int
    push_cast
    rw [← zpow_natCast]
    exact h1
  have h3 : (rne (q / 2 ^ ulpExp fmt q) : ℚ) ≤ 2 ^ (fmt.prec : ℤ) := by
    have : (rne (q / 2 ^ ulpExp fmt q) : ℚ) ≤ (((2 ^ fmt.prec : ℕ) : ℤ) : ℚ) := by
      exact_mod_cast h2
    push_cast at this
    rwa [← zpow_natCast] at this
  rw [add_comm, zpow_add₀ two_ne_zero_q]
  exact mul_le_mul_of_nonneg_right h3 (two_zpow_pos _).le

theorem zpow_le_roundQ (fmt : FloatFormat) (hp : 0 < fmt.prec) {q : ℚ} (hq : 0 < q)
    (h : fmt.emin - ((fmt.prec : ℤ) - 1) < ulpExp fmt q) :
    (2 : ℚ) ^ (ulpExp fmt q + ((fmt.prec : ℤ) - 1)) ≤ roundQ fmt q := by
  have h1 := zpow_ulpExp_le fmt hq h
  have h2 := le_roundQ_of_le fmt hp hq.le (2 ^ (fmt.prec - 1)) (ulpExp fmt q)
    (Nat.pow_lt_pow_right (by norm_num) (by omega)) (by omega)
  have e : ((2 ^ (fmt.prec - 1) : ℕ) : ℚ) * 2 ^ ulpExp fmt q =
      2 ^ (ulpExp fmt q + ((fmt.prec : ℤ) - 1)) := by
    push_cast
    rw [← zpow_natCast, ← zpow_add₀ two_ne_zero_q]
    congr 1
    omega
  rw [e] at h2
  exact h2 h1

theorem roundQ_mono (fmt : FloatFormat) (hp : 0 < fmt.prec) {q1 q2 : ℚ} (h0 : 0 ≤ q1)
    (h : q1 ≤ q2) : roundQ fmt q1 ≤ roundQ fmt q2 := by
  rcases eq_or_lt_of_le h0 with h0 | h0
  · rw [← h0, roundQ_zero]
    exact roundQ_nonneg fmt (by linarith)
  have hq2 : 0 < q2 := lt_of_lt_of_le h0 h
  have he := ulpExp_mono fmt h0 h
  rcases eq_or_lt_of_le he with he | he
  · unfold roundQ
    rw [he]
    have hu := two_zpow_pos (ulpExp fmt q2)
    have h1 : q1 / 2 ^ ulpExp fmt q2 ≤ q2 / 2 ^ ulpExp fmt q2 :=
      div_le_div_of_nonneg_right h hu.le
    have h2 : (rne (q1 / 2 ^ ulpExp fmt q2) : ℚ) ≤ (rne (q2 / 2 ^ ulpExp fmt q2) : ℚ) := by
      exact_mod_cast rne_mono h1
    exact mul_le_mul_of_nonneg_right h2 hu.le
  · have h1 := roundQ_le_zpow fmt (q := q1)
    have h2 := zpow_le_roundQ fmt hp hq2 (by have := emin_le_ulpExp fmt q1; omega)
    have h3 : (2 : ℚ) ^ (ulpExp fmt q1 + (fmt.prec : ℤ)) ≤
        2 ^ (ulpExp fmt q2 + ((fmt.prec : ℤ) - 1)) := zpow_two_le (by omega)
    linarith

theorem abs_roundQ_sub_le (fmt : FloatFormat) (q : ℚ) :
    |roundQ fmt q - q| ≤ 2 ^ ulpExp fmt q / 2 := by
  have hu := two_zpow_pos (ulpExp fmt q)
  have h := abs_rne_sub_le (q / 2 ^ ulpExp fmt q)
  have e : roundQ fmt q - q =
      ((rne (q / 2 ^ ulpExp fmt q) : ℚ) - q / 2 ^ ulpExp fmt q) * 2 ^ ulpExp fmt q := by
    unfold roundQ
    rw [sub_mul, div_mul_cancel₀ _ hu.ne']
  rw [e, abs_mul, abs_of_pos hu]
  calc |(rne (q / 2 ^ ulpExp fmt q) : ℚ) - q / 2 ^ ulpExp fmt q| * 2 ^ ulpExp fmt q
      ≤ 1 / 2 * 2 ^ ulpExp fmt q := mul_le_mul_of_nonneg_right h hu.le
    _ = 2 ^ ulpExp fmt q / 2 := by ring

/-- The relative error of rounding a value of the normal range is at most `2 ^ (-prec)`. -/
theorem abs_roundQ_sub_le_mul (fmt : FloatFormat) {q : ℚ}
    (hq : (2 : ℚ) ^ fmt.emin ≤ q) :
    |roundQ fmt q - q| ≤ q * 2 ^ (-(fmt.prec : ℤ)) := by
  have hq0 : 0 < q := lt_of_lt_of_le (two_zpow_pos _) hq
  have h1 := abs_roundQ_sub_le fmt q
  have hlog : fmt.emin ≤ Int.log 2 q := by
    rw [← Int.zpow_le_iff_le_log (by norm_num) hq0]
    exact_mod_cast hq
  have h2 : ulpExp fmt q = Int.log 2 q - ((fmt.prec : ℤ) - 1) := by
    unfold ulpExp
    rw [max_eq_right hlog]
  have h3 := zpow_log_le hq0
  have h4 : (2 : ℚ) ^ ulpExp fmt q / 2 = 2 ^ Int.log 2 q * 2 ^ (-(fmt.prec : ℤ)) := by
    rw [h2, ← zpow_add₀ two_ne_zero_q, div_eq_iff two_ne_zero_q]
    nth_rewrite 3 [← zpow_one (2 : ℚ)]
    rw [← zpow_add₀ two_ne_zero_q]
    congr 1
    omega
  rw [h4] at h1
  have h5 := two_zpow_pos (-(fmt.prec : ℤ))
  have : (2 : ℚ) ^ Int.log 2 q * 2 ^ (-(fmt.prec : ℤ)) ≤ q * 2 ^ (-(fmt.prec : ℤ)) :=
    mul_le_mul_of_nonneg_right h3 h5.le
  linarith

/-! ## The arithmetic operations on non-negative finite values -/

theorem FP.IsVal.nonneg {x : FP} {v : ℚ} (h : FP.IsVal x v) : 0 ≤ v := by
  obtain ⟨m, e, _, rfl⟩ := h
  exact mul_nonneg (Nat.cast_nonneg m) (two_zpow_pos e).le

theorem FP.isVal_finite (m : ℕ) (e : ℤ) : FP.IsVal (FP.finite false m e) ((m : ℚ) * 2 ^ e) :=
  ⟨m, e, rfl, rfl⟩

theorem FP.round_isVal (fmt : FloatFormat) (he : fmt.emin < fmt.emax) (a b : ℕ) (hb : 0 < b)
    (s : ℤ) (hov : (a : ℚ) / b * 2 ^ s < 2 ^ fmt.emax) :
    FP.IsVal (FP.round fmt false a b s) (roundQ fmt ((a : ℚ) / b * 2 ^ s)) := by
  rcases Nat.eq_zero_or_pos a with ha | ha
  · subst ha
    refine ⟨0, 0, by simp [FP.round], ?_⟩
    simp [roundQ_zero]
  have hb' : (0 : ℚ) < b := by exact_mod_cast hb
  have ha' : (0 : ℚ) < a := by exact_mod_cast ha
  have hq : 0 < (a : ℚ) / b * 2 ^ s := mul_pos (div_pos ha' hb') (two_zpow_pos s)
  rw [FP.round_eq fmt false a b ha hb s]
  generalize (a : ℚ) / b * 2 ^ s = q at *
  have hlog : Int.log 2 q < fmt.emax := by
    rw [← Int.lt_zpow_iff_log_lt (by norm_num) hq]
    exact_mod_cast hov
  have hE : max fmt.emin (Int.log 2 q) < fmt.emax := max_lt he hlog
  rw [if_neg (by
    rintro (h | ⟨h, _⟩)
    · omega
    · omega)]
  refine ⟨_, _, rfl, ?_⟩
  unfold roundQ
  congr 1
  have h0 : 0 ≤ rne (q / 2 ^ ulpExp fmt q) :=
    rne_nonneg (div_nonneg hq.le (two_zpow_pos _).le)
  have : (((rne (q / 2 ^ ulpExp fmt q)).toNat : ℤ) : ℚ) = (rne (q / 2 ^ ulpExp fmt q) : ℚ) := by
    rw [Int.toNat_of_nonneg h0]
  rw [← this, Int.cast_natCast]

theorem FP.ofNat_isVal (fmt : FloatFormat) (he : fmt.emin < fmt.emax) (n : ℕ)
    (hov : (n : ℚ) < 2 ^ fmt.emax) : FP.IsVal (FP.ofNat fmt n) (roundQ fmt n) := by
  have := FP.round_isVal fmt he n 1 (by norm_num) 0 (by simpa using hov)
  simpa [FP.ofNat] using this

theorem FP.ofNat_isVal_exact (fmt : FloatFormat) (hp : 0 < fmt.prec) (he : fmt.emin < fmt.emax)
    (he0 : fmt.emin - ((fmt.prec : ℤ) - 1) ≤ 0) (hpe : (fmt.prec : ℤ) ≤ fmt.emax)
    (n : ℕ) (hn : n < 2 ^ fmt.prec) : FP.IsVal (FP.ofNat fmt n) n := by
  have hov : (n : ℚ) < 2 ^ fmt.emax := by
    have h1 : (n : ℚ) < 2 ^ (fmt.prec : ℤ) := by rw [zpow_natCast]; exact_mod_cast hn
    exact lt_of_lt_of_le h1 (zpow_two_le hpe)
  have h := FP.ofNat_isVal fmt he n hov
  have e := roundQ_exact fmt hp n 0 hn he0
  simp only [zpow_zero, mul_one] at e
  rwa [e] at h

theorem FP.add_isVal (fmt : FloatFormat) (he : fmt.emin < fmt.emax) {x y : FP} {vx vy : ℚ}
    (hx : FP.IsVal x vx) (hy : FP.IsVal y vy) (hov : vx + vy < 2 ^ fmt.emax) :
    FP.IsVal (FP.add fmt x y) (roundQ fmt (vx + vy)) := by
  obtain ⟨m1, e1, rfl, rfl⟩ := hx
  obtain ⟨m2, e2, rfl, rfl⟩ := hy
  have hsum : (((m1 * 2 ^ (e1 - min e1 e2).toNat + m2 * 2 ^ (e2 - min e1 e2).toNat : ℕ) : ℚ)) /
      ((1 : ℕ) : ℚ) * 2 ^ (min e1 e2) = (m1 : ℚ) * 2 ^ e1 + (m2 : ℚ) * 2 ^ e2 := by
    have h1 : ((e1 - min e1 e2).toNat : ℤ) = e1 - min e1 e2 :=
      Int.toNat_of_nonneg (by have := min_le_left e1 e2; omega)
    have h2 : ((e2 - min e1 e2).toNat : ℤ) = e2 - min e1 e2 :=
      Int.toNat_of_nonneg (by have := min_le_right e1 e2; omega)
    push_cast
    rw [div_one, add_mul, mul_assoc, mul_assoc, ← zpow_natCast, ← zpow_natCast, h1, h2,
      ← zpow_add₀ two_ne_zero_q, ← zpow_add₀ two_ne_zero_q]
    simp
  have := FP.round_isVal fmt he _ 1 (by norm_num) (min e1 e2) (by rw [hsum]; exact hov)
  rw [hsum] at this
  simpa [FP.add] using this

theorem aligned_value (m : ℕ) (e e' : ℤ) (h : e' ≤ e) :
    ((m * 2 ^ (e - e').toNat : ℕ) : ℚ) * 2 ^ e' = (m : ℚ) * 2 ^ e := by
  have h1 : ((e - e').toNat : ℤ) = e - e' := Int.toNat_of_nonneg (by omega)
  push_cast
  rw [mul_assoc, ← zpow_natCast, h1, ← zpow_add₀ two_ne_zero_q]
  simp

theorem aligned_lt_iff (m1 m2 : ℕ) (e1 e2 : ℤ) :
    m1 * 2 ^ (e1 - min e1 e2).toNat < m2 * 2 ^ (e2 - min e1 e2).toNat ↔
      (m1 : ℚ) * 2 ^ e1 < (m2 : ℚ) * 2 ^ e2 := by
  rw [← aligned_value m1 e1 (min e1 e2) (min_le_left _ _),
    ← aligned_value m2 e2 (min e1 e2) (min_le_right _ _),
    mul_lt_mul_right (two_zpow_pos _)]
  exact_mod_cast Iff.rfl

theorem FP.sub_isVal (fmt : FloatFormat) (he : fmt.emin < fmt.emax) {x y : FP} {vx vy : ℚ}
    (hx : FP.IsVal x vx) (hy : FP.IsVal y vy) (hle : vy ≤ vx) (hov : vx < 2 ^ fmt.emax) :
    FP.IsVal (FP.sub fmt x y) (roundQ fmt (vx - vy)) := by
  have hy0 := hy.nonneg
  obtain ⟨m1, e1, rfl, rfl⟩ := hx
  obtain ⟨m2, e2, rfl, rfl⟩ := hy
  have a1 := aligned_value m1 e1 (min e1 e2) (min_le_left _ _)
  have a2 := aligned_value m2 e2 (min e1 e2) (min_le_right _ _)
  have hnot : ¬ m2 * 2 ^ (e2 - min e1 e2).toNat > m1 * 2 ^ (e1 - min e1 e2).toNat := by
    rw [gt_iff_lt, aligned_lt_iff]
    exact not_lt.mpr hle
  simp only [FP.sub, FP.neg, FP.add, Bool.not_false, Bool.false_eq_true, if_false, hnot]
  by_cases hgt : m1 * 2 ^ (e1 - min e1 e2).toNat > m2 * 2 ^ (e2 - min e1 e2).toNat
  · rw [if_pos hgt]
    have hsub : (((m1 * 2 ^ (e1 - min e1 e2).toNat - m2 * 2 ^ (e2 - min e1 e2).toNat : ℕ) : ℚ)) /
        ((1 : ℕ) : ℚ) * 2 ^ (min e1 e2) = (m1 : ℚ) * 2 ^ e1 - (m2 : ℚ) * 2 ^ e2 := by
      rw [Nat.cast_sub hgt.le, Nat.cast_one, div_one, sub_mul, a1, a2]
    have := FP.round_isVal fmt he _ 1 (by norm_num) (min e1 e2) (by rw [hsub]; linarith)
    rwa [hsub] at this
  · rw [if_neg hgt]
    have heq : (m1 : ℚ) * 2 ^ e1 = (m2 : ℚ) * 2 ^ e2 := by
      have h1 := (aligned_lt_iff m2 m1 e2 e1).not.mp (by
        rw [min_comm]; exact hgt)
      push_neg at h1
      exact le_antisymm h1 hle
    refine ⟨0, 0, rfl, ?_⟩
    rw [heq, sub_self, roundQ_zero]
    simp

theorem FP.mul_isVal (fmt : FloatFormat) (he : fmt.emin < fmt.emax) {x y : FP} {vx vy : ℚ}
    (hx : FP.IsVal x vx) (hy : FP.IsVal y vy) (hov : vx * vy < 2 ^ fmt.emax) :
    FP.IsVal (FP.mul fmt x y) (roundQ fmt (vx * vy)) := by
  obtain ⟨m1, e1, rfl, rfl⟩ := hx
  obtain ⟨m2, e2, rfl, rfl⟩ := hy
  have hprod : (((m1 * m2 : ℕ) : ℚ)) / ((1 : ℕ) : ℚ) * 2 ^ (e1 + e2) =
      (m1 : ℚ) * 2 ^ e1 * ((m2 : ℚ) * 2 ^ e2) := by
    push_cast
    rw [div_one, zpow_add₀ two_ne_zero_q]
    ring
  have := FP.round_isVal fmt he _ 1 (by norm_num) (e1 + e2) (by rw [hprod]; exact hov)
  rw [hprod] at this
  simpa [FP.mul] using this

theorem FP.div_isVal (fmt : FloatFormat) (he : fmt.emin < fmt.emax) {x y : FP} {vx vy : ℚ}
    (hx : FP.IsVal x vx) (hy : FP.IsVal y vy) (hpos : 0 < vy) (hov : vx / vy < 2 ^ fmt.emax) :
    FP.IsVal (FP.div fmt x y) (roundQ fmt (vx / vy)) := by
  obtain ⟨m1, e1, rfl, rfl⟩ := hx
  obtain ⟨m2, e2, rfl, rfl⟩ := hy
  have hm2 : m2 ≠ 0 := by
    rintro rfl
    simp at hpos
  have hquot : ((m1 : ℚ)) / (m2 : ℚ) * 2 ^ (e1 - e2) =
      (m1 : ℚ) * 2 ^ e1 / ((m2 : ℚ) * 2 ^ e2) := by
    rw [zpow_sub₀ two_ne_zero_q]
    have : (m2 : ℚ) ≠ 0 := by exact_mod_cast hm2
    field_simp
  have := FP.round_isVal fmt he m1 m2 (Nat.pos_of_ne_zero hm2) (e1 - e2)
    (by rw [hquot]; exact hov)
  rw [hquot] at this
  simpa [FP.div, hm2] using this

theorem FP.ge_isVal {x y : FP} {vx vy : ℚ} (hx : FP.IsVal x vx) (hy : FP.IsVal y vy) :
    FP.ge x y = decide (vy ≤ vx) := by
  obtain ⟨m1, e1, rfl, rfl⟩ := hx
  obtain ⟨m2, e2, rfl, rfl⟩ := hy
  simp only [FP.ge, Bool.false_eq_true, if_false, ge_iff_le, Nat.cast_le]
  congr 1
  rw [← not_lt, ← not_lt, aligned_lt_iff]

/-- The integer part of a non-negative finite value, as the conversions compute it. -/
theorem truncated_eq_floor (m : ℕ) (e : ℤ) :
    (if e ≥ 0 then m * 2 ^ e.toNat else m / 2 ^ (-e).toNat) = ⌊(m : ℚ) * 2 ^ e⌋₊ := by
  by_cases h : e ≥ 0
  · rw [if_pos h]
    have h1 : (e.toNat : ℤ) = e := Int.toNat_of_nonneg h
    have : (m : ℚ) * 2 ^ e = ((m * 2 ^ e.toNat : ℕ) : ℚ) := by
      push_cast
      rw [← zpow_natCast, h1]
    rw [this, Nat.floor_natCast]
  · rw [if_neg h]
    have h1 : ((-e).toNat : ℤ) = -e := Int.toNat_of_nonneg (by omega)
    have : (m : ℚ) * 2 ^ e = (m : ℚ) / ((2 ^ (-e).toNat : ℕ) : ℚ) := by
      push_cast
      rw [← zpow_natCast, h1, zpow_neg, div_inv_eq_mul]
    rw [this, Nat.floor_div_eq_div]

theorem FP.toU32_isVal {x : FP} {v : ℚ} (hx : FP.IsVal x v) (h : ⌊v⌋₊ < 2 ^ 32) :
    FP.toU32 x = Except.ok ⌊v⌋₊ := by
  obtain ⟨m, e, rfl, rfl⟩ := hx
  simp only [FP.toU32, truncated_eq_floor, Bool.false_eq_true, if_false, h, if_true]
  by_cases h0 : ⌊(m : ℚ) * 2 ^ e⌋₊ = 0
  · rw [if_pos h0, h0]
  · rw [if_neg h0]

theorem Math.floor_isVal {x : FP} {v : ℚ} (hx : FP.IsVal x v) :
    FP.IsVal (Math.floor x) (⌊v⌋₊ : ℚ) := by
  obtain ⟨m, e, rfl, rfl⟩ := hx
  have ht := truncated_eq_floor m e
  by_cases h : e ≥ 0
  · rw [if_pos h] at ht
    have h1 : (e.toNat : ℤ) = e := Int.toNat_of_nonneg h
    refine ⟨m, e, by simp [Math.floor, h], ?_⟩
    rw [← ht]
    push_cast
    rw [← zpow_natCast, h1]
  · rw [if_neg h] at ht
    refine ⟨m / 2 ^ (-e).toNat, 0, by simp [Math.floor, h], ?_⟩
    rw [← ht]
    simp

theorem Math.roundFP_isVal {x : FP} {v : ℚ} (hx : FP.IsVal x v) :
    FP.IsVal (Math.roundFP x) (⌊v + 1 / 2⌋₊ : ℚ) := by
  obtain ⟨m, e, rfl, rfl⟩ := hx
  by_cases h : e ≥ 0
  · have h1 : (e.toNat : ℤ) = e := Int.toNat_of_nonneg h
    refine ⟨m, e, by simp [Math.roundFP, h], ?_⟩
    have : (m : ℚ) * 2 ^ e = ((m * 2 ^ e.toNat : ℕ) : ℚ) := by
      push_cast
      rw [← zpow_natCast, h1]
    rw [this]
    congr 1
    symm
    rw [Nat.floor_eq_iff (by positivity)]
    constructor <;> linarith
  · have h1 : ((-e).toNat : ℤ) = -e := Int.toNat_of_nonneg (by omega)
    refine ⟨(2 * m + 2 ^ (-e).toNat) / (2 * 2 ^ (-e).toNat), 0, by simp [Math.roundFP, h], ?_⟩
    have : (m : ℚ) * 2 ^ e + 1 / 2 =
        ((2 * m + 2 ^ (-e).toNat : ℕ) : ℚ) / ((2 * 2 ^ (-e).toNat : ℕ) : ℚ) := by
      push_cast
      rw [← zpow_natCast, h1, zpow_neg]
      have := two_zpow_pos e
      field_simp
      ring
    rw [this, Nat.floor_div_eq_div]
    simp

/-! ## The source coordinates of `resize` -/

theorem roundQ_le_add_mul (fmt : FloatFormat) {q : ℚ} (hq : (2 : ℚ) ^ fmt.emin ≤ q) :
    roundQ fmt q ≤ q * (1 + 2 ^ (-(fmt.prec : ℤ))) := by
  have h := abs_roundQ_sub_le_mul fmt hq
  have := (abs_le.mp h).2
  linarith

/-- The arithmetic behind the bound of a source coordinate: with relative errors `u` in the
product and in the quotient, `(x + 1/2) * W / w` stays below `W`. -/
theorem coord_bound {w W p p' F u : ℚ} (hu0 : 0 ≤ u) (hu1 : u ≤ 1 / 8) (hwu : w * u ≤ 1 / 8)
    (hw : 1 ≤ w) (hW : 0 < W) (hp : p ≤ (w - 1 / 2) * W * (1 + u))
    (hp' : p' ≤ p * (1 + u)) (hF : F ≤ p' / w * (1 + u)) : F < W := by
  have hw0 : 0 < w := by linarith
  have h1 : p' / w ≤ p * (1 + u) / w := div_le_div_of_nonneg_right hp' hw0.le
  have h2 : F ≤ p * (1 + u) / w * (1 + u) := by
    have : p' / w * (1 + u) ≤ p * (1 + u) / w * (1 + u) :=
      mul_le_mul_of_nonneg_right h1 (by linarith)
    linarith
  have h3 : p * (1 + u) / w * (1 + u) = p * ((1 + u) * (1 + u)) / w := by ring
  rw [h3] at h2
  have h4 : p * ((1 + u) * (1 + u)) ≤ (w - 1 / 2) * W * (1 + u) * ((1 + u) * (1 + u)) :=
    mul_le_mul_of_nonneg_right hp (by positivity)
  have h5 : (w - 1 / 2) * ((1 + u) * ((1 + u) * (1 + u))) < w := by
    have e0 : u * u ≤ u / 8 := by nlinarith
    have e00 : u * u * u ≤ u / 64 := by nlinarith [mul_nonneg hu0 hu0]
    have e1 : (1 + u) * ((1 + u) * (1 + u)) ≤ 1 + 4 * u := by
      have : (1 + u) * ((1 + u) * (1 + u)) = 1 + 3 * u + 3 * (u * u) + u * u * u := by ring
      rw [this]
      linarith
    have e2 : (w - 1 / 2) * ((1 + u) * ((1 + u) * (1 + u))) ≤ (w - 1 / 2) * (1 + 4 * u) :=
      mul_le_mul_of_nonneg_left e1 (by linarith)
    nlinarith
  have h6 : (w - 1 / 2) * W * (1 + u) * ((1 + u) * (1 + u)) < w * W := by
    have : (w - 1 / 2) * W * (1 + u) * ((1 + u) * (1 + u)) =
        (w - 1 / 2) * ((1 + u) * ((1 + u) * (1 + u))) * W := by ring
    rw [this]
    exact mul_lt_mul_of_pos_right h5 hW
  have h7 : p * ((1 + u) * (1 + u)) / w < W := by
    rw [div_lt_iff₀ hw0]
    linarith
  linarith

theorem u64_eq : (2 : ℚ) ^ (-(binary64.prec : ℤ)) = 1 / 9007199254740992 := by
  norm_num [binary64, zpow_neg]

theorem u32_eq : (2 : ℚ) ^ (-(binary32.prec : ℤ)) = 1 / 16777216 := by
  norm_num [binary32, zpow_neg]

theorem half_isVal : FP.IsVal FP.half (1 / 2) :=
  ⟨1, -1, rfl, by norm_num [zpow_neg]⟩

theorem one_isVal : FP.IsVal FP.one 1 :=
  ⟨1, 0, rfl, by norm_num⟩

theorem natCast_lt_two_pow {n k : ℕ} {e : ℤ} (h : n < 2 ^ k) (hk : (k : ℤ) ≤ e) :
    (n : ℚ) < 2 ^ e := by
  have h1 : (n : ℚ) < 2 ^ (k : ℤ) := by rw [zpow_natCast]; exact_mod_cast h
  exact lt_of_lt_of_le h1 (zpow_two_le hk)

theorem two_pow_isRep (fmt : FloatFormat) (hp : 0 < fmt.prec) (k : ℕ)
    (hk : fmt.emin - ((fmt.prec : ℤ) - 1) ≤ k) {q : ℚ} (hq0 : 0 ≤ q) (hq : q ≤ 2 ^ k) :
    roundQ fmt q ≤ 2 ^ k := by
  have h := roundQ_le_of_le fmt hq0 1 (k : ℤ) (Nat.one_lt_two_pow (by omega)) hk
    (by simpa using hq)
  simpa using h

theorem scaledCoord_isVal (fmt : FloatFormat) (hp : 0 < fmt.prec) (he : fmt.emin < fmt.emax)
    (hlo : fmt.emin - ((fmt.prec : ℤ) - 1) ≤ -1) (hhi : 66 ≤ fmt.emax)
    (hpe : (fmt.prec : ℤ) ≤ fmt.emax) (x W w : ℕ) (hx : 2 * x + 1 < 2 ^ fmt.prec)
    (hx32 : x < 2 ^ 32) (hw : w < 2 ^ fmt.prec) (hw0 : 0 < w) (hW : W < 2 ^ 32) :
    FP.IsVal
      (FP.div fmt (FP.mul fmt (FP.add fmt (FP.ofNat fmt x) FP.half) (FP.ofNat fmt W))
        (FP.ofNat fmt w))
      (scaledCoord fmt x W w) := by
  have hxp : x < 2 ^ fmt.prec := by omega
  have h1 := FP.ofNat_isVal_exact fmt hp he (by omega) hpe x hxp
  have hx' : (x : ℚ) < 2 ^ (32 : ℕ) := by exact_mod_cast hx32
  have hW' : (W : ℚ) < 2 ^ (32 : ℕ) := by exact_mod_cast hW
  have e64 : (2 : ℚ) ^ (64 : ℕ) ≤ 2 ^ fmt.emax := by
    rw [← zpow_natCast]; exact zpow_two_le (by push_cast; omega)
  have e33 : (2 : ℚ) ^ (33 : ℕ) ≤ 2 ^ fmt.emax := by
    rw [← zpow_natCast]; exact zpow_two_le (by push_cast; omega)
  have h2 := FP.add_isVal fmt he h1 half_isVal (by
    have h32 : (2 : ℚ) ^ (32 : ℕ) ≤ 2 ^ (33 : ℕ) := by norm_num
    have : (x : ℚ) + 1 / 2 < 2 ^ (33 : ℕ) := by
      have : (1 : ℚ) ≤ 2 ^ (32 : ℕ) := by norm_num
      linarith
    linarith)
  have eX : roundQ fmt ((x : ℚ) + 1 / 2) = (x : ℚ) + 1 / 2 := by
    have := roundQ_exact fmt hp (2 * x + 1) (-1) hx hlo
    have e : ((2 * x + 1 : ℕ) : ℚ) * 2 ^ (-1 : ℤ) = (x : ℚ) + 1 / 2 := by
      push_cast; norm_num [zpow_neg]; ring
    rwa [e] at this
  rw [eX] at h2
  have h3 := FP.ofNat_isVal fmt he W (lt_of_lt_of_le hW' (le_trans (by norm_num) e33))
  have hWr : roundQ fmt W ≤ 2 ^ (32 : ℕ) :=
    two_pow_isRep fmt hp 32 (by push_cast; omega) (Nat.cast_nonneg W) hW'.le
  have hWr0 : 0 ≤ roundQ fmt W := roundQ_nonneg fmt (Nat.cast_nonneg W)
  have hprod : ((x : ℚ) + 1 / 2) * roundQ fmt W ≤ 2 ^ (64 : ℕ) := by
    have hX : (x : ℚ) + 1 / 2 ≤ 2 ^ (32 : ℕ) := by
      have : (x : ℚ) + 1 ≤ 2 ^ (32 : ℕ) := by exact_mod_cast hx32
      linarith
    have : ((x : ℚ) + 1 / 2) * roundQ fmt W ≤ 2 ^ (32 : ℕ) * 2 ^ (32 : ℕ) :=
      mul_le_mul hX hWr hWr0 (by positivity)
    calc ((x : ℚ) + 1 / 2) * roundQ fmt W ≤ 2 ^ (32 : ℕ) * 2 ^ (32 : ℕ) := this
      _ = 2 ^ (64 : ℕ) := by norm_num
  have hprod0 : 0 ≤ ((x : ℚ) + 1 / 2) * roundQ fmt W := mul_nonneg (by positivity) hWr0
  have e64' : (2 : ℚ) ^ (64 : ℕ) < 2 ^ fmt.emax := by
    have : (2 : ℚ) ^ (64 : ℕ) < 2 ^ (65 : ℕ) := by norm_num
    refine lt_of_lt_of_le this ?_
    rw [← zpow_natCast]; exact zpow_two_le (by push_cast; omega)
  have h4 := FP.mul_isVal fmt he h2 h3 (lt_of_le_of_lt hprod e64')
  have hw' : (1 : ℚ) ≤ w := by exact_mod_cast hw0
  have h5 := FP.ofNat_isVal_exact fmt hp he (by omega) hpe w hw
  have hp' : roundQ fmt (((x : ℚ) + 1 / 2) * roundQ fmt W) ≤ 2 ^ (64 : ℕ) :=
    two_pow_isRep fmt hp 64 (by push_cast; omega) hprod0 hprod
  have hp0 : 0 ≤ roundQ fmt (((x : ℚ) + 1 / 2) * roundQ fmt W) := roundQ_nonneg fmt hprod0
  have hdiv : roundQ fmt (((x : ℚ) + 1 / 2) * roundQ fmt W) / w ≤ 2 ^ (64 : ℕ) := by
    rw [div_le_iff₀ (by linarith)]
    have : (2 : ℚ) ^ (64 : ℕ) ≤ 2 ^ (64 : ℕ) * w := by
      have : (0 : ℚ) < 2 ^ (64 : ℕ) := by positivity
      nlinarith
    linarith
  have h6 := FP.div_isVal fmt he h4 h5 (by linarith) (lt_of_le_of_lt hdiv e64')
  exact h6

theorem one_le_roundQ (fmt : FloatFormat) (hp : 0 < fmt.prec)
    (hlo : fmt.emin - ((fmt.prec : ℤ) - 1) ≤ -1) {q : ℚ} (hq : 1 ≤ q) : 1 ≤ roundQ fmt q := by
  have := le_roundQ_of_le fmt hp (by linarith : (0 : ℚ) ≤ q) 1 0 (Nat.one_lt_two_pow (by omega))
    (by omega) (by simpa using hq)
  simpa using this

theorem half_le_roundQ (fmt : FloatFormat) (hp : 0 < fmt.prec)
    (hlo : fmt.emin - ((fmt.prec : ℤ) - 1) ≤ -1) {q : ℚ} (hq : 1 / 2 ≤ q) :
    1 / 2 ≤ roundQ fmt q := by
  have := le_roundQ_of_le fmt hp (by linarith : (0 : ℚ) ≤ q) 1 (-1)
    (Nat.one_lt_two_pow (by omega)) hlo (by norm_num [zpow_neg]; linarith)
  norm_num [zpow_neg] at this
  linarith

theorem scaledCoord_lt (fmt : FloatFormat) (hp : 0 < fmt.prec)
    (hlo : fmt.emin - ((fmt.prec : ℤ) - 1) ≤ -1) (hmin : fmt.emin ≤ -33) (hprec : 3 ≤ fmt.prec)
    (x W w : ℕ) (hW1 : 1 ≤ W) (hw32 : w < 2 ^ 32) (hx : x < w)
    (hwu : (w : ℚ) * 2 ^ (-(fmt.prec : ℤ)) ≤ 1 / 8) :
    scaledCoord fmt x W w < W := by
  have hw1 : (1 : ℚ) ≤ w := by exact_mod_cast (by omega : 1 ≤ w)
  have hW1' : (1 : ℚ) ≤ W := by exact_mod_cast hW1
  have hu0 : (0 : ℚ) ≤ 2 ^ (-(fmt.prec : ℤ)) := (two_zpow_pos _).le
  have hu1 : (2 : ℚ) ^ (-(fmt.prec : ℤ)) ≤ 1 / 8 := by
    have h3 : (2 : ℚ) ^ (-3 : ℤ) = 1 / 8 := by norm_num [zpow_neg]
    have : (2 : ℚ) ^ (-(fmt.prec : ℤ)) ≤ 2 ^ (-3 : ℤ) := zpow_two_le (by omega)
    rwa [h3] at this
  have hmin1 : (2 : ℚ) ^ fmt.emin ≤ 2 ^ (-33 : ℤ) := zpow_two_le hmin
  have h33 : (2 : ℚ) ^ (-33 : ℤ) = 1 / 8589934592 := by norm_num [zpow_neg]
  rw [h33] at hmin1
  have hWr1 : 1 ≤ roundQ fmt W := one_le_roundQ fmt hp hlo hW1'
  have hWr : roundQ fmt W ≤ W * (1 + 2 ^ (-(fmt.prec : ℤ))) :=
    roundQ_le_add_mul fmt (by linarith)
  have hX : (x : ℚ) + 1 / 2 ≤ w - 1 / 2 := by
    have : (x : ℚ) + 1 ≤ w := by exact_mod_cast hx
    linarith
  have hX0 : (0 : ℚ) ≤ (x : ℚ) + 1 / 2 := by positivity
  have hp1 : ((x : ℚ) + 1 / 2) * roundQ fmt W ≤
      (w - 1 / 2) * W * (1 + 2 ^ (-(fmt.prec : ℤ))) := by
    have : ((x : ℚ) + 1 / 2) * roundQ fmt W ≤ (w - 1 / 2) * (W * (1 + 2 ^ (-(fmt.prec : ℤ)))) :=
      mul_le_mul hX hWr (by linarith) (by linarith)
    linarith
  have hp2 : 1 / 2 ≤ ((x : ℚ) + 1 / 2) * roundQ fmt W := by
    have : (1 / 2 : ℚ) * 1 ≤ ((x : ℚ) + 1 / 2) * roundQ fmt W :=
      mul_le_mul (by linarith [Nat.cast_nonneg (α := ℚ) x]) hWr1 (by norm_num) hX0
    linarith
  have hp3 := roundQ_le_add_mul fmt (q := ((x : ℚ) + 1 / 2) * roundQ fmt W) (by linarith)
  have hp4 := half_le_roundQ fmt hp hlo hp2
  have hq : (2 : ℚ) ^ fmt.emin ≤ roundQ fmt (((x : ℚ) + 1 / 2) * roundQ fmt W) / w := by
    rw [le_div_iff₀ (by linarith)]
    have hw' : (w : ℚ) < 4294967296 := by exact_mod_cast hw32
    have : (2 : ℚ) ^ fmt.emin * w ≤ 1 / 8589934592 * 4294967296 :=
      mul_le_mul hmin1 hw'.le (by linarith) (by norm_num)
    linarith
  have hF := roundQ_le_add_mul fmt hq
  exact coord_bound hu0 hu1 hwu hw1 (by linarith) hp1 hp3 hF

theorem roundQ_natCast (fmt : FloatFormat) (hp : 0 < fmt.prec)
    (hlo : fmt.emin - ((fmt.prec : ℤ) - 1) ≤ -1) (n : ℕ) (hn : n < 2 ^ fmt.prec) :
    roundQ fmt (n : ℚ) = n := by
  have := roundQ_exact fmt hp n 0 hn (by omega)
  simpa using this

theorem roundQ_half_natCast (fmt : FloatFormat) (hp : 0 < fmt.prec)
    (hlo : fmt.emin - ((fmt.prec : ℤ) - 1) ≤ -1) (n : ℕ) (hn : n < 2 ^ fmt.prec) :
    roundQ fmt ((n : ℚ) / 2) = (n : ℚ) / 2 := by
  have := roundQ_exact fmt hp n (-1) hn hlo
  have e : (n : ℚ) * 2 ^ (-1 : ℤ) = (n : ℚ) / 2 := by norm_num [zpow_neg]; ring
  rwa [e] at this

theorem scaledCoord_exact (fmt : FloatFormat) (hp : 0 < fmt.prec)
    (hlo : fmt.emin - ((fmt.prec : ℤ) - 1) ≤ -1) (x W w : ℕ)
    (hN : (2 * x + 1) * W < 2 ^ fmt.prec) :
    scaledCoord fmt x W w = roundQ fmt ((((2 * x + 1) * W : ℕ) : ℚ) / ((2 * w : ℕ) : ℚ)) := by
  have hW : W < 2 ^ fmt.prec := by
    rcases Nat.eq_zero_or_pos W with h | h
    · rw [h]; exact Nat.two_pow_pos _
    · calc W ≤ (2 * x + 1) * W := Nat.le_mul_of_pos_left _ (by omega)
        _ < _ := hN
  unfold scaledCoord
  rw [roundQ_natCast fmt hp hlo W hW]
  have e1 : ((x : ℚ) + 1 / 2) * W = (((2 * x + 1) * W : ℕ) : ℚ) / 2 := by
    push_cast; ring
  rw [e1, roundQ_half_natCast fmt hp hlo _ hN]
  congr 1
  push_cast
  rw [div_div]

theorem scaledCoord_floor (fmt : FloatFormat) (hp : 0 < fmt.prec)
    (hlo : fmt.emin - ((fmt.prec : ℤ) - 1) ≤ -1) (hmin : fmt.emin ≤ -34)
    (x W w : ℕ) (hW1 : 1 ≤ W) (hw32 : w < 2 ^ 32) (hx : x < w)
    (hb : 2 * w * W ≤ 2 ^ fmt.prec) :
    ⌊scaledCoord fmt x W w⌋₊ = (2 * x + 1) * W / (2 * w) := by
  have hw0 : 0 < 2 * w := by omega
  have hN : (2 * x + 1) * W < 2 * w * W := Nat.mul_lt_mul_of_pos_right (by omega) hW1
  have hN' : (2 * x + 1) * W < 2 ^ fmt.prec := lt_of_lt_of_le hN hb
  rw [scaledCoord_exact fmt hp hlo x W w hN']
  generalize hNd : (2 * x + 1) * W = N at *
  have hk1 : N / (2 * w) * (2 * w) ≤ N := Nat.div_mul_le_self N (2 * w)
  have hk2 : N < (N / (2 * w) + 1) * (2 * w) := by
    rw [Nat.mul_comm]
    exact Nat.lt_mul_div_succ N hw0
  have hkW : N / (2 * w) + 1 ≤ W := by
    have : N / (2 * w) < W := by
      rw [Nat.div_lt_iff_lt_mul hw0]
      rw [Nat.mul_comm]
      exact hN
    omega
  generalize N / (2 * w) = k at *
  have h2w : (0 : ℚ) < ((2 * w : ℕ) : ℚ) := by exact_mod_cast hw0
  have hq1 : (k : ℚ) ≤ (N : ℚ) / ((2 * w : ℕ) : ℚ) := by
    rw [le_div_iff₀ h2w]
    exact_mod_cast hk1
  have hq2 : (N : ℚ) / ((2 * w : ℕ) : ℚ) ≤ (k : ℚ) + 1 - 1 / ((2 * w : ℕ) : ℚ) := by
    rw [div_le_iff₀ h2w, sub_mul, one_div, inv_mul_cancel₀ h2w.ne']
    have : (N : ℚ) + 1 ≤ ((k : ℚ) + 1) * ((2 * w : ℕ) : ℚ) := by exact_mod_cast hk2
    linarith
  have hk0 : k < 2 ^ fmt.prec := by
    have : k ≤ N := by
      calc k ≤ k * (2 * w) := Nat.le_mul_of_pos_right _ hw0
        _ ≤ N := hk1
    omega
  have hq0 : (0 : ℚ) ≤ (N : ℚ) / ((2 * w : ℕ) : ℚ) := by positivity
  rw [Nat.floor_eq_iff (roundQ_nonneg fmt hq0)]
  constructor
  · have := le_roundQ_of_le fmt hp hq0 k 0 hk0 (by omega) (by simpa using hq1)
    simpa using this
  · rcases Nat.eq_zero_or_pos N with hN0 | hN0
    · rw [hN0]
      simp only [Nat.cast_zero, zero_div, roundQ_zero]
      positivity
    have hmin1 : (2 : ℚ) ^ fmt.emin ≤ 2 ^ (-34 : ℤ) := zpow_two_le hmin
    have h34 : (2 : ℚ) ^ (-34 : ℤ) = 1 / 17179869184 := by norm_num [zpow_neg]
    rw [h34] at hmin1
    have hqmin : (2 : ℚ) ^ fmt.emin ≤ (N : ℚ) / ((2 * w : ℕ) : ℚ) := by
      rw [le_div_iff₀ h2w]
      have hw' : ((2 * w : ℕ) : ℚ) ≤ 8589934592 := by
        have : 2 * w ≤ 8589934592 := by omega
        exact_mod_cast this
      have hN1 : (1 : ℚ) ≤ N := by exact_mod_cast hN0
      have : (2 : ℚ) ^ fmt.emin * ((2 * w : ℕ) : ℚ) ≤ 1 / 17179869184 * 8589934592 :=
        mul_le_mul hmin1 hw' h2w.le (by norm_num)
      linarith
    have hF := roundQ_le_add_mul fmt hqmin
    set u : ℚ := 2 ^ (-(fmt.prec : ℤ)) with hu
    have hu0 : 0 < u := two_zpow_pos _
    have hbu : ((k : ℚ) + 1) * ((2 * w : ℕ) : ℚ) * u ≤ 1 := by
      have h1 : (k + 1) * (2 * w) ≤ 2 ^ fmt.prec := by
        calc (k + 1) * (2 * w) ≤ W * (2 * w) := Nat.mul_le_mul_right _ hkW
          _ = 2 * w * W := by ring
          _ ≤ _ := hb
      have h2 : ((k : ℚ) + 1) * ((2 * w : ℕ) : ℚ) ≤ 2 ^ (fmt.prec : ℤ) := by
        rw [zpow_natCast]
        exact_mod_cast h1
      have h3 : (2 : ℚ) ^ (fmt.prec : ℤ) * u = 1 := by
        rw [hu, ← zpow_add₀ two_ne_zero_q]
        simp
      calc ((k : ℚ) + 1) * ((2 * w : ℕ) : ℚ) * u ≤ 2 ^ (fmt.prec : ℤ) * u :=
            mul_le_mul_of_nonneg_right h2 hu0.le
        _ = 1 := h3
    -- (k + 1 - 1/(2w)) (1 + u) < k + 1
    have key : ((k : ℚ) + 1 - 1 / ((2 * w : ℕ) : ℚ)) * (1 + u) < (k : ℚ) + 1 := by
      have h1 : ((k : ℚ) + 1) * u ≤ 1 / ((2 * w : ℕ) : ℚ) := by
        rw [le_div_iff₀ h2w]
        linarith
      have h2 : (0 : ℚ) < 1 / ((2 * w : ℕ) : ℚ) := by positivity
      nlinarith
    have : (N : ℚ) / ((2 * w : ℕ) : ℚ) * (1 + u) ≤
        ((k : ℚ) + 1 - 1 / ((2 * w : ℕ) : ℚ)) * (1 + u) :=
      mul_le_mul_of_nonneg_right hq2 (by linarith)
    push_cast at *
    linarith

theorem binary64_prec : binary64.prec = 53 := rfl
theorem binary64_emin : binary64.emin = -1022 := rfl
theorem binary64_emax : binary64.emax = 1023 := rfl
theorem binary32_prec : binary32.prec = 24 := rfl
theorem binary32_emin : binary32.emin = -126 := rfl
theorem binary32_emax : binary32.emax = 127 := rfl

/-- The nearest-neighbour source coordinate is computed without failure, and it is inside
the source. -/
theorem resizeNearestCoord_eq (x W w : ℕ) (hW1 : 1 ≤ W) (hW : W < 2 ^ 32) (hw : w < 2 ^ 32)
    (hx : x < w) :
    Image.resizeNearestCoord x W w = Except.ok ⌊scaledCoord binary64 x W w⌋₊ ∧
      ⌊scaledCoord binary64 x W w⌋₊ < W := by
  have hv := scaledCoord_isVal binary64 (by decide) (by decide) (by decide) (by decide)
    (by decide) x W w (by rw [binary64_prec]; omega) (by omega)
    (by rw [binary64_prec]; omega) (by omega) hW
  have hwu : (w : ℚ) * 2 ^ (-(binary64.prec : ℤ)) ≤ 1 / 8 := by
    rw [u64_eq]
    have : (w : ℚ) < 4294967296 := by exact_mod_cast hw
    linarith
  have hlt := scaledCoord_lt binary64 (by decide) (by decide) (by decide) (by decide)
    x W w hW1 hw hx hwu
  have hfl : ⌊scaledCoord binary64 x W w⌋₊ < W := by
    rw [Nat.floor_lt (FP.IsVal.nonneg hv)]
    exact hlt
  refine ⟨?_, hfl⟩
  have h1 := Math.floor_isVal hv
  have h2 := FP.toU32_isVal h1 (by rw [Nat.floor_natCast]; omega)
  rw [Nat.floor_natCast] at h2
  exact h2

theorem resizeNearestCoord_exact (x W w : ℕ) (hW1 : 1 ≤ W) (hW : W < 2 ^ 32)
    (hw : w < 2 ^ 32) (hx : x < w) (hb : w * W ≤ 2 ^ 52) :
    Image.resizeNearestCoord x W w = Except.ok ((2 * x + 1) * W / (2 * w)) := by
  have h := (resizeNearestCoord_eq x W w hW1 hW hw hx).1
  rw [scaledCoord_floor binary64 (by decide) (by decide) (by decide) x W w hW1 hw hx
    (by rw [binary64_prec, Nat.mul_assoc]; omega)] at h
  exact h

/-- A rounded value that is at least `2 ^ j` is a multiple of `2 ^ (j - (prec - 1))`. -/
theorem roundQ_multiple (fmt : FloatFormat) (hp : 0 < fmt.prec) {q : ℚ} (hq : 0 ≤ q) (j : ℤ)
    (hj : fmt.emin - ((fmt.prec : ℤ) - 1) ≤ j) (h : (2 : ℚ) ^ j ≤ roundQ fmt q) :
    ∃ k : ℕ, roundQ fmt q = (k : ℚ) * 2 ^ (j - ((fmt.prec : ℤ) - 1)) := by
  by_cases hc : j - ((fmt.prec : ℤ) - 1) ≤ ulpExp fmt q
  · have h0 : 0 ≤ rne (q / 2 ^ ulpExp fmt q) :=
      rne_nonneg (div_nonneg hq (two_zpow_pos _).le)
    refine ⟨(rne (q / 2 ^ ulpExp fmt q)).toNat *
      2 ^ (ulpExp fmt q - (j - ((fmt.prec : ℤ) - 1))).toNat, ?_⟩
    have h1 : ((ulpExp fmt q - (j - ((fmt.prec : ℤ) - 1))).toNat : ℤ) =
        ulpExp fmt q - (j - ((fmt.prec : ℤ) - 1)) := Int.toNat_of_nonneg (by omega)
    have h2 : (((rne (q / 2 ^ ulpExp fmt q)).toNat : ℤ) : ℚ) =
        (rne (q / 2 ^ ulpExp fmt q) : ℚ) := by rw [Int.toNat_of_nonneg h0]
    push_cast
    rw [← Int.cast_natCast (R := ℚ) (rne (q / 2 ^ ulpExp fmt q)).toNat, h2, mul_assoc,
      ← zpow_natCast, h1, ← zpow_add₀ two_ne_zero_q]
    unfold roundQ
    congr 2
    omega
  · push_neg at hc
    rcases eq_or_lt_of_le hq with hq0 | hq0
    · rw [← hq0, roundQ_zero] at h
      exact absurd h (not_le.mpr (two_zpow_pos j))
    have hlog : Int.log 2 q < j := by
      have := ulpExp_add fmt q
      have := le_max_right fmt.emin (Int.log 2 q)
      omega
    have hqj : q < 2 ^ j := by
      have := (Int.lt_zpow_iff_log_lt (b := 2) (by norm_num) hq0).mpr hlog
      exact_mod_cast this
    have hle := roundQ_le_of_le fmt hq 1 j (Nat.one_lt_two_pow (by omega)) hj
      (by simpa using hqj.le)
    simp only [Nat.cast_one, one_mul] at hle
    refine ⟨2 ^ (fmt.prec - 1), ?_⟩
    rw [le_antisymm hle h]
    push_cast
    rw [← zpow_natCast, ← zpow_add₀ two_ne_zero_q]
    congr 1
    omega

/-- A multiple of `2 ^ e` below `2 ^ (e + prec)` is a value of the format. -/
theorem roundQ_of_multiple (fmt : FloatFormat) (hp : 0 < fmt.prec) (k : ℕ) (e : ℤ)
    (he : fmt.emin - ((fmt.prec : ℤ) - 1) ≤ e) (hk : k ≤ 2 ^ fmt.prec) :
    roundQ fmt ((k : ℚ) * 2 ^ e) = (k : ℚ) * 2 ^ e := by
  rcases eq_or_lt_of_le hk with hk | hk
  · have e1 : (k : ℚ) * 2 ^ e = ((2 ^ (fmt.prec - 1) : ℕ) : ℚ) * 2 ^ (e + 1) := by
      rw [hk]
      push_cast
      rw [← zpow_natCast, ← zpow_natCast, ← zpow_add₀ two_ne_zero_q,
        ← zpow_add₀ two_ne_zero_q]
      congr 1
      omega
    rw [e1]
    exact roundQ_exact fmt hp _ _ (Nat.pow_lt_pow_right (by norm_num) (by omega)) (by omega)
  · exact roundQ_exact fmt hp k e hk he

theorem roundQ_eq_mul (fmt : FloatFormat) {q : ℚ} (hq : 0 ≤ q) :
    ∃ k : ℕ, k ≤ 2 ^ fmt.prec ∧ roundQ fmt q = (k : ℚ) * 2 ^ ulpExp fmt q := by
  have h0 : 0 ≤ rne (q / 2 ^ ulpExp fmt q) :=
    rne_nonneg (div_nonneg hq (two_zpow_pos _).le)
  have h1 : rne (q / 2 ^ ulpExp fmt q) ≤ ((2 ^ fmt.prec : ℕ) : ℤ) := by
    apply rne_le_of_le_int
    push_cast
    rw [← zpow_natCast]
    exact (scaled_lt fmt q).le
  refine ⟨(rne (q / 2 ^ ulpExp fmt q)).toNat, by omega, ?_⟩
  have h2 : (((rne (q / 2 ^ ulpExp fmt q)).toNat : ℤ) : ℚ) =
      (rne (q / 2 ^ ulpExp fmt q) : ℚ) := by rw [Int.toNat_of_nonneg h0]
  rw [← Int.cast_natCast (R := ℚ) (rne (q / 2 ^ ulpExp fmt q)).toNat, h2]
  rfl

theorem roundQ_idem (fmt : FloatFormat) (hp : 0 < fmt.prec) {q : ℚ} (hq : 0 ≤ q) :
    roundQ fmt (roundQ fmt q) = roundQ fmt q := by
  obtain ⟨k, hk, e⟩ := roundQ_eq_mul fmt hq
  rw [e]
  exact roundQ_of_multiple fmt hp k _ (emin_le_ulpExp fmt q) hk

/-- The integer part of a rounded value is a value of the format. -/
theorem roundQ_floor (fmt : FloatFormat) (hp : 0 < fmt.prec)
    (hlo : fmt.emin - ((fmt.prec : ℤ) - 1) ≤ -1) {q : ℚ} (hq : 0 ≤ q) :
    roundQ fmt (⌊roundQ fmt q⌋₊ : ℚ) = (⌊roundQ fmt q⌋₊ : ℚ) := by
  obtain ⟨k, hk, e⟩ := roundQ_eq_mul fmt hq
  by_cases he : 0 ≤ ulpExp fmt q
  · have h1 : ((ulpExp fmt q).toNat : ℤ) = ulpExp fmt q := Int.toNat_of_nonneg he
    have h2 : roundQ fmt q = ((k * 2 ^ (ulpExp fmt q).toNat : ℕ) : ℚ) := by
      rw [e]; push_cast; rw [← zpow_natCast, h1]
    rw [h2, Nat.floor_natCast, ← h2]
    exact roundQ_idem fmt hp hq
  · push_neg at he
    apply roundQ_natCast fmt hp hlo
    have h1 : roundQ fmt q ≤ (2 : ℚ) ^ (fmt.prec : ℤ) * 2 ^ (-1 : ℤ) := by
      rw [e]
      have hk' : (k : ℚ) ≤ 2 ^ (fmt.prec : ℤ) := by
        rw [zpow_natCast]; exact_mod_cast hk
      exact mul_le_mul hk' (zpow_two_le (by omega)) (two_zpow_pos _).le (two_zpow_pos _).le
    have h2 : (2 : ℚ) ^ (fmt.prec : ℤ) * 2 ^ (-1 : ℤ) = ((2 ^ (fmt.prec - 1) : ℕ) : ℚ) := by
      push_cast
      rw [← zpow_add₀ two_ne_zero_q, ← zpow_natCast]
      congr 1
      omega
    rw [h2] at h1
    have h3 : ⌊roundQ fmt q⌋₊ ≤ 2 ^ (fmt.prec - 1) := by
      have := Nat.floor_le_floor h1
      rwa [Nat.floor_natCast] at this
    have h4 : 2 ^ (fmt.prec - 1) < 2 ^ fmt.prec := Nat.pow_lt_pow_right (by norm_num) (by omega)
    omega

theorem scaledCoord_inner_nonneg (fmt : FloatFormat) (x W w : ℕ) :
    0 ≤ roundQ fmt (((x : ℚ) + 1 / 2) * roundQ fmt W) / w :=
  div_nonneg (roundQ_nonneg fmt (mul_nonneg (by positivity)
    (roundQ_nonneg fmt (Nat.cast_nonneg W)))) (Nat.cast_nonneg w)

/-- In the branch `ty < 0.5` of the bilinear rule the fraction `ty` is at most
`1/2 - 2 ^ (-23)` for targets of at most `2 ^ 21` columns, so `ty + 1` stays below `1.5` after
rounding. -/
theorem frac_weight_bound (x W w : ℕ) (hW1 : 1 ≤ W) (hW : W < 2 ^ 32) (hw : w ≤ 2 ^ 21)
    (hx : x < w)
    (hT : roundQ binary32 (scaledCoord binary32 x W w - ⌊scaledCoord binary32 x W w⌋₊) < 1 / 2) :
    roundQ binary32 (scaledCoord binary32 x W w - ⌊scaledCoord binary32 x W w⌋₊) ≤
      4194303 / 8388608 := by
  have hin := scaledCoord_inner_nonneg binary32 x W w
  have hF0 : 0 ≤ scaledCoord binary32 x W w := roundQ_nonneg binary32 hin
  have hfl := Nat.floor_le hF0
  have hfl2 := Nat.lt_floor_add_one (scaledCoord binary32 x W w)
  by_cases h1 : 1 ≤ scaledCoord binary32 x W w
  · obtain ⟨k0, hk0⟩ := roundQ_multiple binary32 (by decide) hin 0 (by decide)
      (by rw [zpow_zero]; exact h1)
    have e23 : (2 : ℚ) ^ ((0 : ℤ) - (((binary32.prec : ℕ) : ℤ) - 1)) = 1 / 2 ^ 23 := by
      norm_num [binary32, zpow_neg]
    rw [e23] at hk0
    change scaledCoord binary32 x W w = _ at hk0
    generalize scaledCoord binary32 x W w = F at *
    generalize ⌊F⌋₊ = n at *
    have hkq : (k0 : ℚ) = F * 8388608 := by rw [hk0]; ring
    have hk1 : n * 2 ^ 23 ≤ k0 := by
      have : ((n * 2 ^ 23 : ℕ) : ℚ) ≤ k0 := by rw [hkq]; push_cast; linarith
      exact_mod_cast this
    have hk2 : k0 < (n + 1) * 2 ^ 23 := by
      have : (k0 : ℚ) < (((n + 1) * 2 ^ 23 : ℕ) : ℚ) := by rw [hkq]; push_cast; linarith
      exact_mod_cast this
    obtain ⟨r, hr0⟩ : ∃ r : ℕ, k0 = n * 2 ^ 23 + r := ⟨k0 - n * 2 ^ 23, by omega⟩
    have hrq : (r : ℚ) = (F - n) * 8388608 := by
      have : (k0 : ℚ) = ((n * 2 ^ 23 + r : ℕ) : ℚ) := by rw [hr0]
      push_cast at this
      linarith
    have e : F - n = (r : ℚ) * 2 ^ (-23 : ℤ) := by
      have h23 : (2 : ℚ) ^ (-23 : ℤ) = 1 / 8388608 := by norm_num [zpow_neg]
      rw [h23, hrq]; ring
    have hr := roundQ_of_multiple binary32 (by decide) r (-23) (by decide)
      (by rw [binary32_prec]; omega)
    rw [← e] at hr
    rw [hr] at hT ⊢
    have h3 : r < 2 ^ 22 := by
      have : (r : ℚ) < ((2 ^ 22 : ℕ) : ℚ) := by
        rw [hrq]; push_cast; linarith
      exact_mod_cast this
    have h5 : (r : ℚ) ≤ 4194303 := by
      have : r ≤ 4194303 := by omega
      exact_mod_cast this
    linarith
  · push_neg at h1
    have hn0 : ⌊scaledCoord binary32 x W w⌋₊ = 0 := by
      rw [Nat.floor_eq_zero]; exact h1
    rw [hn0] at hT ⊢
    simp only [Nat.cast_zero, sub_zero] at hT ⊢
    have hidem : roundQ binary32 (scaledCoord binary32 x W w) = scaledCoord binary32 x W w :=
      roundQ_idem binary32 (by decide) hin
    rw [hidem] at hT ⊢
    have hwq : (w : ℚ) ≤ 2097152 := by exact_mod_cast hw
    have hw0 : (0 : ℚ) < w := by exact_mod_cast (by omega : 0 < w)
    have hN : (2 * x + 1) * W < 2 ^ binary32.prec := by
      by_contra hcon
      push_neg at hcon
      rw [binary32_prec] at hcon
      have hWr : (W : ℚ) ≤ roundQ binary32 W ∨ (16777216 : ℚ) ≤ roundQ binary32 W := by
        by_cases hW24 : W < 2 ^ 24
        · left
          rw [roundQ_natCast binary32 (by decide) (by decide) W (by rw [binary32_prec]; exact hW24)]
        · right
          have := le_roundQ_of_le binary32 (by decide) (Nat.cast_nonneg W) 1 24 (by decide)
            (by decide) (by
              have : ((2 ^ 24 : ℕ) : ℚ) ≤ W := by exact_mod_cast (by omega : 2 ^ 24 ≤ W)
              norm_num at this ⊢
              exact this)
          norm_num at this
          exact this
      have hprod : (8388608 : ℚ) ≤ ((x : ℚ) + 1 / 2) * roundQ binary32 W := by
        have hx0 : (0 : ℚ) ≤ x := Nat.cast_nonneg x
        rcases hWr with h | h
        · have : ((2 ^ 24 : ℕ) : ℚ) ≤ (((2 * x + 1) * W : ℕ) : ℚ) := by exact_mod_cast hcon
          push_cast at this
          nlinarith
        · nlinarith
      have hP := le_roundQ_of_le binary32 (by decide) (le_trans (by norm_num) hprod) 1 23
        (by decide) (by decide) (by norm_num; exact hprod)
      norm_num at hP
      have hQ : (4 : ℚ) ≤ roundQ binary32 (((x : ℚ) + 1 / 2) * roundQ binary32 W) / w := by
        rw [le_div_iff₀ hw0]
        linarith
      have hF := le_roundQ_of_le binary32 (by decide) (le_trans (by norm_num) hQ) 1 2
        (by decide) (by decide) (by norm_num; exact hQ)
      norm_num at hF
      have : scaledCoord binary32 x W w = roundQ binary32
        (roundQ binary32 (((x : ℚ) + 1 / 2) * roundQ binary32 W) / w) := rfl
      rw [this] at h1
      linarith
    have hex := scaledCoord_exact binary32 (by decide) (by decide) x W w hN
    rw [hex] at hT ⊢
    have hq0 : (0 : ℚ) ≤ (((2 * x + 1) * W : ℕ) : ℚ) / ((2 * w : ℕ) : ℚ) := by positivity
    have h2w : (0 : ℚ) < ((2 * w : ℕ) : ℚ) := by push_cast; linarith
    have hQge : w ≤ (2 * x + 1) * W →
        (1 : ℚ) / 2 ≤ (((2 * x + 1) * W : ℕ) : ℚ) / ((2 * w : ℕ) : ℚ) := by
      intro hcon
      rw [le_div_iff₀ h2w]
      have : (w : ℚ) ≤ (((2 * x + 1) * W : ℕ) : ℚ) := by exact_mod_cast hcon
      push_cast at this ⊢
      linarith
    have hQle : (2 * x + 1) * W < w →
        (((2 * x + 1) * W : ℕ) : ℚ) / ((2 * w : ℕ) : ℚ) ≤ 2097151 / 4194304 := by
      intro hlt
      rw [div_le_iff₀ h2w]
      have h6 : (((2 * x + 1) * W : ℕ) : ℚ) + 1 ≤ (w : ℚ) := by
        exact_mod_cast (by omega : (2 * x + 1) * W + 1 ≤ w)
      push_cast at h6 ⊢
      nlinarith
    generalize (((2 * x + 1) * W : ℕ) : ℚ) / ((2 * w : ℕ) : ℚ) = Q at *
    have h12 : ((1 : ℕ) : ℚ) * 2 ^ (-1 : ℤ) = 1 / 2 := by norm_num [zpow_neg]
    have h22 : ((2097151 : ℕ) : ℚ) * 2 ^ (-22 : ℤ) = 2097151 / 4194304 := by
      norm_num [zpow_neg]
    have hNw : (2 * x + 1) * W < w := by
      by_contra hcon
      push_neg at hcon
      have := le_roundQ_of_le binary32 (by decide) hq0 1 (-1) (by decide) (by decide)
        (by rw [h12]; exact hQge hcon)
      rw [h12] at this
      linarith
    have := roundQ_le_of_le binary32 hq0 2097151 (-22) (by decide) (by decide)
      (by rw [h22]; exact hQle hNw)
    rw [h22] at this
    linarith

/-- The weight of the bilinear rule, a multiple of `2 ^ (-24)` between 0 and 1. -/
theorem weight_then {T : ℚ} (hT : T = roundQ binary32 T) (h1 : 1 / 2 ≤ T) (h2 : T ≤ 1) :
    ∃ k : ℕ, k ≤ 2 ^ 23 ∧ roundQ binary32 (T - 1 / 2) = (k : ℚ) / 2 ^ 24 := by
  have hT0 : (0 : ℚ) ≤ T := by linarith
  obtain ⟨k, hk⟩ := roundQ_multiple binary32 (by decide) hT0 (-1) (by decide)
    (by rw [← hT]; norm_num [zpow_neg]; linarith)
  rw [← hT] at hk
  have e24 : (2 : ℚ) ^ ((-1 : ℤ) - (((binary32.prec : ℕ) : ℤ) - 1)) = 1 / 2 ^ 24 := by
    norm_num [binary32, zpow_neg]
  rw [e24] at hk
  have hkq : (k : ℚ) = T * 16777216 := by rw [hk]; ring
  have hk1 : 2 ^ 23 ≤ k := by
    have : (8388608 : ℚ) ≤ k := by rw [hkq]; linarith
    exact_mod_cast this
  have hk2 : k ≤ 2 ^ 24 := by
    have : (k : ℚ) ≤ 16777216 := by rw [hkq]; linarith
    exact_mod_cast this
  refine ⟨k - 2 ^ 23, by omega, ?_⟩
  have e : T - 1 / 2 = ((k - 2 ^ 23 : ℕ) : ℚ) * 2 ^ (-24 : ℤ) := by
    rw [hk, Nat.cast_sub hk1]
    norm_num [zpow_neg]
    ring
  rw [e, roundQ_of_multiple binary32 (by decide) _ _ (by decide)
    (by rw [binary32_prec]; omega)]
  norm_num [zpow_neg]
  ring

theorem weight_else {T' : ℚ} (hT : T' = roundQ binary32 T') (h1 : 1 ≤ T') (h2 : T' < 3 / 2) :
    ∃ k : ℕ, 2 ^ 23 ≤ k ∧ k < 2 ^ 24 ∧ roundQ binary32 (T' - 1 / 2) = (k : ℚ) / 2 ^ 24 := by
  have hT0 : (0 : ℚ) ≤ T' := by linarith
  obtain ⟨k, hk⟩ := roundQ_multiple binary32 (by decide) hT0 0 (by decide)
    (by rw [← hT]; simpa using h1)
  rw [← hT] at hk
  have e23 : (2 : ℚ) ^ ((0 : ℤ) - (((binary32.prec : ℕ) : ℤ) - 1)) = 1 / 2 ^ 23 := by
    norm_num [binary32, zpow_neg]
  rw [e23] at hk
  have hkq : (k : ℚ) = T' * 8388608 := by rw [hk]; ring
  have hk1 : 2 ^ 23 ≤ k := by
    have : (8388608 : ℚ) ≤ k := by rw [hkq]; linarith
    exact_mod_cast this
  have hk2 : k < 3 * 2 ^ 22 := by
    have : (k : ℚ) < 12582912 := by rw [hkq]; linarith
    exact_mod_cast this
  refine ⟨2 * k - 2 ^ 23, by omega, by omega, ?_⟩
  have e : T' - 1 / 2 = ((2 * k - 2 ^ 23 : ℕ) : ℚ) * 2 ^ (-24 : ℤ) := by
    rw [hk, Nat.cast_sub (by omega)]
    norm_num [zpow_neg]
    ring
  rw [e, roundQ_of_multiple binary32 (by decide) _ _ (by decide)
    (by rw [binary32_prec]; omega)]
  norm_num [zpow_neg]
  ring

theorem resizeBilinearAxis_spec (x W w : ℕ) (hW1 : 1 ≤ W) (hW : W < 2 ^ 32)
    (hw : w ≤ 2 ^ 21) (hx : x < w) :
    ∃ (c0 c1 k : ℕ) (d : FP), Image.resizeBilinearAxis x W w = Except.ok (c0, c1, d) ∧
      c0 ≤ c1 ∧ c1 < W ∧ k < 2 ^ 24 ∧ FP.IsVal d ((k : ℚ) / 2 ^ 24) := by
  have hfw := frac_weight_bound x W w hW1 hW hw hx
  have hv := scaledCoord_isVal binary32 (by decide) (by decide) (by decide) (by decide)
    (by decide) x W w (by rw [binary32_prec]; omega) (by omega)
    (by rw [binary32_prec]; omega) (by omega) hW
  have hwu : (w : ℚ) * 2 ^ (-(binary32.prec : ℤ)) ≤ 1 / 8 := by
    rw [u32_eq]
    have : (w : ℚ) ≤ 2097152 := by exact_mod_cast hw
    linarith
  have hlt := scaledCoord_lt binary32 (by decide) (by decide) (by decide) (by decide)
    x W w hW1 (by omega) hx hwu
  have hF0 := FP.IsVal.nonneg hv
  have hn : ⌊scaledCoord binary32 x W w⌋₊ < W := by
    rw [Nat.floor_lt hF0]; exact hlt
  have ht := FP.toU32_isVal hv (by omega)
  have hnr : roundQ binary32 (⌊scaledCoord binary32 x W w⌋₊ : ℚ) =
      (⌊scaledCoord binary32 x W w⌋₊ : ℚ) :=
    roundQ_floor binary32 (by decide) (by decide) (scaledCoord_inner_nonneg binary32 x W w)
  have hnv := FP.ofNat_isVal binary32 (by decide) ⌊scaledCoord binary32 x W w⌋₊
    (natCast_lt_two_pow (k := 32) (by omega) (by decide))
  rw [hnr] at hnv
  have hfl := Nat.floor_le hF0
  have hfl2 := Nat.lt_floor_add_one (scaledCoord binary32 x W w)
  have hF127 : scaledCoord binary32 x W w < 2 ^ binary32.emax := by
    have : (W : ℚ) < 2 ^ binary32.emax := natCast_lt_two_pow (k := 32) hW (by decide)
    linarith
  have hty := FP.sub_isVal binary32 (by decide) hv hnv hfl hF127
  generalize hF : scaledCoord binary32 x W w = F at *
  generalize hnn : ⌊F⌋₊ = n at *
  have hφ0 : 0 ≤ F - n := by linarith
  have hT1 : roundQ binary32 (F - n) ≤ 1 := by
    have := roundQ_le_of_le binary32 hφ0 1 0 (by decide) (by decide) (by simp; linarith)
    simpa using this
  have hT0 := roundQ_nonneg binary32 hφ0
  have hTT := (roundQ_idem binary32 (by decide) hφ0).symm
  generalize hTe : roundQ binary32 (F - n) = T at *
  have hge := FP.ge_isVal hty half_isVal
  simp only [Image.resizeBilinearAxis, ht, bind, Except.bind, hge]
  by_cases hc : 1 / 2 ≤ T
  · simp only [hc, decide_True, if_true, pure, Except.pure]
    obtain ⟨k, hk, hd⟩ := weight_then hTT hc hT1
    have hdv := FP.sub_isVal binary32 (by decide) hty half_isVal hc
      (lt_of_le_of_lt hT1 (by norm_num [binary32]))
    rw [hd] at hdv
    refine ⟨_, _, k, _, rfl, ?_, ?_, lt_of_le_of_lt hk (by norm_num), hdv⟩
    · have : toU32 (W + (2 ^ 32 - 1)) = W - 1 := by
        unfold toU32; omega
      rw [toU32_of_lt (by omega), this]
      simp only [Math.min]
      omega
    · have : toU32 (W + (2 ^ 32 - 1)) = W - 1 := by
        unfold toU32; omega
      rw [toU32_of_lt (by omega), this]
      simp only [Math.min]
      omega
  · simp only [hc, decide_False, if_false, pure, Except.pure, Bool.false_eq_true]
    push_neg at hc
    have h1v : FP.IsVal (FP.ofNat binary32 1) 1 := by
      have := FP.ofNat_isVal_exact binary32 (by decide) (by decide) (by decide) (by decide)
        1 (by decide)
      simpa using this
    have hadd := FP.add_isVal binary32 (by decide) hty h1v (by norm_num [binary32]; linarith)
    have hT'1 : 1 ≤ roundQ binary32 (T + 1) :=
      one_le_roundQ binary32 (by decide) (by decide) (by linarith)
    have hT'2 : roundQ binary32 (T + 1) < 3 / 2 := by
      have hTb := hfw hc
      have h23 : ((12582911 : ℕ) : ℚ) * 2 ^ (-23 : ℤ) = 12582911 / 8388608 := by
        norm_num [zpow_neg]
      have := roundQ_le_of_le binary32 (q := T + 1) (by linarith) 12582911 (-23)
        (by decide) (by decide) (by rw [h23]; linarith)
      rw [h23] at this
      linarith
    have hT'T := (roundQ_idem binary32 (by decide) (q := T + 1) (by linarith)).symm
    obtain ⟨k, hk1, hk2, hd⟩ := weight_else hT'T hT'1 hT'2
    have hdv := FP.sub_isVal binary32 (by decide) hadd half_isVal (by linarith)
      (lt_trans hT'2 (by norm_num [binary32]))
    rw [hd] at hdv
    refine ⟨_, _, k, _, rfl, ?_, hn, hk2, hdv⟩
    by_cases h0 : n = 0
    · simp [h0]
    · rw [if_pos h0]
      have : toU32 (n + (2 ^ 32 - 1)) = n - 1 := by
        unfold toU32; omega
      rw [this]
      omega

/-! ## The bilinear blend -/

theorem roundQ_le_natCast_mul (fmt : FloatFormat) {q : ℚ} (hq : 0 ≤ q) (m : ℕ) (e : ℕ)
    (hm : m < 2 ^ fmt.prec) (he : fmt.emin - ((fmt.prec : ℤ) - 1) ≤ 0)
    (h : q ≤ ((m * 2 ^ e : ℕ) : ℚ)) : roundQ fmt q ≤ ((m * 2 ^ e : ℕ) : ℚ) := by
  have := roundQ_le_of_le fmt hq m (e : ℤ) hm (by omega) (by
    push_cast at h; rw [zpow_natCast]; exact h)
  push_cast
  rwa [zpow_natCast] at this

theorem one_sub_weight (k : ℕ) (hk : k ≤ 2 ^ 24) :
    roundQ binary32 (1 - (k : ℚ) / 2 ^ 24) = 1 - (k : ℚ) / 2 ^ 24 := by
  have e : 1 - (k : ℚ) / 2 ^ 24 = ((2 ^ 24 - k : ℕ) : ℚ) * 2 ^ (-24 : ℤ) := by
    rw [Nat.cast_sub hk]
    norm_num [zpow_neg]
    ring
  rw [e]
  exact roundQ_of_multiple binary32 (by decide) _ _ (by decide)
    (by rw [binary32_prec]; omega)

theorem lerp_isVal {d u v : FP} {dv uv vv : ℚ} (hd : FP.IsVal d dv) (hu : FP.IsVal u uv)
    (hv : FP.IsVal v vv) (hd1 : dv ≤ 1) (B : ℕ) (hB : B < 2 ^ 24) (hu1 : uv ≤ B)
    (hv1 : vv ≤ B) :
    FP.IsVal (FP.add binary32 (FP.mul binary32 (FP.sub binary32 FP.one d) u)
      (FP.mul binary32 d v)) (lerpQ dv uv vv) ∧ lerpQ dv uv vv ≤ ((B * 2 ^ 1 : ℕ) : ℚ) := by
  have hd0 := hd.nonneg
  have hu0 := hu.nonneg
  have hv0 := hv.nonneg
  have hBq : (B : ℚ) < 16777216 := by exact_mod_cast hB
  have big : (2 : ℚ) ^ (26 : ℕ) < 2 ^ binary32.emax := by
    rw [← zpow_natCast]; exact zpow_two_lt (by decide)
  norm_num at big
  have h1 := FP.sub_isVal binary32 (by decide) one_isVal hd hd1 (by linarith)
  have hw0 : 0 ≤ roundQ binary32 (1 - dv) := roundQ_nonneg binary32 (by linarith)
  have hw1 : roundQ binary32 (1 - dv) ≤ 1 := by
    have := roundQ_le_of_le binary32 (q := 1 - dv) (by linarith) 1 0 (by decide) (by decide)
      (by simp; linarith)
    simpa using this
  have hp1 : roundQ binary32 (1 - dv) * uv ≤ B := by
    have : roundQ binary32 (1 - dv) * uv ≤ 1 * B := mul_le_mul hw1 hu1 hu0 (by norm_num)
    linarith
  have hp2 : dv * vv ≤ B := by
    have : dv * vv ≤ 1 * B := mul_le_mul hd1 hv1 hv0 (by norm_num)
    linarith
  have h2 := FP.mul_isVal binary32 (by decide) h1 hu (by linarith)
  have h3 := FP.mul_isVal binary32 (by decide) hd hv (by linarith)
  have hm1 : roundQ binary32 (roundQ binary32 (1 - dv) * uv) ≤ B := by
    have := roundQ_le_natCast_mul binary32 (mul_nonneg hw0 hu0) B 0
      (by rw [binary32_prec]; exact hB) (by decide) (by simpa using hp1)
    simpa using this
  have hm2 : roundQ binary32 (dv * vv) ≤ B := by
    have := roundQ_le_natCast_mul binary32 (mul_nonneg hd0 hv0) B 0
      (by rw [binary32_prec]; exact hB) (by decide) (by simpa using hp2)
    simpa using this
  have h4 := FP.add_isVal binary32 (by decide) h2 h3 (by linarith)
  refine ⟨h4, ?_⟩
  unfold lerpQ
  apply roundQ_le_natCast_mul binary32 (add_nonneg (roundQ_nonneg binary32 (mul_nonneg hw0 hu0))
    (roundQ_nonneg binary32 (mul_nonneg hd0 hv0))) B 1 (by rw [binary32_prec]; exact hB)
    (by decide)
  push_cast
  linarith

theorem blend_isVal {dx dy : FP} {kx ky : ℕ} (hdx : FP.IsVal dx ((kx : ℚ) / 2 ^ 24))
    (hkx : kx ≤ 2 ^ 24) (hdy : FP.IsVal dy ((ky : ℚ) / 2 ^ 24)) (hky : ky ≤ 2 ^ 24)
    (v00 v01 v10 v11 : ℕ) (h00 : v00 < 256) (h01 : v01 < 256) (h10 : v10 < 256)
    (h11 : v11 < 256) :
    FP.IsVal (Image.resizeBlend dx dy (FP.ofNat binary32 v00) (FP.ofNat binary32 v01)
        (FP.ofNat binary32 v10) (FP.ofNat binary32 v11))
      (blendQ ((kx : ℚ) / 2 ^ 24) ((ky : ℚ) / 2 ^ 24) v00 v01 v10 v11) ∧
    blendQ ((kx : ℚ) / 2 ^ 24) ((ky : ℚ) / 2 ^ 24) v00 v01 v10 v11 ≤ 1020 := by
  have ex : ∀ v : ℕ, v < 256 → FP.IsVal (FP.ofNat binary32 v) v := fun v hv =>
    FP.ofNat_isVal_exact binary32 (by decide) (by decide) (by decide) (by decide) v
      (by rw [binary32_prec]; omega)
  have le : ∀ v : ℕ, v < 256 → (v : ℚ) ≤ ((255 : ℕ) : ℚ) := fun v hv => by
    exact_mod_cast (by omega : v ≤ 255)
  have hdx1 : (kx : ℚ) / 2 ^ 24 ≤ 1 := by
    rw [div_le_one (by positivity)]; exact_mod_cast hkx
  have hdy1 : (ky : ℚ) / 2 ^ 24 ≤ 1 := by
    rw [div_le_one (by positivity)]; exact_mod_cast hky
  obtain ⟨a0, b0⟩ := lerp_isVal hdx (ex v00 h00) (ex v10 h10) hdx1 255 (by norm_num)
    (le v00 h00) (le v10 h10)
  obtain ⟨a1, b1⟩ := lerp_isVal hdx (ex v01 h01) (ex v11 h11) hdx1 255 (by norm_num)
    (le v01 h01) (le v11 h11)
  obtain ⟨a, b⟩ := lerp_isVal hdy a0 a1 hdy1 (255 * 2 ^ 1) (by norm_num) b0 b1
  refine ⟨a, ?_⟩
  unfold blendQ
  norm_num at b
  exact b

theorem resizeComponent_eq (exact : Bool) {a : FP} {v : ℚ} (ha : FP.IsVal a v)
    (hv : v ≤ 1020) :
    Image.resizeComponent exact a = Except.ok (componentQ exact v) ∧
      componentQ exact v ≤ 1020 := by
  have hv0 := ha.nonneg
  cases exact
  · have h1 : ⌊v⌋₊ ≤ 1020 := by
      have := Nat.floor_le_floor hv
      simpa using this
    exact ⟨by simpa [Image.resizeComponent, componentQ] using FP.toU32_isVal ha (by omega),
      by simpa [componentQ] using h1⟩
  · have h1 : ⌊v + 1 / 2⌋₊ ≤ 1020 := by
      have : v + 1 / 2 ≤ ((1020 : ℕ) : ℚ) + 1 / 2 := by push_cast; linarith
      have h2 := Nat.floor_le_floor this
      have h3 : ⌊((1020 : ℕ) : ℚ) + 1 / 2⌋₊ = 1020 := by
        rw [Nat.floor_eq_iff (by positivity)]
        constructor <;> norm_num
      omega
    have h2 := FP.toU32_isVal (Math.roundFP_isVal ha) (by rw [Nat.floor_natCast]; omega)
    rw [Nat.floor_natCast] at h2
    exact ⟨by simpa [Image.resizeComponent, componentQ] using h2,
      by simpa [componentQ] using h1⟩

/-! ## The loops of `resize` -/

theorem forLoop_invariant {σ : Type} (body : Nat → σ → Except String σ)
    (I : Nat → σ → Prop) :
    ∀ (n start : Nat) (s : σ), I start s →
      (∀ i s, start ≤ i → i < start + n → I i s → ∃ s', body i s = Except.ok s' ∧ I (i + 1) s') →
      ∃ s', forLoop body n start s = Except.ok s' ∧ I (start + n) s' := by
  intro n
  induction n with
  | zero =>
    intro start s h0 _
    exact ⟨s, rfl, by simpa using h0⟩
  | succ n ih =>
    intro start s h0 hstep
    obtain ⟨s1, e1, i1⟩ := hstep start s (Nat.le_refl _) (by omega) h0
    obtain ⟨s2, e2, i2⟩ := ih (start + 1) s1 i1 (fun i s hi1 hi2 hI =>
      hstep i s (by omega) (by omega) hI)
    refine ⟨s2, ?_, ?_⟩
    · rw [forLoop, e1]
      exact e2
    · rw [show start + (n + 1) = start + 1 + n by omega]
      exact i2

/-- One row of the destination buffer is filled by the inner loop. -/
theorem row_fill {P : Pixel} (w h y : Nat) (hy : y < h)
    (inner : Nat → List (PixelStorage P) → Except String (List (PixelStorage P)))
    (g : Nat → PixelStorage P)
    (hstep : ∀ x rd, x < w → rd.length = w * h →
      inner x rd = Except.ok (rd.set (y * w + x) (g x)))
    (rd : List (PixelStorage P)) (hrd : rd.length = w * h) :
    ∃ rd', forLoop inner w 0 rd = Except.ok rd' ∧ rd'.length = w * h ∧
      (∀ i, i < y * w ∨ (y + 1) * w ≤ i → rd'.get? i = rd.get? i) ∧
      ∀ x, x < w → rd'.get? (y * w + x) = some (g x) := by
  have key := forLoop_invariant inner
    (fun x rd' => rd'.length = w * h ∧
      (∀ i, i < y * w ∨ y * w + x ≤ i → rd'.get? i = rd.get? i) ∧
      ∀ x', x' < x → rd'.get? (y * w + x') = some (g x'))
    w 0 rd ⟨hrd, fun _ _ => rfl, fun _ h => absurd h (Nat.not_lt_zero _)⟩
    (by
      intro x rd' _ hx ⟨hl, hout, hin⟩
      have hx' : x < w := by omega
      have hidx : y * w + x < w * h := index_lt hx' hy
      refine ⟨_, hstep x rd' hx' hl, by simp [hl], ?_, ?_⟩
      · intro i hi
        rw [List.get?_eq_getElem?, List.getElem?_set_ne (by omega), ← List.get?_eq_getElem?]
        exact hout i (by omega)
      · intro x' hx'
        rcases Nat.lt_succ_iff_lt_or_eq.mp hx' with h1 | h1
        · rw [List.get?_eq_getElem?, List.getElem?_set_ne (by omega), ← List.get?_eq_getElem?]
          exact hin x' h1
        · subst h1
          rw [List.get?_eq_getElem?, List.getElem?_set_self (by omega)])
  obtain ⟨rd', e, hl, hout, hin⟩ := key
  refine ⟨rd', e, hl, ?_, ?_⟩
  · intro i hi
    apply hout
    rcases hi with hi | hi
    · left; exact hi
    · right
      have : (y + 1) * w = y * w + w := by ring
      omega
  · intro x hx
    exact hin x (by omega)

/-- The whole destination buffer is filled by the outer loop. -/
theorem rows_fill {P : Pixel} (w h : Nat)
    (outer : Nat → List (PixelStorage P) → Except String (List (PixelStorage P)))
    (g : Nat → Nat → PixelStorage P)
    (hrow : ∀ y rd, y < h → rd.length = w * h →
      ∃ rd', outer y rd = Except.ok rd' ∧ rd'.length = w * h ∧
        (∀ i, i < y * w ∨ (y + 1) * w ≤ i → rd'.get? i = rd.get? i) ∧
        ∀ x, x < w → rd'.get? (y * w + x) = some (g x y))
    (rd : List (PixelStorage P)) (hrd : rd.length = w * h) :
    ∃ rd', forLoop outer h 0 rd = Except.ok rd' ∧ rd'.length = w * h ∧
      ∀ x y, x < w → y < h → rd'.get? (y * w + x) = some (g x y) := by
  have key := forLoop_invariant outer
    (fun y rd' => rd'.length = w * h ∧
      ∀ x y', x < w → y' < y → rd'.get? (y' * w + x) = some (g x y'))
    h 0 rd ⟨hrd, fun _ _ _ h => absurd h (Nat.not_lt_zero _)⟩
    (by
      intro y rd' _ hy ⟨hl, hin⟩
      obtain ⟨rd2, e, hl2, hout2, hin2⟩ := hrow y rd' (by omega) hl
      refine ⟨rd2, e, hl2, ?_⟩
      intro x y' hx hy'
      rcases Nat.lt_succ_iff_lt_or_eq.mp hy' with h1 | h1
      · rw [hout2 (y' * w + x) (by
          left
          have : (y' + 1) * w ≤ y * w := Nat.mul_le_mul_right w h1
          have : (y' + 1) * w = y' * w + w := by ring
          omega)]
        exact hin x y' hx h1
      · subst h1
        exact hin2 x hx)
  obtain ⟨rd', e, hl, hin⟩ := key
  exact ⟨rd', e, hl, fun x y hx hy => hin x y hx (by omega)⟩

theorem except_bind_ok {α β : Type} {x : Except String α} {f : α → Except String β} {b : β}
    (h : (x >>= f) = Except.ok b) : ∃ a, x = Except.ok a ∧ f a = Except.ok b := by
  cases x with
  | error e => cases h
  | ok a => exact ⟨a, rfl, h⟩

/-- The rows of the nearest-neighbour loop. -/
theorem nearest_rows {P : Pixel} (ndebug : Bool) (img : Image P) (w h : Nat) (hw0 : 0 < w)
    (hwh : w * h < 2 ^ 32) (G : Nat → Nat → PixelStorage P)
    (hG : ∀ x y, x < w → y < h → Image.resizeNearestAt ndebug img w h x y = Except.ok (G x y))
    (rd : List (PixelStorage P)) (hrd : rd.length = w * h) :
    ∃ rd',
      forLoop
        (fun y resizedData => do
          let cy ← Image.resizeNearestCoord y img.height h
          forLoop
            (fun x resizedData => do
              let cx ← Image.resizeNearestCoord x img.width w
              let p ← Image.getPixel ndebug img cx cy
              vectorSet resizedData (toU32 (y * w + x)) p)
            w 0 resizedData)
        h 0 rd = Except.ok rd' ∧
      rd'.length = w * h ∧ ∀ x y, x < w → y < h → rd'.get? (y * w + x) = some (G x y) := by
  apply rows_fill w h _ G _ rd hrd
  intro y rd1 hy hrd1
  obtain ⟨cy, hcy, _⟩ := except_bind_ok (hG 0 y hw0 hy)
  simp only [hcy, bind, Except.bind]
  apply row_fill w h y hy _ (fun x => G x y) _ rd1 hrd1
  intro x rd2 hx hrd2
  have h1 := hG x y hx hy
  simp only [Image.resizeNearestAt, hcy, bind, Except.bind] at h1
  obtain ⟨cx, hcx, hp⟩ := except_bind_ok h1
  simp only [hcx, bind, Except.bind] at hp ⊢
  rw [hp]
  have hidx := index_lt hx hy
  simp only [toU32_of_lt (lt_trans hidx hwh)]
  exact vectorSet_of_lt rd2 _ _ (by omega)

/-- The rows of the bilinear loop. -/
theorem bilinear_rows {P : Pixel} (ndebug exact : Bool) (img : Image P) (w h : Nat)
    (hw0 : 0 < w) (hwh : w * h < 2 ^ 32) (G : Nat → Nat → PixelStorage P)
    (hG : ∀ x y, x < w → y < h →
      Image.resizeBilinearAt ndebug exact img w h x y = Except.ok (G x y))
    (rd : List (PixelStorage P)) (hrd : rd.length = w * h) :
    ∃ rd',
      forLoop
        (fun y resizedData => do
          let (cy0, cy1, dy) ← Image.resizeBilinearAxis y img.height h
          forLoop
            (fun x resizedData => do
              let (cx0, cx1, dx) ← Image.resizeBilinearAxis x img.width w
              let p00 ← Image.getPixel ndebug img cx0 cy0
              let p01 ← Image.getPixel ndebug img cx0 cy1
              let p10 ← Image.getPixel ndebug img cx1 cy0
              let p11 ← Image.getPixel ndebug img cx1 cy1
              let p ← Image.resizeBilinearPixel exact dx dy p00 p01 p10 p11
              vectorSet resizedData (toU32 (y * w + x)) p)
            w 0 resizedData)
        h 0 rd = Except.ok rd' ∧
      rd'.length = w * h ∧ ∀ x y, x < w → y < h → rd'.get? (y * w + x) = some (G x y) := by
  apply rows_fill w h _ G _ rd hrd
  intro y rd1 hy hrd1
  obtain ⟨⟨cy0, cy1, dy⟩, hcy, _⟩ := except_bind_ok (hG 0 y hw0 hy)
  simp only [hcy, bind, Except.bind]
  apply row_fill w h y hy _ (fun x => G x y) _ rd1 hrd1
  intro x rd2 hx hrd2
  have h1 := hG x y hx hy
  simp only [Image.resizeBilinearAt, hcy, bind, Except.bind] at h1
  obtain ⟨⟨cx0, cx1, dx⟩, hcx, hp⟩ := except_bind_ok h1
  simp only [hcx, bind, Except.bind] at hp ⊢
  obtain ⟨p00, e00, hp⟩ := except_bind_ok hp
  obtain ⟨p01, e01, hp⟩ := except_bind_ok hp
  obtain ⟨p10, e10, hp⟩ := except_bind_ok hp
  obtain ⟨p11, e11, hp⟩ := except_bind_ok hp
  simp only [e00, e01, e10, e11, hp]
  have hidx := index_lt hx hy
  simp only [toU32_of_lt (lt_trans hidx hwh)]
  exact vectorSet_of_lt rd2 _ _ (by omega)

/-- The run of `resize` past its two early returns: when every pixel of the target is
computed without failure, the call returns the image of the new dimensions that holds those
pixels. -/
theorem resize_core {P : Pixel} (ndebug exact : Bool) (img : Image P) (scaling : ImageScaling)
    (w h0 h : Nat) (hw0 : 0 < w) (hw : w < 2 ^ 32) (hh0 : h0 < 2 ^ 32)
    (hh : (h0 ≠ 0 ∧ h = h0) ∨
      (h0 = 0 ∧ Image.resizeAspectHeight img.width img.height w = Except.ok h))
    (hne : ¬ (w = img.width ∧ h = img.height)) (hwh : w * h < 2 ^ 32)
    (G : Nat → Nat → PixelStorage P)
    (hG : ∀ x y, x < w → y < h →
      Image.resizeAt ndebug exact img scaling w h x y = Except.ok (G x y)) :
    ∃ img', Image.resize ndebug exact img scaling w h0 = Except.ok img' ∧
      img'.width = w ∧ img'.height = h ∧ img'.data.length = w * h ∧
      ∀ x y, x < w → y < h → img'.data.get? (y * w + x) = some (G x y) := by
  have hrd : (List.replicate (toU32 (w * h)) (PixelType.default P)).length = w * h := by
    rw [List.length_replicate, toU32_of_lt hwh]
  cases scaling with
  | Nearest =>
    obtain ⟨rd', e, hl, hget⟩ := nearest_rows ndebug img w h hw0 hwh G hG _ hrd
    refine ⟨{ width := w, height := h, data := rd' }, ?_, rfl, rfl, hl, hget⟩
    unfold Image.resize
    rw [toU32_of_lt hw, toU32_of_lt hh0, if_neg (by omega)]
    simp only [bind, Except.bind, pure, Except.pure] at e ⊢
    rcases hh with ⟨h1, h2⟩ | ⟨h1, h2⟩
    · subst h2
      rw [if_neg h1]
      simp only [hne, if_false, e]
    · rw [if_pos h1, h2]
      simp only [hne, if_false, e]
  | Bilinear =>
    obtain ⟨rd', e, hl, hget⟩ := bilinear_rows ndebug exact img w h hw0 hwh G hG _ hrd
    refine ⟨{ width := w, height := h, data := rd' }, ?_, rfl, rfl, hl, hget⟩
    unfold Image.resize
    rw [toU32_of_lt hw, toU32_of_lt hh0, if_neg (by omega)]
    simp only [bind, Except.bind, pure, Except.pure] at e ⊢
    rcases hh with ⟨h1, h2⟩ | ⟨h1, h2⟩
    · subst h2
      rw [if_neg h1]
      simp only [hne, if_false, e]
    · rw [if_pos h1, h2]
      simp only [hne, if_false, e]

/-! ## The pixels computed by `resize` -/

theorem getPixel_ok {P : Pixel} (ndebug : Bool) (img : Image P) (x y : Nat)
    (hdata : img.data.length = img.width * img.height)
    (hfit : img.width * img.height < 2 ^ 32) (hx : x < img.width) (hy : y < img.height) :
    Image.getPixel ndebug img x y =
      Except.ok (img.data.getD (y * img.width + x) (PixelType.default P)) := by
  have hi : y * img.width + x < img.data.length := by
    rw [hdata]; exact index_lt hx hy
  rw [getPixel_of_lt ndebug img x y hfit hx hy, vectorAt_of_lt _ _ hi]
  congr 1
  rw [List.getD_eq_getElem _ _ hi]
  rfl

theorem resizeNearestAt_ok {P : Pixel} (ndebug : Bool) (img : Image P) (w h x y : Nat)
    (hdata : img.data.length = img.width * img.height)
    (hfit : img.width * img.height < 2 ^ 32) (hW : 1 ≤ img.width) (hH : 1 ≤ img.height)
    (hw : w < 2 ^ 32) (hh : h < 2 ^ 32) (hx : x < w) (hy : y < h) :
    ⌊scaledCoord binary64 x img.width w⌋₊ < img.width ∧
    ⌊scaledCoord binary64 y img.height h⌋₊ < img.height ∧
    Image.resizeNearestAt ndebug img w h x y =
      Image.getPixel ndebug img ⌊scaledCoord binary64 x img.width w⌋₊
        ⌊scaledCoord binary64 y img.height h⌋₊ ∧
    Image.resizeNearestAt ndebug img w h x y =
      Except.ok (img.data.getD (⌊scaledCoord binary64 y img.height h⌋₊ * img.width +
        ⌊scaledCoord binary64 x img.width w⌋₊) (PixelType.default P)) := by
  have hW32 : img.width < 2 ^ 32 := by
    have := Nat.le_mul_of_pos_right img.width (by omega : 0 < img.height)
    omega
  have hH32 : img.height < 2 ^ 32 := by
    have := Nat.le_mul_of_pos_left img.height (by omega : 0 < img.width)
    omega
  obtain ⟨ex, bx⟩ := resizeNearestCoord_eq x img.width w hW hW32 hw hx
  obtain ⟨ey, by'⟩ := resizeNearestCoord_eq y img.height h hH hH32 hh hy
  have e : Image.resizeNearestAt ndebug img w h x y =
      Image.getPixel ndebug img ⌊scaledCoord binary64 x img.width w⌋₊
        ⌊scaledCoord binary64 y img.height h⌋₊ := by
    simp only [Image.resizeNearestAt, ex, ey, bind, Except.bind]
  exact ⟨bx, by', e, by rw [e, getPixel_ok ndebug img _ _ hdata hfit bx by']⟩

theorem ofNat_zero (fmt : FloatFormat) : FP.ofNat fmt 0 = FP.finite false 0 0 := rfl

theorem ofNat_pos_finite (W : ℕ) (hW : 0 < W) (hW32 : W < 2 ^ 32) :
    ∃ (m : ℕ) (e : ℤ), m ≠ 0 ∧ FP.ofNat binary32 W = FP.finite false m e := by
  obtain ⟨m, e, hm, hv⟩ := FP.ofNat_isVal binary32 (by decide) W
    (natCast_lt_two_pow hW32 (by decide))
  refine ⟨m, e, ?_, hm⟩
  rintro rfl
  have h1 : (1 : ℚ) ≤ roundQ binary32 W :=
    one_le_roundQ binary32 (by decide) (by decide) (by exact_mod_cast hW)
  rw [← hv] at h1
  norm_num at h1

theorem ofNat_finite (w : ℕ) (hw : w < 2 ^ 32) :
    ∃ (m : ℕ) (e : ℤ), FP.ofNat binary32 w = FP.finite false m e := by
  obtain ⟨m, e, hm, _⟩ := FP.ofNat_isVal binary32 (by decide) w
    (natCast_lt_two_pow hw (by decide))
  exact ⟨m, e, hm⟩

/-- For an image of height 0 the aspect branch divides by zero: the ratio is infinite and the
inferred height is 0. -/
theorem resizeAspectHeight_zero_height (W w : ℕ) (hW : 0 < W) (hW32 : W < 2 ^ 32)
    (hw : w < 2 ^ 32) : Image.resizeAspectHeight W 0 w = Except.ok 0 := by
  obtain ⟨m, e, hm, e1⟩ := ofNat_pos_finite W hW hW32
  obtain ⟨m', e', e2⟩ := ofNat_finite w hw
  simp [Image.resizeAspectHeight, e1, e2, ofNat_zero, FP.div, hm, Math.roundFP, FP.toU32]

theorem resize_zero_width {P : Pixel} (ndebug exact : Bool) (img : Image P)
    (scaling : ImageScaling) (h : ℕ) :
    Image.resize ndebug exact img scaling 0 h = Except.ok img := by
  simp [Image.resize, toU32]
  rfl

theorem resize_same_size {P : Pixel} (ndebug exact : Bool) (img : Image P)
    (scaling : ImageScaling) (hW : img.width < 2 ^ 32) (hH : img.height < 2 ^ 32) :
    Image.resize ndebug exact img scaling img.width img.height = Except.ok img := by
  unfold Image.resize
  rw [toU32_of_lt hW, toU32_of_lt hH]
  by_cases h0 : img.width = 0
  · rw [if_pos h0]; rfl
  · rw [if_neg h0]
    by_cases h1 : img.height = 0
    · rw [if_pos h1, h1, resizeAspectHeight_zero_height _ _ (by omega) hW hW]
      simp only [bind, Except.bind, pure, Except.pure, and_self, if_true]
    · rw [if_neg h1]
      simp only [bind, Except.bind, pure, Except.pure, and_self, if_true]

theorem roundQ_le_two_pow32 {n : ℕ} (hn : n < 2 ^ 32) : roundQ binary32 n ≤ 2 ^ 32 := by
  have h1 : (n : ℚ) ≤ (1 : ℕ) * 2 ^ (32 : ℤ) := by
    norm_num
    omega
  have := roundQ_le_of_le binary32 (Nat.cast_nonneg n) 1 32 (by decide) (by decide) h1
  norm_num at this
  norm_num
  exact this

/-- The aspect branch of `resize` in closed form, when the rounded ratio is a `u32` value. -/
theorem resizeAspectHeight_eq (W H w : ℕ) (hW : 1 ≤ W) (hW32 : W < 2 ^ 32) (hH : 1 ≤ H)
    (hH32 : H < 2 ^ 32) (hw : w < 2 ^ 32) (hfit : ⌊aspectHeightQ W H w + 1 / 2⌋₊ < 2 ^ 32) :
    Image.resizeAspectHeight W H w = Except.ok ⌊aspectHeightQ W H w + 1 / 2⌋₊ := by
  have vW := FP.ofNat_isVal binary32 (by decide) W (natCast_lt_two_pow hW32 (by decide))
  have vH := FP.ofNat_isVal binary32 (by decide) H (natCast_lt_two_pow hH32 (by decide))
  have vw := FP.ofNat_isVal binary32 (by decide) w (natCast_lt_two_pow hw (by decide))
  have hW1 : (1 : ℚ) ≤ roundQ binary32 W :=
    one_le_roundQ binary32 (by decide) (by decide) (by exact_mod_cast hW)
  have hH1 : (1 : ℚ) ≤ roundQ binary32 H :=
    one_le_roundQ binary32 (by decide) (by decide) (by exact_mod_cast hH)
  have hWu := roundQ_le_two_pow32 hW32
  have hHu := roundQ_le_two_pow32 hH32
  have hwu := roundQ_le_two_pow32 hw
  have hw0 : 0 ≤ roundQ binary32 w := roundQ_nonneg binary32 (Nat.cast_nonneg w)
  have hr1 : roundQ binary32 W / roundQ binary32 H ≤ 2 ^ 32 := by
    rw [div_le_iff₀ (by linarith)]
    nlinarith
  have hr2 : (1 : ℚ) * 2 ^ (-32 : ℤ) ≤ roundQ binary32 W / roundQ binary32 H := by
    rw [le_div_iff₀ (by linarith)]
    have : (2 : ℚ) ^ (-32 : ℤ) = 1 / 2 ^ 32 := by norm_num [zpow_neg]
    rw [this]
    have : roundQ binary32 H / 2 ^ 32 ≤ 1 := by
      rw [div_le_one (by positivity)]; exact hHu
    linarith [this, (by ring : (1 : ℚ) * (1 / 2 ^ 32) * roundQ binary32 H
      = roundQ binary32 H / 2 ^ 32)]
  have hr0 : 0 ≤ roundQ binary32 W / roundQ binary32 H := by positivity
  have va := FP.div_isVal binary32 (by decide) vW vH (by linarith)
    (lt_of_le_of_lt hr1 (by norm_num [binary32]))
  have ha := le_roundQ_of_le binary32 (by decide) hr0 1 (-32) (by decide) (by decide)
    (by simpa using hr2)
  have ha' : (1 : ℚ) / 2 ^ 32 ≤ roundQ binary32 (roundQ binary32 W / roundQ binary32 H) := by
    have : (2 : ℚ) ^ (-32 : ℤ) = 1 / 2 ^ 32 := by norm_num [zpow_neg]
    rw [← this]; simpa using ha
  have hq : roundQ binary32 w / roundQ binary32 (roundQ binary32 W / roundQ binary32 H)
      ≤ 2 ^ 64 := by
    rw [div_le_iff₀ (by linarith [show (0 : ℚ) < 1 / 2 ^ 32 by positivity])]
    have : (2 : ℚ) ^ 64 * (1 / 2 ^ 32) = 2 ^ 32 := by norm_num
    nlinarith
  have vq := FP.div_isVal binary32 (by decide) vw va
    (by linarith [show (0 : ℚ) < 1 / 2 ^ 32 by positivity])
    (lt_of_le_of_lt hq (by norm_num [binary32]))
  have vr := Math.roundFP_isVal vq
  have := FP.toU32_isVal vr (by rw [Nat.floor_natCast]; exact hfit)
  rw [Nat.floor_natCast] at this
  exact this

theorem aspectHeightQ_example : ⌊aspectHeightQ 100 50 50 + 1 / 2⌋₊ = 25 := by
  have e : ∀ n : ℕ, n < 2 ^ 24 → roundQ binary32 (n : ℚ) = n := fun n hn =>
    roundQ_natCast binary32 (by decide) (by decide) n hn
  have e100 := e 100 (by norm_num)
  have e50 := e 50 (by norm_num)
  have e2 := e 2 (by norm_num)
  have e25 := e 25 (by norm_num)
  norm_num at e100 e50 e2 e25
  unfold aspectHeightQ
  norm_num [e100, e50, e2, e25]
  rw [Nat.floor_eq_iff (by norm_num)]
  norm_num

theorem getRed_lt {P : Pixel} (px : PixelStorage P) : getRed px < 256 :=
  Nat.mod_lt _ (by decide)

theorem getGreen_lt {P : Pixel} (px : PixelStorage P) : getGreen px < 256 :=
  Nat.mod_lt _ (by decide)

theorem getBlue_lt {P : Pixel} (px : PixelStorage P) : getBlue px < 256 :=
  Nat.mod_lt _ (by decide)

theorem getAlpha_lt {P : Pixel} (px : PixelStorage P) : getAlpha px < 256 :=
  Nat.mod_lt _ (by decide)

theorem resizeBilinearPixel_eq {P : Pixel} (exact : Bool) {dx dy : FP} {kx ky : ℕ}
    (hdx : FP.IsVal dx ((kx : ℚ) / 2 ^ 24)) (hkx : kx ≤ 2 ^ 24)
    (hdy : FP.IsVal dy ((ky : ℚ) / 2 ^ 24)) (hky : ky ≤ 2 ^ 24)
    (p00 p01 p10 p11 : PixelStorage P) :
    Image.resizeBilinearPixel exact dx dy p00 p01 p10 p11 =
      Except.ok (setRGBA (PixelType.default P)
        (componentQ exact (blendQ ((kx : ℚ) / 2 ^ 24) ((ky : ℚ) / 2 ^ 24)
          (getRed p00) (getRed p01) (getRed p10) (getRed p11)))
        (componentQ exact (blendQ ((kx : ℚ) / 2 ^ 24) ((ky : ℚ) / 2 ^ 24)
          (getGreen p00) (getGreen p01) (getGreen p10) (getGreen p11)))
        (componentQ exact (blendQ ((kx : ℚ) / 2 ^ 24) ((ky : ℚ) / 2 ^ 24)
          (getBlue p00) (getBlue p01) (getBlue p10) (getBlue p11)))
        (componentQ exact (blendQ ((kx : ℚ) / 2 ^ 24) ((ky : ℚ) / 2 ^ 24)
          (getAlpha p00) (getAlpha p01) (getAlpha p10) (getAlpha p11)))) := by
  have key : ∀ v00 v01 v10 v11 : ℕ, v00 < 256 → v01 < 256 → v10 < 256 → v11 < 256 →
      Image.resizeComponent exact (Image.resizeBlend dx dy (FP.ofNat binary32 v00)
        (FP.ofNat binary32 v01) (FP.ofNat binary32 v10) (FP.ofNat binary32 v11)) =
      Except.ok (componentQ exact (blendQ ((kx : ℚ) / 2 ^ 24) ((ky : ℚ) / 2 ^ 24)
        v00 v01 v10 v11)) := by
    intro v00 v01 v10 v11 h00 h01 h10 h11
    obtain ⟨h1, h2⟩ := blend_isVal hdx hkx hdy hky v00 v01 v10 v11 h00 h01 h10 h11
    exact (resizeComponent_eq exact h1 h2).1
  unfold Image.resizeBilinearPixel
  simp only [key _ _ _ _ (getRed_lt p00) (getRed_lt p01) (getRed_lt p10) (getRed_lt p11),
    key _ _ _ _ (getGreen_lt p00) (getGreen_lt p01) (getGreen_lt p10) (getGreen_lt p11),
    key _ _ _ _ (getBlue_lt p00) (getBlue_lt p01) (getBlue_lt p10) (getBlue_lt p11),
    key _ _ _ _ (getAlpha_lt p00) (getAlpha_lt p01) (getAlpha_lt p10) (getAlpha_lt p11),
    bind, Except.bind, pure, Except.pure]

/-- The run of the body of the bilinear loop at one destination pixel, for targets of at most
`2 ^ 21` columns and rows: the two pairs of source coordinates are ordered and inside the
image, the weights are multiples of `2 ^ -24` in `[0, 1]`, the four reads succeed and the
pixel written has the blended channels. -/
theorem resizeBilinearAt_spec {P : Pixel} (ndebug exact : Bool) (img : Image P) (w h x y : ℕ)
    (hdata : img.data.length = img.width * img.height)
    (hfit : img.width * img.height < 2 ^ 32) (hW : 1 ≤ img.width) (hH : 1 ≤ img.height)
    (hw : w ≤ 2 ^ 21) (hh : h ≤ 2 ^ 21) (hx : x < w) (hy : y < h) :
    ∃ (cx0 cx1 kx : ℕ) (dx : FP) (cy0 cy1 ky : ℕ) (dy : FP) (p00 p01 p10 p11 : PixelStorage P),
      Image.resizeBilinearAxis x img.width w = Except.ok (cx0, cx1, dx) ∧
      cx0 ≤ cx1 ∧ cx1 < img.width ∧ kx < 2 ^ 24 ∧ FP.IsVal dx ((kx : ℚ) / 2 ^ 24) ∧
      Image.resizeBilinearAxis y img.height h = Except.ok (cy0, cy1, dy) ∧
      cy0 ≤ cy1 ∧ cy1 < img.height ∧ ky < 2 ^ 24 ∧ FP.IsVal dy ((ky : ℚ) / 2 ^ 24) ∧
      Image.getPixel ndebug img cx0 cy0 = Except.ok p00 ∧
      Image.getPixel ndebug img cx0 cy1 = Except.ok p01 ∧
      Image.getPixel ndebug img cx1 cy0 = Except.ok p10 ∧
      Image.getPixel ndebug img cx1 cy1 = Except.ok p11 ∧
      Image.resizeBilinearAt ndebug exact img w h x y =
        Except.ok (setRGBA (PixelType.default P)
          (componentQ exact (blendQ ((kx : ℚ) / 2 ^ 24) ((ky : ℚ) / 2 ^ 24)
            (getRed p00) (getRed p01) (getRed p10) (getRed p11)))
          (componentQ exact (blendQ ((kx : ℚ) / 2 ^ 24) ((ky : ℚ) / 2 ^ 24)
            (getGreen p00) (getGreen p01) (getGreen p10) (getGreen p11)))
          (componentQ exact (blendQ ((kx : ℚ) / 2 ^ 24) ((ky : ℚ) / 2 ^ 24)
            (getBlue p00) (getBlue p01) (getBlue p10) (getBlue p11)))
          (componentQ exact (blendQ ((kx : ℚ) / 2 ^ 24) ((ky : ℚ) / 2 ^ 24)
            (getAlpha p00) (getAlpha p01) (getAlpha p10) (getAlpha p11)))) := by
  have hW32 : img.width < 2 ^ 32 := by
    have := Nat.le_mul_of_pos_right img.width (by omega : 0 < img.height)
    omega
  have hH32 : img.height < 2 ^ 32 := by
    have := Nat.le_mul_of_pos_left img.height (by omega : 0 < img.width)
    omega
  obtain ⟨cx0, cx1, kx, dx, ex, ox, bx, hkx, vx⟩ :=
    resizeBilinearAxis_spec x img.width w hW hW32 hw hx
  obtain ⟨cy0, cy1, ky, dy, ey, oy, by', hky, vy⟩ :=
    resizeBilinearAxis_spec y img.height h hH hH32 hh hy
  have g00 := getPixel_ok ndebug img cx0 cy0 hdata hfit (by omega) (by omega)
  have g01 := getPixel_ok ndebug img cx0 cy1 hdata hfit (by omega) by'
  have g10 := getPixel_ok ndebug img cx1 cy0 hdata hfit bx (by omega)
  have g11 := getPixel_ok ndebug img cx1 cy1 hdata hfit bx by'
  refine ⟨cx0, cx1, kx, dx, cy0, cy1, ky, dy, _, _, _, _, ex, ox, bx, hkx, vx, ey, oy, by', hky,
    vy, g00, g01, g10, g11, ?_⟩
  rw [← resizeBilinearPixel_eq exact vx hkx.le vy hky.le]
  simp only [Image.resizeBilinearAt, ex, ey, g00, g01, g10, g11, bind, Except.bind]

theorem resizeAt_ok {P : Pixel} (ndebug exact : Bool) (img : Image P) (scaling : ImageScaling)
    (w h x y : ℕ) (hdata : img.data.length = img.width * img.height)
    (hfit : img.width * img.height < 2 ^ 32) (hW : 1 ≤ img.width) (hH : 1 ≤ img.height)
    (hw : w < 2 ^ 32) (hh : h < 2 ^ 32)
    (hb : scaling = ImageScaling.Bilinear → w ≤ 2 ^ 21 ∧ h ≤ 2 ^ 21)
    (hx : x < w) (hy : y < h) :
    ∃ p, Image.resizeAt ndebug exact img scaling w h x y = Except.ok p := by
  cases scaling
  · exact ⟨_, (resizeNearestAt_ok ndebug img w h x y hdata hfit hW hH hw hh hx hy).2.2.2⟩
  · obtain ⟨hw', hh'⟩ := hb rfl
    obtain ⟨_, _, _, _, _, _, _, _, _, _, _, _, h⟩ :=
      resizeBilinearAt_spec ndebug exact img w h x y hdata hfit hW hH hw' hh' hx hy
    exact ⟨_, h.2.2.2.2.2.2.2.2.2.2.2.2.2.2⟩

/-- The member `resize` completes for an image that holds `width * height` pixels, both at
least 1, when the target has fewer than `2 ^ 32` pixels (and, for the bilinear algorithm, at
most `2 ^ 21` columns and rows): the result has the target dimensions and each of its pixels is
the one the loop body computes. -/
theorem resize_ok {P : Pixel} (ndebug exact : Bool) (img : Image P) (scaling : ImageScaling)
    (w h0 h : ℕ) (hdata : img.data.length = img.width * img.height)
    (hfit : img.width * img.height < 2 ^ 32) (hW : 1 ≤ img.width) (hH : 1 ≤ img.height)
    (hw0 : 0 < w) (hw : w < 2 ^ 32) (hh0 : h0 < 2 ^ 32)
    (hh : (h0 ≠ 0 ∧ h = h0) ∨
      (h0 = 0 ∧ Image.resizeAspectHeight img.width img.height w = Except.ok h))
    (hne : ¬ (w = img.width ∧ h = img.height)) (hwh : w * h < 2 ^ 32)
    (hb : scaling = ImageScaling.Bilinear → w ≤ 2 ^ 21 ∧ h ≤ 2 ^ 21) :
    ∃ img', Image.resize ndebug exact img scaling w h0 = Except.ok img' ∧
      img'.width = w ∧ img'.height = h ∧ img'.data.length = w * h ∧
      ∀ x y, x < w → y < h →
        Image.resizeAt ndebug exact img scaling w h x y = Image.getPixel ndebug img' x y := by
  have hh32 : h < 2 ^ 32 := by
    have := Nat.le_mul_of_pos_left h hw0
    omega
  have hex : ∀ x y, ∃ p, x < w → y < h →
      Image.resizeAt ndebug exact img scaling w h x y = Except.ok p := by
    intro x y
    by_cases hx : x < w
    · by_cases hy : y < h
      · obtain ⟨p, hp⟩ := resizeAt_ok ndebug exact img scaling w h x y hdata hfit hW hH hw hh32
          hb hx hy
        exact ⟨p, fun _ _ => hp⟩
      · exact ⟨PixelType.default P, fun _ h' => absurd h' hy⟩
    · exact ⟨PixelType.default P, fun h' _ => absurd h' hx⟩
  choose G hG using hex
  obtain ⟨img', e, e1, e2, e3, e4⟩ :=
    resize_core ndebug exact img scaling w h0 h hw0 hw hh0 hh hne hwh G hG
  refine ⟨img', e, e1, e2, e3, fun x y hx hy => ?_⟩
  rw [hG x y hx hy, getPixel_of_lt ndebug img' x y (by rw [e1, e2]; exact hwh)
    (by rw [e1]; exact hx) (by rw [e2]; exact hy), e1]
  have hi : y * w + x < img'.data.length := by
    rw [e3]; exact index_lt hx hy
  rw [vectorAt_of_lt _ _ hi]
  have := e4 x y hx hy
  rw [List.get?_eq_get hi] at this
  exact congrArg Except.ok (Option.some.inj this).symm

theorem eq_ok_of_toOption {α : Type} {x : Except String α} {v : α}
    (h : x.toOption = some v) : x = Except.ok v := by
  cases x with
  | error e => simp [Except.toOption] at h
  | ok a =>
    simp only [Except.toOption, Option.some.injEq] at h
    rw [h]

/-- A loop that returns has kept every property that each of its steps keeps. -/
theorem forLoop_preserves {σ : Type} (body : Nat → σ → Except String σ) (I : σ → Prop)
    (hstep : ∀ i s s', I s → body i s = Except.ok s' → I s') :
    ∀ (n start : Nat) (s s' : σ), I s → forLoop body n start s = Except.ok s' → I s' := by
  intro n
  induction n with
  | zero =>
    intro start s s' h0 e
    simp only [forLoop, Except.ok.injEq] at e
    rw [← e]; exact h0
  | succ n ih =>
    intro start s s' h0 e
    rw [forLoop] at e
    cases hb : body start s with
    | error m => rw [hb] at e; simp at e
    | ok s1 =>
      rw [hb] at e
      exact ih (start + 1) s1 s' (hstep start s s1 h0 hb) e

theorem vectorSet_length {P : Pixel} {data data' : List (PixelStorage P)} {i : Nat}
    {v : PixelStorage P} (h : vectorSet data i v = Except.ok data') :
    data'.length = data.length := by
  unfold vectorSet at h
  split at h
  · simp only [Except.ok.injEq] at h
    rw [← h, List.length_set]
  · simp at h

theorem bind_ok {α β : Type} {x : Except String α} {f : α → Except String β} {b : β}
    (h : (x >>= f) = Except.ok b) : ∃ a, x = Except.ok a ∧ f a = Except.ok b := by
  cases x with
  | error m => simp [bind, Except.bind] at h
  | ok a => exact ⟨a, rfl, h⟩

theorem except_cases {α : Type} (x : Except String α) :
    (∃ m, x = Except.error m) ∨ ∃ v, x = Except.ok v := by
  cases x
  · exact Or.inl ⟨_, rfl⟩
  · exact Or.inr ⟨_, rfl⟩

/-- In a loop that returns, every step was run, in a state the earlier steps produced, and
returned. -/
theorem forLoop_ok_steps {σ : Type} (body : Nat → σ → Except String σ) (I : σ → Prop)
    (hstep : ∀ i s s', I s → body i s = Except.ok s' → I s') :
    ∀ (n start : Nat) (s s' : σ), I s → forLoop body n start s = Except.ok s' →
      ∀ i, start ≤ i → i < start + n → ∃ si si', I si ∧ body i si = Except.ok si' := by
  intro n
  induction n with
  | zero => intro start s s' _ _ i h1 h2; omega
  | succ n ih =>
    intro start s s' h0 e i h1 h2
    rw [forLoop] at e
    cases hb : body start s with
    | error m => rw [hb] at e; simp at e
    | ok s1 =>
      rw [hb] at e
      by_cases hs : i = start
      · subst hs
        exact ⟨s, s1, h0, hb⟩
      · exact ih (start + 1) s1 s' (hstep start s s1 h0 hb) e i (by omega) (by omega)

theorem vectorSet_ok {P : Pixel} {data data' : List (PixelStorage P)} {i : Nat}
    {v : PixelStorage P} (h : vectorSet data i v = Except.ok data') :
    i < data.length ∧ data'.length = data.length := by
  refine ⟨?_, vectorSet_length h⟩
  unfold vectorSet at h
  split at h
  · assumption
  · simp at h

/-- Two nested loops whose inner steps store at the index `u32(y * w + x)` return only if the
buffer holds `w * h` elements (a buffer of `u32(w * h)` elements with `w * h ≥ 2 ^ 32` is
left by one of the stores) and only if the computation `f x y` of every stored value has
returned. -/
theorem store_loops_length {P : Pixel} (w h : Nat) (hw0 : 0 < w)
    (outer : Nat → List (PixelStorage P) → Except String (List (PixelStorage P)))
    (f : Nat → Nat → Except String (PixelStorage P))
    (ho : ∀ y rd rd', outer y rd = Except.ok rd' →
      ∃ inner : Nat → List (PixelStorage P) → Except String (List (PixelStorage P)),
        forLoop inner w 0 rd = Except.ok rd' ∧
        ∀ x s s', inner x s = Except.ok s' →
          toU32 (y * w + x) < s.length ∧ s'.length = s.length ∧ ∃ p, f x y = Except.ok p)
    (rd rd' : List (PixelStorage P)) (hrd : rd.length = toU32 (w * h))
    (e : forLoop outer h 0 rd = Except.ok rd') :
    w * h < 2 ^ 32 ∧ rd'.length = w * h ∧
      ∀ x y, x < w → y < h → ∃ p, f x y = Except.ok p := by
  have hol : ∀ y s s', s.length = rd.length → outer y s = Except.ok s' →
      s'.length = rd.length := by
    intro y s s' hs e1
    obtain ⟨inner, e2, hi⟩ := ho y s s' e1
    exact forLoop_preserves inner (fun t => t.length = rd.length)
      (fun x t t' ht e3 => (hi x t t' e3).2.1.trans ht) w 0 s s' hs e2
  have hlen : rd'.length = rd.length :=
    forLoop_preserves outer (fun t => t.length = rd.length) hol h 0 rd rd' rfl e
  have steps : ∀ x y, x < w → y < h →
      ∃ s : List (PixelStorage P), s.length = rd.length ∧ toU32 (y * w + x) < s.length ∧
        ∃ p, f x y = Except.ok p := by
    intro x y hx hy
    obtain ⟨sy, sy', hsy, ey⟩ := forLoop_ok_steps outer (fun t => t.length = rd.length) hol
      h 0 rd rd' rfl e y (Nat.zero_le _) (by omega)
    obtain ⟨inner, e2, hi⟩ := ho _ sy sy' ey
    obtain ⟨sx, sx', hsx, ex⟩ := forLoop_ok_steps inner (fun t => t.length = rd.length)
      (fun x t t' ht e3 => (hi x t t' e3).2.1.trans ht)
      w 0 sy sy' hsy e2 x (Nat.zero_le _) (by omega)
    exact ⟨sx, hsx, (hi _ sx sx' ex).1, (hi _ sx sx' ex).2.2⟩
  have key : w * h < 2 ^ 32 := by
    by_contra hov
    have hL : toU32 (w * h) < 2 ^ 32 := Nat.mod_lt _ (by decide)
    have hLt : toU32 (w * h) < w * h := by omega
    have hy : toU32 (w * h) / w < h :=
      (Nat.div_lt_iff_lt_mul hw0).mpr (by rw [Nat.mul_comm h w]; exact hLt)
    have hx : toU32 (w * h) % w < w := Nat.mod_lt _ hw0
    obtain ⟨sx, hsx, h1, _⟩ := steps _ _ hx hy
    have h2 : toU32 (w * h) / w * w + toU32 (w * h) % w = toU32 (w * h) := by
      rw [Nat.mul_comm]; exact Nat.div_add_mod _ _
    rw [h2, toU32_of_lt hL, hsx, hrd] at h1
    exact Nat.lt_irrefl _ h1
  refine ⟨key, by rw [hlen, hrd, toU32_of_lt key], fun x y hx hy => ?_⟩
  obtain ⟨_, _, _, hp⟩ := steps x y hx hy
  exact hp

theorem nearest_loops_length {P : Pixel} (ndebug : Bool) (img : Image P) (w h : Nat)
    (hw0 : 0 < w) (rd rd' : List (PixelStorage P)) (hrd : rd.length = toU32 (w * h))
    (e : forLoop
        (fun y resizedData => do
          let cy ← Image.resizeNearestCoord y img.height h
          forLoop
            (fun x resizedData => do
              let cx ← Image.resizeNearestCoord x img.width w
              let p ← Image.getPixel ndebug img cx cy
              vectorSet resizedData (toU32 (y * w + x)) p)
            w 0 resizedData)
        h 0 rd = Except.ok rd') :
    w * h < 2 ^ 32 ∧ rd'.length = w * h ∧
      ∀ x y, x < w → y < h → ∃ p, Image.resizeNearestAt ndebug img w h x y = Except.ok p := by
  refine store_loops_length w h hw0 _ _ ?_ rd rd' hrd e
  intro y s s' e1
  obtain ⟨cy, hcy, e2⟩ := bind_ok e1
  refine ⟨_, e2, ?_⟩
  intro x t t' e3
  obtain ⟨cx, hcx, e4⟩ := bind_ok e3
  obtain ⟨p, hp, e5⟩ := bind_ok e4
  refine ⟨(vectorSet_ok e5).1, (vectorSet_ok e5).2, p, ?_⟩
  simp only [Image.resizeNearestAt, hcy, hcx, hp, bind, Except.bind]

theorem bilinear_loops_length {P : Pixel} (ndebug exact : Bool) (img : Image P) (w h : Nat)
    (hw0 : 0 < w) (rd rd' : List (PixelStorage P)) (hrd : rd.length = toU32 (w * h))
    (e : forLoop
        (fun y resizedData => do
          let (cy0, cy1, dy) ← Image.resizeBilinearAxis y img.height h
          forLoop
            (fun x resizedData => do
              let (cx0, cx1, dx) ← Image.resizeBilinearAxis x img.width w
              let p00 ← Image.getPixel ndebug img cx0 cy0
              let p01 ← Image.getPixel ndebug img cx0 cy1
              let p10 ← Image.getPixel ndebug img cx1 cy0
              let p11 ← Image.getPixel ndebug img cx1 cy1
              let p ← Image.resizeBilinearPixel exact dx dy p00 p01 p10 p11
              vectorSet resizedData (toU32 (y * w + x)) p)
            w 0 resizedData)
        h 0 rd = Except.ok rd') :
    w * h < 2 ^ 32 ∧ rd'.length = w * h ∧
      ∀ x y, x < w → y < h →
        ∃ p, Image.resizeBilinearAt ndebug exact img w h x y = Except.ok p := by
  refine store_loops_length w h hw0 _ _ ?_ rd rd' hrd e
  intro y s s' e1
  obtain ⟨⟨cy0, cy1, dy⟩, hcy, e2⟩ := bind_ok e1
  refine ⟨_, e2, ?_⟩
  intro x t t' e3
  obtain ⟨⟨cx0, cx1, dx⟩, hcx, e4⟩ := bind_ok e3
  obtain ⟨p00, h00, e5⟩ := bind_ok e4
  obtain ⟨p01, h01, e6⟩ := bind_ok e5
  obtain ⟨p10, h10, e7⟩ := bind_ok e6
  obtain ⟨p11, h11, e8⟩ := bind_ok e7
  obtain ⟨p, hp, e9⟩ := bind_ok e8
  refine ⟨(vectorSet_ok e9).1, (vectorSet_ok e9).2, p, ?_⟩
  simp only [Image.resizeBilinearAt, hcy, hcx, h00, h01, h10, h11, hp, bind, Except.bind]

/-- What a call of `resize` that returns has done: either nothing (one of the two early
returns), or every loop step has returned and the call has replaced the dimensions by the
target `(w, h)` and the buffer by one of exactly `w * h` pixels, which is fewer than
`2 ^ 32`. -/
theorem resize_returns {P : Pixel} (ndebug exact : Bool) (img img' : Image P)
    (scaling : ImageScaling) (w h0 : ℕ)
    (e : Image.resize ndebug exact img scaling w h0 = Except.ok img') :
    (toU32 w = 0 ∧ img' = img) ∨ ∃ h, toU32 w ≠ 0 ∧
      ((toU32 h0 ≠ 0 ∧ h = toU32 h0) ∨
        (toU32 h0 = 0 ∧
          Image.resizeAspectHeight img.width img.height (toU32 w) = Except.ok h)) ∧
      ((toU32 w = img.width ∧ h = img.height ∧ img' = img) ∨
        (¬ (toU32 w = img.width ∧ h = img.height) ∧
          img'.width = toU32 w ∧ img'.height = h ∧
          toU32 w * h < 2 ^ 32 ∧ img'.data.length = toU32 w * h ∧
          ∀ x y, x < toU32 w → y < h →
            ∃ p, Image.resizeAt ndebug exact img scaling (toU32 w) h x y = Except.ok p)) := by
  unfold Image.resize at e
  by_cases hw : toU32 w = 0
  · rw [if_pos hw] at e
    left
    exact ⟨hw, (Except.ok.inj e).symm⟩
  · rw [if_neg hw] at e
    right
    have hw0 : 0 < toU32 w := Nat.pos_of_ne_zero hw
    cases scaling
    · have L := nearest_loops_length ndebug img (toU32 w)
      simp only [bind, Except.bind, pure, Except.pure] at e L
      by_cases hh : toU32 h0 = 0
      · rw [if_pos hh] at e
        rcases except_cases (Image.resizeAspectHeight img.width img.height (toU32 w))
          with ⟨m, ha⟩ | ⟨h, ha⟩
        · rw [ha] at e; simp at e
        · rw [ha] at e
          simp only at e
          refine ⟨h, hw, Or.inr ⟨hh, ha⟩, ?_⟩
          by_cases hs : toU32 w = img.width ∧ h = img.height
          · rw [if_pos hs] at e
            left; exact ⟨hs.1, hs.2, (Except.ok.inj e).symm⟩
          · rw [if_neg hs] at e
            split at e
            · simp at e
            · rename_i rd' hl
              obtain ⟨l1, l2, l3⟩ := L h hw0 _ rd' (List.length_replicate _ _) hl
              have hi := (Except.ok.inj e).symm
              subst hi
              exact Or.inr ⟨hs, rfl, rfl, l1, l2, l3⟩
      · rw [if_neg hh] at e
        refine ⟨toU32 h0, hw, Or.inl ⟨hh, rfl⟩, ?_⟩
        by_cases hs : toU32 w = img.width ∧ toU32 h0 = img.height
        · rw [if_pos hs] at e
          left; exact ⟨hs.1, hs.2, (Except.ok.inj e).symm⟩
        · rw [if_neg hs] at e
          split at e
          · simp at e
          · rename_i rd' hl
            obtain ⟨l1, l2, l3⟩ := L _ hw0 _ rd' (List.length_replicate _ _) hl
            have hi := (Except.ok.inj e).symm
            subst hi
            exact Or.inr ⟨hs, rfl, rfl, l1, l2, l3⟩
    · have L := bilinear_loops_length ndebug exact img (toU32 w)
      simp only [bind, Except.bind, pure, Except.pure] at e L
      by_cases hh : toU32 h0 = 0
      · rw [if_pos hh] at e
        rcases except_cases (Image.resizeAspectHeight img.width img.height (toU32 w))
          with ⟨m, ha⟩ | ⟨h, ha⟩
        · rw [ha] at e; simp at e
        · rw [ha] at e
          simp only at e
          refine ⟨h, hw, Or.inr ⟨hh, ha⟩, ?_⟩
          by_cases hs : toU32 w = img.width ∧ h = img.height
          · rw [if_pos hs] at e
            left; exact ⟨hs.1, hs.2, (Except.ok.inj e).symm⟩
          · rw [if_neg hs] at e
            split at e
            · simp at e
            · rename_i rd' hl
              obtain ⟨l1, l2, l3⟩ := L h hw0 _ rd' (List.length_replicate _ _) hl
              have hi := (Except.ok.inj e).symm
              subst hi
              exact Or.inr ⟨hs, rfl, rfl, l1, l2, l3⟩
      · rw [if_neg hh] at e
        refine ⟨toU32 h0, hw, Or.inl ⟨hh, rfl⟩, ?_⟩
        by_cases hs : toU32 w = img.width ∧ toU32 h0 = img.height
        · rw [if_pos hs] at e
          left; exact ⟨hs.1, hs.2, (Except.ok.inj e).symm⟩
        · rw [if_neg hs] at e
          split at e
          · simp at e
          · rename_i rd' hl
            obtain ⟨l1, l2, l3⟩ := L _ hw0 _ rd' (List.length_replicate _ _) hl
            have hi := (Except.ok.inj e).symm
            subst hi
            exact Or.inr ⟨hs, rfl, rfl, l1, l2, l3⟩

/-! ## The blend of equal values -/

theorem ulpExp_le_of_lt (fmt : FloatFormat) {q : ℚ} (hq : 0 < q) (e : ℤ)
    (he : fmt.emin - ((fmt.prec : ℤ) - 1) ≤ e) (h : q < 2 ^ (e + (fmt.prec : ℤ))) :
    ulpExp fmt q ≤ e := by
  by_contra hcon
  push_neg at hcon
  have h1 := zpow_ulpExp_le fmt hq (by omega)
  have h2 : (2 : ℚ) ^ (e + (fmt.prec : ℤ)) ≤ 2 ^ (ulpExp fmt q + ((fmt.prec : ℤ) - 1)) :=
    zpow_two_le (by omega)
  linarith

theorem le_ulpExp_of_le (fmt : FloatFormat) {q : ℚ} (e : ℤ)
    (h : (2 : ℚ) ^ (e + ((fmt.prec : ℤ) - 1)) ≤ q) : e ≤ ulpExp fmt q := by
  by_contra hcon
  push_neg at hcon
  have h1 := lt_zpow_ulpExp fmt q
  have h2 : (2 : ℚ) ^ (ulpExp fmt q + (fmt.prec : ℤ)) ≤ 2 ^ (e + ((fmt.prec : ℤ) - 1)) :=
    zpow_two_le (by omega)
  linarith

/-- Rounding does not cross a point of a grid that contains the grid of the rounded value. -/
theorem roundQ_le_grid (fmt : FloatFormat) {q : ℚ} (j e : ℤ) (he : ulpExp fmt q ≤ e)
    (h : q ≤ (j : ℚ) * 2 ^ e) : roundQ fmt q ≤ (j : ℚ) * 2 ^ e := by
  have hpos := two_zpow_pos (ulpExp fmt q)
  have e1 : (j : ℚ) * 2 ^ e = ((j * 2 ^ (e - ulpExp fmt q).toNat : ℤ) : ℚ) * 2 ^ ulpExp fmt q := by
    push_cast
    rw [mul_assoc, ← zpow_natCast, ← zpow_add₀ two_ne_zero_q, Int.toNat_of_nonneg (by omega)]
    congr 2
    ring
  rw [e1] at h ⊢
  unfold roundQ
  have h2 : q / 2 ^ ulpExp fmt q ≤ ((j * 2 ^ (e - ulpExp fmt q).toNat : ℤ) : ℚ) := by
    rw [div_le_iff₀ hpos]; exact h
  have := rne_le_of_le_int h2
  have : (rne (q / 2 ^ ulpExp fmt q) : ℚ) ≤ ((j * 2 ^ (e - ulpExp fmt q).toNat : ℤ) : ℚ) := by
    exact_mod_cast this
  exact mul_le_mul_of_nonneg_right this hpos.le

theorem grid_le_roundQ (fmt : FloatFormat) {q : ℚ} (j e : ℤ) (he : ulpExp fmt q ≤ e)
    (h : (j : ℚ) * 2 ^ e ≤ q) : (j : ℚ) * 2 ^ e ≤ roundQ fmt q := by
  have hpos := two_zpow_pos (ulpExp fmt q)
  have e1 : (j : ℚ) * 2 ^ e = ((j * 2 ^ (e - ulpExp fmt q).toNat : ℤ) : ℚ) * 2 ^ ulpExp fmt q := by
    push_cast
    rw [mul_assoc, ← zpow_natCast, ← zpow_add₀ two_ne_zero_q, Int.toNat_of_nonneg (by omega)]
    congr 2
    ring
  rw [e1] at h ⊢
  unfold roundQ
  have h2 : ((j * 2 ^ (e - ulpExp fmt q).toNat : ℤ) : ℚ) ≤ q / 2 ^ ulpExp fmt q := by
    rw [le_div_iff₀ hpos]; exact h
  have := le_rne_of_int_le h2
  have : ((j * 2 ^ (e - ulpExp fmt q).toNat : ℤ) : ℚ) ≤ (rne (q / 2 ^ ulpExp fmt q) : ℚ) := by
    exact_mod_cast this
  exact mul_le_mul_of_nonneg_right this hpos.le

/-- A value within one half of an even integer is rounded to it. -/
theorem rne_eq_of_even {x : ℚ} {n : ℤ} (hn : n % 2 = 0) (h : |x - n| ≤ 1 / 2) : rne x = n := by
  rw [abs_le] at h
  obtain ⟨h1, h2⟩ := h
  by_cases hx : (n : ℚ) ≤ x
  · have hf : ⌊x⌋ = n := by
      rw [Int.floor_eq_iff]; constructor <;> linarith
    have hfr : Int.fract x = x - n := by rw [Int.fract, hf]
    rcases rne_cases x with ⟨_, e⟩ | ⟨c, _⟩ | ⟨_, e⟩
    · rw [e, hf]
    · rw [hfr] at c; linarith
    · rw [e, hf]; omega
  · push_neg at hx
    have hf : ⌊x⌋ = n - 1 := by
      rw [Int.floor_eq_iff]; push_cast; constructor <;> linarith
    have hfr : Int.fract x = x - n + 1 := by rw [Int.fract, hf]; push_cast; ring
    rcases rne_cases x with ⟨c, _⟩ | ⟨_, e⟩ | ⟨_, e⟩
    · rw [hfr] at c; linarith
    · rw [e, hf]; ring
    · rw [e, hf]; omega

/-- Two values that add up to an even integer are rounded to integers that add up to it. -/
theorem rne_add_rne_sub {x : ℚ} {n : ℤ} (hn : n % 2 = 0) : rne x + rne (n - x) = n := by
  have hfl := Int.floor_le x
  have hlt := Int.lt_floor_add_one x
  by_cases hi : (⌊x⌋ : ℚ) = x
  · have e1 : rne x = ⌊x⌋ := by rw [← hi, rne_intCast, Int.floor_intCast]
    have e2 : rne ((n : ℚ) - x) = n - ⌊x⌋ := by
      have : (n : ℚ) - x = ((n - ⌊x⌋ : ℤ) : ℚ) := by push_cast; rw [hi]
      rw [this, rne_intCast]
    rw [e1, e2]; ring
  · have hlt' : (⌊x⌋ : ℚ) < x := lt_of_le_of_ne hfl hi
    have hf : ⌊(n : ℚ) - x⌋ = n - ⌊x⌋ - 1 := by
      rw [Int.floor_eq_iff]; push_cast; constructor <;> linarith
    have hfr : Int.fract ((n : ℚ) - x) = 1 - Int.fract x := by
      rw [Int.fract, hf, Int.fract]; push_cast; ring
    rcases rne_cases x with ⟨c, e⟩ | ⟨c, e⟩ | ⟨c, e⟩ <;>
      rcases rne_cases ((n : ℚ) - x) with ⟨c', e'⟩ | ⟨c', e'⟩ | ⟨c', e'⟩ <;>
      rw [hfr] at c' <;>
      first
        | (exfalso; linarith)
        | (rw [e, e', hf]; omega)

theorem natCast_eq_even_mul (V : ℕ) (e : ℤ) (he : e ≤ -1) :
    ∃ n : ℤ, n % 2 = 0 ∧ (V : ℚ) = (n : ℚ) * 2 ^ e := by
  refine ⟨(V : ℤ) * 2 ^ (-e).toNat, ?_, ?_⟩
  · obtain ⟨t, ht⟩ : ∃ t : ℕ, (-e).toNat = t + 1 := ⟨(-e).toNat - 1, by omega⟩
    rw [ht, pow_succ, ← mul_assoc]
    exact Int.mul_emod_left _ 2
  · push_cast
    rw [mul_assoc, ← zpow_natCast, ← zpow_add₀ two_ne_zero_q, Int.toNat_of_nonneg (by omega)]
    simp

/-- A value within half a unit in its last place of an even multiple of that unit is rounded
to that multiple. -/
theorem roundQ_eq_of_near (fmt : FloatFormat) {S V : ℚ} {n : ℤ} (hn : n % 2 = 0)
    (hV : V = (n : ℚ) * 2 ^ ulpExp fmt S) (h : |S - V| ≤ 2 ^ ulpExp fmt S / 2) :
    roundQ fmt S = V := by
  have hpos := two_zpow_pos (ulpExp fmt S)
  unfold roundQ
  have h1 : |S / 2 ^ ulpExp fmt S - n| ≤ 1 / 2 := by
    have : S / 2 ^ ulpExp fmt S - n = (S - V) / 2 ^ ulpExp fmt S := by
      rw [hV]; field_simp; ring
    rw [this, abs_div, abs_of_pos hpos, div_le_iff₀ hpos]
    linarith
  rw [rne_eq_of_even hn h1, hV]

/-- The rounded sum of the rounded parts of an integer below `2 ^ 23` is that integer: the
errors of the two parts cancel up to half a unit in the last place of the sum, and the last
binary digit of the integer is 0. -/
theorem roundQ_add_const (V : ℕ) (hV : V < 2 ^ 23) (A B : ℚ) (hA : 0 ≤ A) (hB : 0 ≤ B)
    (hAB : A + B = V) : roundQ binary32 (roundQ binary32 A + roundQ binary32 B) = V := by
  wlog hBA : B ≤ A generalizing A B
  · have h := this B A hB hA (by linarith) (by linarith)
    rwa [add_comm] at h
  have hVq : (V : ℚ) + 1 ≤ 8388608 := by exact_mod_cast (by omega : V + 1 ≤ 8388608)
  have hVr : roundQ binary32 (V : ℚ) = V :=
    roundQ_natCast binary32 (by decide) (by decide) V (by rw [binary32_prec]; omega)
  by_cases hB0 : B = 0
  · subst hB0
    have : A = V := by linarith
    rw [this, roundQ_zero, add_zero, hVr, hVr]
  have hBpos : 0 < B := lt_of_le_of_ne hB (Ne.symm hB0)
  have hApos : 0 < A := by linarith
  have hV1 : (1 : ℚ) ≤ V := by
    have : 0 < V := by
      have : (0 : ℚ) < V := by linarith
      exact_mod_cast this
    exact_mod_cast this
  have hAhalf : (1 : ℚ) / 2 ≤ A := by linarith
  have p23 : (2 : ℚ) ^ ((-1 : ℤ) + ((binary32.prec : ℕ) : ℤ)) = 8388608 := by
    norm_num [binary32]
  have pm1 : (2 : ℚ) ^ ((-24 : ℤ) + (((binary32.prec : ℕ) : ℤ) - 1)) = 1 / 2 := by
    norm_num [binary32, zpow_neg]
  have hu1 : ulpExp binary32 A ≤ -1 :=
    ulpExp_le_of_lt binary32 hApos (-1) (by decide) (by rw [p23]; linarith)
  have hu2 : -24 ≤ ulpExp binary32 A :=
    le_ulpExp_of_le binary32 (-24) (by rw [pm1]; exact hAhalf)
  have huB : ulpExp binary32 B ≤ ulpExp binary32 A := ulpExp_mono binary32 hBpos hBA
  have hAr := zpow_le_roundQ binary32 (by decide) hApos
    (by have : binary32.emin - (((binary32.prec : ℕ) : ℤ) - 1) = -149 := rfl
        omega)
  have hA' : roundQ binary32 A =
      (rne (A / 2 ^ ulpExp binary32 A) : ℚ) * 2 ^ ulpExp binary32 A := rfl
  have hB'' : roundQ binary32 B =
      (rne (B / 2 ^ ulpExp binary32 B) : ℚ) * 2 ^ ulpExp binary32 B := rfl
  have hBn := roundQ_nonneg binary32 hB
  generalize ulpExp binary32 A = u at *
  have hUpos := two_zpow_pos u
  have hU2 : (2 : ℚ) ^ (u - 1) = 2 ^ u / 2 := by
    rw [zpow_sub_one₀ two_ne_zero_q]; ring
  have hUle : (2 : ℚ) ^ u ≤ 1 / 2 := by
    have := zpow_two_le hu1
    norm_num [zpow_neg] at this
    linarith
  obtain ⟨n, hn, hVn⟩ := natCast_eq_even_mul V u hu1
  have ha := abs_rne_sub_le (A / 2 ^ u)
  rw [abs_le] at ha
  have hsum := @rne_add_rne_sub (A / 2 ^ u) n hn
  have hAU : A = A / 2 ^ u * 2 ^ u := by field_simp
  generalize A / 2 ^ u = x at *
  have hBx : B = ((n : ℚ) - x) * 2 ^ u := by
    have : B = V - A := by linarith
    rw [this, hVn, hAU]; ring
  generalize rne x = a at *
  have hax1 : ((a : ℚ) - x) * 2 ^ u ≤ 1 / 2 * 2 ^ u :=
    mul_le_mul_of_nonneg_right (by linarith) hUpos.le
  have hax2 : -(1 / 2) * 2 ^ u ≤ ((a : ℚ) - x) * 2 ^ u :=
    mul_le_mul_of_nonneg_right (by linarith) hUpos.le
  have hB' : |roundQ binary32 B - ((n - a : ℤ) : ℚ) * 2 ^ u| ≤ 2 ^ u / 2 := by
    rcases lt_or_eq_of_le huB with hlt | heq
    · have up := roundQ_le_grid binary32 (q := B) (2 * (n - a) + 1) (u - 1) (by omega)
        (by rw [hU2, hBx]; push_cast; linarith)
      have lo := grid_le_roundQ binary32 (q := B) (2 * (n - a) - 1) (u - 1) (by omega)
        (by rw [hU2, hBx]; push_cast; linarith)
      rw [hU2] at up lo
      push_cast at up lo ⊢
      rw [abs_le]
      constructor <;> linarith
    · rw [hB'', heq]
      have : B / 2 ^ u = (n : ℚ) - x := by rw [hBx]; field_simp
      rw [this]
      have : rne ((n : ℚ) - x) = n - a := by omega
      rw [this]
      simp only [sub_self, abs_zero]
      positivity
  have hS : |roundQ binary32 A + roundQ binary32 B - V| ≤ 2 ^ u / 2 := by
    have : roundQ binary32 A + roundQ binary32 B - V =
        roundQ binary32 B - ((n - a : ℤ) : ℚ) * 2 ^ u := by
      rw [hA', hVn]; push_cast; ring
    rw [this]; exact hB'
  have hSlow : (2 : ℚ) ^ (u + (((binary32.prec : ℕ) : ℤ) - 1)) ≤
      roundQ binary32 A + roundQ binary32 B := by linarith
  have hSpos : 0 < roundQ binary32 A + roundQ binary32 B :=
    lt_of_lt_of_le (two_zpow_pos _) hSlow
  have hSu := le_ulpExp_of_le binary32 u hSlow
  have hSu1 : ulpExp binary32 (roundQ binary32 A + roundQ binary32 B) ≤ -1 := by
    apply ulpExp_le_of_lt binary32 hSpos (-1) (by decide)
    rw [p23]
    rw [abs_le] at hS
    linarith
  obtain ⟨nS, hnS, hVS⟩ := natCast_eq_even_mul V _ hSu1
  refine roundQ_eq_of_near binary32 hnS hVS (le_trans hS ?_)
  have := zpow_two_le (x := u) hSu
  linarith

theorem lerpQ_mono {d u v u' v' : ℚ} (hd0 : 0 ≤ d) (hd1 : d ≤ 1) (hu0 : 0 ≤ u) (hv0 : 0 ≤ v)
    (hu : u ≤ u') (hv : v ≤ v') : lerpQ d u v ≤ lerpQ d u' v' := by
  unfold lerpQ
  have hw0 : 0 ≤ roundQ binary32 (1 - d) := roundQ_nonneg binary32 (by linarith)
  have h1 : roundQ binary32 (roundQ binary32 (1 - d) * u) ≤
      roundQ binary32 (roundQ binary32 (1 - d) * u') :=
    roundQ_mono binary32 (by decide) (mul_nonneg hw0 hu0) (mul_le_mul_of_nonneg_left hu hw0)
  have h2 : roundQ binary32 (d * v) ≤ roundQ binary32 (d * v') :=
    roundQ_mono binary32 (by decide) (mul_nonneg hd0 hv0) (mul_le_mul_of_nonneg_left hv hd0)
  exact roundQ_mono binary32 (by decide)
    (add_nonneg (roundQ_nonneg binary32 (mul_nonneg hw0 hu0))
      (roundQ_nonneg binary32 (mul_nonneg hd0 hv0))) (add_le_add h1 h2)

/-- The blend of a value with itself is that value, for every weight `k / 2 ^ 24`. -/
theorem lerpQ_const (k : ℕ) (hk : k ≤ 2 ^ 24) (V : ℕ) (hV : V < 2 ^ 23) :
    lerpQ ((k : ℚ) / 2 ^ 24) V V = V := by
  unfold lerpQ
  rw [one_sub_weight k hk]
  have hd0 : (0 : ℚ) ≤ (k : ℚ) / 2 ^ 24 := by positivity
  have hd1 : (k : ℚ) / 2 ^ 24 ≤ 1 := by
    rw [div_le_one (by positivity)]; exact_mod_cast hk
  exact roundQ_add_const V hV _ _ (mul_nonneg (by linarith) (Nat.cast_nonneg V))
    (mul_nonneg hd0 (Nat.cast_nonneg V)) (by ring)

theorem lerpQ_between (k : ℕ) (hk : k ≤ 2 ^ 24) (m M : ℕ) (hM : M < 2 ^ 23) {u v : ℚ}
    (hu1 : (m : ℚ) ≤ u) (hu2 : u ≤ M) (hv1 : (m : ℚ) ≤ v) (hv2 : v ≤ M) :
    (m : ℚ) ≤ lerpQ ((k : ℚ) / 2 ^ 24) u v ∧ lerpQ ((k : ℚ) / 2 ^ 24) u v ≤ M := by
  have hd0 : (0 : ℚ) ≤ (k : ℚ) / 2 ^ 24 := by positivity
  have hd1 : (k : ℚ) / 2 ^ 24 ≤ 1 := by
    rw [div_le_one (by positivity)]; exact_mod_cast hk
  have hm0 : (0 : ℚ) ≤ m := Nat.cast_nonneg m
  have hmM : m ≤ M := by
    have : (m : ℚ) ≤ M := le_trans hu1 hu2
    exact_mod_cast this
  constructor
  · rw [← lerpQ_const k hk m (by omega)]
    exact lerpQ_mono hd0 hd1 hm0 hm0 hu1 hv1
  · rw [← lerpQ_const k hk M hM]
    exact lerpQ_mono hd0 hd1 (le_trans hm0 hu1) (le_trans hm0 hv1) hu2 hv2

/-- The bilinear blend of four channel values lies between the least and the greatest of
them. -/
theorem blendQ_between (kx ky : ℕ) (hkx : kx ≤ 2 ^ 24) (hky : ky ≤ 2 ^ 24)
    (v00 v01 v10 v11 : ℕ) (h00 : v00 < 256) (h01 : v01 < 256) (h10 : v10 < 256)
    (h11 : v11 < 256) :
    ((min (min v00 v01) (min v10 v11) : ℕ) : ℚ) ≤
      blendQ ((kx : ℚ) / 2 ^ 24) ((ky : ℚ) / 2 ^ 24) v00 v01 v10 v11 ∧
    blendQ ((kx : ℚ) / 2 ^ 24) ((ky : ℚ) / 2 ^ 24) v00 v01 v10 v11 ≤
      ((max (max v00 v01) (max v10 v11) : ℕ) : ℚ) := by
  have lo : ∀ v : ℕ, min (min v00 v01) (min v10 v11) ≤ v →
      ((min (min v00 v01) (min v10 v11) : ℕ) : ℚ) ≤ v := fun v h => by exact_mod_cast h
  have hi : ∀ v : ℕ, v ≤ max (max v00 v01) (max v10 v11) →
      (v : ℚ) ≤ ((max (max v00 v01) (max v10 v11) : ℕ) : ℚ) := fun v h => by exact_mod_cast h
  have hM : max (max v00 v01) (max v10 v11) < 2 ^ 23 := by
    have : max (max v00 v01) (max v10 v11) < 256 := by
      simp only [max_lt_iff]; exact ⟨⟨h00, h01⟩, h10, h11⟩
    omega
  have a0 := lerpQ_between kx hkx _ _ hM (lo v00 (by simp)) (hi v00 (by simp))
    (lo v10 (by simp)) (hi v10 (by simp))
  have a1 := lerpQ_between kx hkx _ _ hM (lo v01 (by simp)) (hi v01 (by simp))
    (lo v11 (by simp)) (hi v11 (by simp))
  exact lerpQ_between ky hky _ _ hM a0.1 a0.2 a1.1 a1.2

theorem componentQ_between (exact : Bool) (m M : ℕ) {a : ℚ} (h1 : (m : ℚ) ≤ a)
    (h2 : a ≤ M) : m ≤ componentQ exact a ∧ componentQ exact a ≤ M := by
  have hm0 : (0 : ℚ) ≤ m := Nat.cast_nonneg m
  cases exact
  · simp only [componentQ, Bool.false_eq_true, if_false]
    exact ⟨Nat.le_floor h1, by
      have := Nat.floor_le_floor h2
      rwa [Nat.floor_natCast] at this⟩
  · simp only [componentQ, if_true]
    refine ⟨Nat.le_floor (by linarith), ?_⟩
    have : ⌊a + 1 / 2⌋₊ < M + 1 := by
      rw [Nat.floor_lt (by linarith)]
      push_cast
      linarith
    omega

/-! ## Images: `resize` -/

theorem ofSize_spec (P : Pixel) (w h : ℕ) (hw : w < 2 ^ 32) (hh : h < 2 ^ 32) :
    (Image.ofSize P w h).width = w ∧ (Image.ofSize P w h).height = h ∧
      (Image.ofSize P w h).data.length = toU32 (w * h) := by
  simp only [Image.ofSize, toU32_of_lt hw, toU32_of_lt hh, List.length_replicate, and_self]

theorem resize_aspect_unchanged {P : Pixel} (ndebug exact : Bool) (img : Image P)
    (scaling : ImageScaling) (hW0 : 0 < img.width) (hW : img.width < 2 ^ 32)
    (ha : Image.resizeAspectHeight img.width img.height img.width = Except.ok img.height) :
    Image.resize ndebug exact img scaling img.width 0 = Except.ok img := by
  unfold Image.resize
  rw [toU32_of_lt hW, toU32_of_lt (by decide : 0 < 2 ^ 32), if_neg (by omega), if_pos rfl, ha]
  simp only [bind, Except.bind, pure, Except.pure, and_self, if_true]

theorem floor_scaled (x W w : ℕ) (hw : 0 < w) :
    ⌊((x : ℚ) + 1 / 2) * W / w⌋₊ = (2 * x + 1) * W / (2 * w) := by
  have hw' : (w : ℚ) ≠ 0 := by exact_mod_cast hw.ne'
  have : ((x : ℚ) + 1 / 2) * W / w = (((2 * x + 1) * W : ℕ) : ℚ) / ((2 * w : ℕ) : ℚ) := by
    rw [div_eq_div_iff hw' (by exact_mod_cast (by omega : 2 * w ≠ 0))]
    push_cast
    ring
  rw [this, Nat.floor_div_eq_div]

/-- C21: `resize` is a no-op in its two skip cases, for either algorithm: `resize(alg, 0, h)`
for every `h`, and `resize(alg, w, h)` with `(w, h)` equal to the current
`(width, height)`, return the image unchanged, that is with the same width, the same height
and the same buffer. -/
theorem resize_skip_cases {P : Pixel} (ndebug exact : Bool) (img : Image P)
    (scaling : ImageScaling) (hW : img.width < 2 ^ 32) (hH : img.height < 2 ^ 32) :
    (∀ h, Image.resize ndebug exact img scaling 0 h = Except.ok img) ∧
    Image.resize ndebug exact img scaling img.width img.height = Except.ok img :=
  ⟨fun h => resize_zero_width ndebug exact img scaling h,
    resize_same_size ndebug exact img scaling hW hH⟩

/-- Witness for C21: the 2 x 3 RGB8 image, with both algorithms. -/
theorem resize_skip_cases_witness :
    (Image.ofSize Pixel.RGB8 2 3).width < 2 ^ 32 ∧
    (Image.ofSize Pixel.RGB8 2 3).height < 2 ^ 32 ∧
    ((∀ h, Image.resize false false (Image.ofSize Pixel.RGB8 2 3) ImageScaling.Bilinear 0 h =
        Except.ok (Image.ofSize Pixel.RGB8 2 3)) ∧
      Image.resize false false (Image.ofSize Pixel.RGB8 2 3) ImageScaling.Bilinear
        (Image.ofSize Pixel.RGB8 2 3).width (Image.ofSize Pixel.RGB8 2 3).height =
        Except.ok (Image.ofSize Pixel.RGB8 2 3)) :=
  ⟨by decide, by decide,
    resize_skip_cases false false (Image.ofSize Pixel.RGB8 2 3) ImageScaling.Bilinear
      (by decide) (by decide)⟩

/-- Counterexample for C22: the 2 x 7 image resized to width 1 with `newHeight = 0` gets
height 3, whereas `round(1 / (2 / 7)) = round(3.5) = 4`: the quotient `2 / 7` and the quotient
`1 / (2 / 7)` are each rounded to `float`, and the second one falls below 3.5. -/
theorem resize_aspect_counterexample :
    (∃ img' : Image Pixel.RGB8,
      Image.resize false false (Image.ofSize Pixel.RGB8 2 7) ImageScaling.Nearest 1 0 =
        Except.ok img' ∧ img'.width = 1 ∧ img'.height = 3) ∧
    round ((1 : ℚ) / ((2 : ℚ) / 7)) = 4 := by
  obtain ⟨e1, e2, e3⟩ := ofSize_spec Pixel.RGB8 2 7 (by decide) (by decide)
  obtain ⟨img', h1, h2, h3, _⟩ := resize_ok false false (Image.ofSize Pixel.RGB8 2 7)
    ImageScaling.Nearest 1 0 3 (by rw [e1, e2, e3]; rfl) (by rw [e1, e2]; decide)
    (by rw [e1]; decide) (by rw [e2]; decide) (by decide) (by decide) (by decide)
    (Or.inr ⟨rfl, by rw [e1, e2]; rfl⟩) (by rw [e1]; decide) (by decide)
    (fun h => by cases h)
  refine ⟨⟨img', h1, h2, h3⟩, ?_⟩
  rw [round_eq, Int.floor_eq_iff]
  norm_num

/-- C22 (amended): for every image that holds `W * H` pixels with `W, H ≥ 1`, and every
`w > 0`, `resize(alg, w, 0)` returns an image of width `w` and height
`round(w / (W / H))` where the conversions of `w`, `W` and `H` and the two quotients are
rounded to `float` (the value `aspectHeightQ W H w`), provided that `w` times this height is
below `2 ^ 32` and, for the bilinear algorithm, that `w` and the height are at most `2 ^ 21`. -/
theorem resize_aspect_height {P : Pixel} (ndebug exact : Bool) (img : Image P)
    (scaling : ImageScaling) (w : ℕ)
    (hdata : img.data.length = img.width * img.height)
    (hfit : img.width * img.height < 2 ^ 32) (hW : 1 ≤ img.width) (hH : 1 ≤ img.height)
    (hw0 : 0 < w) (hw : w < 2 ^ 32)
    (hwh : w * ⌊aspectHeightQ img.width img.height w + 1 / 2⌋₊ < 2 ^ 32)
    (hb : scaling = ImageScaling.Bilinear →
      w ≤ 2 ^ 21 ∧ ⌊aspectHeightQ img.width img.height w + 1 / 2⌋₊ ≤ 2 ^ 21) :
    ∃ img', Image.resize ndebug exact img scaling w 0 = Except.ok img' ∧
      img'.width = w ∧
      img'.height = ⌊aspectHeightQ img.width img.height w + 1 / 2⌋₊ := by
  have hW32 : img.width < 2 ^ 32 := by
    have := Nat.le_mul_of_pos_right img.width (by omega : 0 < img.height)
    omega
  have hH32 : img.height < 2 ^ 32 := by
    have := Nat.le_mul_of_pos_left img.height (by omega : 0 < img.width)
    omega
  have hfl : ⌊aspectHeightQ img.width img.height w + 1 / 2⌋₊ < 2 ^ 32 := by
    have := Nat.le_mul_of_pos_left ⌊aspectHeightQ img.width img.height w + 1 / 2⌋₊ hw0
    omega
  have ha := resizeAspectHeight_eq img.width img.height w hW hW32 hH hH32 hw hfl
  by_cases hs : w = img.width ∧ ⌊aspectHeightQ img.width img.height w + 1 / 2⌋₊ = img.height
  · obtain ⟨hs1, hs2⟩ := hs
    subst hs1
    rw [hs2] at ha ⊢
    exact ⟨img, resize_aspect_unchanged ndebug exact img scaling (by omega) hW32 ha, rfl, rfl⟩
  · obtain ⟨img', h1, h2, h3, _⟩ := resize_ok ndebug exact img scaling w 0 _ hdata hfit hW hH
      hw0 hw (by decide) (Or.inr ⟨rfl, ha⟩) hs hwh hb
    exact ⟨img', h1, h2, h3⟩

/-- Witness for C22: the 100 x 50 image resized with `w = 50` and `newHeight = 0` has height
25 afterwards. -/
theorem resize_aspect_height_witness :
    ∃ img' : Image Pixel.RGB8,
      Image.resize false false (Image.ofSize Pixel.RGB8 100 50) ImageScaling.Nearest 50 0 =
        Except.ok img' ∧ img'.width = 50 ∧ img'.height = 25 := by
  obtain ⟨e1, e2, e3⟩ := ofSize_spec Pixel.RGB8 100 50 (by decide) (by decide)
  have ex : ⌊aspectHeightQ (Image.ofSize Pixel.RGB8 100 50).width
      (Image.ofSize Pixel.RGB8 100 50).height 50 + 1 / 2⌋₊ = 25 := by
    rw [e1, e2]; exact aspectHeightQ_example
  obtain ⟨img', h1, h2, h3⟩ := resize_aspect_height false false
    (Image.ofSize Pixel.RGB8 100 50) ImageScaling.Nearest 50
    (by rw [e1, e2, e3]; rfl) (by rw [e1, e2]; decide) (by rw [e1]; decide)
    (by rw [e2]; decide) (by decide) (by decide) (by rw [ex]; decide) (fun h => by cases h)
  exact ⟨img', h1, h2, by rw [h3, ex]⟩

theorem replicate_set_getD {α : Type} (n i j : ℕ) (a b : α) (hj : j < n) :
    ((List.replicate n a).set i b).getD j a = if j = i then b else a := by
  have hl : j < ((List.replicate n a).set i b).length := by
    rw [List.length_set, List.length_replicate]; exact hj
  rw [List.getD_eq_getElem _ _ hl, List.getElem_set]
  by_cases h : i = j
  · rw [if_pos h, if_pos h.symm]
  · rw [if_neg h, if_neg (fun h' => h h'.symm), List.getElem_replicate]

set_option maxRecDepth 100000 in
theorem resizeNearestCoord_tie :
    Image.resizeNearestCoord 49999999 100000001 100000000 = Except.ok 50000000 :=
  eq_ok_of_toOption (by decide!)

set_option maxRecDepth 100000 in
theorem resizeNearestCoord_unit : Image.resizeNearestCoord 0 1 1 = Except.ok 0 :=
  eq_ok_of_toOption (by decide!)

/-- Counterexample for C23: in the image of 100000001 x 1 pixels that is black except for the
pixel at column 50000000, resized with the nearest-neighbour algorithm to 100000000 x 1, the
destination pixel at column 49999999 is the one of source column 50000000, whereas
`floor((49999999 + 0.5) * 100000001 / 100000000) = 49999999`: the product
4999999999999999.5 is not a `double` and is rounded up to 5000000000000000. -/
theorem resize_nearest_counterexample :
    ∃ img img' : Image Pixel.RGB8,
      img.width = 100000001 ∧ img.height = 1 ∧ img.data.length = img.width * img.height ∧
      Image.resize false false img ImageScaling.Nearest 100000000 1 = Except.ok img' ∧
      ⌊((49999999 : ℕ) + 1 / 2 : ℚ) * (100000001 : ℕ) / (100000000 : ℕ)⌋₊ = 49999999 ∧
      Image.getPixel false img 49999999 0 = Except.ok (PixelType.default Pixel.RGB8) ∧
      Image.getPixel false img' 49999999 0 = Except.ok (PixelRGB8 9 9 9) ∧
      PixelRGB8 9 9 9 ≠ PixelType.default Pixel.RGB8 := by
  suffices key : ∀ img : Image Pixel.RGB8, img.width = 100000001 → img.height = 1 →
      img.data = (List.replicate 100000001 (PixelType.default Pixel.RGB8)).set 50000000
        (PixelRGB8 9 9 9) →
      ∃ img' : Image Pixel.RGB8,
        img.width = 100000001 ∧ img.height = 1 ∧ img.data.length = img.width * img.height ∧
        Image.resize false false img ImageScaling.Nearest 100000000 1 = Except.ok img' ∧
        ⌊((49999999 : ℕ) + 1 / 2 : ℚ) * (100000001 : ℕ) / (100000000 : ℕ)⌋₊ = 49999999 ∧
        Image.getPixel false img 49999999 0 = Except.ok (PixelType.default Pixel.RGB8) ∧
        Image.getPixel false img' 49999999 0 = Except.ok (PixelRGB8 9 9 9) ∧
        PixelRGB8 9 9 9 ≠ PixelType.default Pixel.RGB8 from
    ⟨_, key (Image.mk 100000001 1
      ((List.replicate 100000001 (PixelType.default Pixel.RGB8)).set 50000000
        (PixelRGB8 9 9 9))) rfl rfl rfl⟩
  intro img hw hh hd
  have hl : ((List.replicate 100000001 (PixelType.default Pixel.RGB8)).set 50000000
      (PixelRGB8 9 9 9)).length = 100000001 * 1 := by
    rw [List.length_set, List.length_replicate]
  have hdata : img.data.length = img.width * img.height := by rw [hd, hw, hh, hl]
  have hfit : img.width * img.height < 2 ^ 32 := by rw [hw, hh]; norm_num
  obtain ⟨img', h1, h2, h3, _, h5⟩ := resize_ok false false img ImageScaling.Nearest
    100000000 1 1 hdata hfit (by rw [hw]; norm_num) (by rw [hh]) (by norm_num) (by norm_num)
    (by norm_num) (Or.inl ⟨by norm_num, rfl⟩) (by rw [hw]; norm_num) (by norm_num)
    (fun h => by cases h)
  have hn := resizeNearestAt_ok false img 100000000 1 49999999 0 hdata hfit
    (by rw [hw]; norm_num) (by rw [hh]) (by norm_num) (by norm_num) (by norm_num)
    (by norm_num)
  have ex := (resizeNearestCoord_eq 49999999 100000001 100000000 (by norm_num) (by norm_num)
    (by norm_num) (by norm_num)).1
  have ey := (resizeNearestCoord_eq 0 1 1 (by norm_num) (by norm_num)
    (by norm_num) (by norm_num)).1
  have vx := resizeNearestCoord_tie
  have vy := resizeNearestCoord_unit
  rw [vx] at ex
  rw [vy] at ey
  have cx := Except.ok.inj ex
  have cy := Except.ok.inj ey
  have g1 : Image.getPixel false img 50000000 0 = Except.ok (PixelRGB8 9 9 9) := by
    rw [getPixel_ok false img _ _ hdata hfit (by rw [hw]; norm_num) (by rw [hh]; norm_num),
      hd, hw, replicate_set_getD _ _ _ _ _ (by norm_num)]
    rfl
  have g2 : Image.getPixel false img 49999999 0 =
      Except.ok (PixelType.default Pixel.RGB8) := by
    rw [getPixel_ok false img _ _ hdata hfit (by rw [hw]; norm_num) (by rw [hh]; norm_num),
      hd, hw, replicate_set_getD _ _ _ _ _ (by norm_num)]
    rfl
  refine ⟨img', hw, hh, hdata, h1, ?_, g2, ?_, by decide⟩
  · rw [floor_scaled _ _ _ (by norm_num)]
  · rw [← h5 49999999 0 (by norm_num) (by norm_num)]
    show Image.resizeNearestAt false img 100000000 1 49999999 0 = _
    rw [hn.2.2.1, hw, hh, ← cx, ← cy]
    exact g1

/-- C23 (amended): for every image that holds `W * H` pixels with `W, H ≥ 1`, and every target
`w, h ≥ 1` with `w * h < 2 ^ 32` different from `(W, H)`, `resize(Nearest, w, h)` returns an
image of width `w` and height `h` in which the pixel at every destination `(x, y)` with
`x < w`, `y < h` is the original pixel at the source coordinate `(cx, cy)` that the loop
computes in `double`; that coordinate is always in bounds (`cx < W`, `cy < H`), so the read
succeeds, and it equals `floor((x + 0.5) * W / w)` whenever `w * W ≤ 2 ^ 52`, respectively
`floor((y + 0.5) * H / h)` whenever `h * H ≤ 2 ^ 52`. -/
theorem resize_nearest_samples {P : Pixel} (ndebug exact : Bool) (img : Image P) (w h : ℕ)
    (hdata : img.data.length = img.width * img.height)
    (hfit : img.width * img.height < 2 ^ 32) (hW : 1 ≤ img.width) (hH : 1 ≤ img.height)
    (hw0 : 1 ≤ w) (hh0 : 1 ≤ h) (hwh : w * h < 2 ^ 32)
    (hne : ¬ (w = img.width ∧ h = img.height)) :
    ∃ img', Image.resize ndebug exact img ImageScaling.Nearest w h = Except.ok img' ∧
      img'.width = w ∧ img'.height = h ∧
      ∀ x y, x < w → y < h → ∃ cx cy p,
        Image.resizeNearestCoord x img.width w = Except.ok cx ∧
        Image.resizeNearestCoord y img.height h = Except.ok cy ∧
        cx < img.width ∧ cy < img.height ∧
        Image.getPixel ndebug img cx cy = Except.ok p ∧
        Image.getPixel ndebug img' x y = Except.ok p ∧
        (w * img.width ≤ 2 ^ 52 → cx = ⌊((x : ℚ) + 1 / 2) * img.width / w⌋₊) ∧
        (h * img.height ≤ 2 ^ 52 → cy = ⌊((y : ℚ) + 1 / 2) * img.height / h⌋₊) := by
  have hW32 : img.width < 2 ^ 32 := by
    have := Nat.le_mul_of_pos_right img.width (by omega : 0 < img.height)
    omega
  have hH32 : img.height < 2 ^ 32 := by
    have := Nat.le_mul_of_pos_left img.height (by omega : 0 < img.width)
    omega
  have hw32 : w < 2 ^ 32 := by
    have := Nat.le_mul_of_pos_right w (by omega : 0 < h)
    omega
  have hh32 : h < 2 ^ 32 := by
    have := Nat.le_mul_of_pos_left h (by omega : 0 < w)
    omega
  obtain ⟨img', h1, h2, h3, _, h5⟩ := resize_ok ndebug exact img ImageScaling.Nearest w h h
    hdata hfit hW hH (by omega) hw32 hh32 (Or.inl ⟨by omega, rfl⟩) hne hwh
    (fun hc => by cases hc)
  refine ⟨img', h1, h2, h3, fun x y hx hy => ?_⟩
  obtain ⟨bx, by', e1, e2⟩ :=
    resizeNearestAt_ok ndebug img w h x y hdata hfit hW hH hw32 hh32 hx hy
  have ex := (resizeNearestCoord_eq x img.width w hW hW32 hw32 hx).1
  have ey := (resizeNearestCoord_eq y img.height h hH hH32 hh32 hy).1
  have e5 := h5 x y hx hy
  refine ⟨_, _, _, ex, ey, bx, by', e1 ▸ e2, ?_, ?_, ?_⟩
  · rw [← e5]; exact e2
  · intro hb
    have := resizeNearestCoord_exact x img.width w hW hW32 hw32 hx hb
    rw [ex] at this
    rw [Except.ok.inj this, floor_scaled _ _ _ (by omega)]
  · intro hb
    have := resizeNearestCoord_exact y img.height h hH hH32 hh32 hy hb
    rw [ey] at this
    rw [Except.ok.inj this, floor_scaled _ _ _ (by omega)]

/-- Witness for C23: the 2 x 2 RGB8 image resized to 3 x 3. -/
theorem resize_nearest_samples_witness :
    ∃ img' : Image Pixel.RGB8,
      Image.resize false false (Image.ofSize Pixel.RGB8 2 2) ImageScaling.Nearest 3 3 =
        Except.ok img' ∧
      img'.width = 3 ∧ img'.height = 3 ∧
      ∀ x y, x < 3 → y < 3 → ∃ cx cy p,
        Image.resizeNearestCoord x (Image.ofSize Pixel.RGB8 2 2).width 3 = Except.ok cx ∧
        Image.resizeNearestCoord y (Image.ofSize Pixel.RGB8 2 2).height 3 = Except.ok cy ∧
        cx < (Image.ofSize Pixel.RGB8 2 2).width ∧ cy < (Image.ofSize Pixel.RGB8 2 2).height ∧
        Image.getPixel false (Image.ofSize Pixel.RGB8 2 2) cx cy = Except.ok p ∧
        Image.getPixel false img' x y = Except.ok p ∧
        (3 * (Image.ofSize Pixel.RGB8 2 2).width ≤ 2 ^ 52 →
          cx = ⌊((x : ℚ) + 1 / 2) * (Image.ofSize Pixel.RGB8 2 2).width / (3 : ℕ)⌋₊) ∧
        (3 * (Image.ofSize Pixel.RGB8 2 2).height ≤ 2 ^ 52 →
          cy = ⌊((y : ℚ) + 1 / 2) * (Image.ofSize Pixel.RGB8 2 2).height / (3 : ℕ)⌋₊) :=
  resize_nearest_samples false false (Image.ofSize Pixel.RGB8 2 2) 3 3
    (by decide) (by decide) (by decide) (by decide) (by decide) (by decide) (by decide)
    (by decide)

set_option maxRecDepth 100000 in
theorem resizeBilinearAxis_edge :
    Image.resizeBilinearAxis 16777215 1 16777216 =
      Except.ok (0, 1, FP.finite false 8388608 (-24)) :=
  eq_ok_of_toOption (by decide!)

set_option maxRecDepth 100000 in
theorem resizeBilinearAt_edge :
    Image.resizeBilinearAt false false (Image.ofSize Pixel.RGB8 1 1) 16777216 1 16777215 0 =
      Except.error "Pixel access out of bounds" := by
  have e1 : Image.resizeBilinearAxis 0 (Image.ofSize Pixel.RGB8 1 1).height 1 =
      Except.ok (0, 0, FP.finite false 0 0) := eq_ok_of_toOption (by decide!)
  have e2 : Image.resizeBilinearAxis 16777215 (Image.ofSize Pixel.RGB8 1 1).width 16777216 =
      Except.ok (0, 1, FP.finite false 8388608 (-24)) := resizeBilinearAxis_edge
  have g0 : Image.getPixel false (Image.ofSize Pixel.RGB8 1 1) 0 0 =
      Except.ok (PixelType.default Pixel.RGB8) := rfl
  have g1 : Image.getPixel false (Image.ofSize Pixel.RGB8 1 1) 1 0 =
      Except.error "Pixel access out of bounds" := rfl
  simp only [Image.resizeBilinearAt, e1, e2, g0, g1, bind, Except.bind]

/-- C24: the bilinear loop of `resize` leaves the range `[0, W - 1]` that its clamp
`Math::min(cx0 + 1, width - 1)` keeps in the other branch. For the 1 x 1 image and the target
16777216 x 1, the destination column 16777215 samples `cx1 = 1 > W - 1 = 0` (in `float`,
`16777215 + 0.5f` is 16777216, so `fx = 1.0`, and the branch `tx < 0.5` takes
`cx1 = static_cast<u32>(fx)` unclamped), the read `getPixel(1, 0)` fails the bounds
assertion, and `resize` does not return an image. -/
theorem resize_bilinear_counterexample :
    Image.resizeBilinearAxis 16777215 (Image.ofSize Pixel.RGB8 1 1).width 16777216 =
      Except.ok (0, 1, FP.finite false 8388608 (-24)) ∧
    (Image.ofSize Pixel.RGB8 1 1).width - 1 = 0 ∧
    Image.getPixel false (Image.ofSize Pixel.RGB8 1 1) 1 0 =
      Except.error "Pixel access out of bounds" ∧
    ∀ img', Image.resize false false (Image.ofSize Pixel.RGB8 1 1) ImageScaling.Bilinear
      16777216 1 ≠ Except.ok img' := by
  refine ⟨resizeBilinearAxis_edge, rfl, rfl, fun img' e => ?_⟩
  have hw : toU32 16777216 = 16777216 := by decide
  have hh : toU32 1 = 1 := by decide
  rcases resize_returns false false _ img' _ _ _ e with ⟨h0, _⟩ | ⟨h, _, hh', hr⟩
  · rw [hw] at h0; exact absurd h0 (by decide)
  · have hh1 : h = 1 := by
      rcases hh' with ⟨_, h2⟩ | ⟨h2, _⟩
      · rw [h2, hh]
      · rw [hh] at h2; exact absurd h2 (by decide)
    subst hh1
    rcases hr with ⟨h1, _⟩ | ⟨_, _, _, _, _, hs⟩
    · rw [hw] at h1
      exact absurd h1 (by decide)
    · rw [hw] at hs
      obtain ⟨p, hp⟩ := hs 16777215 0 (by decide) (by decide)
      have : Image.resizeAt false false (Image.ofSize Pixel.RGB8 1 1) ImageScaling.Bilinear
          16777216 1 16777215 0 = Except.error "Pixel access out of bounds" :=
        resizeBilinearAt_edge
      rw [this] at hp
      simp at hp

/-- Where the bilinear loop stays in range: for every image that holds `W * H` pixels with
`W, H ≥ 1` and every target with `1 ≤ w ≤ 2 ^ 21` and `1 ≤ h ≤ 2 ^ 21`, the source coordinates
that the bilinear
loop computes for every destination pixel satisfy `cx0 ≤ cx1 ≤ W - 1` and
`cy0 ≤ cy1 ≤ H - 1`, the four reads `getPixel(cx0, cy0)`, `getPixel(cx0, cy1)`,
`getPixel(cx1, cy0)`, `getPixel(cx1, cy1)` succeed, and `resize(Bilinear, w, h)` returns
whenever `w * h < 2 ^ 32`. -/
theorem resize_bilinear_in_bounds {P : Pixel} (ndebug exact : Bool) (img : Image P) (w h : ℕ)
    (hdata : img.data.length = img.width * img.height)
    (hfit : img.width * img.height < 2 ^ 32) (hW : 1 ≤ img.width) (hH : 1 ≤ img.height)
    (hw0 : 1 ≤ w) (hh0 : 1 ≤ h) (hw : w ≤ 2 ^ 21) (hh : h ≤ 2 ^ 21) :
    (∀ x y, x < w → y < h → ∃ (cx0 cx1 : ℕ) (dx : FP) (cy0 cy1 : ℕ) (dy : FP),
      Image.resizeBilinearAxis x img.width w = Except.ok (cx0, cx1, dx) ∧
      Image.resizeBilinearAxis y img.height h = Except.ok (cy0, cy1, dy) ∧
      cx0 ≤ cx1 ∧ cx1 ≤ img.width - 1 ∧ cy0 ≤ cy1 ∧ cy1 ≤ img.height - 1 ∧
      (∃ p, Image.getPixel ndebug img cx0 cy0 = Except.ok p) ∧
      (∃ p, Image.getPixel ndebug img cx0 cy1 = Except.ok p) ∧
      (∃ p, Image.getPixel ndebug img cx1 cy0 = Except.ok p) ∧
      (∃ p, Image.getPixel ndebug img cx1 cy1 = Except.ok p)) ∧
    (w * h < 2 ^ 32 →
      ∃ img', Image.resize ndebug exact img ImageScaling.Bilinear w h = Except.ok img' ∧
        img'.width = w ∧ img'.height = h) := by
  have hW32 : img.width < 2 ^ 32 := by
    have := Nat.le_mul_of_pos_right img.width (by omega : 0 < img.height)
    omega
  have hH32 : img.height < 2 ^ 32 := by
    have := Nat.le_mul_of_pos_left img.height (by omega : 0 < img.width)
    omega
  constructor
  · intro x y hx hy
    obtain ⟨cx0, cx1, kx, dx, cy0, cy1, ky, dy, p00, p01, p10, p11, ex, ox, bx, _, _, ey, oy,
      by', _, _, g00, g01, g10, g11, _⟩ :=
      resizeBilinearAt_spec ndebug exact img w h x y hdata hfit hW hH hw hh hx hy
    exact ⟨cx0, cx1, dx, cy0, cy1, dy, ex, ey, ox, by omega, oy, by omega, ⟨_, g00⟩, ⟨_, g01⟩,
      ⟨_, g10⟩, ⟨_, g11⟩⟩
  · intro hwh
    by_cases hs : w = img.width ∧ h = img.height
    · obtain ⟨rfl, rfl⟩ := hs
      exact ⟨img, resize_same_size ndebug exact img _ hW32 hH32, rfl, rfl⟩
    · obtain ⟨img', h1, h2, h3, _⟩ := resize_ok ndebug exact img ImageScaling.Bilinear w h h
        hdata hfit hW hH (by omega) (by omega) (by omega) (Or.inl ⟨by omega, rfl⟩) hs hwh
        (fun _ => ⟨hw, hh⟩)
      exact ⟨img', h1, h2, h3⟩

/-- Resizing the 2 x 2 image to 10 x 10 samples only coordinates in `[0, 1] x [0, 1]`. -/
theorem resize_bilinear_in_bounds_witness :
    (∀ x y, x < 10 → y < 10 → ∃ (cx0 cx1 : ℕ) (dx : FP) (cy0 cy1 : ℕ) (dy : FP),
      Image.resizeBilinearAxis x (Image.ofSize Pixel.RGB8 2 2).width 10 =
        Except.ok (cx0, cx1, dx) ∧
      Image.resizeBilinearAxis y (Image.ofSize Pixel.RGB8 2 2).height 10 =
        Except.ok (cy0, cy1, dy) ∧
      cx0 ≤ cx1 ∧ cx1 ≤ (Image.ofSize Pixel.RGB8 2 2).width - 1 ∧
      cy0 ≤ cy1 ∧ cy1 ≤ (Image.ofSize Pixel.RGB8 2 2).height - 1 ∧
      (∃ p, Image.getPixel false (Image.ofSize Pixel.RGB8 2 2) cx0 cy0 = Except.ok p) ∧
      (∃ p, Image.getPixel false (Image.ofSize Pixel.RGB8 2 2) cx0 cy1 = Except.ok p) ∧
      (∃ p, Image.getPixel false (Image.ofSize Pixel.RGB8 2 2) cx1 cy0 = Except.ok p) ∧
      (∃ p, Image.getPixel false (Image.ofSize Pixel.RGB8 2 2) cx1 cy1 = Except.ok p)) ∧
    (10 * 10 < 2 ^ 32 →
      ∃ img', Image.resize false false (Image.ofSize Pixel.RGB8 2 2) ImageScaling.Bilinear
          10 10 = Except.ok img' ∧
        img'.width = 10 ∧ img'.height = 10) ∧
    (Image.ofSize Pixel.RGB8 2 2).width - 1 = 1 ∧
    (Image.ofSize Pixel.RGB8 2 2).height - 1 = 1 :=
  ⟨(resize_bilinear_in_bounds false false (Image.ofSize Pixel.RGB8 2 2) 10 10
    (by decide) (by decide) (by decide) (by decide) (by decide) (by decide) (by decide)
    (by decide)).1,
   (resize_bilinear_in_bounds false false (Image.ofSize Pixel.RGB8 2 2) 10 10
    (by decide) (by decide) (by decide) (by decide) (by decide) (by decide) (by decide)
    (by decide)).2, by decide, by decide⟩

/-- Counterexample for C25: `Image(65536, 65536)` has width 65536 and height 65536 and an
empty buffer, because the constructor computes the product `width * height` in `u32`. -/
theorem image_size_counterexample :
    (Image.ofSize Pixel.RGB8 65536 65536).width = 65536 ∧
    (Image.ofSize Pixel.RGB8 65536 65536).height = 65536 ∧
    (Image.ofSize Pixel.RGB8 65536 65536).data.length = 0 ∧
    (Image.ofSize Pixel.RGB8 65536 65536).data.length ≠
      (Image.ofSize Pixel.RGB8 65536 65536).width *
        (Image.ofSize Pixel.RGB8 65536 65536).height := by
  obtain ⟨e1, e2, e3⟩ := ofSize_spec Pixel.RGB8 65536 65536 (by decide) (by decide)
  have e4 : toU32 (65536 * 65536) = 0 := by decide
  rw [e4] at e3
  exact ⟨e1, e2, e3, by rw [e1, e2, e3]; decide⟩

/-- C25 (amended): after the construction `Image(w, h)` the image has width `w`, height `h`
and a buffer of `u32(w * h)` pixels, which is `w * h` pixels whenever `w * h < 2 ^ 32`. Every
`resize` call that returns, whether early or after the loops and for either algorithm, keeps
the property that the buffer length is `width * height`, and also the property that it is
`u32(width * height)`. When a `resize` with `w > 0`, `h > 0` and `(w, h)` different from
`(width, height)` returns, then `w * h < 2 ^ 32`, the width is `w`, the height is `h` and the
buffer has exactly `w * h` pixels. -/
theorem image_size_invariant {P : Pixel} (ndebug exact : Bool) (w h : ℕ)
    (hw : w < 2 ^ 32) (hh : h < 2 ^ 32) :
    ((Image.ofSize P w h).width = w ∧ (Image.ofSize P w h).height = h ∧
      (Image.ofSize P w h).data.length = toU32 (w * h) ∧
      (w * h < 2 ^ 32 → (Image.ofSize P w h).data.length = w * h)) ∧
    (∀ (img img' : Image P) (scaling : ImageScaling),
      Image.resize ndebug exact img scaling w h = Except.ok img' →
      (img.data.length = img.width * img.height →
        img'.data.length = img'.width * img'.height) ∧
      (img.data.length = toU32 (img.width * img.height) →
        img'.data.length = toU32 (img'.width * img'.height)) ∧
      (0 < w → 0 < h → ¬ (w = img.width ∧ h = img.height) →
        w * h < 2 ^ 32 ∧ img'.width = w ∧ img'.height = h ∧ img'.data.length = w * h)) := by
  obtain ⟨e1, e2, e3⟩ := ofSize_spec P w h hw hh
  refine ⟨⟨e1, e2, e3, fun hf => by rw [e3, toU32_of_lt hf]⟩, ?_⟩
  intro img img' scaling e
  rcases resize_returns ndebug exact img img' scaling w h e with
    ⟨h0, hi⟩ | ⟨h', hw0, hh', hr⟩
  · subst hi
    refine ⟨fun hd => hd, fun hd => hd, fun hw0 _ _ => ?_⟩
    rw [toU32_of_lt hw] at h0
    omega
  · rw [toU32_of_lt hw] at hw0 hr hh'
    rw [toU32_of_lt hh] at hh'
    rcases hr with ⟨h1, h2, hi⟩ | ⟨hne, h1, h2, h3, h4, _⟩
    · subst hi
      refine ⟨fun hd => hd, fun hd => hd, fun _ hh0 hne => ?_⟩
      rcases hh' with ⟨_, h5⟩ | ⟨h5, _⟩
      · exact absurd ⟨h1, by rw [← h5]; exact h2⟩ hne
      · omega
    · refine ⟨fun _ => by rw [h4, h1, h2], fun _ => by rw [h4, h1, h2, toU32_of_lt h3],
        fun _ hh0 _ => ?_⟩
      rcases hh' with ⟨_, h5⟩ | ⟨h5, _⟩
      · subst h5
        exact ⟨h3, h1, h2, h4⟩
      · omega

/-- Witness for C25: the dimensions 2 and 3. -/
theorem image_size_invariant_witness :
    (2 : ℕ) < 2 ^ 32 ∧ (3 : ℕ) < 2 ^ 32 ∧
    (((Image.ofSize Pixel.RGB8 2 3).width = 2 ∧ (Image.ofSize Pixel.RGB8 2 3).height = 3 ∧
      (Image.ofSize Pixel.RGB8 2 3).data.length = toU32 (2 * 3) ∧
      (2 * 3 < 2 ^ 32 → (Image.ofSize Pixel.RGB8 2 3).data.length = 2 * 3)) ∧
    (∀ (img img' : Image Pixel.RGB8) (scaling : ImageScaling),
      Image.resize false false img scaling 2 3 = Except.ok img' →
      (img.data.length = img.width * img.height →
        img'.data.length = img'.width * img'.height) ∧
      (img.data.length = toU32 (img.width * img.height) →
        img'.data.length = toU32 (img'.width * img'.height)) ∧
      (0 < 2 → 0 < 3 → ¬ (2 = img.width ∧ 3 = img.height) →
        2 * 3 < 2 ^ 32 ∧ img'.width = 2 ∧ img'.height = 3 ∧ img'.data.length = 2 * 3))) :=
  ⟨by decide, by decide, image_size_invariant false false 2 3 (by decide) (by decide)⟩

set_option maxRecDepth 100000 in
/-- Counterexample for C30: for an image of width 16777215 resized to width 16777216 the
weight `dx` of the destination column 0 is exactly `1.0`, which is not in `[0, 1)`:
`fx = 0.5f * 16777215 / 16777216` is the `float` next below `0.5`, and `fx + 1` is rounded to
`1.5`. -/
theorem resize_weight_counterexample :
    Image.resizeBilinearAxis 0 16777215 16777216 =
      Except.ok (0, 0, FP.finite false 8388608 (-23)) ∧
    FP.toRat (FP.finite false 8388608 (-23)) = 1 := by
  refine ⟨eq_ok_of_toOption (by decide!), ?_⟩
  norm_num [FP.toRat, zpow_neg]

theorem FP.toU32_ok_isVal {x : FP} {v : ℚ} (hx : FP.IsVal x v) {t : ℕ}
    (h : FP.toU32 x = Except.ok t) : t = ⌊v⌋₊ ∧ ⌊v⌋₊ < 2 ^ 32 := by
  by_cases hlt : ⌊v⌋₊ < 2 ^ 32
  · rw [FP.toU32_isVal hx hlt] at h
    injection h with h
    exact ⟨h.symm, hlt⟩
  · exfalso
    obtain ⟨m, e, rfl, rfl⟩ := hx
    have h0 : ⌊(m : ℚ) * 2 ^ e⌋₊ ≠ 0 := by omega
    simp only [FP.toU32, truncated_eq_floor, Bool.false_eq_true, if_false] at h
    rw [if_neg h0, if_neg hlt] at h
    cases h

/-- The weight of the bilinear rule in the branch `ty < 0.5`, where `ty + 1` may be rounded
up to `1.5`: a multiple of `2 ^ (-24)` between `1/2` and 1, the value 1 included. -/
theorem weight_else_le {T' : ℚ} (hT : T' = roundQ binary32 T') (h1 : 1 ≤ T') (h2 : T' ≤ 3 / 2) :
    ∃ k : ℕ, 2 ^ 23 ≤ k ∧ k ≤ 2 ^ 24 ∧ roundQ binary32 (T' - 1 / 2) = (k : ℚ) / 2 ^ 24 := by
  have hT0 : (0 : ℚ) ≤ T' := by linarith
  obtain ⟨k, hk⟩ := roundQ_multiple binary32 (by decide) hT0 0 (by decide)
    (by rw [← hT]; simpa using h1)
  rw [← hT] at hk
  have e23 : (2 : ℚ) ^ ((0 : ℤ) - (((binary32.prec : ℕ) : ℤ) - 1)) = 1 / 2 ^ 23 := by
    norm_num [binary32, zpow_neg]
  rw [e23] at hk
  have hkq : (k : ℚ) = T' * 8388608 := by rw [hk]; ring
  have hk1 : 2 ^ 23 ≤ k := by
    have : (8388608 : ℚ) ≤ k := by rw [hkq]; linarith
    exact_mod_cast this
  have hk2 : k ≤ 3 * 2 ^ 22 := by
    have : (k : ℚ) ≤ 12582912 := by rw [hkq]; linarith
    exact_mod_cast this
  refine ⟨2 * k - 2 ^ 23, by omega, by omega, ?_⟩
  have e : T' - 1 / 2 = ((2 * k - 2 ^ 23 : ℕ) : ℚ) * 2 ^ (-24 : ℤ) := by
    rw [hk, Nat.cast_sub (by omega)]
    norm_num [zpow_neg]
    ring
  rw [e, roundQ_of_multiple binary32 (by decide) _ _ (by decide)
    (by rw [binary32_prec]; omega)]
  norm_num [zpow_neg]
  ring

/-- The weight that the half-texel rule computes is a multiple of `2 ^ (-24)` in `[0, 1]`,
for all `u32` sizes, whenever the conversions of the rule are defined. -/
theorem resizeBilinearAxis_weight (x W w : ℕ) (hx : x < 2 ^ 32) (hW : W < 2 ^ 32)
    (hw0 : 0 < w) (hw : w < 2 ^ 32) {c0 c1 : ℕ} {d : FP}
    (h : Image.resizeBilinearAxis x W w = Except.ok (c0, c1, d)) :
    ∃ k : ℕ, k ≤ 2 ^ 24 ∧ FP.IsVal d ((k : ℚ) / 2 ^ 24) := by
  have he : binary32.emin < binary32.emax := by decide
  have big : (2 : ℚ) ^ (66 : ℕ) < 2 ^ binary32.emax := by
    rw [← zpow_natCast]; exact zpow_two_lt (by decide)
  have vx := FP.ofNat_isVal binary32 he x (natCast_lt_two_pow (k := 32) hx (by decide))
  have bx := roundQ_le_two_pow32 hx
  have vW := FP.ofNat_isVal binary32 he W (natCast_lt_two_pow (k := 32) hW (by decide))
  have bW := roundQ_le_two_pow32 hW
  have vw := FP.ofNat_isVal binary32 he w (natCast_lt_two_pow (k := 32) hw (by decide))
  have bw : 1 ≤ roundQ binary32 w :=
    one_le_roundQ binary32 (by decide) (by decide) (by exact_mod_cast hw0)
  have x0 := vx.nonneg
  have W0 := vW.nonneg
  generalize roundQ binary32 (x : ℚ) = X at *
  generalize roundQ binary32 (W : ℚ) = RW at *
  generalize roundQ binary32 (w : ℚ) = Rw at *
  have vs := FP.add_isVal binary32 he vx half_isVal (by
    have : (2 : ℚ) ^ (32 : ℕ) + 1 / 2 < 2 ^ (66 : ℕ) := by norm_num
    linarith)
  have bs : roundQ binary32 (X + 1 / 2) ≤ 2 ^ 33 :=
    two_pow_isRep binary32 (by decide) 33 (by decide) (by linarith) (by
      have : (2 : ℚ) ^ (32 : ℕ) + 1 / 2 ≤ 2 ^ 33 := by norm_num
      linarith)
  have s0 := vs.nonneg
  generalize roundQ binary32 (X + 1 / 2) = S at *
  have hSW : S * RW ≤ 2 ^ 65 := by
    have : S * RW ≤ 2 ^ 33 * 2 ^ 32 := mul_le_mul bs bW W0 (by norm_num)
    have e : (2 : ℚ) ^ 33 * 2 ^ 32 = 2 ^ 65 := by norm_num
    linarith
  have vm := FP.mul_isVal binary32 he vs vW (by
    have : (2 : ℚ) ^ 65 < 2 ^ (66 : ℕ) := by norm_num
    linarith)
  have bm : roundQ binary32 (S * RW) ≤ 2 ^ 65 :=
    two_pow_isRep binary32 (by decide) 65 (by decide) (mul_nonneg s0 W0) hSW
  have m0 := vm.nonneg
  generalize roundQ binary32 (S * RW) = Mv at *
  have hw_pos : (0 : ℚ) < Rw := by linarith
  have hdiv : Mv / Rw ≤ 2 ^ 65 := by
    rw [div_le_iff₀ hw_pos]
    have : (2 : ℚ) ^ 65 * 1 ≤ 2 ^ 65 * Rw := mul_le_mul_of_nonneg_left bw (by norm_num)
    linarith
  have hq0 : 0 ≤ Mv / Rw := div_nonneg m0 hw_pos.le
  have hv := FP.div_isVal binary32 he vm vw hw_pos (by
    have : (2 : ℚ) ^ 65 < 2 ^ (66 : ℕ) := by norm_num
    linarith)
  have bF : roundQ binary32 (Mv / Rw) ≤ 2 ^ 65 :=
    two_pow_isRep binary32 (by decide) 65 (by decide) hq0 hdiv
  have hnr : roundQ binary32 (⌊roundQ binary32 (Mv / Rw)⌋₊ : ℚ) =
      (⌊roundQ binary32 (Mv / Rw)⌋₊ : ℚ) :=
    roundQ_floor binary32 (by decide) (by decide) hq0
  have hF0 := hv.nonneg
  generalize hF : roundQ binary32 (Mv / Rw) = F at *
  have hF127 : F < 2 ^ binary32.emax := by
    have : (2 : ℚ) ^ 65 < 2 ^ (66 : ℕ) := by norm_num
    linarith
  -- the conversion of `fy`
  rcases except_cases (FP.toU32 (FP.div binary32
      (FP.mul binary32 (FP.add binary32 (FP.ofNat binary32 x) FP.half) (FP.ofNat binary32 W))
      (FP.ofNat binary32 w))) with ⟨msg, ht⟩ | ⟨t, ht⟩
  · simp [Image.resizeBilinearAxis, ht, bind, Except.bind] at h
  obtain ⟨htv, ht32⟩ := FP.toU32_ok_isVal hv ht
  have hnv := FP.ofNat_isVal binary32 he ⌊F⌋₊
    (natCast_lt_two_pow (k := 32) ht32 (by decide))
  rw [hnr] at hnv
  have hfl := Nat.floor_le hF0
  have hfl2 := Nat.lt_floor_add_one F
  rw [← htv] at hnv hfl hfl2
  have hty := FP.sub_isVal binary32 he hv hnv hfl hF127
  have hφ0 : 0 ≤ F - t := by linarith
  have hT1 : roundQ binary32 (F - t) ≤ 1 := by
    have := roundQ_le_of_le binary32 hφ0 1 0 (by decide) (by decide) (by simp; linarith)
    simpa using this
  have hT0 := roundQ_nonneg binary32 hφ0
  have hTT := (roundQ_idem binary32 (by decide) hφ0).symm
  generalize hTe : roundQ binary32 (F - t) = T at *
  have hge := FP.ge_isVal hty half_isVal
  simp only [Image.resizeBilinearAxis, ht, bind, Except.bind, hge] at h
  by_cases hc : 1 / 2 ≤ T
  · simp only [hc, decide_True, if_true, pure, Except.pure, Except.ok.injEq,
      Prod.mk.injEq] at h
    obtain ⟨k, hk, hd⟩ := weight_then hTT hc hT1
    have hdv := FP.sub_isVal binary32 he hty half_isVal hc
      (lt_of_le_of_lt hT1 (by norm_num [binary32]))
    rw [hd, h.2.2] at hdv
    exact ⟨k, le_trans hk (by norm_num), hdv⟩
  · simp only [hc, decide_False, if_false, pure, Except.pure, Bool.false_eq_true,
      Except.ok.injEq, Prod.mk.injEq] at h
    push_neg at hc
    have h1v : FP.IsVal (FP.ofNat binary32 1) 1 := by
      have := FP.ofNat_isVal_exact binary32 (by decide) (by decide) (by decide) (by decide)
        1 (by decide)
      simpa using this
    have hadd := FP.add_isVal binary32 he hty h1v (by norm_num [binary32]; linarith)
    have hT'1 : 1 ≤ roundQ binary32 (T + 1) :=
      one_le_roundQ binary32 (by decide) (by decide) (by linarith)
    have hT'2 : roundQ binary32 (T + 1) ≤ 3 / 2 := by
      have h32 : ((3 : ℕ) : ℚ) * 2 ^ (-1 : ℤ) = 3 / 2 := by norm_num [zpow_neg]
      have := roundQ_le_of_le binary32 (q := T + 1) (by linarith) 3 (-1)
        (by decide) (by decide) (by rw [h32]; linarith)
      rwa [h32] at this
    have hT'T := (roundQ_idem binary32 (by decide) (q := T + 1) (by linarith)).symm
    obtain ⟨k, _, hk2, hd⟩ := weight_else_le hT'T hT'1 hT'2
    have hdv := FP.sub_isVal binary32 he hadd half_isVal (by linarith)
      (lt_of_le_of_lt hT'2 (by norm_num [binary32]))
    rw [hd, h.2.2] at hdv
    exact ⟨k, hk2, hdv⟩

/-- C30 (amended): for every image, every target `w x h` and every destination pixel `(x, y)`
(all sizes being `u32` values): whenever the half-texel rule yields its coordinates and
weights, the weights `dx` and `dy` are multiples `kx / 2 ^ 24` and `ky / 2 ^ 24` of
`2 ^ (-24)` in the closed interval `[0, 1]`, and for the four sampled source pixels the loop
body returns a pixel `setRGBA(r, g, b, a)` in which each of red, green, blue and alpha lies
between the minimum and the maximum of that channel over the four samples; so no value
exceeds the maximum of its channel and the channels of the pixel written are exactly these
four values (no value spills into another channel). This holds with `ARC_PIXEL_EXACT`
(rounding) and without (truncation). The rule does yield its results, with weights below 1,
and the four reads succeed, for every image that holds `W * H` pixels (`W, H ≥ 1`,
`W * H < 2 ^ 32`) and every target of at most `2 ^ 21` columns and rows; and when
`resize(Bilinear, w, h)` runs its loops there (`w * h < 2 ^ 32`, target different from the
current size) the pixel computed is the pixel `(x, y)` of the result. -/
theorem resize_bilinear_convex {P : Pixel} (ndebug exact : Bool) (img : Image P) (w h x y : ℕ)
    (hW : img.width < 2 ^ 32) (hH : img.height < 2 ^ 32) (hw : w < 2 ^ 32) (hh : h < 2 ^ 32)
    (hx : x < w) (hy : y < h) :
    (∀ (cx0 cx1 : ℕ) (dx : FP) (cy0 cy1 : ℕ) (dy : FP),
      Image.resizeBilinearAxis x img.width w = Except.ok (cx0, cx1, dx) →
      Image.resizeBilinearAxis y img.height h = Except.ok (cy0, cy1, dy) →
      ∃ kx ky : ℕ, FP.IsVal dx ((kx : ℚ) / 2 ^ 24) ∧ kx ≤ 2 ^ 24 ∧
        FP.IsVal dy ((ky : ℚ) / 2 ^ 24) ∧ ky ≤ 2 ^ 24 ∧
        ∀ p00 p01 p10 p11 : PixelStorage P,
          Image.getPixel ndebug img cx0 cy0 = Except.ok p00 →
          Image.getPixel ndebug img cx0 cy1 = Except.ok p01 →
          Image.getPixel ndebug img cx1 cy0 = Except.ok p10 →
          Image.getPixel ndebug img cx1 cy1 = Except.ok p11 →
          ∃ r g b a : ℕ,
            Image.resizeBilinearAt ndebug exact img w h x y =
              Except.ok (setRGBA (PixelType.default P) r g b a) ∧
            (min (min (getRed p00) (getRed p01)) (min (getRed p10) (getRed p11)) ≤ r ∧
              r ≤ max (max (getRed p00) (getRed p01)) (max (getRed p10) (getRed p11)) ∧
              r ≤ getMaxRed P) ∧
            (min (min (getGreen p00) (getGreen p01)) (min (getGreen p10) (getGreen p11)) ≤ g ∧
              g ≤ max (max (getGreen p00) (getGreen p01)) (max (getGreen p10) (getGreen p11)) ∧
              g ≤ getMaxGreen P) ∧
            (min (min (getBlue p00) (getBlue p01)) (min (getBlue p10) (getBlue p11)) ≤ b ∧
              b ≤ max (max (getBlue p00) (getBlue p01)) (max (getBlue p10) (getBlue p11)) ∧
              b ≤ getMaxBlue P) ∧
            (min (min (getAlpha p00) (getAlpha p01)) (min (getAlpha p10) (getAlpha p11)) ≤ a ∧
              a ≤ max (max (getAlpha p00) (getAlpha p01)) (max (getAlpha p10) (getAlpha p11)) ∧
              a ≤ getMaxAlpha P) ∧
            (getRed (setRGBA (PixelType.default P) r g b a) = r ∧
              getGreen (setRGBA (PixelType.default P) r g b a) = g ∧
              getBlue (setRGBA (PixelType.default P) r g b a) = b ∧
              getAlpha (setRGBA (PixelType.default P) r g b a) = a)) ∧
    (img.data.length = img.width * img.height → img.width * img.height < 2 ^ 32 →
      1 ≤ img.width → 1 ≤ img.height → w ≤ 2 ^ 21 → h ≤ 2 ^ 21 →
      ∃ (cx0 cx1 kx : ℕ) (dx : FP) (cy0 cy1 ky : ℕ) (dy : FP)
        (p00 p01 p10 p11 p : PixelStorage P),
        Image.resizeBilinearAxis x img.width w = Except.ok (cx0, cx1, dx) ∧
        Image.resizeBilinearAxis y img.height h = Except.ok (cy0, cy1, dy) ∧
        FP.IsVal dx ((kx : ℚ) / 2 ^ 24) ∧ kx < 2 ^ 24 ∧
        FP.IsVal dy ((ky : ℚ) / 2 ^ 24) ∧ ky < 2 ^ 24 ∧
        Image.getPixel ndebug img cx0 cy0 = Except.ok p00 ∧
        Image.getPixel ndebug img cx0 cy1 = Except.ok p01 ∧
        Image.getPixel ndebug img cx1 cy0 = Except.ok p10 ∧
        Image.getPixel ndebug img cx1 cy1 = Except.ok p11 ∧
        Image.resizeBilinearAt ndebug exact img w h x y = Except.ok p ∧
        (w * h < 2 ^ 32 → ¬ (w = img.width ∧ h = img.height) →
          ∃ img', Image.resize ndebug exact img ImageScaling.Bilinear w h = Except.ok img' ∧
            Image.getPixel ndebug img' x y = Except.ok p)) := by
  constructor
  · intro cx0 cx1 dx cy0 cy1 dy ex ey
    obtain ⟨kx, hkx, vx⟩ := resizeBilinearAxis_weight x img.width w (by omega) hW (by omega)
      hw ex
    obtain ⟨ky, hky, vy⟩ := resizeBilinearAxis_weight y img.height h (by omega) hH (by omega)
      hh ey
    refine ⟨kx, ky, vx, hkx, vy, hky, ?_⟩
    intro p00 p01 p10 p11 g00 g01 g10 g11
    have hp := resizeBilinearPixel_eq exact vx hkx vy hky p00 p01 p10 p11
    have hat : Image.resizeBilinearAt ndebug exact img w h x y =
        Image.resizeBilinearPixel exact dx dy p00 p01 p10 p11 := by
      simp only [Image.resizeBilinearAt, ex, ey, g00, g01, g10, g11, bind, Except.bind]
    have key : ∀ (get : PixelStorage P → ℕ) (mx : ℕ), (∀ p, get p < 256) → (∀ p, get p ≤ mx) →
        min (min (get p00) (get p01)) (min (get p10) (get p11)) ≤
          componentQ exact (blendQ ((kx : ℚ) / 2 ^ 24) ((ky : ℚ) / 2 ^ 24)
            (get p00) (get p01) (get p10) (get p11)) ∧
        componentQ exact (blendQ ((kx : ℚ) / 2 ^ 24) ((ky : ℚ) / 2 ^ 24)
            (get p00) (get p01) (get p10) (get p11)) ≤
          max (max (get p00) (get p01)) (max (get p10) (get p11)) ∧
        componentQ exact (blendQ ((kx : ℚ) / 2 ^ 24) ((ky : ℚ) / 2 ^ 24)
            (get p00) (get p01) (get p10) (get p11)) ≤ mx := by
      intro get mx hlt hmx
      obtain ⟨b1, b2⟩ := blendQ_between kx ky hkx hky (get p00) (get p01) (get p10)
        (get p11) (hlt _) (hlt _) (hlt _) (hlt _)
      obtain ⟨c1, c2⟩ := componentQ_between exact _ _ b1 b2
      refine ⟨c1, c2, le_trans c2 ?_⟩
      simp only [max_le_iff]
      exact ⟨⟨hmx _, hmx _⟩, hmx _, hmx _⟩
    have kr := key getRed (getMaxRed P) getRed_lt (fun p => (getters_exact p).1.2)
    have kg := key getGreen (getMaxGreen P) getGreen_lt (fun p => (getters_exact p).2.1.2)
    have kb := key getBlue (getMaxBlue P) getBlue_lt (fun p => (getters_exact p).2.2.1.2)
    have ka := key getAlpha (getMaxAlpha P) getAlpha_lt (fun p => (getters_exact p).2.2.2.2)
    exact ⟨_, _, _, _, hat.trans hp, kr, kg, kb, ka,
      get_setRGBA _ _ _ _ _ kr.2.2 kg.2.2 kb.2.2 ka.2.2⟩
  · intro hdata hfit hW1 hH1 hw21 hh21
    obtain ⟨cx0, cx1, kx, dx, cy0, cy1, ky, dy, p00, p01, p10, p11, ex, _, _, hkx, vx, ey, _, _,
      hky, vy, g00, g01, g10, g11, hp⟩ :=
      resizeBilinearAt_spec ndebug exact img w h x y hdata hfit hW1 hH1 hw21 hh21 hx hy
    refine ⟨cx0, cx1, kx, dx, cy0, cy1, ky, dy, p00, p01, p10, p11, _, ex, ey, vx, hkx, vy, hky,
      g00, g01, g10, g11, hp, ?_⟩
    intro hwh hne
    obtain ⟨img', h1, _, _, _, h5⟩ := resize_ok ndebug exact img ImageScaling.Bilinear w h h
      hdata hfit hW1 hH1 (by omega) (by omega) (by omega) (Or.inl ⟨by omega, rfl⟩) hne hwh
      (fun _ => ⟨hw21, hh21⟩)
    refine ⟨img', h1, ?_⟩
    rw [← h5 x y hx hy]
    exact hp

set_option maxRecDepth 100000 in
/-- Witness for C30: the 2 x 1 RGBA8 image with the pixels (10, 20, 30, 40) and
(253, 100, 50, 200) resized to 4 x 1, destination pixel (1, 0). The rule yields the columns 0
and 1 with the weight `dx = 1/4` and the row 0 twice with the weight `dy = 0`; the pixel
written is (70, 40, 35, 80), each channel between the two sampled values. -/
theorem resize_bilinear_convex_witness :
    Image.resizeBilinearAxis 1 2 4 = Except.ok (0, 1, FP.finite false 8388608 (-25)) ∧
    Image.resizeBilinearAxis 0 1 1 = Except.ok (0, 0, FP.finite false 0 0) ∧
    FP.toRat (FP.finite false 8388608 (-25)) = 1 / 4 ∧
    Image.getPixel false (Image.mk 2 1
        [setRGBA (PixelStorage.zero Pixel.RGBA8) 10 20 30 40,
          setRGBA (PixelStorage.zero Pixel.RGBA8) 253 100 50 200]) 0 0 =
      Except.ok (setRGBA (PixelStorage.zero Pixel.RGBA8) 10 20 30 40) ∧
    Image.getPixel false (Image.mk 2 1
        [setRGBA (PixelStorage.zero Pixel.RGBA8) 10 20 30 40,
          setRGBA (PixelStorage.zero Pixel.RGBA8) 253 100 50 200]) 1 0 =
      Except.ok (setRGBA (PixelStorage.zero Pixel.RGBA8) 253 100 50 200) ∧
    (∃ kx ky : ℕ, FP.IsVal (FP.finite false 8388608 (-25)) ((kx : ℚ) / 2 ^ 24) ∧ kx ≤ 2 ^ 24 ∧
      FP.IsVal (FP.finite false 0 0) ((ky : ℚ) / 2 ^ 24) ∧ ky ≤ 2 ^ 24 ∧
      ∃ r g b a : ℕ,
        Image.resizeBilinearAt false false (Image.mk 2 1
        [setRGBA (PixelStorage.zero Pixel.RGBA8) 10 20 30 40,
          setRGBA (PixelStorage.zero Pixel.RGBA8) 253 100 50 200]) 4 1 1 0 =
          Except.ok (setRGBA (PixelType.default Pixel.RGBA8) r g b a) ∧
        (min (min (getRed (setRGBA (PixelStorage.zero Pixel.RGBA8) 10 20 30 40)) (getRed (setRGBA (PixelStorage.zero Pixel.RGBA8) 10 20 30 40)))
            (min (getRed (setRGBA (PixelStorage.zero Pixel.RGBA8) 253 100 50 200)) (getRed (setRGBA (PixelStorage.zero Pixel.RGBA8) 253 100 50 200))) ≤ r ∧
          r ≤ max (max (getRed (setRGBA (PixelStorage.zero Pixel.RGBA8) 10 20 30 40)) (getRed (setRGBA (PixelStorage.zero Pixel.RGBA8) 10 20 30 40)))
            (max (getRed (setRGBA (PixelStorage.zero Pixel.RGBA8) 253 100 50 200)) (getRed (setRGBA (PixelStorage.zero Pixel.RGBA8) 253 100 50 200))) ∧
          r ≤ getMaxRed Pixel.RGBA8) ∧
        (min (min (getGreen (setRGBA (PixelStorage.zero Pixel.RGBA8) 10 20 30 40)) (getGreen (setRGBA (PixelStorage.zero Pixel.RGBA8) 10 20 30 40)))
            (min (getGreen (setRGBA (PixelStorage.zero Pixel.RGBA8) 253 100 50 200)) (getGreen (setRGBA (PixelStorage.zero Pixel.RGBA8) 253 100 50 200))) ≤ g ∧
          g ≤ max (max (getGreen (setRGBA (PixelStorage.zero Pixel.RGBA8) 10 20 30 40)) (getGreen (setRGBA (PixelStorage.zero Pixel.RGBA8) 10 20 30 40)))
            (max (getGreen (setRGBA (PixelStorage.zero Pixel.RGBA8) 253 100 50 200)) (getGreen (setRGBA (PixelStorage.zero Pixel.RGBA8) 253 100 50 200))) ∧
          g ≤ getMaxGreen Pixel.RGBA8) ∧
        (min (min (getBlue (setRGBA (PixelStorage.zero Pixel.RGBA8) 10 20 30 40)) (getBlue (setRGBA (PixelStorage.zero Pixel.RGBA8) 10 20 30 40)))
            (min (getBlue (setRGBA (PixelStorage.zero Pixel.RGBA8) 253 100 50 200)) (getBlue (setRGBA (PixelStorage.zero Pixel.RGBA8) 253 100 50 200))) ≤ b ∧
          b ≤ max (max (getBlue (setRGBA (PixelStorage.zero Pixel.RGBA8) 10 20 30 40)) (getBlue (setRGBA (PixelStorage.zero Pixel.RGBA8) 10 20 30 40)))
            (max (getBlue (setRGBA (PixelStorage.zero Pixel.RGBA8) 253 100 50 200)) (getBlue (setRGBA (PixelStorage.zero Pixel.RGBA8) 253 100 50 200))) ∧
          b ≤ getMaxBlue Pixel.RGBA8) ∧
        (min (min (getAlpha (setRGBA (PixelStorage.zero Pixel.RGBA8) 10 20 30 40)) (getAlpha (setRGBA (PixelStorage.zero Pixel.RGBA8) 10 20 30 40)))
            (min (getAlpha (setRGBA (PixelStorage.zero Pixel.RGBA8) 253 100 50 200)) (getAlpha (setRGBA (PixelStorage.zero Pixel.RGBA8) 253 100 50 200))) ≤ a ∧
          a ≤ max (max (getAlpha (setRGBA (PixelStorage.zero Pixel.RGBA8) 10 20 30 40)) (getAlpha (setRGBA (PixelStorage.zero Pixel.RGBA8) 10 20 30 40)))
            (max (getAlpha (setRGBA (PixelStorage.zero Pixel.RGBA8) 253 100 50 200)) (getAlpha (setRGBA (PixelStorage.zero Pixel.RGBA8) 253 100 50 200))) ∧
          a ≤ getMaxAlpha Pixel.RGBA8) ∧
        (getRed (setRGBA (PixelType.default Pixel.RGBA8) r g b a) = r ∧
          getGreen (setRGBA (PixelType.default Pixel.RGBA8) r g b a) = g ∧
          getBlue (setRGBA (PixelType.default Pixel.RGBA8) r g b a) = b ∧
          getAlpha (setRGBA (PixelType.default Pixel.RGBA8) r g b a) = a)) ∧
    Image.resizeBilinearAt false false (Image.mk 2 1
        [setRGBA (PixelStorage.zero Pixel.RGBA8) 10 20 30 40,
          setRGBA (PixelStorage.zero Pixel.RGBA8) 253 100 50 200]) 4 1 1 0 =
      Except.ok (setRGBA (PixelType.default Pixel.RGBA8) 70 40 35 80) ∧
    getRed (setRGBA (PixelStorage.zero Pixel.RGBA8) 10 20 30 40) = 10 ∧
    getRed (setRGBA (PixelStorage.zero Pixel.RGBA8) 253 100 50 200) = 253 := by
  have ex : Image.resizeBilinearAxis 1 2 4 =
      Except.ok (0, 1, FP.finite false 8388608 (-25)) := eq_ok_of_toOption (by decide!)
  have ey : Image.resizeBilinearAxis 0 1 1 = Except.ok (0, 0, FP.finite false 0 0) :=
    eq_ok_of_toOption (by decide!)
  have gA : Image.getPixel false (Image.mk 2 1
        [setRGBA (PixelStorage.zero Pixel.RGBA8) 10 20 30 40,
          setRGBA (PixelStorage.zero Pixel.RGBA8) 253 100 50 200]) 0 0 =
      Except.ok (setRGBA (PixelStorage.zero Pixel.RGBA8) 10 20 30 40) := eq_ok_of_toOption (by decide!)
  have gB : Image.getPixel false (Image.mk 2 1
        [setRGBA (PixelStorage.zero Pixel.RGBA8) 10 20 30 40,
          setRGBA (PixelStorage.zero Pixel.RGBA8) 253 100 50 200]) 1 0 =
      Except.ok (setRGBA (PixelStorage.zero Pixel.RGBA8) 253 100 50 200) := eq_ok_of_toOption (by decide!)
  obtain ⟨kx, ky, h1, h2, h3, h4, h5⟩ :=
    (resize_bilinear_convex false false (Image.mk 2 1
        [setRGBA (PixelStorage.zero Pixel.RGBA8) 10 20 30 40,
          setRGBA (PixelStorage.zero Pixel.RGBA8) 253 100 50 200]) 4 1 1 0
      (by decide) (by decide) (by decide) (by decide) (by decide) (by decide)).1
      0 1 _ 0 0 _ ex ey
  refine ⟨ex, ey, ?_, gA, gB, ⟨kx, ky, h1, h2, h3, h4, h5 _ _ _ _ gA gA gB gB⟩,
    eq_ok_of_toOption (by decide!), by decide, by decide⟩
  norm_num [FP.toRat, zpow_neg]

/-! ## Layouts without alpha: the alpha argument of the setters -/

theorem and_FFFFFFFF_of_lt {t : Nat} (h : t < 2 ^ 32) : t &&& 0xFFFFFFFF = t := by
  rw [show (0xFFFFFFFF : Nat) = 2 ^ 32 - 1 from rfl, Nat.and_pow_two_sub_one_eq_mod]
  exact Nat.mod_eq_of_lt h

theorem pack_setAlpha_of_no_alpha {P : Pixel} (hP : (PixelFormat.of P).AlphaMask = 0)
    (px : PixelStorage P) (a : Nat) :
    (PixelFormat.of P).AlphaShift = 0 ∧ pack (setAlpha px a) = pack px ||| toColorT a ∧
      pack px ||| toColorT a < 2 ^ (8 * Size P) := by
  have hl := pack_lt px
  have ha : toColorT a < 256 := Nat.mod_lt _ (by decide)
  cases P <;> simp only [PixelFormat.of] at hP <;> first | exact absurd hP (by decide) | skip
  case RGB8 | BGR8 =>
    simp only [Size, PixelFormat.of] at hl
    have hl' : pack px < 2 ^ 24 := lt_of_lt_of_le hl (by norm_num)
    have hor : pack px ||| toColorT a < 2 ^ 24 :=
      Nat.or_lt_two_pow hl' (lt_of_lt_of_le ha (by norm_num))
    refine ⟨rfl, ?_, hor⟩
    rw [setAlpha, pack_unpack_pow]
    simp only [toPackedT, packedBits, Size, PixelFormat.of, UnsignedType, not32,
      Nat.shiftLeft_zero, Nat.zero_mod, Nat.sub_zero, gt_iff_lt, Nat.reduceLT, reduceIte,
      Nat.reduceMul]
    rw [and_FFFFFFFF_of_lt (lt_trans hl' (by norm_num)),
      Nat.mod_eq_of_lt (lt_trans hl' (by norm_num)),
      Nat.mod_eq_of_lt (lt_trans hor (by norm_num)), Nat.mod_eq_of_lt hor]
  case RGB5 | BGR5 =>
    simp only [Size, PixelFormat.of] at hl
    have hl' : pack px < 2 ^ 16 := lt_of_lt_of_le hl (by norm_num)
    have hor : pack px ||| toColorT a < 2 ^ 16 :=
      Nat.or_lt_two_pow hl' (lt_of_lt_of_le ha (by norm_num))
    refine ⟨rfl, ?_, hor⟩
    rw [setAlpha, pack_unpack_pow]
    simp only [toPackedT, packedBits, Size, PixelFormat.of, UnsignedType, not32,
      Nat.shiftLeft_zero, Nat.zero_mod, Nat.sub_zero, gt_iff_lt, Nat.reduceLT, reduceIte,
      Nat.reduceMul, Nat.lt_irrefl]
    rw [and_FFFFFFFF_of_lt (lt_trans hl' (by norm_num)),
      Nat.mod_eq_of_lt hl', Nat.mod_eq_of_lt hor, Nat.mod_eq_of_lt hor]

/-- On a layout without alpha every channel of the pixel after `setAlpha(a)` is its old value
OR-ed with the bits of `a` that lie in the field of the channel. -/
theorem getChannel_setAlpha_of_no_alpha {P : Pixel} (hP : (PixelFormat.of P).AlphaMask = 0)
    (px : PixelStorage P) (a : Nat) (c : Channel) :
    getChannel c (setAlpha px a) =
      getChannel c px ||| getField (bitsOf P c) (shiftOf P c) (toColorT a) := by
  rw [getChannel_eq_getField, getChannel_eq_getField,
    (pack_setAlpha_of_no_alpha hP px a).2.1, getField_or]

theorem getField_low (k t : Nat) : getField k 0 t = t % 2 ^ k := by
  rw [getField_eq_div_mod]; simp

theorem getField_of_lt (k s t : Nat) (h : t < 2 ^ s) : getField k s t = 0 := by
  rw [getField_eq_div_mod, Nat.div_eq_of_lt h]; simp

/-- C31: on the four layouts without alpha (`AlphaMask = 0`, `AlphaShift = 0`: RGB8, BGR8,
RGB5, BGR5) the alpha argument of `setAlpha` and of `setRGBA` is not ignored. After
`p.setAlpha(a)` the packed value is `pack(p) | a`, which is also its truncation to the packed
type, and `setRGBA(r, g, b, a)` packs `r << RedShift | g << GreenShift | b << BlueShift | a`.
So the colour channel at shift 0 (red for RGB8 and RGB5, blue for BGR8 and BGR5) becomes its
old value OR-ed with the low 8, respectively 5, bits of `a`; in the 5-bit layouts the bits 5
to 7 of `a` are OR-ed into green as well. On the all-zero RGB8 pixel `setAlpha(255)` makes
`getRed()` 255. -/
theorem setAlpha_without_alpha :
    (∀ P : Pixel, (PixelFormat.of P).AlphaMask = 0 ↔
      P ∈ [Pixel.RGB8, Pixel.BGR8, Pixel.RGB5, Pixel.BGR5]) ∧
    (∀ P : Pixel, (PixelFormat.of P).AlphaMask = 0 →
      (PixelFormat.of P).AlphaShift = 0 ∧
      ∀ (px : PixelStorage P) (a : Nat),
        pack (setAlpha px a) = toPackedT P (pack px ||| toColorT a) ∧
        pack (setAlpha px a) = pack px ||| toColorT a ∧
        ∀ r g b : Nat, pack (setRGBA px r g b a) =
          (toColorT r <<< (PixelFormat.of P).RedShift |||
            toColorT g <<< (PixelFormat.of P).GreenShift |||
            toColorT b <<< (PixelFormat.of P).BlueShift ||| toColorT a) % 2 ^ (8 * Size P)) ∧
    (∀ (px : PixelStorage Pixel.RGB8) (a : Nat),
      getRed (setAlpha px a) = getRed px ||| toColorT a ∧
      getGreen (setAlpha px a) = getGreen px ∧ getBlue (setAlpha px a) = getBlue px) ∧
    (∀ (px : PixelStorage Pixel.BGR8) (a : Nat),
      getBlue (setAlpha px a) = getBlue px ||| toColorT a ∧
      getGreen (setAlpha px a) = getGreen px ∧ getRed (setAlpha px a) = getRed px) ∧
    (∀ (px : PixelStorage Pixel.RGB5) (a : Nat),
      getRed (setAlpha px a) = getRed px ||| toColorT a % 32 ∧
      getGreen (setAlpha px a) = getGreen px ||| toColorT a / 32 ∧
      getBlue (setAlpha px a) = getBlue px) ∧
    (∀ (px : PixelStorage Pixel.BGR5) (a : Nat),
      getBlue (setAlpha px a) = getBlue px ||| toColorT a % 32 ∧
      getGreen (setAlpha px a) = getGreen px ||| toColorT a / 32 ∧
      getRed (setAlpha px a) = getRed px) ∧
    (getRed (unpack Pixel.RGB8 0) = 0 ∧ getRed (setAlpha (unpack Pixel.RGB8 0) 255) = 255 ∧
      getRed (setRGBA (unpack Pixel.RGB8 0) 0 0 0 255) = 255 ∧
      getBlue (setAlpha (unpack Pixel.BGR5 0) 255) = 31 ∧
      getGreen (setAlpha (unpack Pixel.BGR5 0) 255) = 7) := by
  have ha : ∀ a, toColorT a < 256 := fun a => Nat.mod_lt _ (by decide)
  have low8 : ∀ a, getField 8 0 (toColorT a) = toColorT a := fun a => by
    rw [getField_low]; exact Nat.mod_eq_of_lt (ha a)
  have low5 : ∀ a, getField 5 0 (toColorT a) = toColorT a % 32 := fun a => by
    rw [getField_low]
    norm_num
  have mid5 : ∀ a, getField 5 5 (toColorT a) = toColorT a / 32 := fun a => by
    rw [getField_eq_div_mod]
    have := ha a
    omega
  have hi8 : ∀ a s, 8 ≤ s → getField 8 s (toColorT a) = 0 := fun a s hs =>
    getField_of_lt _ _ _ (lt_of_lt_of_le (ha a) (by
      calc 256 = 2 ^ 8 := by norm_num
        _ ≤ 2 ^ s := Nat.pow_le_pow_right (by norm_num) hs))
  have hi5 : ∀ a, getField 5 10 (toColorT a) = 0 := fun a =>
    getField_of_lt _ _ _ (lt_trans (ha a) (by norm_num))
  refine ⟨fun P => by cases P <;> decide, ?_, ?_, ?_, ?_, ?_, by decide⟩
  · intro P hP
    obtain ⟨h0, h1, h2⟩ := pack_setAlpha_of_no_alpha hP (PixelStorage.zero P) 0
    refine ⟨h0, fun px a => ?_⟩
    obtain ⟨_, e1, e2⟩ := pack_setAlpha_of_no_alpha hP px a
    refine ⟨?_, e1, fun r g b => ?_⟩
    · rw [e1, toPackedT, packedBits]
      symm
      apply Nat.mod_eq_of_lt
      refine lt_of_lt_of_le e2 (Nat.pow_le_pow_right (by norm_num) ?_)
      have : Size P ≤ UnsignedType (Size P) := by cases P <;> decide
      omega
    · rw [setRGBA, pack_unpack_pow, h0, Nat.shiftLeft_zero]
  · intro px a
    have h := getChannel_setAlpha_of_no_alpha (P := Pixel.RGB8) rfl px a
    have r := h Channel.red
    have g := h Channel.green
    have b := h Channel.blue
    rw [show bitsOf Pixel.RGB8 Channel.red = 8 by decide,
      show shiftOf Pixel.RGB8 Channel.red = 0 by decide, low8] at r
    rw [show bitsOf Pixel.RGB8 Channel.green = 8 by decide,
      show shiftOf Pixel.RGB8 Channel.green = 8 by decide, hi8 a 8 (by norm_num),
      Nat.or_zero] at g
    rw [show bitsOf Pixel.RGB8 Channel.blue = 8 by decide,
      show shiftOf Pixel.RGB8 Channel.blue = 16 by decide, hi8 a 16 (by norm_num),
      Nat.or_zero] at b
    exact ⟨r, g, b⟩
  · intro px a
    have h := getChannel_setAlpha_of_no_alpha (P := Pixel.BGR8) rfl px a
    have r := h Channel.red
    have g := h Channel.green
    have b := h Channel.blue
    rw [show bitsOf Pixel.BGR8 Channel.blue = 8 by decide,
      show shiftOf Pixel.BGR8 Channel.blue = 0 by decide, low8] at b
    rw [show bitsOf Pixel.BGR8 Channel.green = 8 by decide,
      show shiftOf Pixel.BGR8 Channel.green = 8 by decide, hi8 a 8 (by norm_num),
      Nat.or_zero] at g
    rw [show bitsOf Pixel.BGR8 Channel.red = 8 by decide,
      show shiftOf Pixel.BGR8 Channel.red = 16 by decide, hi8 a 16 (by norm_num),
      Nat.or_zero] at r
    exact ⟨b, g, r⟩
  · intro px a
    have h := getChannel_setAlpha_of_no_alpha (P := Pixel.RGB5) rfl px a
    have r := h Channel.red
    have g := h Channel.green
    have b := h Channel.blue
    rw [show bitsOf Pixel.RGB5 Channel.red = 5 by decide,
      show shiftOf Pixel.RGB5 Channel.red = 0 by decide, low5] at r
    rw [show bitsOf Pixel.RGB5 Channel.green = 5 by decide,
      show shiftOf Pixel.RGB5 Channel.green = 5 by decide, mid5] at g
    rw [show bitsOf Pixel.RGB5 Channel.blue = 5 by decide,
      show shiftOf Pixel.RGB5 Channel.blue = 10 by decide, hi5, Nat.or_zero] at b
    exact ⟨r, g, b⟩
  · intro px a
    have h := getChannel_setAlpha_of_no_alpha (P := Pixel.BGR5) rfl px a
    have r := h Channel.red
    have g := h Channel.green
    have b := h Channel.blue
    rw [show bitsOf Pixel.BGR5 Channel.blue = 5 by decide,
      show shiftOf Pixel.BGR5 Channel.blue = 0 by decide, low5] at b
    rw [show bitsOf Pixel.BGR5 Channel.green = 5 by decide,
      show shiftOf Pixel.BGR5 Channel.green = 5 by decide, mid5] at g
    rw [show bitsOf Pixel.BGR5 Channel.red = 5 by decide,
      show shiftOf Pixel.BGR5 Channel.red = 10 by decide, hi5, Nat.or_zero] at r
    exact ⟨b, g, r⟩

/-- Witness for C31: the RGB8 pixel with bytes 1, 2, 3 and `setAlpha(0x10)`. -/
theorem setAlpha_without_alpha_witness :
    (PixelFormat.of Pixel.RGB8).AlphaMask = 0 ∧
    pack (unpack Pixel.RGB8 0x030201) = 0x030201 ∧
    pack (setAlpha (unpack Pixel.RGB8 0x030201) 0x10) =
      pack (unpack Pixel.RGB8 0x030201) ||| toColorT 0x10 ∧
    getRed (setAlpha (unpack Pixel.RGB8 0x030201) 0x10) = 0x11 :=
  ⟨by decide, by decide,
    ((setAlpha_without_alpha.2.1 Pixel.RGB8 (by decide)).2 (unpack Pixel.RGB8 0x030201) 0x10).2.1,
    by decide⟩

/-! ## Pixel conversion: widening and narrowing -/

theorem channelScale_widen_narrow (exact : Bool) :
    ∀ v < 32, channelScale exact 8 5 (channelScale exact 5 8 v) = v := by
  cases exact <;> decide

theorem round_widen_narrow :
    ∀ c < 32, (2 * ((2 * (c * 255) + 31) / (2 * 31) * 31) + 255) / (2 * 255) = c := by
  decide

theorem convert_widen_narrow (exact : Bool) {S : Pixel} (M : Pixel)
    (hS : ∀ c, bitsOf S c = 5 ∧ bitsOf M c = 8 ∨ bitsOf S c = 0 ∧ bitsOf M c = 0)
    (p : PixelStorage S) (h : pack p &&& channelMask S = pack p) :
    PixelConverter.convert exact S (PixelConverter.convert exact M p) = p := by
  apply eq_of_getChannel_eq _ _ (pack_convert_lt exact S _) ((only_mask_bits_iff p).mp h)
  intro c
  have hv := getChannel_lt c p
  rw [getChannel_convert, getChannel_convert]
  rcases hS c with ⟨h1, h2⟩ | ⟨h1, h2⟩
  · rw [h1] at hv ⊢
    rw [h2]
    exact channelScale_widen_narrow exact _ hv
  · rw [h1] at hv ⊢
    rw [h2]
    have : getChannel c p = 0 := by omega
    rw [this]
    cases exact <;> decide

/-- C32: widening then narrowing is lossless. For every RGB5 pixel `p` with only mask bits set
`convert<RGB5>(convert<RGB8>(p)) == p`, and for every such BGR5 pixel
`convert<BGR5>(convert<BGR8>(p)) == p`, in the fast and in the exact build. On a channel value
`c` in `0..31` the fast build computes `(c << 3) >> 3 = c` and the exact build
`round(round(c * 255 / 31) * 31 / 255) = c`. -/
theorem widen_narrow_lossless (exact : Bool) :
    (∀ p : PixelStorage Pixel.RGB5, pack p &&& channelMask Pixel.RGB5 = pack p →
      PixelConverter.convert exact Pixel.RGB5 (PixelConverter.convert exact Pixel.RGB8 p) = p) ∧
    (∀ p : PixelStorage Pixel.BGR5, pack p &&& channelMask Pixel.BGR5 = pack p →
      PixelConverter.convert exact Pixel.BGR5 (PixelConverter.convert exact Pixel.BGR8 p) = p) ∧
    (∀ c : Nat, c < 32 →
      (c <<< 3) >>> 3 = c ∧
      PixelConverter.convertChannel false 4 8 5 (PixelConverter.convertChannel false 4 5 8 c) = c ∧
      round ((round (((c * 255 : Nat) : ℚ) / ((31 : Nat) : ℚ)) : ℚ) * 31 / 255) = (c : Int) ∧
      PixelConverter.convertChannel true 4 8 5 (PixelConverter.convertChannel true 4 5 8 c) =
        c) := by
  refine ⟨fun p h => convert_widen_narrow exact Pixel.RGB8 (fun c => by cases c <;> decide) p h,
    fun p h => convert_widen_narrow exact Pixel.BGR8 (fun c => by cases c <;> decide) p h,
    fun c hc => ⟨?_, ?_, ?_, ?_⟩⟩
  · rw [Nat.shiftLeft_eq, Nat.shiftRight_eq_div_pow]
    omega
  · have h1 := convertChannel_eq false 4 5 8 c (Or.inr rfl) (by decide) (by decide)
      (by norm_num; exact hc)
    have h2 := convertChannel_eq false 4 8 5 (channelScale false 5 8 c) (Or.inr rfl) (by decide)
      (by decide) h1.2
    rw [h1.1, h2.1]
    exact channelScale_widen_narrow false c hc
  · rw [round_natCast_div _ _ (by decide)]
    have hn := round_widen_narrow c hc
    generalize (2 * (c * 255) + 31) / (2 * 31) = n at hn ⊢
    have e : (((n : Nat) : Int) : ℚ) * 31 / 255 = ((n * 31 : Nat) : ℚ) / ((255 : Nat) : ℚ) := by
      push_cast
      ring
    rw [e, round_natCast_div _ _ (by decide), hn]
  · have h1 := convertChannel_eq true 4 5 8 c (Or.inr rfl) (by decide) (by decide)
      (by norm_num; exact hc)
    have h2 := convertChannel_eq true 4 8 5 (channelScale true 5 8 c) (Or.inr rfl) (by decide)
      (by decide) h1.2
    rw [h1.1, h2.1]
    exact channelScale_widen_narrow true c hc

/-- Witness for C32: the RGB5 pixel packed as `0x7C1F` (red 31, green 0, blue 31), in the exact
build. -/
theorem widen_narrow_lossless_witness :
    pack (unpack Pixel.RGB5 0x7C1F) &&& channelMask Pixel.RGB5 = pack (unpack Pixel.RGB5 0x7C1F) ∧
    PixelConverter.convert true Pixel.RGB5
      (PixelConverter.convert true Pixel.RGB8 (unpack Pixel.RGB5 0x7C1F)) =
        unpack Pixel.RGB5 0x7C1F :=
  ⟨by decide, (widen_narrow_lossless true).1 (unpack Pixel.RGB5 0x7C1F) (by decide)⟩

/-! ## The channels written by `multiply` -/

theorem FP.round_cases (fmt : FloatFormat) (he : fmt.emin < fmt.emax) (a b : ℕ) (hb : 0 < b)
    (s : ℤ) :
    FP.IsVal (FP.round fmt false a b s) (roundQ fmt ((a : ℚ) / b * 2 ^ s)) ∨
      (FP.round fmt false a b s = FP.inf false ∧ (2 : ℚ) ^ fmt.emax ≤ (a : ℚ) / b * 2 ^ s) := by
  rcases Nat.eq_zero_or_pos a with ha | ha
  · subst ha
    left
    refine ⟨0, 0, by simp [FP.round], ?_⟩
    simp [roundQ_zero]
  have hb' : (0 : ℚ) < b := by exact_mod_cast hb
  have ha' : (0 : ℚ) < a := by exact_mod_cast ha
  have hq : 0 < (a : ℚ) / b * 2 ^ s := mul_pos (div_pos ha' hb') (two_zpow_pos s)
  rw [FP.round_eq fmt false a b ha hb s]
  generalize (a : ℚ) / b * 2 ^ s = q at *
  by_cases hc : max fmt.emin (Int.log 2 q) > fmt.emax ∨
      (max fmt.emin (Int.log 2 q) = fmt.emax ∧
        (rne (q / 2 ^ ulpExp fmt q)).toNat ≥ 2 ^ fmt.prec)
  · right
    rw [if_pos hc]
    refine ⟨rfl, ?_⟩
    have hlog : fmt.emax ≤ Int.log 2 q := by
      rcases hc with h | ⟨h, _⟩
      · rcases max_cases fmt.emin (Int.log 2 q) with ⟨h1, _⟩ | ⟨h1, _⟩ <;> omega
      · rcases max_cases fmt.emin (Int.log 2 q) with ⟨h1, _⟩ | ⟨h1, _⟩ <;> omega
    have h1 : ((2 : ℕ) : ℚ) ^ Int.log 2 q ≤ q := Int.zpow_log_le_self (by norm_num) hq
    have h2 : (2 : ℚ) ^ fmt.emax ≤ 2 ^ Int.log 2 q := zpow_two_le hlog
    exact le_trans h2 (by exact_mod_cast h1)
  · left
    rw [if_neg hc]
    refine ⟨_, _, rfl, ?_⟩
    unfold roundQ
    congr 1
    have h0 : 0 ≤ rne (q / 2 ^ ulpExp fmt q) :=
      rne_nonneg (div_nonneg hq.le (two_zpow_pos _).le)
    have : (((rne (q / 2 ^ ulpExp fmt q)).toNat : ℤ) : ℚ) = (rne (q / 2 ^ ulpExp fmt q) : ℚ) := by
      rw [Int.toNat_of_nonneg h0]
    rw [← this, Int.cast_natCast]

theorem FP.mul_cases (fmt : FloatFormat) (he : fmt.emin < fmt.emax) {x y : FP} {vx vy : ℚ}
    (hx : FP.IsVal x vx) (hy : FP.IsVal y vy) :
    FP.IsVal (FP.mul fmt x y) (roundQ fmt (vx * vy)) ∨
      (FP.mul fmt x y = FP.inf false ∧ (2 : ℚ) ^ fmt.emax ≤ vx * vy) := by
  obtain ⟨m1, e1, rfl, rfl⟩ := hx
  obtain ⟨m2, e2, rfl, rfl⟩ := hy
  have hprod : (((m1 * m2 : ℕ) : ℚ)) / ((1 : ℕ) : ℚ) * 2 ^ (e1 + e2) =
      (m1 : ℚ) * 2 ^ e1 * ((m2 : ℚ) * 2 ^ e2) := by
    push_cast
    rw [div_one, zpow_add₀ two_ne_zero_q]
    ring
  have := FP.round_cases fmt he (m1 * m2) 1 (by norm_num) (e1 + e2)
  rw [hprod] at this
  simpa [FP.mul] using this

theorem binary64_ofNat_isVal (n : ℕ) (hn : n < 256) : FP.IsVal (FP.ofNat binary64 n) n :=
  FP.ofNat_isVal_exact binary64 (by decide) (by decide) (by decide) (by decide) n
    (lt_of_lt_of_le hn (by norm_num [binary64]))

theorem minFP_isVal {x : FP} {u : ℚ} (hx : FP.IsVal x u) (M : ℕ) (hM : M < 256) :
    FP.IsVal (Math.minFP x M) (min u M) := by
  have hM' := binary64_ofNat_isVal M hM
  unfold Math.minFP
  rw [FP.ge_isVal hx hM']
  by_cases h : (M : ℚ) ≤ u
  · rw [if_pos (by simpa using h), min_eq_right h]
    exact hM'
  · rw [if_neg (by simpa using h), min_eq_left (not_le.mp h).le]
    exact hx

theorem minFP_inf (M : ℕ) (hM : M < 256) :
    FP.IsVal (Math.minFP (FP.inf false) M) M := by
  have hM' := binary64_ofNat_isVal M hM
  obtain ⟨m, e, h1, h2⟩ := hM'
  unfold Math.minFP
  rw [h1]
  exact ⟨m, e, by simp [FP.ge], h2⟩

/-- The clamped product of `multiply` for one channel. -/
theorem multiply_clamped {f : FP} {v : ℚ} (hf : FP.IsVal f v) (c M : ℕ) (hc : c < 256)
    (hM : M < 256) :
    FP.IsVal (Math.minFP (FP.mul binary64 f (FP.ofNat binary64 c)) M)
      (min (roundQ binary64 (v * c)) M) := by
  rcases FP.mul_cases binary64 (by decide) hf (binary64_ofNat_isVal c hc) with h | ⟨h1, h2⟩
  · exact minFP_isVal h M hM
  · rw [h1]
    have h0 : (0 : ℚ) ≤ v * c := le_trans (two_zpow_pos _).le h2
    have h3 := le_roundQ_of_le binary64 (by decide) h0 1 binary64.emax (by decide) (by decide)
      (by simpa using h2)
    have h4 : (M : ℚ) ≤ roundQ binary64 (v * c) := by
      have h5 : (M : ℚ) < 2 ^ binary64.emax := natCast_lt_two_pow (k := 8) hM (by decide)
      have h6 : ((1 : ℕ) : ℚ) * 2 ^ binary64.emax = 2 ^ binary64.emax := by simp
      linarith
    rw [min_eq_right h4]
    exact minFP_inf M hM

theorem multiply_component (exact : Bool) {r : FP} {u : ℚ} (hr : FP.IsVal r u) (M : ℕ)
    (hM : M < 256) (hu : u ≤ M) :
    (if exact then FP.toU32 (Math.roundFP r) else FP.toU32 r) =
      Except.ok (componentQ exact u) ∧ componentQ exact u ≤ M := by
  have h1020 : u ≤ 1020 := by
    have : (M : ℚ) ≤ 1020 := by exact_mod_cast (by omega : M ≤ 1020)
    linarith
  have h := (resizeComponent_eq exact hr h1020).1
  have h2 := (componentQ_between exact 0 M (by simpa using hr.nonneg) hu).2
  exact ⟨by simpa [Image.resizeComponent] using h, h2⟩

theorem gt_zero_of_isVal {f : FP} {v : ℚ} (hf : FP.IsVal f v) (hv : 0 < v) :
    FP.gt f FP.zero = true := by
  obtain ⟨m, e, rfl, rfl⟩ := hf
  have hm : 0 < m := by
    rcases Nat.eq_zero_or_pos m with h | h
    · subst h; simp at hv
    · exact h
  have h2 : 0 < m * 2 ^ (e - min e 0).toNat := Nat.mul_pos hm (Nat.two_pow_pos _)
  simp only [FP.gt, FP.zero, Bool.false_eq_true, if_false, Nat.zero_mul, decide_eq_true_eq]
  exact_mod_cast h2

theorem getMaxRed_lt (P : Pixel) : getMaxRed P < 256 := Nat.mod_lt _ (by decide)

theorem getMaxGreen_lt (P : Pixel) : getMaxGreen P < 256 := Nat.mod_lt _ (by decide)

theorem getMaxBlue_lt (P : Pixel) : getMaxBlue P < 256 := Nat.mod_lt _ (by decide)

/-- Alpha is unchanged by `multiply` whatever the arithmetic of `double` yields. -/
theorem multiply_alpha {P : Pixel} (fp : DoubleOps) (ndebug exact : Bool)
    (px q : PixelStorage P) (d : Double) (hq : multiply fp ndebug exact px d = Except.ok q) :
    getAlpha q = getAlpha px := by
  cases ndebug <;> cases exact <;> cases hlt : Double.lt (Double.finite 0) d <;>
    simp [multiply, arc_assert, __arc_assert, hlt, bind, Except.bind, pure, Except.pure] at hq <;>
    (rw [← hq]; exact getAlpha_setRGB _ _ _ _)

/-- The pixel that `multiply` returns when the three conversions succeed with channel values
within the maxima. -/
theorem multiplyFP_eq {P : Pixel} (ndebug exact : Bool) (px : PixelStorage P) (f : FP)
    (r g b : ℕ) (hgt : FP.gt f FP.zero = true)
    (hr : (if exact then FP.toU32 (Math.roundFP
        (Math.minFP (FP.mul binary64 f (FP.ofNat binary64 (getRed px))) (getMaxRed P)))
      else FP.toU32 (Math.minFP (FP.mul binary64 f (FP.ofNat binary64 (getRed px)))
        (getMaxRed P))) = Except.ok r)
    (hg : (if exact then FP.toU32 (Math.roundFP
        (Math.minFP (FP.mul binary64 f (FP.ofNat binary64 (getGreen px))) (getMaxGreen P)))
      else FP.toU32 (Math.minFP (FP.mul binary64 f (FP.ofNat binary64 (getGreen px)))
        (getMaxGreen P))) = Except.ok g)
    (hb : (if exact then FP.toU32 (Math.roundFP
        (Math.minFP (FP.mul binary64 f (FP.ofNat binary64 (getBlue px))) (getMaxBlue P)))
      else FP.toU32 (Math.minFP (FP.mul binary64 f (FP.ofNat binary64 (getBlue px)))
        (getMaxBlue P))) = Except.ok b)
    (hr2 : r ≤ getMaxRed P) (hg2 : g ≤ getMaxGreen P) (hb2 : b ≤ getMaxBlue P) :
    ∃ px' : PixelStorage P, multiplyFP ndebug exact px f = Except.ok px' ∧
      getRed px' = r ∧ getGreen px' = g ∧ getBlue px' = b ∧ getAlpha px' = getAlpha px := by
  have hset := get_setRGBA px r g b (getAlpha px) hr2 hg2 hb2 (getters_exact px).2.2.2.2
  refine ⟨setRGB px r g b, ?_, hset.1, hset.2.1, hset.2.2.1, getAlpha_setRGB px r g b⟩
  cases exact
  · simp only [Bool.false_eq_true, if_false] at hr hg hb
    cases ndebug <;>
      simp [multiplyFP, arc_assert, __arc_assert, hgt, hr, hg, hb, bind, Except.bind, pure,
        Except.pure]
  · simp only [if_true] at hr hg hb
    cases ndebug <;>
      simp [multiplyFP, arc_assert, __arc_assert, hgt, hr, hg, hb, bind, Except.bind, pure,
        Except.pure]

set_option maxRecDepth 100000 in
/-- C8, counterexample: the product is rounded to `double` before it is clamped and
truncated. For the scalar `f = 6004799503160661 * 2 ^ (-54)`, the `double` nearest to `1/3`,
and the red value 3, the product `f * 3 = 1 - 2 ^ (-54)` lies half way between two `double`
values and is rounded to `1.0`, so the default build writes red 1, whereas `min(f * 3, 255)`
truncated toward zero is 0. -/
theorem multiply_rounding_counterexample :
    (∃ px' : PixelStorage Pixel.RGB8,
      multiplyFP false false (PixelRGB8 3 0 0) (FP.finite false 6004799503160661 (-54)) =
        Except.ok px' ∧ getRed px' = 1) ∧
    FP.mul binary64 (FP.finite false 6004799503160661 (-54))
        (FP.ofNat binary64 (getRed (PixelRGB8 3 0 0))) =
      FP.finite false 9007199254740992 (-53) ∧
    FP.toRat (FP.finite false 9007199254740992 (-53)) = 1 ∧
    FP.toRat (FP.finite false 6004799503160661 (-54)) * (getRed (PixelRGB8 3 0 0) : ℕ) =
      1 - 1 / 2 ^ 54 ∧
    ⌊min (FP.toRat (FP.finite false 6004799503160661 (-54)) * (getRed (PixelRGB8 3 0 0) : ℕ))
      (getMaxRed Pixel.RGB8 : ℕ)⌋₊ = 0 := by
  have hr : getRed (PixelRGB8 3 0 0) = 3 := by decide
  have hv : FP.toRat (FP.finite false 6004799503160661 (-54)) * ((3 : ℕ) : ℚ) =
      1 - 1 / 2 ^ 54 := by
    norm_num [FP.toRat, zpow_neg]
  refine ⟨⟨PixelRGB8 1 0 0, eq_ok_of_toOption (by decide!), by decide⟩, by decide!, ?_, ?_, ?_⟩
  · norm_num [FP.toRat, zpow_neg]
  · rw [hr, hv]
  · rw [hr, hv, Nat.floor_eq_zero]
    exact min_lt_iff.mpr (Or.inl (by norm_num))

/-- C8 (amended): for every layout, every pixel and every finite scalar `f > 0` of value `v`,
in both builds and with or without `NDEBUG`, `multiply(f)` returns, and each of red, green and
blue of the result is `multiplyQ`: the product `v * channel` rounded to `double` (to nearest,
ties to even), clamped to the maximum of the channel, and then truncated toward zero in the
default build or rounded to the nearest integer with `ARC_PIXEL_EXACT`. Every channel is at
most its maximum and alpha is unchanged. For `f = +infinity` and a pixel whose red, green and
blue are not 0, `multiply(f)` returns as well, with the three channels at their maxima and
alpha unchanged. Alpha is unchanged for every scalar and whatever the arithmetic of `double`
yields: whenever `multiply` over any `DoubleOps` returns a pixel, its alpha is the alpha of
`px`. -/
theorem multiply_channels {P : Pixel} (ndebug exact : Bool) (px : PixelStorage P) (f : FP)
    (v : ℚ) (hf : FP.IsVal f v) (hv : 0 < v) :
    (∃ px' : PixelStorage P, multiplyFP ndebug exact px f = Except.ok px' ∧
      getRed px' = multiplyQ exact v (getRed px) (getMaxRed P) ∧
      getGreen px' = multiplyQ exact v (getGreen px) (getMaxGreen P) ∧
      getBlue px' = multiplyQ exact v (getBlue px) (getMaxBlue P) ∧
      getRed px' ≤ getMaxRed P ∧ getGreen px' ≤ getMaxGreen P ∧
      getBlue px' ≤ getMaxBlue P ∧ getAlpha px' = getAlpha px) ∧
    (getRed px ≠ 0 → getGreen px ≠ 0 → getBlue px ≠ 0 →
      ∃ px' : PixelStorage P, multiplyFP ndebug exact px (FP.inf false) = Except.ok px' ∧
        getRed px' = getMaxRed P ∧ getGreen px' = getMaxGreen P ∧
        getBlue px' = getMaxBlue P ∧ getAlpha px' = getAlpha px) ∧
    (∀ (fp : DoubleOps) (d : Double) (q : PixelStorage P),
      multiply fp ndebug exact px d = Except.ok q → getAlpha q = getAlpha px) := by
  refine ⟨?_, ?_, fun fp d q hq => multiply_alpha fp ndebug exact px q d hq⟩
  · have cr := multiply_clamped hf (getRed px) (getMaxRed P) (getRed_lt px) (getMaxRed_lt P)
    have cg := multiply_clamped hf (getGreen px) (getMaxGreen P) (getGreen_lt px)
      (getMaxGreen_lt P)
    have cb := multiply_clamped hf (getBlue px) (getMaxBlue P) (getBlue_lt px) (getMaxBlue_lt P)
    obtain ⟨kr1, kr2⟩ := multiply_component exact cr _ (getMaxRed_lt P) (min_le_right _ _)
    obtain ⟨kg1, kg2⟩ := multiply_component exact cg _ (getMaxGreen_lt P) (min_le_right _ _)
    obtain ⟨kb1, kb2⟩ := multiply_component exact cb _ (getMaxBlue_lt P) (min_le_right _ _)
    obtain ⟨px', h1, h2, h3, h4, h5⟩ := multiplyFP_eq ndebug exact px f _ _ _
      (gt_zero_of_isVal hf hv) kr1 kg1 kb1 kr2 kg2 kb2
    refine ⟨px', h1, h2, h3, h4, ?_, ?_, ?_, h5⟩
    · rw [h2]; exact kr2
    · rw [h3]; exact kg2
    · rw [h4]; exact kb2
  · intro hr hg hb
    have key : ∀ (c M : ℕ), c < 256 → c ≠ 0 → M < 256 →
        (if exact then FP.toU32 (Math.roundFP
            (Math.minFP (FP.mul binary64 (FP.inf false) (FP.ofNat binary64 c)) M))
          else FP.toU32 (Math.minFP (FP.mul binary64 (FP.inf false) (FP.ofNat binary64 c)) M)) =
          Except.ok M := by
      intro c M hc hc0 hM
      obtain ⟨m, e, h1, h2⟩ := binary64_ofNat_isVal c hc
      have hm : m ≠ 0 := by
        rintro rfl
        have : (c : ℚ) = 0 := by rw [← h2]; simp
        exact hc0 (by exact_mod_cast this)
      have hmul : FP.mul binary64 (FP.inf false) (FP.ofNat binary64 c) = FP.inf false := by
        rw [h1]; simp [FP.mul, hm]
      rw [hmul]
      obtain ⟨k1, _⟩ := multiply_component exact (minFP_inf M hM) M hM le_rfl
      rw [k1]
      congr 1
      cases exact
      · simp [componentQ]
      · simp only [componentQ, if_true]
        rw [Nat.floor_eq_iff (by positivity)]
        constructor <;> norm_num
    obtain ⟨px', h1, h2, h3, h4, h5⟩ := multiplyFP_eq ndebug exact px (FP.inf false) _ _ _
      rfl (key _ _ (getRed_lt px) hr (getMaxRed_lt P))
      (key _ _ (getGreen_lt px) hg (getMaxGreen_lt P))
      (key _ _ (getBlue_lt px) hb (getMaxBlue_lt P)) le_rfl le_rfl le_rfl
    exact ⟨px', h1, h2, h3, h4, h5⟩

set_option maxRecDepth 100000 in
/-- Witness for C8: the RGBA8 pixel (100, 50, 200, 77) multiplied by 2.0 becomes
(200, 100, 255, 77). -/
theorem multiply_channels_witness :
    FP.IsVal (FP.finite false 1 1) 2 ∧ (0 : ℚ) < 2 ∧
    ((∃ px' : PixelStorage Pixel.RGBA8,
      multiplyFP false false (setRGBA (PixelStorage.zero Pixel.RGBA8) 100 50 200 77)
        (FP.finite false 1 1) = Except.ok px' ∧
      getRed px' = multiplyQ false 2
        (getRed (setRGBA (PixelStorage.zero Pixel.RGBA8) 100 50 200 77))
        (getMaxRed Pixel.RGBA8) ∧
      getGreen px' = multiplyQ false 2
        (getGreen (setRGBA (PixelStorage.zero Pixel.RGBA8) 100 50 200 77))
        (getMaxGreen Pixel.RGBA8) ∧
      getBlue px' = multiplyQ false 2
        (getBlue (setRGBA (PixelStorage.zero Pixel.RGBA8) 100 50 200 77))
        (getMaxBlue Pixel.RGBA8) ∧
      getRed px' ≤ getMaxRed Pixel.RGBA8 ∧ getGreen px' ≤ getMaxGreen Pixel.RGBA8 ∧
      getBlue px' ≤ getMaxBlue Pixel.RGBA8 ∧
      getAlpha px' = getAlpha (setRGBA (PixelStorage.zero Pixel.RGBA8) 100 50 200 77)) ∧
    (getRed (setRGBA (PixelStorage.zero Pixel.RGBA8) 100 50 200 77) ≠ 0 →
      getGreen (setRGBA (PixelStorage.zero Pixel.RGBA8) 100 50 200 77) ≠ 0 →
      getBlue (setRGBA (PixelStorage.zero Pixel.RGBA8) 100 50 200 77) ≠ 0 →
      ∃ px' : PixelStorage Pixel.RGBA8,
        multiplyFP false false (setRGBA (PixelStorage.zero Pixel.RGBA8) 100 50 200 77)
          (FP.inf false) = Except.ok px' ∧
        getRed px' = getMaxRed Pixel.RGBA8 ∧ getGreen px' = getMaxGreen Pixel.RGBA8 ∧
        getBlue px' = getMaxBlue Pixel.RGBA8 ∧
        getAlpha px' = getAlpha (setRGBA (PixelStorage.zero Pixel.RGBA8) 100 50 200 77)) ∧
    (∀ (fp : DoubleOps) (d : Double) (q : PixelStorage Pixel.RGBA8),
      multiply fp false false (setRGBA (PixelStorage.zero Pixel.RGBA8) 100 50 200 77) d =
        Except.ok q →
      getAlpha q = getAlpha (setRGBA (PixelStorage.zero Pixel.RGBA8) 100 50 200 77))) ∧
    getAlpha (setRGBA (PixelStorage.zero Pixel.RGBA8) 100 50 200 77) = 77 ∧
    multiplyFP false false (setRGBA (PixelStorage.zero Pixel.RGBA8) 100 50 200 77)
      (FP.finite false 1 1) =
      Except.ok (setRGBA (PixelStorage.zero Pixel.RGBA8) 200 100 255 77) :=
  ⟨⟨1, 1, rfl, by norm_num⟩, by norm_num,
    multiply_channels false false (setRGBA (PixelStorage.zero Pixel.RGBA8) 100 50 200 77)
      (FP.finite false 1 1) 2 ⟨1, 1, rfl, by norm_num⟩ (by norm_num),
    by decide, eq_ok_of_toOption (by decide!)⟩

end Arclight
